import Mathlib

/-!
XLE2 `Utility/Streams/StreamFormatter.cpp`

A shallow embedding of the text stream formatter: the writer
`OutputStreamFormatter` and the pull tokenizer `InputStreamFormatter`.

Conventions of the embedding

* A code unit (`CharType`, one of `utf8`, `ucs2`, `ucs4`) is a natural number.
* A buffer is a `List CharType`; a pointer into it is an offset counted in code
  units from the start of the buffer, so `sizeof(CharType)` is the unit.
* `ThrowException` and a failing `assert` become the `error` side of `Except`.
  The error carries the object state at the point of the throw, because the C++
  object survives the exception.
* `unsigned` arithmetic is taken modulo `2^32`.  The `signed` column counters are
  integers; signed overflow is undefined behaviour in C++ and is outside the
  embedding.
-/

namespace Utility

/-- A code unit of the stream (the template parameter `CharType`). -/
abbrev CharType := Nat

/-- Reduction of an `unsigned` value. -/
def u32 (n : Nat) : Nat := n % 4294967296

/-- Line 39: `static const unsigned TabWidth = 4;`. -/
def TabWidth : Nat := 4

namespace FormatterConstants

/-- Lines 630-632: `{ '\r', '\n' }`. -/
def EndLine : List CharType := [13, 10]
/-- Lines 650-652: `'\t'`. -/
def Tab : CharType := 9
/-- Lines 654-656: `'~'`. -/
def ElementPrefix : CharType := 126
/-- Lines 634-636: `{ '<', ':', '(' }`. -/
def ProtectedNamePrefix : List CharType := [60, 58, 40]
/-- Lines 638-640: `{ ')', ':', '>' }`. -/
def ProtectedNamePostfix : List CharType := [41, 58, 62]
/-- Lines 642-644: `{ '~', '~' }`. -/
def CommentPrefix : List CharType := [126, 126]
/-- Lines 646-648: `{ '~', '~', '!' }`. -/
def HeaderPrefix : List CharType := [126, 126, 33]

end FormatterConstants

open FormatterConstants

/-- Lines 62-66: `c=='~' || c==';' || c=='=' || c=='\r' || c=='\n' || c == 0x0`. -/
def FormattingChar (c : CharType) : Bool :=
  c == 126 || c == 59 || c == 61 || c == 13 || c == 10 || c == 0

/-- Lines 68-72: whitespace excluding new line. -/
def WhitespaceChar (c : CharType) : Bool :=
  c == 32 || c == 9 || c == 0x0B || c == 0x0C || c == 0x85 || c == 0xA0 || c == 0

/-- Lines 74-87.  The string is the range `[start, end)`. -/
def IsSimpleString (s : List CharType) : Bool :=
  if s.any FormattingChar then false
  else
    match s with
    | [] => false
    | c :: cs =>
      if WhitespaceChar c || WhitespaceChar ((c :: cs).getLastD c) then false
      else if c == ProtectedNamePrefix.headD 0 then false
      else true

/-! ## Errors -/

/-- The pair `(line, char)` of a `FormatException` (lines 598-605). -/
structure StreamLocation where
  _charIndex : Nat
  _lineIndex : Nat
deriving DecidableEq, Repr

/-- The labels of the exceptions raised in the file. -/
inductive Label where
  | excessiveIndentLevel        -- line 141
  | unexpectedEndElement        -- line 191
  | endElementWrongId           -- line 196
  | stringDeliminatorNotFound   -- line 301
  | unsupportedWhiteSpace       -- lines 366, 466
  | unexpectedElementInHeader   -- line 469
  | unsupportedFormat           -- line 488
  | badTabWidth                 -- line 492
  | excessiveIndentation        -- line 516
  | malformedBeginElement       -- line 549
  | malformedEndElement         -- line 558
  | malformedAttribute          -- line 565
  | unexpectedBlob              -- line 570
deriving DecidableEq, Repr

/-- What a call can raise. -/
inductive Error where
  /-- `::Exceptions::BasicLabel` raised by the writer. -/
  | basic (label : Label)
  /-- `FormatException(label, location)` raised by the reader. -/
  | format (label : Label) (location : StreamLocation)
  /-- A failing `assert`. -/
  | assertion
  /-- A loop of the source that never leaves (no iteration makes progress). -/
  | diverges
deriving DecidableEq, Repr

/-! ## OutputStreamFormatter -/

/-- The writer.  `_stream` is everything written to the sink so far.
`checkElements` stands for the compile-time switch `STREAM_FORMATTER_CHECK_ELEMENTS`;
`_elementStack` and `_nextElementId` exist only under it. -/
structure OutputStreamFormatter where
  _stream : List CharType
  _currentIndentLevel : Nat
  _hotLine : Bool
  _currentLineLength : Nat
  _pendingHeader : Bool
  checkElements : Bool
  _elementStack : List Nat
  _nextElementId : Nat
deriving DecidableEq, Repr

namespace OutputStreamFormatter

/-- Result of a writer operation. -/
abbrev Result (α : Type) := Except (Error × OutputStreamFormatter) α

/-- Lines 214-221, the constructor.  The element-id members are declared in the
header only; their initial values are parameters. -/
def fresh (checkElements : Bool) (nextElementId : Nat) : OutputStreamFormatter :=
  { _stream := [], _currentIndentLevel := 0, _hotLine := false, _currentLineLength := 0,
    _pendingHeader := true, checkElements := checkElements, _elementStack := [],
    _nextElementId := nextElementId }

/-- Lines 55-60: `WriteConst`, write the constant and add its length to the line length. -/
def WriteConst (w : OutputStreamFormatter) (cnst : List CharType) : OutputStreamFormatter :=
  { w with _stream := w._stream ++ cnst,
           _currentLineLength := u32 (w._currentLineLength + cnst.length) }

/-- The text `"Format=1; Tab=" << TabWidth` of line 129. -/
def headerText : List CharType :=
  [70, 111, 114, 109, 97, 116, 61, 49, 59, 32, 84, 97, 98, 61] ++ [48 + TabWidth]

/-- The size of `tabBuffer` (line 139). -/
def tabBufferSize : Nat := 64

/-- Lines 123-147. -/
def DoNewLine (w : OutputStreamFormatter) : Result OutputStreamFormatter :=
  let w1 :=
    if w._pendingHeader then
      let a := w.WriteConst HeaderPrefix
      { a with _stream := a._stream ++ headerText, _hotLine := true, _pendingHeader := false }
    else w
  if w1._hotLine then
    let w2 := w1.WriteConst EndLine
    if w2._currentIndentLevel > tabBufferSize then
      .error (.basic .excessiveIndentLevel, w2)
    else
      .ok { w2 with _stream := w2._stream ++ List.replicate w2._currentIndentLevel Tab,
                    _hotLine := false,
                    _currentLineLength := u32 (w2._currentIndentLevel * TabWidth) }
  else .ok w1

/-- Lines 102-108, 166-172 and 176-182: the name or value is written as it is when
`IsSimpleString` holds, and between the protected prefix and postfix otherwise. -/
def WriteNameOrValue (w : OutputStreamFormatter) (s : List CharType) : OutputStreamFormatter :=
  if IsSimpleString s then
    { w with _stream := w._stream ++ s }
  else
    let a := w.WriteConst ProtectedNamePrefix
    let b := { a with _stream := a._stream ++ s }
    b.WriteConst ProtectedNamePostfix

/-- Lines 89-121.  The result is the `ElementId`. -/
def BeginElement (w : OutputStreamFormatter) (name : List CharType) :
    Result (Nat × OutputStreamFormatter) := do
  let w1 ← w.DoNewLine
  let w2 ← DoNewLine { w1 with _hotLine := true }
  if ¬ (name.length > 0) then
    .error (.assertion, w2)
  else
    let w3 := { w2 with _stream := w2._stream ++ [ElementPrefix] }
    let w4 := w3.WriteNameOrValue name
    let w5 := { w4 with _hotLine := true,
                        _currentLineLength := u32 (w4._currentLineLength + u32 (name.length + 1)),
                        _currentIndentLevel := w4._currentIndentLevel + 1 }
    if w5.checkElements then
      let id := w5._nextElementId
      .ok (id, { w5 with _elementStack := w5._elementStack ++ [id] })
    else
      .ok (0, w5)

/-- Line 154. -/
def idealLineLength : Nat := 100

/-- Lines 149-186. -/
def WriteAttribute (w : OutputStreamFormatter) (name value : List CharType) :
    Result OutputStreamFormatter := do
  let forceNewLine : Bool :=
    w._currentLineLength + value.length + name.length + 3 > idealLineLength
  let w1 ←
    if forceNewLine then w.DoNewLine
    else if w._hotLine then
      .ok { w with _stream := w._stream ++ [59] ++ [32],
                   _currentLineLength := u32 (w._currentLineLength + 2) }
    else .ok w
  let w2 := w1.WriteNameOrValue name
  let w3 := { w2 with _stream := w2._stream ++ [61] }
  let w4 := w3.WriteNameOrValue value
  .ok { w4 with _currentLineLength :=
                  u32 (w4._currentLineLength + u32 (value.length + name.length + 1)),
                _hotLine := true }

/-- Lines 188-201. -/
def EndElement (w : OutputStreamFormatter) (id : Nat) : Result OutputStreamFormatter :=
  if w._currentIndentLevel = 0 then
    .error (.basic .unexpectedEndElement, w)
  else if w.checkElements then
    if w._elementStack.length ≠ w._currentIndentLevel then
      .error (.assertion, w)
    else if w._elementStack.getLastD 0 ≠ id then
      .error (.basic .endElementWrongId, w)
    else
      .ok { w with _elementStack := w._elementStack.dropLast,
                   _currentIndentLevel := w._currentIndentLevel - 1 }
  else
    .ok { w with _currentIndentLevel := w._currentIndentLevel - 1 }

/-- Lines 203-207. -/
def Flush (w : OutputStreamFormatter) : Result OutputStreamFormatter := do
  let w1 ← w.DoNewLine
  if w1._currentIndentLevel ≠ 0 then .error (.assertion, w1) else .ok w1

/-- Lines 209-212. -/
def NewLine (w : OutputStreamFormatter) : Result OutputStreamFormatter :=
  w.DoNewLine

end OutputStreamFormatter

/-! ## MemoryMappedInputStream -/

/-- The bounded read cursor (lines 19-37).  `data` holds the code units of
`[_start, _end)` and `_ptr` is the offset of the read pointer from `_start`. -/
structure MemoryMappedInputStream where
  data : List CharType
  _ptr : Nat
deriving DecidableEq, Repr

namespace MemoryMappedInputStream

/-- Lines 31-35, the constructor. -/
def mk0 (data : List CharType) : MemoryMappedInputStream := { data := data, _ptr := 0 }

/-- The offset of `End()`. -/
def End (s : MemoryMappedInputStream) : Nat := s.data.length

/-- The offset of `ReadPointer()`. -/
def ReadPointer (s : MemoryMappedInputStream) : Nat := s._ptr

/-- Counted in code units: `RemainingBytes() / sizeof(CharType)`. -/
def RemainingBytes (s : MemoryMappedInputStream) : Nat := s.End - s._ptr

/-- The code units from the read pointer to the end. -/
def Remaining (s : MemoryMappedInputStream) : List CharType := s.data.drop s._ptr

/-- Lines 19-23.  Every offset passed in the file is non-negative. -/
def MovePointer (s : MemoryMappedInputStream) (offset : Nat) :
    Except Error MemoryMappedInputStream :=
  if s._ptr + offset ≤ s.End then .ok { s with _ptr := s._ptr + offset }
  else .error .assertion

/-- Lines 25-29. -/
def SetPointer (s : MemoryMappedInputStream) (newPtr : Nat) :
    Except Error MemoryMappedInputStream :=
  if newPtr ≤ s.End then .ok { s with _ptr := newPtr }
  else .error .assertion

end MemoryMappedInputStream

/-- Lines 250-263. -/
def TryEat (stream : MemoryMappedInputStream) (pattern : List CharType) :
    Except Error (Bool × MemoryMappedInputStream) :=
  if stream.RemainingBytes < pattern.length then .ok (false, stream)
  else if stream.Remaining.take pattern.length ≠ pattern then .ok (false, stream)
  else do
    let s ← stream.MovePointer pattern.length
    .ok (true, s)

/-- The loop of lines 290-299 over the code units from `ptr` on: the offset of the
first place where the protected postfix stands. -/
def scanProtected : List CharType → Nat → Option Nat
  | [], _ => none
  | c :: cs, ptr =>
    if (c :: cs).length < ProtectedNamePostfix.length then none
    else if (c :: cs).take ProtectedNamePostfix.length = ProtectedNamePostfix then some ptr
    else scanProtected cs (ptr + 1)

/-- The loop of lines 308-317 over the code units from `ptr` on: the pair
`(ptr, stringEnd)` at the formatting character or at the end of the input. -/
def scanUnprotected : List CharType → Nat → Nat → Nat × Nat
  | [], ptr, stringEnd => (ptr, stringEnd)
  | c :: cs, ptr, stringEnd =>
    if FormattingChar c then (ptr, stringEnd)
    else if ¬ WhitespaceChar c then scanUnprotected cs (ptr + 1) (ptr + 1)
    else scanUnprotected cs (ptr + 1) stringEnd

/-- Lines 279-319.  The result is the returned pointer (the end of the section). -/
def ReadToStringEnd (stream : MemoryMappedInputStream) (protectedStringMode : Bool)
    (location : StreamLocation) : Except Error (Nat × MemoryMappedInputStream) :=
  if protectedStringMode then
    match scanProtected stream.Remaining stream.ReadPointer with
    | some ptr => do
      let s ← stream.SetPointer (ptr + ProtectedNamePostfix.length)
      .ok (ptr, s)
    | none => .error (.format .stringDeliminatorNotFound location)
  else
    let (ptr, stringEnd) := scanUnprotected stream.Remaining stream.ReadPointer stream.ReadPointer
    do
      let s ← stream.SetPointer ptr
      .ok (stringEnd, s)

/-- The loop of line 327. -/
def skipWhitespace : List CharType → Nat → Nat
  | [], ptr => ptr
  | c :: cs, ptr => if WhitespaceChar c then skipWhitespace cs (ptr + 1) else ptr

/-- Lines 321-329. -/
def EatWhitespace (stream : MemoryMappedInputStream) : Except Error MemoryMappedInputStream :=
  stream.SetPointer (skipWhitespace stream.Remaining stream.ReadPointer)

/-- The loop of line 404: forward to the first CR or LF. -/
def skipToLineEnd : List CharType → Nat → Nat
  | [], ptr => ptr
  | c :: cs, ptr => if c ≠ 13 ∧ c ≠ 10 then skipToLineEnd cs (ptr + 1) else ptr

/-! ## Helpers of other files -/

/-- Modelled from the spec: `CeilToMultiple` of `BitUtils.h` is not in the sources
at hand; section 4.2 says that tabs round up to the next multiple of the tab width. -/
def CeilToMultiple (input : Int) (multipleOf : Nat) : Int :=
  ((input + multipleOf - 1) / multipleOf) * multipleOf

/-- Modelled from the spec: `Conversion::Convert` into a `char` buffer of `size`
units is not in the sources at hand; it is taken to copy the code units, cut to
what fits in front of the terminating zero. -/
def Convert (size : Nat) (s : List CharType) : List CharType := s.take (size - 1)

/-- Lower case of an ASCII letter. -/
def asciiLower (c : CharType) : CharType := if 65 ≤ c ∧ c ≤ 90 then c + 32 else c

/-- Modelled from the spec: `XlCompareStringI` is not in the sources at hand; the
comparison ignores case and the result is zero for equal strings. -/
def XlCompareStringI (a b : List CharType) : Int :=
  if a.map asciiLower = b.map asciiLower then 0 else 1

/-- Value of the leading decimal digits, with `acc` the digits already read. -/
def digitsValue : List CharType → Nat → Nat
  | [], acc => acc
  | c :: cs, acc => if 48 ≤ c ∧ c ≤ 57 then digitsValue cs (acc * 10 + (c - 48)) else acc

/-- Modelled from the spec: `XlAtoI32` is not in the sources at hand; it is taken
to read an optional sign and the decimal digits that follow, as `atoi` does. -/
def XlAtoI32 (s : List CharType) : Int :=
  match s.dropWhile (fun c => c == 32 || (9 ≤ c && c ≤ 13)) with
  | 45 :: cs => - (digitsValue cs 0 : Int)
  | 43 :: cs => (digitsValue cs 0 : Int)
  | cs => (digitsValue cs 0 : Int)

/-- Lines 442-447. -/
def AsInt (input : List CharType) : Int := XlAtoI32 (Convert 32 input)

/-! ## InputStreamFormatter -/

/-- The token kinds (`InputStreamFormatter::Blob`). -/
inductive Blob where
  | BeginElement
  | EndElement
  | AttributeName
  | AttributeValue
  | None
deriving DecidableEq, Repr

/-- A view `[_start, _end)` into the input buffer, as two offsets. -/
structure InteriorSection where
  _start : Nat
  _end : Nat
deriving DecidableEq, Repr

/-- The code units a section of the buffer `data` delimits. -/
def InteriorSection.content (sec : InteriorSection) (data : List CharType) : List CharType :=
  (data.drop sec._start).take (sec._end - sec._start)

/-- The reader.  The class is declared in a header that is not in the sources at
hand; the members are the ones the member functions use, `signed` where they are
compared with `-1`.  `_baseLineStack` is the fixed array, whose length is
`dimof(_baseLineStack)`, and `_baseLineStackPtr` counts the entries in use. -/
structure InputStreamFormatter where
  _stream : MemoryMappedInputStream
  _primed : Blob
  _activeLineSpaces : Int
  _parentBaseLine : Int
  _baseLineStack : List Int
  _baseLineStackPtr : Nat
  _protectedStringMode : Bool
  _lineIndex : Nat
  _lineStart : Nat
  _tabWidth : Nat
  _pendingHeader : Bool
deriving DecidableEq, Repr

namespace InputStreamFormatter

/-- Result of a reader operation. -/
abbrev Result (α : Type) := Except (Error × InputStreamFormatter) α

/-- Lines 607-620, the constructor, over a stream of the code units `data`;
`capacity` is `dimof(_baseLineStack)`. -/
def fresh (capacity : Nat) (data : List CharType) : InputStreamFormatter :=
  { _stream := MemoryMappedInputStream.mk0 data, _primed := .None, _activeLineSpaces := 0,
    _parentBaseLine := -1, _baseLineStack := List.replicate capacity 0,
    _baseLineStackPtr := 0, _lineIndex := 0, _lineStart := 0, _protectedStringMode := false,
    _tabWidth := TabWidth, _pendingHeader := true }

/-- A call on the stream member: an exception leaves the reader as it is. -/
def onStream {α : Type} (r : InputStreamFormatter) (x : Except Error α) : Result α :=
  match x with
  | .ok a => .ok a
  | .error e => .error (e, r)

/-- Lines 598-605. -/
def GetLocation (r : InputStreamFormatter) : StreamLocation :=
  { _charIndex := u32 (1 + u32 (r._stream.ReadPointer - r._lineStart)),
    _lineIndex := u32 (1 + r._lineIndex) }

/-- What the body of a `while` loop around a `switch` does: `break` out of the
`switch` goes on with the next iteration, `return` leaves the function. -/
inductive LoopStep (σ α : Type) where
  | next (state : σ)
  | done (result : α)

/-- The body of the loop of lines 455-502 when the code unit at the read pointer is
`c`.  The local variables `aNameStart`, `aNameEnd` are `aName` (`none` for the null
pointers); the state of the loop is the pair of `aName` and the reader. -/
def readHeaderStep (aName : Option InteriorSection) (r : InputStreamFormatter) (c : CharType) :
    Result (LoopStep (Option InteriorSection × InputStreamFormatter) InputStreamFormatter) :=
  if c = 9 ∨ c = 32 ∨ c = 59 then do
    let s ← r.onStream (r._stream.MovePointer 1)
    .ok (.next (aName, { r with _stream := s }))
  else if c = 0x0B ∨ c = 0x0C ∨ c = 0x85 ∨ c = 0xA0 then
    .error (.format .unsupportedWhiteSpace r.GetLocation, r)
  else if c = 126 then
    .error (.format .unexpectedElementInHeader r.GetLocation, r)
  else if c = 13 ∨ c = 10 then
    .ok (.done r)
  else if c = 61 then do
    let s1 ← r.onStream (r._stream.MovePointer 1)
    let r1 := { r with _stream := s1 }
    let s2 ← r1.onStream (EatWhitespace r1._stream)
    let r2 := { r1 with _stream := s2 }
    let aValueStart := r2._stream.ReadPointer
    let (aValueEnd, s3) ← r2.onStream (ReadToStringEnd r2._stream false r2.GetLocation)
    let r3 := { r2 with _stream := s3 }
    let aValue : InteriorSection := { _start := aValueStart, _end := aValueEnd }
    let convBuffer :=
      Convert 12 (match aName with
                  | some n => n.content r3._stream.data
                  | none => [])
    if XlCompareStringI convBuffer [70, 111, 114, 109, 97, 116] = 0 then
      if AsInt (aValue.content r3._stream.data) ≠ 1 then
        .error (.format .unsupportedFormat r3.GetLocation, r3)
      else .ok (.next (aName, r3))
    else if XlCompareStringI convBuffer [84, 97, 98] = 0 then
      let r4 := { r3 with _tabWidth :=
                    Int.toNat (AsInt (aValue.content r3._stream.data) % 4294967296) }
      if r4._tabWidth = 0 then
        .error (.format .badTabWidth r4.GetLocation, r4)
      else .ok (.next (aName, r4))
    else .ok (.next (aName, r3))
  else do
    let aNameStart := r._stream.ReadPointer
    let (aNameEnd, s) ← r.onStream (ReadToStringEnd r._stream false r.GetLocation)
    .ok (.next (some { _start := aNameStart, _end := aNameEnd }, { r with _stream := s }))

/-- The loop of lines 455-502.  The first argument bounds the number of iterations. -/
def readHeaderLoop : Nat → Option InteriorSection → InputStreamFormatter →
    Result InputStreamFormatter
  | 0, _, r => .error (.diverges, r)
  | fuel + 1, aName, r =>
    match r._stream.Remaining with
    | [] => .ok r
    | c :: _ => do
      match ← readHeaderStep aName r c with
      | .next (aName1, r1) => readHeaderLoop fuel aName1 r1
      | .done r1 => .ok r1

/-- Lines 449-503.  An iteration that does not move the pointer repeats for ever,
so one more iteration than code units left is enough for every run that ends. -/
def ReadHeader (r : InputStreamFormatter) : Result InputStreamFormatter :=
  readHeaderLoop (r._stream.RemainingBytes + 1) none r

/-- The body of the loop of lines 346-434 when the code unit at the read pointer is
`c`. -/
def peekStep (r : InputStreamFormatter) (c : CharType) :
    Result (LoopStep InputStreamFormatter (Blob × InputStreamFormatter)) :=
  if c = 9 then do
    let s ← r.onStream (r._stream.MovePointer 1)
    .ok (.next { r with _stream := s,
                        _activeLineSpaces :=
                          CeilToMultiple (r._activeLineSpaces + 1) r._tabWidth })
  else if c = 32 then do
    let s ← r.onStream (r._stream.MovePointer 1)
    .ok (.next { r with _stream := s, _activeLineSpaces := r._activeLineSpaces + 1 })
  else if c = 0x0B ∨ c = 0x0C ∨ c = 0x85 ∨ c = 0xA0 then
    .error (.format .unsupportedWhiteSpace r.GetLocation, r)
  else if c = 13 then do
    let s1 ← r.onStream (r._stream.MovePointer 1)
    let r1 := { r with _stream := s1 }
    let s2 ←
      if r1._stream.RemainingBytes > 1 ∧ r1._stream.Remaining.head? = some 10 then
        r1.onStream (r1._stream.MovePointer 1)
      else .ok r1._stream
    .ok (.next { r1 with _stream := s2, _activeLineSpaces := 0,
                         _lineIndex := u32 (r1._lineIndex + 1),
                         _lineStart := s2.ReadPointer })
  else if c = 10 then do
    let s ← r.onStream (r._stream.MovePointer 1)
    .ok (.next { r with _stream := s, _activeLineSpaces := 0,
                        _lineIndex := u32 (r._lineIndex + 1),
                        _lineStart := s.ReadPointer })
  else if c = 59 then do
    let s ← r.onStream (r._stream.MovePointer 1)
    .ok (.next { r with _stream := s })
  else if c = 61 then do
    let s1 ← r.onStream (r._stream.MovePointer 1)
    let r1 := { r with _stream := s1 }
    let s2 ← r1.onStream (EatWhitespace r1._stream)
    let r2 := { r1 with _stream := s2 }
    let (p, s3) ← r2.onStream (TryEat r2._stream ProtectedNamePrefix)
    .ok (.done (.AttributeValue,
                { r2 with _stream := s3, _protectedStringMode := p,
                          _primed := .AttributeValue }))
  else if c = 126 then do
    let (isComment, s1) ← r.onStream (TryEat r._stream CommentPrefix)
    let r1 := { r with _stream := s1 }
    if isComment then do
      let s2 ← r1.onStream (r1._stream.MovePointer 2)
      let r2 := { r1 with _stream := s2 }
      let s3 ← r2.onStream
        (r2._stream.SetPointer (skipToLineEnd r2._stream.Remaining r2._stream.ReadPointer))
      .ok (.next { r2 with _stream := s3 })
    else if r1._activeLineSpaces ≤ r1._parentBaseLine then
      .ok (.done (.EndElement,
                  { r1 with _protectedStringMode := false, _primed := .EndElement }))
    else do
      let s2 ← r1.onStream (r1._stream.MovePointer 1)
      let r2 := { r1 with _stream := s2 }
      let (p, s3) ← r2.onStream (TryEat r2._stream ProtectedNamePrefix)
      .ok (.done (.BeginElement,
                  { r2 with _stream := s3, _protectedStringMode := p,
                            _primed := .BeginElement }))
  else if r._activeLineSpaces ≤ r._parentBaseLine then
    .ok (.done (.EndElement, { r with _protectedStringMode := false, _primed := .EndElement }))
  else do
    let (p, s) ← r.onStream (TryEat r._stream ProtectedNamePrefix)
    .ok (.done (.AttributeName,
                { r with _stream := s, _protectedStringMode := p, _primed := .AttributeName }))

/-- The loop of lines 346-434 and the end of `PeekNext` (lines 436-439).  The first
argument bounds the number of iterations. -/
def peekLoop : Nat → InputStreamFormatter → Result (Blob × InputStreamFormatter)
  | 0, r => .error (.diverges, r)
  | fuel + 1, r =>
    match r._stream.Remaining with
    | [] =>
      if r._baseLineStackPtr > 0 then .ok (.EndElement, { r with _primed := .EndElement })
      else .ok (.None, r)
    | c :: _ => do
      match ← peekStep r c with
      | .next r1 => peekLoop fuel r1
      | .done res => .ok res

/-- Lines 331-440.  Every iteration of the loop that does not return moves the
pointer forward, so one more iteration than code units left is enough. -/
def PeekNext (r : InputStreamFormatter) : Result (Blob × InputStreamFormatter) :=
  if r._primed ≠ .None then .ok (r._primed, r)
  else do
    let r1 ←
      if r._pendingHeader then do
        let (isHeader, s) ← r.onStream (TryEat r._stream HeaderPrefix)
        let r0 := { r with _stream := s }
        let r0 ← if isHeader then r0.ReadHeader else .ok r0
        .ok { r0 with _pendingHeader := false }
      else .ok r
    peekLoop (r1._stream.RemainingBytes + 1) r1

/-- Lines 505-523.  `none` is the result `false` (the argument `name` is left as it
was); `some name` is the result `true`. -/
def TryReadBeginElement (r : InputStreamFormatter) :
    Result (Option InteriorSection × InputStreamFormatter) := do
  let (b, r1) ← r.PeekNext
  if b ≠ .BeginElement then .ok (none, r1)
  else
    let nameStart := r1._stream.ReadPointer
    let (nameEnd, s) ←
      r1.onStream (ReadToStringEnd r1._stream r1._protectedStringMode r1.GetLocation)
    let r2 := { r1 with _stream := s }
    if r2._baseLineStackPtr + 1 > r2._baseLineStack.length then
      .error (.format .excessiveIndentation r2.GetLocation, r2)
    else
      .ok (some { _start := nameStart, _end := nameEnd },
           { r2 with _baseLineStack := r2._baseLineStack.set r2._baseLineStackPtr
                                         r2._activeLineSpaces,
                     _baseLineStackPtr := r2._baseLineStackPtr + 1,
                     _parentBaseLine := r2._activeLineSpaces,
                     _primed := .None,
                     _protectedStringMode := false })

/-- Lines 525-538. -/
def TryReadEndElement (r : InputStreamFormatter) : Result (Bool × InputStreamFormatter) := do
  let (b, r1) ← r.PeekNext
  if b ≠ .EndElement then .ok (false, r1)
  else
    let r2 :=
      if r1._baseLineStackPtr ≠ 0 then
        { r1 with _parentBaseLine :=
                    if r1._baseLineStackPtr > 1
                    then r1._baseLineStack.getD (r1._baseLineStackPtr - 2) 0
                    else -1,
                  _baseLineStackPtr := r1._baseLineStackPtr - 1 }
      else r1
    .ok (true, { r2 with _primed := .None, _protectedStringMode := false })

/-- Lines 574-596.  `none` is the result `false`; `some (name, value)` is the result
`true`, the value being the empty section at the null pointer (offset `0`) when no
value follows. -/
def TryReadAttribute (r : InputStreamFormatter) :
    Result (Option (InteriorSection × InteriorSection) × InputStreamFormatter) := do
  let (b, r1) ← r.PeekNext
  if b ≠ .AttributeName then .ok (none, r1)
  else
    let nameStart := r1._stream.ReadPointer
    let (nameEnd, s1) ←
      r1.onStream (ReadToStringEnd r1._stream r1._protectedStringMode r1.GetLocation)
    let r2 := { r1 with _stream := s1 }
    let s2 ← r2.onStream (EatWhitespace r2._stream)
    let r3 := { r2 with _stream := s2, _primed := .None, _protectedStringMode := false }
    let name : InteriorSection := { _start := nameStart, _end := nameEnd }
    let (b2, r4) ← r3.PeekNext
    if b2 = .AttributeValue then
      let valueStart := r4._stream.ReadPointer
      let (valueEnd, s3) ←
        r4.onStream (ReadToStringEnd r4._stream r4._protectedStringMode r4.GetLocation)
      .ok (some (name, { _start := valueStart, _end := valueEnd }),
           { r4 with _stream := s3, _protectedStringMode := false, _primed := .None })
    else
      .ok (some (name, { _start := 0, _end := 0 }), r4)

/-- Lines 540-572.  The body is the `switch` alone: the local counter `subtreeEle`
is still `0` where the `EndElement` case reads it, and the increment and decrement
that follow a successful read are the last statement before the function returns. -/
def SkipElement (r : InputStreamFormatter) : Result InputStreamFormatter := do
  let subtreeEle : Nat := 0
  let (b, r1) ← r.PeekNext
  match b with
  | .BeginElement =>
    let (res, r2) ← r1.TryReadBeginElement
    if res.isNone then .error (.format .malformedBeginElement r2.GetLocation, r2)
    else .ok r2
  | .EndElement =>
    if subtreeEle = 0 then .ok r1
    else
      let (res, r2) ← r1.TryReadEndElement
      if ¬ res then .error (.format .malformedEndElement r2.GetLocation, r2)
      else .ok r2
  | .AttributeName =>
    let (res, r2) ← r1.TryReadAttribute
    if res.isNone then .error (.format .malformedAttribute r2.GetLocation, r2)
    else .ok r2
  | _ => .error (.format .unexpectedBlob r1.GetLocation, r1)

end InputStreamFormatter

/-! ## Documents: sequences of writer operations and of reader events -/

/-- One call on the writer. -/
inductive WriterOp where
  | BeginElement (name : List CharType)
  | WriteAttribute (name value : List CharType)
  | EndElement (id : Nat)
deriving DecidableEq, Repr

/-- What a consuming call on the reader delivers. -/
inductive Event where
  | BeginElement (name : List CharType)
  | Attribute (name value : List CharType)
  | EndElement
deriving DecidableEq, Repr

/-- The event a writer call stands for. -/
def WriterOp.event : WriterOp → Event
  | .BeginElement name => .BeginElement name
  | .WriteAttribute name value => .Attribute name value
  | .EndElement _ => .EndElement

/-- One writer call. -/
def OutputStreamFormatter.apply (w : OutputStreamFormatter) :
    WriterOp → OutputStreamFormatter.Result OutputStreamFormatter
  | .BeginElement name => do
    let (_, w1) ← w.BeginElement name
    .ok w1
  | .WriteAttribute name value => w.WriteAttribute name value
  | .EndElement id => w.EndElement id

/-- The writer calls of a list, in order, up to the first exception. -/
def OutputStreamFormatter.applyAll (w : OutputStreamFormatter) :
    List WriterOp → OutputStreamFormatter.Result OutputStreamFormatter
  | [] => .ok w
  | op :: ops => do
    let w1 ← w.apply op
    w1.applyAll ops

/-- The reading loop of a client: `PeekNext`, then the `TryRead...` call that matches
the token, until `PeekNext` returns `None`.  The result is the list of events read.
A primed `AttributeValue` has no matching call and is reported as an unexpected blob.
The first argument bounds the number of tokens. -/
def InputStreamFormatter.readEvents : Nat → InputStreamFormatter →
    InputStreamFormatter.Result (List Event × InputStreamFormatter)
  | 0, r => .error (.diverges, r)
  | fuel + 1, r => do
    let (b, r1) ← r.PeekNext
    match b with
    | .None => .ok ([], r1)
    | .BeginElement =>
      let (res, r2) ← r1.TryReadBeginElement
      match res with
      | none => .error (.format .malformedBeginElement r2.GetLocation, r2)
      | some name =>
        let (evs, r3) ← readEvents fuel r2
        .ok (.BeginElement (name.content r2._stream.data) :: evs, r3)
    | .AttributeName =>
      let (res, r2) ← r1.TryReadAttribute
      match res with
      | none => .error (.format .malformedAttribute r2.GetLocation, r2)
      | some (name, value) =>
        let (evs, r3) ← readEvents fuel r2
        .ok (.Attribute (name.content r2._stream.data) (value.content r2._stream.data) :: evs,
             r3)
    | .EndElement =>
      let (res, r2) ← r1.TryReadEndElement
      if ¬ res then .error (.format .malformedEndElement r2.GetLocation, r2)
      else
        let (evs, r3) ← readEvents fuel r2
        .ok (.EndElement :: evs, r3)
    | .AttributeValue => .error (.format .unexpectedBlob r1.GetLocation, r1)

/-- `PeekNext` called `n + 1` times in a row, with no other call in between; the
result is the one of the last call. -/
def InputStreamFormatter.peekAgain : Nat → InputStreamFormatter →
    InputStreamFormatter.Result (Blob × InputStreamFormatter)
  | 0, r => r.PeekNext
  | n + 1, r => do
    let (_, r1) ← r.PeekNext
    peekAgain n r1

/-- The events of a reading loop, without the final reader state. -/
def InputStreamFormatter.events (fuel : Nat) (r : InputStreamFormatter) :
    Except Error (List Event) :=
  match r.readEvents fuel with
  | .ok (evs, _) => .ok evs
  | .error (e, _) => .error e

/-- The code units of an ASCII text. -/
def text (s : String) : List CharType := s.toList.map Char.toNat

/-! ## The written form of a name or value -/

/-- What `WriteNameOrValue` appends to the sink for the string `s`. -/
def writtenForm (s : List CharType) : List CharType :=
  if IsSimpleString s then s else ProtectedNamePrefix ++ s ++ ProtectedNamePostfix

/-- The features that, by the wording of the specification, make the writer protect
a string: it is empty, it begins or ends with whitespace, or it holds a structural
character. -/
def hasUnsafeFeature (s : List CharType) : Bool :=
  s.isEmpty || (s.head?.map WhitespaceChar).getD false ||
    (s.getLast?.map WhitespaceChar).getD false || s.any FormattingChar

/-- The written form by the wording of the specification: protected exactly for the
strings with an unsafe feature. -/
def specWrittenForm (s : List CharType) : List CharType :=
  if hasUnsafeFeature s then ProtectedNamePrefix ++ s ++ ProtectedNamePostfix else s

/-- The reader's way to a name or value section from the place where it starts:
`TryEat` of the protected prefix chooses the mode, as in `PeekNext`, and
`ReadToStringEnd` in that mode delimits the section, as in the `TryRead...` calls.
The result is the section and the stream behind it. -/
def readSection (stream : MemoryMappedInputStream) (location : StreamLocation) :
    Except Error (InteriorSection × MemoryMappedInputStream) := do
  let (p, s1) ← TryEat stream ProtectedNamePrefix
  let (sectionEnd, s2) ← ReadToStringEnd s1 p location
  .ok ({ _start := s1.ReadPointer, _end := sectionEnd }, s2)

/-- The input behind a bare name or value: nothing, or a formatting character. -/
def StopsScan (rest : List CharType) : Prop :=
  rest = [] ∨ ∃ c t, rest = c :: t ∧ FormattingChar c = true

/-- The section content `readSection` delivers on the input `data`, read from its
start; `none` when the read raises. -/
def sectionRead (data : List CharType) : Option (List CharType) :=
  match readSection (MemoryMappedInputStream.mk0 data) { _charIndex := 1, _lineIndex := 1 } with
  | .ok (sec, _) => some (sec.content data)
  | .error _ => none

/-- The written form when a leading `<` counts as a feature that needs protection,
next to the ones the specification names. -/
def guardedWrittenForm (s : List CharType) : List CharType :=
  if hasUnsafeFeature s || s.head? == some 60 then
    ProtectedNamePrefix ++ s ++ ProtectedNamePostfix
  else s

/-- What a writer call puts at the end of the sink, given the form `form` in which
names and values are written. -/
def WriterOp.payload (form : List CharType → List CharType) : WriterOp → List CharType
  | .BeginElement name => [ElementPrefix] ++ form name
  | .WriteAttribute name value => form name ++ [61] ++ form value
  | .EndElement _ => []

/-- What `DoNewLine` appends to the sink in the writer state `w`. -/
def OutputStreamFormatter.newLineText (w : OutputStreamFormatter) : List CharType :=
  (if w._pendingHeader then HeaderPrefix ++ OutputStreamFormatter.headerText else []) ++
  (if w._pendingHeader || w._hotLine then
     EndLine ++ List.replicate w._currentIndentLevel Tab
   else [])

/-- What `BeginElement` appends to the sink in front of the element marker: the text
of the two `DoNewLine` calls of lines 92 and 94. -/
def OutputStreamFormatter.beginText (w : OutputStreamFormatter) : List CharType :=
  w.newLineText ++ (EndLine ++ List.replicate w._currentIndentLevel Tab)

/-- The test of lines 155-156. -/
def OutputStreamFormatter.forcesNewLine (w : OutputStreamFormatter)
    (name value : List CharType) : Bool :=
  w._currentLineLength + value.length + name.length + 3 > OutputStreamFormatter.idealLineLength

/-- What `WriteAttribute` appends to the sink in front of the name (lines 158-164). -/
def OutputStreamFormatter.attributeSeparator (w : OutputStreamFormatter)
    (name value : List CharType) : List CharType :=
  if w.forcesNewLine name value then w.newLineText
  else if w._hotLine then [59, 32]
  else []

/-- The code units that reach the `default` label of the `switch` in `PeekNext`. -/
def PlainChar (c : CharType) : Prop :=
  c ≠ 9 ∧ c ≠ 32 ∧ c ≠ 0x0B ∧ c ≠ 0x0C ∧ c ≠ 0x85 ∧ c ≠ 0xA0 ∧ c ≠ 13 ∧ c ≠ 10 ∧ c ≠ 59 ∧
    c ≠ 61 ∧ c ≠ 126

instance (c : CharType) : Decidable (PlainChar c) := by
  unfold PlainChar; infer_instance

/-- What scanning leaves alone: between the reader states `r` and `r'` the stack,
its depth, the parent base line and the buffer are the same, the read pointer has
not gone back and stays inside the buffer, and a column count that was not negative
is not negative. -/
def InputStreamFormatter.Frame (r r' : InputStreamFormatter) : Prop :=
  r'._baseLineStack = r._baseLineStack ∧ r'._baseLineStackPtr = r._baseLineStackPtr ∧
  r'._parentBaseLine = r._parentBaseLine ∧ r'._stream.data = r._stream.data ∧
  r._stream._ptr ≤ r'._stream._ptr ∧
  (r._stream._ptr ≤ r._stream.data.length → r'._stream._ptr ≤ r'._stream.data.length) ∧
  (0 ≤ r._activeLineSpaces → 0 ≤ r'._activeLineSpaces)

/-- What a call on the stream leaves alone: the buffer is the same, the read pointer
has not gone back and stays inside the buffer. -/
def MemoryMappedInputStream.Step (s s' : MemoryMappedInputStream) : Prop :=
  s'.data = s.data ∧ s._ptr ≤ s'._ptr ∧ (s._ptr ≤ s.data.length → s'._ptr ≤ s'.data.length)

/-- A property of every outcome of a reader call: `Q` of the result when the call
returns, `P` of the reader state when it raises. -/
def InputStreamFormatter.Result.All {α : Type} (P : InputStreamFormatter → Prop)
    (Q : α → Prop) : InputStreamFormatter.Result α → Prop
  | .ok a => Q a
  | .error (_, r) => P r

namespace InputStreamFormatter

/-- What an exception inside `PeekNext` leaves behind, seen from the state `r` the
scan started in. -/
def peekRaisePost (r r' : InputStreamFormatter) : Prop :=
  Frame r r' ∧ r'._primed = r._primed ∧ r'._pendingHeader = r._pendingHeader ∧
    r'._tabWidth = r._tabWidth

/-- What `ReadHeader` leaves alone, next to what `Frame` says: the primed token,
the header flag and the column count. -/
def headerPost (r r' : InputStreamFormatter) : Prop :=
  Frame r r' ∧ r'._primed = r._primed ∧ r'._pendingHeader = r._pendingHeader ∧
    r'._activeLineSpaces = r._activeLineSpaces

/-- The reader state in the result of an iteration of the loop of `ReadHeader`. -/
def headerStepState :
    LoopStep (Option InteriorSection × InputStreamFormatter) InputStreamFormatter →
      InputStreamFormatter
  | .next (_, r') => r'
  | .done r' => r'

/-- What one iteration of the loop of `PeekNext` does to the state `r`: the next
iteration starts further on in the input, and a returned token is primed. -/
def peekStepPost (r : InputStreamFormatter) :
    LoopStep InputStreamFormatter (Blob × InputStreamFormatter) → Prop
  | .next r' =>
    Frame r r' ∧ r'._primed = r._primed ∧ r'._pendingHeader = r._pendingHeader ∧
      r'._tabWidth = r._tabWidth ∧ r._stream._ptr < r'._stream._ptr
  | .done (b, r') =>
    Frame r r' ∧ r'._primed = b ∧ b ≠ .None ∧ r'._pendingHeader = r._pendingHeader ∧
      r'._tabWidth = r._tabWidth ∧
      (b = .EndElement → r'._activeLineSpaces ≤ r'._parentBaseLine)

/-- What the loop of `PeekNext` does to the state `r` when it returns the token `b`
in the state `r'`: a token other than `None` is primed; `None` is returned at the end
of the input with an empty stack, and nothing is primed.  `EndElement` comes from a
column at or left of the parent base line, or from the end of the input inside an
open element. -/
def peekPost (r : InputStreamFormatter) : Blob × InputStreamFormatter → Prop
  | (b, r') =>
    Frame r r' ∧ r'._pendingHeader = r._pendingHeader ∧ r'._tabWidth = r._tabWidth ∧
      ((b ≠ .None ∧ r'._primed = b) ∨
       (b = .None ∧ r'._primed = r._primed ∧ r'._stream.Remaining = [] ∧
          r'._baseLineStackPtr = 0)) ∧
      (b = .EndElement →
        r'._activeLineSpaces ≤ r'._parentBaseLine ∨ 0 < r'._baseLineStackPtr)

/-- What `PeekNext` does to the state `r` when it returns the token `b` in the state
`r'`. -/
def peekNextPost (r : InputStreamFormatter) : Blob × InputStreamFormatter → Prop
  | (b, r') =>
    Frame r r' ∧
      ((b ≠ .None ∧ r'._primed = b) ∨
       (b = .None ∧ r'._primed = .None ∧ r'._pendingHeader = false ∧
          r'._stream.Remaining = [] ∧ r'._baseLineStackPtr = 0)) ∧
      (r._primed = .None → b = .EndElement →
        r'._activeLineSpaces ≤ r'._parentBaseLine ∨ 0 < r'._baseLineStackPtr) ∧
      (r._primed ≠ .None → r' = r ∧ b = r._primed)

/-- What an exception of `PeekNext` leaves behind. -/
def peekNextRaisePost (r r' : InputStreamFormatter) : Prop :=
  Frame r r' ∧ r'._primed = r._primed

end InputStreamFormatter

/-! ## Sequences of reader calls -/

/-- A call on the reader. -/
inductive ReaderOp where
  | PeekNext
  | TryReadBeginElement
  | TryReadAttribute
  | TryReadEndElement
deriving DecidableEq, Repr

namespace InputStreamFormatter

/-- One reader call: the reader state after it (after an exception, the state the
exception leaves behind), whether it was a `TryReadBeginElement` that returned
true, and whether it was a `TryReadEndElement` that returned true. -/
def call (r : InputStreamFormatter) : ReaderOp → InputStreamFormatter × Bool × Bool
  | .PeekNext =>
    match r.PeekNext with
    | .ok (_, r') => (r', false, false)
    | .error (_, r') => (r', false, false)
  | .TryReadBeginElement =>
    match r.TryReadBeginElement with
    | .ok (res, r') => (r', res.isSome, false)
    | .error (_, r') => (r', false, false)
  | .TryReadAttribute =>
    match r.TryReadAttribute with
    | .ok (_, r') => (r', false, false)
    | .error (_, r') => (r', false, false)
  | .TryReadEndElement =>
    match r.TryReadEndElement with
    | .ok (res, r') => (r', false, res)
    | .error (_, r') => (r', false, false)

/-- The reader calls of a list, in order: the final reader state, the number of
`TryReadBeginElement` calls that returned true and the number of `TryReadEndElement`
calls that returned true. -/
def run (r : InputStreamFormatter) : List ReaderOp → InputStreamFormatter × Nat × Nat
  | [] => (r, 0, 0)
  | op :: ops =>
    let (r1, b, e) := r.call op
    let (r2, begins, ends) := r1.run ops
    (r2, begins + b.toNat, ends + e.toNat)

/-- The invariant of the reader states reachable from a fresh reader: the stack
depth is within the array, the parent base line is the top entry of the stack or
`-1` for the empty stack, the column count is not negative, `EndElement` is primed
only inside an open element, and the read pointer is inside the buffer. -/
def Inv (r : InputStreamFormatter) : Prop :=
  r._baseLineStackPtr ≤ r._baseLineStack.length ∧
  r._parentBaseLine =
    (if r._baseLineStackPtr = 0 then -1
     else r._baseLineStack.getD (r._baseLineStackPtr - 1) 0) ∧
  0 ≤ r._activeLineSpaces ∧
  (∀ i, i < r._baseLineStackPtr → 0 ≤ r._baseLineStack.getD i 0) ∧
  (r._primed = .EndElement → 0 < r._baseLineStackPtr) ∧
  r._stream._ptr ≤ r._stream.data.length

end InputStreamFormatter

/-- A client that skips the first element of the input `data`: `PeekNext`, then
`SkipElement`, then `PeekNext` again.  The result is the depth of the indentation
stack before and after `SkipElement` and the two tokens; `none` when a call raises. -/
def skipFirstElement (capacity : Nat) (data : List CharType) :
    Option (Blob × Nat × Nat × Blob) :=
  match (InputStreamFormatter.fresh capacity data).PeekNext with
  | .error _ => none
  | .ok (first, r1) =>
    match r1.SkipElement with
    | .error _ => none
    | .ok r2 =>
      match r2.PeekNext with
      | .error _ => none
      | .ok (next, _) => some (first, r1._baseLineStackPtr, r2._baseLineStackPtr, next)

/-! ## Well-ordered documents -/

/-- A name or value the reader gets back: written bare, or written protected and
free of the protected postfix. -/
def Readable (s : List CharType) : Prop :=
  IsSimpleString s = true ∨ ¬ ProtectedNamePostfix <:+: s

instance (s : List CharType) : Decidable (Readable s) := by
  unfold Readable; infer_instance

/-- The names and values of a writer call can be read back. -/
def WriterOp.Readable : WriterOp → Prop
  | .BeginElement name => Utility.Readable name
  | .WriteAttribute name value => Utility.Readable name ∧ Utility.Readable value
  | .EndElement _ => True

instance (op : WriterOp) : Decidable op.Readable := by
  cases op <;> unfold WriterOp.Readable <;> infer_instance

/-- No `WriteAttribute` comes straight after an `EndElement`: the attributes of an
element are written before its child elements.  `afterEnd` tells whether the call
in front of the list was an `EndElement`. -/
def attributesFirst (afterEnd : Bool) : List WriterOp → Bool
  | [] => true
  | .BeginElement _ :: ops => attributesFirst false ops
  | .WriteAttribute _ _ :: ops => !afterEnd && attributesFirst false ops
  | .EndElement _ :: ops => attributesFirst true ops

/-- The nesting stays within `capacity` open elements, `depth` elements being open
in front of the list. -/
def depthWithin (capacity : Nat) (depth : Nat) : List WriterOp → Bool
  | [] => true
  | .BeginElement _ :: ops => decide (depth < capacity) && depthWithin capacity (depth + 1) ops
  | .WriteAttribute _ _ :: ops => depthWithin capacity depth ops
  | .EndElement _ :: ops => depthWithin capacity (depth - 1) ops

/-- A reader between two tokens: nothing primed, header done, tab width 4. -/
def InputStreamFormatter.idle (data : List CharType) (ptr : Nat) (active parent : Int)
    (stack : List Int) (depth lineIndex lineStart : Nat) : InputStreamFormatter :=
  { _stream := { data := data, _ptr := ptr }, _primed := .None, _activeLineSpaces := active,
    _parentBaseLine := parent, _baseLineStack := stack, _baseLineStackPtr := depth,
    _protectedStringMode := false, _lineIndex := lineIndex, _lineStart := lineStart,
    _tabWidth := TabWidth, _pendingHeader := false }

/-- The stack of a reader inside a document of the writer: the element at depth `i`
began in column `4 * i`, and the parent base line is the column of the innermost
open element. -/
def StackOk (stack : List Int) (depth : Nat) (parent : Int) : Prop :=
  depth ≤ stack.length ∧ (∀ i, i < depth → stack.getD i 0 = 4 * (i : Int)) ∧
    parent = (if depth = 0 then -1 else 4 * ((depth : Int) - 1))

/-- The writer calls of the concrete scenario of the specification, with `value` as
the value of the attribute `name`. -/
def scenario (value : List CharType) : List WriterOp :=
  [.BeginElement (text "Root"), .WriteAttribute (text "x") (text "1"),
   .BeginElement (text "Child"), .WriteAttribute (text "name") value,
   .EndElement 0, .EndElement 0]

/-- The events of the concrete scenario. -/
def scenarioEvents (value : List CharType) : List Event :=
  [.BeginElement (text "Root"), .Attribute (text "x") (text "1"),
   .BeginElement (text "Child"), .Attribute (text "name") value,
   .EndElement, .EndElement]

/-- A document that writes an attribute of the outer element behind the inner
element. -/
def attributeAfterChild : List WriterOp :=
  [.BeginElement (text "A"), .BeginElement (text "B"), .EndElement 0,
   .WriteAttribute (text "x") (text "1"), .EndElement 0]

/-- A document with the attribute in front of the end of the inner element; the
writer emits the same text for it as for `attributeAfterChild`. -/
def attributeInChild : List WriterOp :=
  [.BeginElement (text "A"), .BeginElement (text "B"),
   .WriteAttribute (text "x") (text "1"), .EndElement 0, .EndElement 0]

/-- A document whose attribute value is written protected and holds the protected
postfix. -/
def postfixInValue : List WriterOp :=
  [.BeginElement (text "A"), .WriteAttribute (text "x") (text " ):>"), .EndElement 0]

/-- The deepest nesting that a list of events reaches, `depth` elements being open in
front of the list. -/
def deepest (depth : Nat) : List Event → Nat
  | [] => depth
  | .BeginElement _ :: evs => deepest (depth + 1) evs
  | .Attribute _ _ :: evs => deepest depth evs
  | .EndElement :: evs => max depth (deepest (depth - 1) evs)

/-- The document of `n` elements `A`, each inside the one before. -/
def nested (n : Nat) : List WriterOp :=
  List.replicate n (.BeginElement (text "A")) ++ List.replicate n (.EndElement 0)

end Utility


namespace Utility
open FormatterConstants

/-! ## Inputs of the later sections -/

/-- A name of 97 letters `a`: with a value of one code unit it does not fit on a line
of 100. -/
def longName : List CharType := List.replicate 97 97

/-- A writer with 65 open elements, more than the tab buffer holds, at the end of the
line of the innermost one. -/
def deepWriter : OutputStreamFormatter :=
  { _stream := [], _currentIndentLevel := 65, _hotLine := true, _currentLineLength := 2,
    _pendingHeader := false, checkElements := false, _elementStack := [],
    _nextElementId := 0 }

/-- A reader over the input `data` in which `primed` is primed at the offset `ptr` of
the first line, outside every element. -/
def primedReader (data : List CharType) (ptr : Nat) (primed : Blob) : InputStreamFormatter :=
  { _stream := { data := data, _ptr := ptr }, _primed := primed, _activeLineSpaces := 0,
    _parentBaseLine := -1, _baseLineStack := [0, 0], _baseLineStackPtr := 0,
    _protectedStringMode := false, _lineIndex := 0, _lineStart := 0, _tabWidth := 4,
    _pendingHeader := false }

/-- The code units of decimal digits, at least one. -/
def IsDigits (ds : List CharType) : Prop := ds ≠ [] ∧ ∀ c ∈ ds, 48 ≤ c ∧ c ≤ 57

instance (ds : List CharType) : Decidable (IsDigits ds) := by
  unfold IsDigits; infer_instance

/-- The number that the decimal digits `ds` denote. -/
def decimalValue (ds : List CharType) : Nat :=
  ds.foldl (fun acc c => acc * 10 + (c - 48)) 0

/-- The header line `~~!Format=1; Tab=` with the digits `ds` as the tab width. -/
def headerWithTab (ds : List CharType) : List CharType :=
  text "~~!Format=1; Tab=" ++ ds

/-- The reader `r` with the read pointer at the offset `ptr`. -/
def InputStreamFormatter.movedTo (r : InputStreamFormatter) (ptr : Nat) :
    InputStreamFormatter :=
  { r with _stream := { data := r._stream.data, _ptr := ptr } }

/-- The header is behind the reader `r`: no header is pending and the tab width is
`width`. -/
def InputStreamFormatter.HeaderDone (width : Nat) (r : InputStreamFormatter) : Prop :=
  r._pendingHeader = false ∧ r._tabWidth = width

/-- The reader after the first `PeekNext` on the input `data`, returned or raised. -/
def InputStreamFormatter.afterFirstPeek (capacity : Nat) (data : List CharType) :
    InputStreamFormatter :=
  ((InputStreamFormatter.fresh capacity data).call .PeekNext).1

/-- A header line with a NUL code unit in front of the field `Format=2`. -/
def nulHeader : List CharType := text "~~!" ++ 0 :: text "; Format=2\r\n"

/-- The text in front of a field of the header line after which the loop of
`ReadHeader` stands at the start of the field: nothing, or text without NUL, CR and
LF that ends with the separator `;`. -/
def FieldStart (pre : List CharType) : Prop :=
  (pre = [] ∨ pre.getLast? = some 59) ∧ ∀ c ∈ pre, c ≠ 0 ∧ c ≠ 13 ∧ c ≠ 10

instance (pre : List CharType) : Decidable (FieldStart pre) := by
  unfold FieldStart; infer_instance

/-- What an iteration of the loop of `ReadHeader` does in front of a field, started
in the state `r` with the field not before the offset `hi`: it raises a format
exception, or it goes on further right and not beyond `hi`.  The primed token stays
as it is. -/
def InputStreamFormatter.HeaderOutcome (r : InputStreamFormatter) (hi : Nat) :
    InputStreamFormatter.Result
      (InputStreamFormatter.LoopStep (Option InteriorSection × InputStreamFormatter)
        InputStreamFormatter) → Prop
  | .error (e, r1) => (∃ label loc, e = .format label loc) ∧ r1._primed = r._primed
  | .ok (.next (_, r1)) =>
    r1._stream.data = r._stream.data ∧ r._stream._ptr < r1._stream._ptr ∧
      r1._stream._ptr ≤ hi ∧ r1._primed = r._primed
  | .ok (.done _) => False

/-- A field of the header line that the reader does not accept: the name is `Format`,
whatever the case of its letters, and the digits denote a number other than 1, or
the name is `Tab` and the digits denote 0. -/
def RejectedField (name ds : List CharType) : Prop :=
  (name.map asciiLower = text "format" ∧ decimalValue ds ≠ 1) ∨
  (name.map asciiLower = text "tab" ∧ decimalValue ds = 0)

instance (name ds : List CharType) : Decidable (RejectedField name ds) := by
  unfold RejectedField; infer_instance

end Utility


namespace Utility
open FormatterConstants

/-! ## Inputs and notions of the sections on scanning -/

/-- The code units that `ReadToStringEnd` scans in unprotected mode: the ones in
front of the first formatting character. -/
def scannedText (rest : List CharType) : List CharType :=
  rest.takeWhile (fun c => !FormattingChar c)

/-- A text without its trailing whitespace. -/
def trimmedEnd (s : List CharType) : List CharType := s.rdropWhile WhitespaceChar

/-- A stream over a text in which the protected postfix stands twice. -/
def twoPostfixes : MemoryMappedInputStream := MemoryMappedInputStream.mk0 (text "a):>b):>")

/-- The exceptions that `PeekNext` raises: a failing assertion of the stream, a
loop without progress, and the format errors of the scan and of the header. -/
def PeekError (e : Error) : Prop :=
  e = .assertion ∨ e = .diverges ∨
    ∃ loc, e = .format .unsupportedWhiteSpace loc ∨ e = .format .unexpectedElementInHeader loc ∨
      e = .format .unsupportedFormat loc ∨ e = .format .badTabWidth loc

/-- A property of every exception of a reader call. -/
def InputStreamFormatter.Result.Raises {α : Type} (K : Error → Prop) :
    InputStreamFormatter.Result α → Prop
  | .ok _ => True
  | .error (e, _) => K e

/-- A reader with one open element and two stack entries in use of a stack of
`capacity - 1` more, in which `BeginElement` is primed at the offset `ptr` of the
input `data`, in column 1, with the string mode `mode`. -/
def nestedReader (capacity : Nat) (data : List CharType) (ptr : Nat) (mode : Bool) :
    InputStreamFormatter :=
  { _stream := { data := data, _ptr := ptr }, _primed := .BeginElement, _activeLineSpaces := 1,
    _parentBaseLine := 0, _baseLineStack := List.replicate capacity 0, _baseLineStackPtr := 1,
    _protectedStringMode := mode, _lineIndex := 0, _lineStart := 0, _tabWidth := 4,
    _pendingHeader := false }

/-- A space, a separator, a line feed and a tab in front of a vertical tab. -/
def blanksThenVerticalTab : List CharType := [32, 59, 10, 9, 11]

/-- The reader behind the name of the element `A` of the input `~A`, line feed, `~B`,
with a stack of four entries. -/
def afterElementA : InputStreamFormatter :=
  InputStreamFormatter.idle (text "~A\n~B") 2 0 0 [0, 0, 0, 0] 1 0 0

/-- The reader of `afterElementA` behind the line feed, at the marker of `B`. -/
def atMarkerB : InputStreamFormatter :=
  InputStreamFormatter.idle (text "~A\n~B") 3 0 0 [0, 0, 0, 0] 1 1 3

/-- What the writer emits for the element `A` without attributes, `Flush` included. -/
def flushedDocument : List CharType := text "~~!Format=1; Tab=4\r\n\r\n~A\r\n"

/-- A reader in column 5 with tab width 4 in front of one code unit `c`. -/
def inColumnFive (c : CharType) : InputStreamFormatter :=
  InputStreamFormatter.idle [c] 0 5 (-1) [0, 0, 0, 0] 0 0 0

/-! ## Well-ordered documents, by the wording of the specification -/

/-- The calls are balanced: every `EndElement` closes an element that is open, and no
element is open at the end; `depth` elements are open in front of the list. -/
def balanced (depth : Nat) : List WriterOp → Bool
  | [] => depth == 0
  | .BeginElement _ :: ops => balanced (depth + 1) ops
  | .WriteAttribute _ _ :: ops => balanced depth ops
  | .EndElement _ :: ops => decide (0 < depth) && balanced (depth - 1) ops

/-- The attributes of each element are written before its child elements.  `opened`
holds, for each open element from the innermost outwards, whether a child element of
it has been begun. -/
def attributesBeforeChildren (opened : List Bool) : List WriterOp → Bool
  | [] => true
  | .BeginElement _ :: ops =>
    attributesBeforeChildren
      (false :: (match opened with
                 | [] => []
                 | _ :: outer => true :: outer)) ops
  | .WriteAttribute _ _ :: ops =>
    (match opened with
     | [] => true
     | hadChild :: _ => !hadChild) && attributesBeforeChildren opened ops
  | .EndElement _ :: ops => attributesBeforeChildren opened.tail ops

/-- Every attribute is written inside an element; `depth` elements are open in front
of the list. -/
def insideElements (depth : Nat) : List WriterOp → Bool
  | [] => true
  | .BeginElement _ :: ops => insideElements (depth + 1) ops
  | .WriteAttribute _ _ :: ops => decide (0 < depth) && insideElements depth ops
  | .EndElement _ :: ops => insideElements (depth - 1) ops

/-- The names and values of a writer call do not hold the protected postfix. -/
def WriterOp.PostfixFree : WriterOp → Prop
  | .BeginElement name => ¬ ProtectedNamePostfix <:+: name
  | .WriteAttribute name value =>
    ¬ ProtectedNamePostfix <:+: name ∧ ¬ ProtectedNamePostfix <:+: value
  | .EndElement _ => True

instance (op : WriterOp) : Decidable op.PostfixFree := by
  cases op <;> unfold WriterOp.PostfixFree <;> infer_instance

/-- The element name of a `BeginElement` call is not empty. -/
def WriterOp.Named : WriterOp → Prop
  | .BeginElement name => name ≠ []
  | _ => True

instance (op : WriterOp) : Decidable op.Named := by
  cases op <;> unfold WriterOp.Named <;> infer_instance

/-- A document with an attribute behind its only element, outside every element. -/
def attributeBehindElement : List WriterOp :=
  [.BeginElement (text "A"), .EndElement 0, .WriteAttribute (text "x") (text "1")]

/-- An element with two attributes, the second one protected, and a child element. -/
def smallDocument : List WriterOp :=
  [.BeginElement (text "A"), .WriteAttribute (text "k") (text "1"),
   .WriteAttribute (text "m") (text " v;"), .BeginElement (text "B"), .EndElement 0,
   .EndElement 0]

/-! ## Lines of a text -/

/-- A code unit other than CR and LF. -/
def notBreak (c : CharType) : Bool := c != 13 && c != 10

/-- The number of line breaks of a text: a CR LF pair counts once, and so do a CR
without an LF behind it and an LF without a CR in front of it. -/
def lineBreaks : List CharType → Nat
  | [] => 0
  | c :: t => (if c = 10 ∨ (c = 13 ∧ t.head? ≠ some 10) then 1 else 0) + lineBreaks t

/-- The code units of a text behind its last line break: the line that the end of
the text is in. -/
def currentLine (s : List CharType) : List CharType := s.rtakeWhile notBreak

/-- The text in front of the first protected postfix, when there is one. -/
def upToPostfix : List CharType → Option (List CharType)
  | [] => none
  | c :: t =>
    if ProtectedNamePostfix <+: c :: t then some []
    else (upToPostfix t).map (fun a => c :: a)

/-- The inputs whose line breaks all lie where the scan of `PeekNext` consumes them:
no line break stands between a protected prefix and the first protected postfix
behind it; the two code units behind a comment marker are not line breaks; the input
does not end with CR LF; and the input is short enough for the unsigned counters. -/
def LineCountable (data : List CharType) : Prop :=
  (∀ p, p ≤ data.length → ProtectedNamePrefix <:+ data.take p →
    (upToPostfix (data.drop p)).all (fun a => a.all notBreak) = true) ∧
  (∀ p, p ≤ data.length → CommentPrefix <+: data.drop p →
    ((data.drop (p + 2)).take 2).all notBreak = true) ∧
  ¬ EndLine <:+ data ∧
  data.length + 1 < 4294967296

instance (data : List CharType) : Decidable (LineCountable data) := by
  unfold LineCountable; infer_instance

/-- The line counter `li` and the line start `ls` fit the offset `p` in the text
`data`: `li` line breaks lie in front of `p`, the line that `p` is in starts at `ls`,
and `p` is not between the CR and the LF of a pair. -/
def At (data : List CharType) (p li ls : Nat) : Prop :=
  p ≤ data.length ∧ li = lineBreaks (data.take p) ∧
  ls + (currentLine (data.take p)).length = p ∧
  ¬ ((data.take p).getLast? = some 13 ∧ (data.drop p).head? = some 10)

/-- The stream `s'` is the stream `s` moved forward over text without line breaks. -/
def Clean (s s' : MemoryMappedInputStream) : Prop :=
  s'.data = s.data ∧
  ∃ mid rest, s.Remaining = mid ++ rest ∧ s'._ptr = s._ptr + mid.length ∧
    ∀ c ∈ mid, c ≠ 13 ∧ c ≠ 10

/-- An element with a protected attribute value, a comment, a child element on a
line of its own behind CR LF, and a line feed at the end. -/
def linesDocument : List CharType := text "~A; k=<:( v):>\r\n\t~~ note\r\n\t~B\n"

/-- An element whose protected name holds a line feed. -/
def breakInName : List CharType := text "~<:(a\nb):> x"

/-- An element with a nested element of a protected name, followed by a line with a
stray protected postfix. -/
def strayPostfix : List CharType := text "~A\n ~<:(B):>\n x):>"

namespace InputStreamFormatter

/-- The line counter and the line start of the reader `r` fit its cursor in the
input `data`. -/
def Loc (data : List CharType) (r : InputStreamFormatter) : Prop :=
  r._stream.data = data ∧ At data r._stream._ptr r._lineIndex r._lineStart

/-- The invariant of the reader on a line-countable input `data` between the calls:
the counters fit the cursor, and the protected string mode is on only while a token
is primed right behind a protected prefix. -/
def LocInv (data : List CharType) (r : InputStreamFormatter) : Prop :=
  Loc data r ∧
  (r._protectedStringMode = true →
    r._primed ≠ .None ∧ ProtectedNamePrefix <:+ data.take r._stream._ptr)

/-- The invariant inside the scan of `PeekNext`: the counters fit the cursor, no
token is primed and the protected string mode is off. -/
def ScanInv (data : List CharType) (r : InputStreamFormatter) : Prop :=
  Loc data r ∧ r._primed = .None ∧ r._protectedStringMode = false

/-- What an iteration of the loop of `PeekNext` keeps of the invariants. -/
def peekLocPost (data : List CharType) :
    LoopStep InputStreamFormatter (Blob × InputStreamFormatter) → Prop
  | .next r' => ScanInv data r'
  | .done (_, r') => LocInv data r'

/-- Whether the reader call returns, rather than raises. -/
def returns (r : InputStreamFormatter) : ReaderOp → Bool
  | .PeekNext =>
    match r.PeekNext with
    | .ok _ => true
    | .error _ => false
  | .TryReadBeginElement =>
    match r.TryReadBeginElement with
    | .ok _ => true
    | .error _ => false
  | .TryReadAttribute =>
    match r.TryReadAttribute with
    | .ok _ => true
    | .error _ => false
  | .TryReadEndElement =>
    match r.TryReadEndElement with
    | .ok _ => true
    | .error _ => false

/-- The reader calls of a list, in order, up to the first one that raises: the
reader state after the last call that was made. -/
def runToRaise (r : InputStreamFormatter) : List ReaderOp → InputStreamFormatter
  | [] => r
  | op :: ops => if r.returns op then (r.call op).1.runToRaise ops else (r.call op).1

end InputStreamFormatter

namespace InputStreamFormatter

/-- Lines 336-344: what `PeekNext` does in front of its loop when no token is
primed.  The result is the state in which the loop starts. -/
def scanStart (r : InputStreamFormatter) : Result InputStreamFormatter :=
  if r._pendingHeader then do
    let (isHeader, s) ← r.onStream (TryEat r._stream HeaderPrefix)
    let r0 := { r with _stream := s }
    let r0 ← if isHeader then r0.ReadHeader else .ok r0
    .ok { r0 with _pendingHeader := false }
  else .ok r

/-- The loop of `PeekNext` gets from the state `r` to the state `r'` by iterations
that go on to the next one: the code units in between are skipped. -/
inductive Scans : InputStreamFormatter → InputStreamFormatter → Prop
  | here (r : InputStreamFormatter) : Scans r r
  | step (r r1 r2 : InputStreamFormatter) (c : CharType) (t : List CharType)
      (hrem : r._stream.Remaining = c :: t) (hstep : peekStep r c = .ok (.next r1))
      (rest : Scans r1 r2) : Scans r r2

end InputStreamFormatter

end Utility


namespace Utility
open FormatterConstants

/-! ## Bounds of the cursor -/

/-- Behind every comment marker of the input stand at least two more code units. -/
def CommentsFit (data : List CharType) : Prop :=
  ∀ p, p ≤ data.length → CommentPrefix <+: data.drop p → p + 4 ≤ data.length

instance (data : List CharType) : Decidable (CommentsFit data) := by
  unfold CommentsFit; infer_instance

/-- An exception other than a failing assertion. -/
def NoAssert (e : Error) : Prop := e ≠ .assertion

namespace InputStreamFormatter

/-- The reader `r` reads the input `data` and its cursor is inside it. -/
def Bounded (data : List CharType) (r : InputStreamFormatter) : Prop :=
  r._stream.data = data ∧ r._stream._ptr ≤ data.length

/-- What the reader call raises, when it raises. -/
def raised (r : InputStreamFormatter) : ReaderOp → Option Error
  | .PeekNext =>
    match r.PeekNext with
    | .ok _ => none
    | .error (e, _) => some e
  | .TryReadBeginElement =>
    match r.TryReadBeginElement with
    | .ok _ => none
    | .error (e, _) => some e
  | .TryReadAttribute =>
    match r.TryReadAttribute with
    | .ok _ => none
    | .error (e, _) => some e
  | .TryReadEndElement =>
    match r.TryReadEndElement with
    | .ok _ => none
    | .error (e, _) => some e

end InputStreamFormatter

end Utility


namespace Utility
open FormatterConstants

/-! ## IsSimpleString -/

theorem FormattingChar_iff (c : CharType) :
    FormattingChar c = true ↔ c ∈ [126, 59, 61, 13, 10, 0] := by
  simp [FormattingChar, or_assoc]

theorem WhitespaceChar_iff (c : CharType) :
    WhitespaceChar c = true ↔ c ∈ [32, 9, 11, 12, 133, 160, 0] := by
  simp [WhitespaceChar, or_assoc]

/-- The strings that `IsSimpleString` accepts, by their code units. -/
theorem isSimpleString_spec (s : List CharType) :
    IsSimpleString s = true ↔
      s ≠ [] ∧ (∀ c ∈ s, c ∉ [126, 59, 61, 13, 10, 0]) ∧
      (∀ c, s.head? = some c → c ∉ [32, 9, 11, 12, 133, 160, 0]) ∧
      (∀ c, s.getLast? = some c → c ∉ [32, 9, 11, 12, 133, 160, 0]) ∧
      s.head? ≠ some 60 := by
  cases s with
  | nil => simp [IsSimpleString]
  | cons a t =>
    have hfmt : (∀ c ∈ a :: t, c ∉ [126, 59, 61, 13, 10, 0]) ↔
        (a :: t).any FormattingChar = false := by
      rw [List.any_eq_false]
      constructor
      · intro h c hc
        have := h c hc
        rw [← FormattingChar_iff] at this
        simpa using this
      · intro h c hc
        rw [← FormattingChar_iff]
        simpa using h c hc
    have hlast : (a :: t).getLast? = some ((a :: t).getLastD a) := by
      cases t with
      | nil => rfl
      | cons b u => simp [List.getLast?_eq_getLast, List.getLastD]
    rw [hfmt, hlast]
    simp only [IsSimpleString, ProtectedNamePrefix, List.headD_cons, List.head?_cons,
      Option.some.injEq, ne_eq, reduceCtorEq, not_false_eq_true, true_and, forall_eq']
    rw [← WhitespaceChar_iff, ← WhitespaceChar_iff]
    by_cases h1 : (a :: t).any FormattingChar = true
    · simp [h1]
    · by_cases h2 : WhitespaceChar a = true
      · simp [h1, h2]
      · by_cases h3 : WhitespaceChar ((a :: t).getLastD a) = true
        · simp [h1, h2, h3]
        · by_cases h4 : a = 60
          · simp [h1, h2, h3, h4]
          · simp [h1, h2, h3, h4]


/-- C3: `IsSimpleString s` holds exactly when `s` is not empty, no code unit of `s`
is one of `~ ; = CR LF NUL`, the first and the last code unit of `s` are none of
space, tab, 0x0B, 0x0C, 0x85, 0xA0, NUL, and the first code unit is not `<`. -/
theorem isSimpleString_iff (s : List CharType) :
    IsSimpleString s = true ↔
      s ≠ [] ∧ (∀ c ∈ s, c ∉ [126, 59, 61, 13, 10, 0]) ∧
      (∀ c, s.head? = some c → c ∉ [32, 9, 11, 12, 133, 160, 0]) ∧
      (∀ c, s.getLast? = some c → c ∉ [32, 9, 11, 12, 133, 160, 0]) ∧
      s.head? ≠ some 60 :=
  isSimpleString_spec s

end Utility


namespace Utility
open FormatterConstants

/-! ## The read cursor -/

namespace MemoryMappedInputStream

theorem length_Remaining (s : MemoryMappedInputStream) :
    s.Remaining.length = s.RemainingBytes := by
  simp [Remaining, RemainingBytes, End]

theorem ptr_add_le (s : MemoryMappedInputStream) (n : Nat) (h : n ≤ s.Remaining.length) :
    s._ptr + n ≤ s.data.length ∨ n = 0 := by
  rw [length_Remaining] at h
  simp only [RemainingBytes, End] at h
  omega

theorem ptr_le_of_Remaining_ne_nil (s : MemoryMappedInputStream) (h : s.Remaining ≠ []) :
    s._ptr < s.data.length := by
  by_contra hc
  apply h
  simp only [Remaining]
  exact List.drop_eq_nil_of_le (by omega)

theorem Remaining_advance (s : MemoryMappedInputStream) (a b : List CharType)
    (h : s.Remaining = a ++ b) :
    ({ s with _ptr := s._ptr + a.length } : MemoryMappedInputStream).Remaining = b := by
  simp only [Remaining] at h ⊢
  rw [← List.drop_drop, h, List.drop_left]

theorem Remaining_advance_one (s : MemoryMappedInputStream) (a : CharType) (b : List CharType)
    (h : s.Remaining = a :: b) :
    ({ s with _ptr := s._ptr + 1 } : MemoryMappedInputStream).Remaining = b :=
  Remaining_advance s [a] b h

theorem Remaining_mk (data : List CharType) (p : Nat) :
    (MemoryMappedInputStream.mk data p).Remaining = data.drop p := rfl

theorem MovePointer_ok (s : MemoryMappedInputStream) (a b : List CharType)
    (h : s.Remaining = a ++ b) (ha : a ≠ []) :
    s.MovePointer a.length = .ok { s with _ptr := s._ptr + a.length } := by
  have hl := length_Remaining s
  rw [h] at hl
  simp only [RemainingBytes, End, List.length_append] at hl
  have hpos : 0 < a.length := List.length_pos.mpr ha
  have : s._ptr + a.length ≤ s.data.length := by omega
  simp [MovePointer, End, this]

theorem MovePointer_one (s : MemoryMappedInputStream) (a : CharType) (b : List CharType)
    (h : s.Remaining = a :: b) :
    s.MovePointer 1 = .ok { s with _ptr := s._ptr + 1 } :=
  MovePointer_ok s [a] b h (by simp)

theorem SetPointer_ok (s : MemoryMappedInputStream) (a b : List CharType)
    (h : s.Remaining = a ++ b) (hv : s._ptr ≤ s.data.length) :
    s.SetPointer (s._ptr + a.length) = .ok { s with _ptr := s._ptr + a.length } := by
  have hl := length_Remaining s
  rw [h] at hl
  simp only [RemainingBytes, End, List.length_append] at hl
  have : s._ptr + a.length ≤ s.data.length := by omega
  simp [SetPointer, End, this]

theorem content_of_Remaining (s : MemoryMappedInputStream) (a b : List CharType)
    (h : s.Remaining = a ++ b) :
    InteriorSection.content { _start := s._ptr, _end := s._ptr + a.length } s.data = a := by
  simp only [Remaining] at h
  simp [InteriorSection.content, h]

end MemoryMappedInputStream

/-! ## TryEat -/

theorem TryEat_prefix (st : MemoryMappedInputStream) (pat rest : List CharType)
    (h : st.Remaining = pat ++ rest) (hp : pat ≠ []) :
    TryEat st pat = .ok (true, { st with _ptr := st._ptr + pat.length }) := by
  have hl := st.length_Remaining
  rw [h] at hl
  simp only [List.length_append] at hl
  have h1 : ¬ st.RemainingBytes < pat.length := by omega
  simp only [TryEat, h1, if_false, h, List.take_left', ne_eq, not_true_eq_false]
  rw [st.MovePointer_ok pat rest h hp]
  rfl

theorem TryEat_fail (st : MemoryMappedInputStream) (pat : List CharType)
    (h : ¬ pat <+: st.Remaining) :
    TryEat st pat = .ok (false, st) := by
  simp only [TryEat]
  split
  · rfl
  · split
    · rfl
    · rename_i h1 h2
      exfalso
      apply h
      simp only [ne_eq, Decidable.not_not] at h2
      rw [← h2]
      exact List.take_prefix _ _

theorem TryEat_fail_head (st : MemoryMappedInputStream) (p : CharType) (pat : List CharType)
    (h : st.Remaining.head? ≠ some p) :
    TryEat st (p :: pat) = .ok (false, st) := by
  apply TryEat_fail
  intro hpre
  obtain ⟨t, ht⟩ := hpre
  rw [← ht] at h
  simp at h

/-! ## ReadToStringEnd -/

theorem scanUnprotected_stop (rest : List CharType) (h : StopsScan rest) (ptr se : Nat) :
    scanUnprotected rest ptr se = (ptr, se) := by
  rcases h with rfl | ⟨c, t, rfl, hc⟩
  · rfl
  · simp [scanUnprotected, hc]

theorem scanUnprotected_append (s rest : List CharType)
    (hs : ∀ c ∈ s, FormattingChar c = false) (l : CharType) (hl : s.getLast? = some l)
    (hw : WhitespaceChar l = false) (ptr se : Nat) :
    scanUnprotected (s ++ rest) ptr se =
      scanUnprotected rest (ptr + s.length) (ptr + s.length) := by
  induction s generalizing ptr se with
  | nil => simp at hl
  | cons a t ih =>
    have ha : FormattingChar a = false := hs a (by simp)
    cases t with
    | nil =>
      simp only [List.getLast?_singleton, Option.some.injEq] at hl
      subst hl
      simp [scanUnprotected, ha, hw]
    | cons b u =>
      have hl2 : (b :: u).getLast? = some l := by
        rw [List.getLast?_cons_cons] at hl; exact hl
      have hs2 : ∀ c ∈ b :: u, FormattingChar c = false := fun c hc => hs c (by simp [hc])
      have e : ∀ se2, scanUnprotected (b :: u ++ rest) (ptr + 1) se2 =
          scanUnprotected rest (ptr + (a :: b :: u).length) (ptr + (a :: b :: u).length) := by
        intro se2
        rw [ih hs2 hl2 (ptr + 1) se2]
        simp only [List.length_cons]
        congr 1 <;> omega
      show scanUnprotected (a :: (b :: u ++ rest)) ptr se = _
      rw [scanUnprotected]
      simp only [ha, Bool.false_eq_true, if_false]
      split
      · exact e _
      · exact e _

theorem isSimpleString_facts (s : List CharType) (h : IsSimpleString s = true) :
    (∀ c ∈ s, FormattingChar c = false) ∧
    (∃ l, s.getLast? = some l ∧ WhitespaceChar l = false) ∧
    s.head? ≠ some 60 ∧ s ≠ [] ∧ (∃ a, s.head? = some a ∧ WhitespaceChar a = false) := by
  rw [isSimpleString_spec] at h
  obtain ⟨h0, h1, h2, h3, h4⟩ := h
  refine ⟨?_, ?_, h4, h0, ?_⟩
  · intro c hc
    have := h1 c hc
    rw [← FormattingChar_iff] at this
    simpa using this
  · obtain ⟨l, hl⟩ : ∃ l, s.getLast? = some l := by
      cases hh : s.getLast? with
      | none => simp at hh; exact absurd hh h0
      | some l => exact ⟨l, rfl⟩
    refine ⟨l, hl, ?_⟩
    have := h3 l hl
    rw [← WhitespaceChar_iff] at this
    simpa using this
  · cases s with
    | nil => exact absurd rfl h0
    | cons a t =>
      refine ⟨a, rfl, ?_⟩
      have := h2 a rfl
      rw [← WhitespaceChar_iff] at this
      simpa using this

theorem ReadToStringEnd_bare (st : MemoryMappedInputStream) (s rest : List CharType)
    (loc : StreamLocation) (h : st.Remaining = s ++ rest) (hs : IsSimpleString s = true)
    (hrest : StopsScan rest) :
    ReadToStringEnd st false loc =
      .ok (st._ptr + s.length, { st with _ptr := st._ptr + s.length }) := by
  obtain ⟨h1, ⟨l, hl, hw⟩, _, hne, _⟩ := isSimpleString_facts s hs
  have hv : st._ptr ≤ st.data.length := by
    have := st.ptr_le_of_Remaining_ne_nil (by rw [h]; simp [hne])
    omega
  simp only [ReadToStringEnd, Bool.false_eq_true, if_false, h,
    MemoryMappedInputStream.ReadPointer]
  rw [scanUnprotected_append s rest h1 l hl hw, scanUnprotected_stop rest hrest]
  simp only []
  rw [st.SetPointer_ok s rest h hv]
  rfl

theorem scanProtected_append (s rest : List CharType)
    (hs : ¬ ProtectedNamePostfix <:+: s) (ptr : Nat) :
    scanProtected (s ++ ProtectedNamePostfix ++ rest) ptr = some (ptr + s.length) := by
  induction s generalizing ptr with
  | nil => simp [scanProtected, ProtectedNamePostfix]
  | cons a t ih =>
    have ht : ¬ ProtectedNamePostfix <:+: t := fun hc =>
      hs (List.IsInfix.trans hc (List.suffix_cons a t).isInfix)
    have hne : List.take ProtectedNamePostfix.length (a :: t ++ ProtectedNamePostfix ++ rest)
        ≠ ProtectedNamePostfix := by
      intro hc
      match t, hs with
      | [], _ => simp [ProtectedNamePostfix] at hc
      | [b], _ => simp [ProtectedNamePostfix] at hc
      | b :: c :: u, hs =>
        apply hs
        simp only [ProtectedNamePostfix, List.length_cons, List.length_nil, List.cons_append,
          List.take_succ_cons, List.take_zero] at hc
        rw [ProtectedNamePostfix, ← hc]
        exact ⟨[], u, by simp⟩
    have hlen : ¬ (a :: (t ++ ProtectedNamePostfix ++ rest)).length
        < ProtectedNamePostfix.length := by
      simp [ProtectedNamePostfix]
      omega
    show scanProtected (a :: (t ++ ProtectedNamePostfix ++ rest)) ptr = _
    rw [scanProtected]
    simp only [hlen, if_false]
    rw [if_neg (by simpa using hne), ih ht]
    simp only [List.length_cons]
    congr 1; omega

theorem ReadToStringEnd_protected (st : MemoryMappedInputStream) (s rest : List CharType)
    (loc : StreamLocation) (h : st.Remaining = s ++ ProtectedNamePostfix ++ rest)
    (hs : ¬ ProtectedNamePostfix <:+: s) :
    ReadToStringEnd st true loc =
      .ok (st._ptr + s.length,
           { st with _ptr := st._ptr + (s ++ ProtectedNamePostfix).length }) := by
  have hv : st._ptr ≤ st.data.length := by
    have := st.ptr_le_of_Remaining_ne_nil (by rw [h]; simp [ProtectedNamePostfix])
    omega
  simp only [ReadToStringEnd, if_true, h, MemoryMappedInputStream.ReadPointer]
  rw [scanProtected_append s rest hs]
  simp only []
  have := st.SetPointer_ok (s ++ ProtectedNamePostfix) rest h hv
  simp only [List.length_append, ← Nat.add_assoc] at this ⊢
  rw [this]
  rfl

end Utility


namespace Utility
open FormatterConstants

/-! ## The written form and reading it back -/

theorem isSimpleString_eq_not_guarded (s : List CharType) :
    IsSimpleString s = !(hasUnsafeFeature s || s.head? == some 60) := by
  cases s with
  | nil => simp [IsSimpleString, hasUnsafeFeature]
  | cons a t =>
    have hlast : (a :: t).getLast? = some ((a :: t).getLastD a) := by
      cases t with
      | nil => rfl
      | cons b u => simp [List.getLast?_eq_getLast, List.getLastD]
    simp only [IsSimpleString, hasUnsafeFeature, hlast, ProtectedNamePrefix, List.headD_cons,
      List.head?_cons, Option.map_some', Option.getD_some, List.isEmpty_cons, Bool.false_or]
    cases h1 : (a :: t).any FormattingChar <;> cases h2 : WhitespaceChar a <;>
      cases h3 : WhitespaceChar ((a :: t).getLastD a) <;> by_cases h4 : a = 60 <;>
      simp [h4]

theorem writtenForm_eq_guarded (s : List CharType) : writtenForm s = guardedWrittenForm s := by
  simp only [writtenForm, guardedWrittenForm, isSimpleString_eq_not_guarded]
  cases (hasUnsafeFeature s || s.head? == some 60) <;> simp

theorem WriteNameOrValue_stream (w : OutputStreamFormatter) (s : List CharType) :
    (w.WriteNameOrValue s)._stream = w._stream ++ writtenForm s := by
  simp only [OutputStreamFormatter.WriteNameOrValue, writtenForm]
  split <;> simp [OutputStreamFormatter.WriteConst]

theorem DoNewLine_spec (w w1 : OutputStreamFormatter) (h : w.DoNewLine = .ok w1) :
    w1._stream = w._stream ++ w.newLineText ∧
    w1._currentIndentLevel = w._currentIndentLevel ∧ w1._hotLine = false ∧
    w1._pendingHeader = false ∧ w1.checkElements = w.checkElements ∧
    w1._elementStack = w._elementStack ∧ w1._nextElementId = w._nextElementId ∧
    (w._pendingHeader = true ∨ w._hotLine = true →
      w._currentIndentLevel ≤ OutputStreamFormatter.tabBufferSize) := by
  cases hp : w._pendingHeader <;> cases hh : w._hotLine <;>
    simp only [OutputStreamFormatter.DoNewLine, hp, hh, OutputStreamFormatter.WriteConst,
      if_true, if_false, Bool.false_eq_true] at h
  · cases h
    simp [OutputStreamFormatter.newLineText, hp, hh]
  · split at h
    · cases h
    · rename_i hle
      cases h
      simp [OutputStreamFormatter.newLineText, hp, hh]
      omega
  · split at h
    · cases h
    · rename_i hle
      cases h
      simp [OutputStreamFormatter.newLineText, hp, hh]
      omega
  · split at h
    · cases h
    · rename_i hle
      cases h
      simp [OutputStreamFormatter.newLineText, hp, hh]
      omega

@[simp] theorem WriteNameOrValue_indent (w : OutputStreamFormatter) (s : List CharType) :
    (w.WriteNameOrValue s)._currentIndentLevel = w._currentIndentLevel := by
  simp only [OutputStreamFormatter.WriteNameOrValue]
  split <;> simp [OutputStreamFormatter.WriteConst]

@[simp] theorem WriteNameOrValue_hotLine (w : OutputStreamFormatter) (s : List CharType) :
    (w.WriteNameOrValue s)._hotLine = w._hotLine := by
  simp only [OutputStreamFormatter.WriteNameOrValue]
  split <;> simp [OutputStreamFormatter.WriteConst]

@[simp] theorem WriteNameOrValue_pendingHeader (w : OutputStreamFormatter) (s : List CharType) :
    (w.WriteNameOrValue s)._pendingHeader = w._pendingHeader := by
  simp only [OutputStreamFormatter.WriteNameOrValue]
  split <;> simp [OutputStreamFormatter.WriteConst]

@[simp] theorem WriteNameOrValue_checkElements (w : OutputStreamFormatter) (s : List CharType) :
    (w.WriteNameOrValue s).checkElements = w.checkElements := by
  simp only [OutputStreamFormatter.WriteNameOrValue]
  split <;> simp [OutputStreamFormatter.WriteConst]

@[simp] theorem WriteNameOrValue_elementStack (w : OutputStreamFormatter) (s : List CharType) :
    (w.WriteNameOrValue s)._elementStack = w._elementStack := by
  simp only [OutputStreamFormatter.WriteNameOrValue]
  split <;> simp [OutputStreamFormatter.WriteConst]

@[simp] theorem WriteNameOrValue_nextElementId (w : OutputStreamFormatter) (s : List CharType) :
    (w.WriteNameOrValue s)._nextElementId = w._nextElementId := by
  simp only [OutputStreamFormatter.WriteNameOrValue]
  split <;> simp [OutputStreamFormatter.WriteConst]

theorem BeginElement_spec (w w' : OutputStreamFormatter) (name : List CharType) (id : Nat)
    (h : w.BeginElement name = .ok (id, w')) :
    name ≠ [] ∧
    w'._stream = w._stream ++ w.beginText ++ [ElementPrefix] ++ writtenForm name ∧
    w'._currentIndentLevel = w._currentIndentLevel + 1 ∧ w'._hotLine = true ∧
    w'._pendingHeader = false ∧ w'.checkElements = w.checkElements ∧
    w._currentIndentLevel ≤ OutputStreamFormatter.tabBufferSize := by
  simp only [OutputStreamFormatter.BeginElement, bind, Except.bind] at h
  cases h1 : w.DoNewLine with
  | error e => rw [h1] at h; cases h
  | ok w1 =>
    rw [h1] at h
    simp only [] at h
    cases h2 : OutputStreamFormatter.DoNewLine { w1 with _hotLine := true } with
    | error e => rw [h2] at h; cases h
    | ok w2 =>
      rw [h2] at h
      simp only [] at h
      obtain ⟨a1, a2, a3, a4, a5, a6, a7, a8⟩ := DoNewLine_spec w w1 h1
      obtain ⟨b1, b2, b3, b4, b5, b6, b7, b8⟩ := DoNewLine_spec _ w2 h2
      simp only [true_or, or_true, forall_true_left] at b8
      simp only [OutputStreamFormatter.newLineText, a4, Bool.false_eq_true, if_false,
        List.nil_append, Bool.false_or, if_true] at b1
      have hne : name ≠ [] := by
        intro hc
        subst hc
        simp at h
      have hlen : name.length > 0 := List.length_pos.mpr hne
      simp only [hlen, not_true_eq_false, if_false] at h
      refine ⟨hne, ?_⟩
      split at h <;> cases h <;>
        simp [WriteNameOrValue_stream, b1, b2, b4, b5, a1, a2, a5,
          OutputStreamFormatter.beginText, List.append_assoc] <;>
        omega

theorem WriteAttribute_spec (w w' : OutputStreamFormatter) (name value : List CharType)
    (h : w.WriteAttribute name value = .ok w') :
    w'._stream = w._stream ++ w.attributeSeparator name value ++ writtenForm name ++ [61] ++
      writtenForm value ∧
    w'._currentIndentLevel = w._currentIndentLevel ∧ w'._hotLine = true ∧
    w'._pendingHeader = (if w.forcesNewLine name value then false else w._pendingHeader) ∧
    w'.checkElements = w.checkElements ∧
    (w.forcesNewLine name value = true → (w._pendingHeader = true ∨ w._hotLine = true) →
      w._currentIndentLevel ≤ OutputStreamFormatter.tabBufferSize) := by
  simp only [OutputStreamFormatter.WriteAttribute, bind, Except.bind] at h
  by_cases hf : w.forcesNewLine name value = true
  · have hf2 := hf
    simp only [OutputStreamFormatter.forcesNewLine, decide_eq_true_eq] at hf2
    simp only [hf2, decide_True, if_true] at h
    cases h1 : w.DoNewLine with
    | error e => rw [h1] at h; cases h
    | ok w1 =>
      rw [h1] at h
      simp only [] at h
      obtain ⟨a1, a2, a3, a4, a5, a6, a7, a8⟩ := DoNewLine_spec w w1 h1
      cases h
      simp [WriteNameOrValue_stream, a1, a2, a4, a5, hf, OutputStreamFormatter.attributeSeparator,
        List.append_assoc]
      intro hh
      exact a8 (by simpa using hh)
  · have hf2 := hf
    simp only [OutputStreamFormatter.forcesNewLine, decide_eq_true_eq] at hf2
    simp only [hf2, decide_False, Bool.false_eq_true, if_false] at h
    cases hh : w._hotLine <;> simp only [hh, if_true, if_false, Bool.false_eq_true] at h <;>
      cases h <;>
      simp [WriteNameOrValue_stream, hf, hh, OutputStreamFormatter.attributeSeparator,
        List.append_assoc]

theorem EndElement_spec (w w' : OutputStreamFormatter) (id : Nat)
    (h : w.EndElement id = .ok w') :
    w'._stream = w._stream ∧ w'._currentIndentLevel + 1 = w._currentIndentLevel ∧
    w'._hotLine = w._hotLine ∧ w'._pendingHeader = w._pendingHeader ∧
    w'.checkElements = w.checkElements ∧ w'._currentLineLength = w._currentLineLength := by
  simp only [OutputStreamFormatter.EndElement] at h
  split at h
  · cases h
  · rename_i h0
    split at h
    · split at h
      · cases h
      · split at h
        · cases h
        · cases h
          simp
          omega
    · cases h
      simp
      omega

end Utility


namespace Utility
open FormatterConstants

theorem apply_payload (w w' : OutputStreamFormatter) (op : WriterOp)
    (h : w.apply op = .ok w') :
    ∃ sep, w'._stream = w._stream ++ sep ++ op.payload writtenForm := by
  cases op with
  | BeginElement name =>
    simp only [OutputStreamFormatter.apply, bind, Except.bind] at h
    cases h1 : w.BeginElement name with
    | error e => rw [h1] at h; cases h
    | ok r =>
      obtain ⟨id, w1⟩ := r
      rw [h1] at h
      cases h
      obtain ⟨_, hs, _⟩ := BeginElement_spec w w1 name id h1
      exact ⟨w.beginText, by rw [hs]; simp [WriterOp.payload]⟩
  | WriteAttribute name value =>
    obtain ⟨hs, _⟩ := WriteAttribute_spec w w' name value h
    exact ⟨w.attributeSeparator name value, by rw [hs]; simp [WriterOp.payload]⟩
  | EndElement id =>
    obtain ⟨hs, _⟩ := EndElement_spec w w' id h
    exact ⟨[], by rw [hs]; simp [WriterOp.payload]⟩

/-- C4 (amended): every writer call that does not raise ends its output with the
payload of the call (the element marker and the name, or name `=` value), in which a
name or value is wrapped in `<:(` ... `):>` when it is empty, begins or ends with
whitespace, holds a structural character or begins with `<`, and is written bare, code
unit for code unit, in every other case. -/
theorem written_form_guarded (w w' : OutputStreamFormatter) (op : WriterOp)
    (h : w.apply op = .ok w') :
    ∃ sep, w'._stream = w._stream ++ sep ++ op.payload guardedWrittenForm := by
  have e : guardedWrittenForm = writtenForm := by
    funext s; exact (writtenForm_eq_guarded s).symm
  rw [e]
  exact apply_payload w w' op h

/-- C4, witness: the attribute `<a` = ` b` on a fresh writer. -/
theorem written_form_guarded_witness :
    ∃ sep, (text "<:(<a):>=<:( b):>") =
      (OutputStreamFormatter.fresh false 0)._stream ++ sep ++
        (WriterOp.WriteAttribute (text "<a") (text " b")).payload guardedWrittenForm :=
  written_form_guarded (OutputStreamFormatter.fresh false 0)
    { _stream := text "<:(<a):>=<:( b):>", _currentIndentLevel := 0, _hotLine := true,
      _currentLineLength := 17, _pendingHeader := true, checkElements := false,
      _elementStack := [], _nextElementId := 0 }
    (.WriteAttribute (text "<a") (text " b")) (by rfl)

/-- C4, counterexample: the name `<a` has none of the features the claim lists
(it is not empty, neither end is whitespace, it holds no structural character) and
the writer still wraps it, so the output does not end with the bare name. -/
theorem written_form_spec_counterexample :
    ¬ (∀ (w w' : OutputStreamFormatter) (op : WriterOp), w.apply op = .ok w' →
        ∃ sep, w'._stream = w._stream ++ sep ++ op.payload specWrittenForm) := by
  intro hall
  obtain ⟨sep, hsep⟩ := hall (OutputStreamFormatter.fresh false 0)
    { _stream := text "<:(<a):>=1", _currentIndentLevel := 0, _hotLine := true,
      _currentLineLength := 10, _pendingHeader := true, checkElements := false,
      _elementStack := [], _nextElementId := 0 }
    (.WriteAttribute (text "<a") (text "1")) (by rfl)
  have hp : (WriterOp.WriteAttribute (text "<a") (text "1")).payload specWrittenForm
      = [60, 97, 61, 49] := by decide
  rw [hp] at hsep
  have := congrArg List.reverse hsep
  simp [text, OutputStreamFormatter.fresh] at this

theorem readSection_writtenForm (st : MemoryMappedInputStream) (s rest : List CharType)
    (loc : StreamLocation) (h : st.Remaining = writtenForm s ++ rest)
    (hs : IsSimpleString s = true ∨ ¬ ProtectedNamePostfix <:+: s)
    (hrest : IsSimpleString s = true → StopsScan rest) :
    ∃ sec, readSection st loc =
        .ok (sec, { st with _ptr := st._ptr + (writtenForm s).length }) ∧
      sec.content st.data = s := by
  by_cases hsimple : IsSimpleString s = true
  · simp only [writtenForm, hsimple, if_true] at h ⊢
    obtain ⟨_, _, hhead, hne, _⟩ := isSimpleString_facts s hsimple
    have hte : TryEat st ProtectedNamePrefix = .ok (false, st) := by
      apply TryEat_fail_head
      rw [h]
      cases s with
      | nil => exact absurd rfl hne
      | cons a t => simpa using hhead
    refine ⟨{ _start := st._ptr, _end := st._ptr + s.length }, ?_, ?_⟩
    · simp only [readSection, hte, bind, Except.bind,
        ReadToStringEnd_bare st s rest loc h hsimple (hrest hsimple),
        MemoryMappedInputStream.ReadPointer]
    · exact st.content_of_Remaining s rest h
  · have hinf : ¬ ProtectedNamePostfix <:+: s := by
      rcases hs with hs | hs
      · exact absurd hs hsimple
      · exact hs
    simp only [writtenForm, hsimple, Bool.false_eq_true, if_false] at h ⊢
    have h' : st.Remaining = ProtectedNamePrefix ++ (s ++ ProtectedNamePostfix ++ rest) := by
      rw [h]; simp [List.append_assoc]
    have hte := TryEat_prefix st ProtectedNamePrefix _ h' (by simp [ProtectedNamePrefix])
    have hrem := st.Remaining_advance ProtectedNamePrefix _ h'
    have hrd := ReadToStringEnd_protected _ s rest loc hrem hinf
    refine ⟨{ _start := st._ptr + ProtectedNamePrefix.length,
              _end := st._ptr + ProtectedNamePrefix.length + s.length }, ?_, ?_⟩
    · simp only [readSection, hte, bind, Except.bind, hrd,
        MemoryMappedInputStream.ReadPointer]
      simp [Nat.add_assoc]
    · have := MemoryMappedInputStream.content_of_Remaining _ s (ProtectedNamePostfix ++ rest)
        (by rw [hrem]; simp [List.append_assoc])
      simpa using this

/-- C5 (amended): for every string `s` that is simple or does not hold `):>`, when
the read pointer stands at the form the writer emits for `s` (bare if
`IsSimpleString s`, else `<:(` `s` `):>`), followed in the bare case by a formatting
character or the end of the input, the section the reader delimits (mode chosen by
`TryEat` of the prefix, then `ReadToStringEnd`) holds exactly `s`, and the read
pointer is left behind the written form. -/
theorem read_written_form (st : MemoryMappedInputStream) (s rest : List CharType)
    (loc : StreamLocation) (h : st.Remaining = writtenForm s ++ rest)
    (hs : IsSimpleString s = true ∨ ¬ ProtectedNamePostfix <:+: s)
    (hrest : StopsScan rest) :
    ∃ sec st', readSection st loc = .ok (sec, st') ∧ sec.content st.data = s ∧
      st'.data = st.data ∧ st'._ptr = st._ptr + (writtenForm s).length := by
  obtain ⟨sec, h1, h2⟩ := readSection_writtenForm st s rest loc h hs (fun _ => hrest)
  exact ⟨sec, _, h1, h2, rfl, rfl⟩

/-- C5, witness: the protected string ` x;` in front of `=1`. -/
theorem read_written_form_witness :
    ∃ sec st', readSection (MemoryMappedInputStream.mk0 (text "<:( x;):>=1"))
        { _charIndex := 1, _lineIndex := 1 } = .ok (sec, st') ∧
      sec.content (text "<:( x;):>=1") = text " x;" ∧
      st'.data = text "<:( x;):>=1" ∧ st'._ptr = 0 + (writtenForm (text " x;")).length :=
  read_written_form (MemoryMappedInputStream.mk0 (text "<:( x;):>=1")) (text " x;") (text "=1")
    { _charIndex := 1, _lineIndex := 1 } (by decide) (Or.inr (by decide))
    (Or.inr ⟨61, [49], by decide, by decide⟩)

/-- C5, counterexample: the string ` ):>` begins with a space, so the writer emits
`<:( ):>):>`; the reader stops at the first `):>` and delivers ` ` alone. -/
theorem read_written_form_counterexample :
    writtenForm (text " ):>") = text "<:( ):>):>" ∧
    sectionRead (writtenForm (text " ):>")) = some (text " ") ∧
    text " " ≠ text " ):>" := by
  decide

end Utility


namespace Utility
open FormatterConstants

/-! ## Exceptions -/

theorem Except.bind_eq_ok {ε α β : Type} (x : Except ε α) (f : α → Except ε β) (y : β) :
    (x >>= f) = .ok y ↔ ∃ a, x = .ok a ∧ f a = .ok y := by
  cases x with
  | error e => simp [bind, Except.bind]
  | ok a => simp [bind, Except.bind]

theorem Except.bind_eq_error {ε α β : Type} (x : Except ε α) (f : α → Except ε β) (e : ε) :
    (x >>= f) = .error e ↔ x = .error e ∨ ∃ a, x = .ok a ∧ f a = .error e := by
  cases x with
  | error e => simp [bind, Except.bind]
  | ok a => simp [bind, Except.bind]

namespace MemoryMappedInputStream

theorem MovePointer_eq_ok (s s' : MemoryMappedInputStream) (n : Nat) :
    s.MovePointer n = .ok s' ↔ s._ptr + n ≤ s.data.length ∧ s' = { s with _ptr := s._ptr + n } := by
  simp only [MovePointer, End]
  split <;> simp_all [eq_comm]

theorem SetPointer_eq_ok (s s' : MemoryMappedInputStream) (n : Nat) :
    s.SetPointer n = .ok s' ↔ n ≤ s.data.length ∧ s' = { s with _ptr := n } := by
  simp only [SetPointer, End]
  split <;> simp_all [eq_comm]

end MemoryMappedInputStream

theorem TryEat_eq_ok (st st' : MemoryMappedInputStream) (pat : List CharType) (b : Bool)
    (h : TryEat st pat = .ok (b, st')) :
    st'.data = st.data ∧ st._ptr ≤ st'._ptr ∧
      (b = true → st'._ptr = st._ptr + pat.length ∧ st'._ptr ≤ st.data.length) ∧
      (b = false → st' = st) := by
  simp only [TryEat] at h
  split at h
  · cases h; simp
  · split at h
    · cases h; simp
    · rw [Except.bind_eq_ok] at h
      obtain ⟨a, h1, h2⟩ := h
      rw [MemoryMappedInputStream.MovePointer_eq_ok] at h1
      cases h2
      obtain ⟨h3, rfl⟩ := h1
      simp
      exact h3

namespace InputStreamFormatter

theorem onStream_eq_ok {α : Type} (r : InputStreamFormatter) (x : Except Error α) (a : α) :
    r.onStream x = .ok a ↔ x = .ok a := by
  cases x <;> simp [onStream]

/-! ## PeekNext -/

theorem onStream_eq_error {α : Type} (r r' : InputStreamFormatter) (x : Except Error α)
    (e : Error) : r.onStream x = .error (e, r') ↔ x = .error e ∧ r' = r := by
  cases x <;> simp [onStream, eq_comm]

theorem Frame.frame_refl (r : InputStreamFormatter) : Frame r r := by
  simp [Frame]

theorem Frame.frame_trans {r1 r2 r3 : InputStreamFormatter} (h1 : Frame r1 r2) (h2 : Frame r2 r3) :
    Frame r1 r3 := by
  obtain ⟨a1, a2, a3, a4, a5, a6, a7⟩ := h1
  obtain ⟨b1, b2, b3, b4, b5, b6, b7⟩ := h2
  exact ⟨b1.trans a1, b2.trans a2, b3.trans a3, b4.trans a4, a5.trans b5,
    fun h => b6 (a6 h), fun h => b7 (a7 h)⟩

theorem char_cases (c : CharType) :
    c = 9 ∨ c = 32 ∨ (c = 0x0B ∨ c = 0x0C ∨ c = 0x85 ∨ c = 0xA0) ∨ c = 13 ∨ c = 10 ∨ c = 59 ∨
      c = 61 ∨ c = 126 ∨ PlainChar c := by
  unfold PlainChar
  tauto

theorem peekStep_tab (r : InputStreamFormatter) :
    peekStep r 9 = (do
      let s ← r.onStream (r._stream.MovePointer 1)
      .ok (.next { r with _stream := s,
                          _activeLineSpaces :=
                            CeilToMultiple (r._activeLineSpaces + 1) r._tabWidth })) := rfl

theorem peekStep_space (r : InputStreamFormatter) :
    peekStep r 32 = (do
      let s ← r.onStream (r._stream.MovePointer 1)
      .ok (.next { r with _stream := s, _activeLineSpaces := r._activeLineSpaces + 1 })) := rfl

theorem peekStep_extended (r : InputStreamFormatter) (c : CharType)
    (h : c = 0x0B ∨ c = 0x0C ∨ c = 0x85 ∨ c = 0xA0) :
    peekStep r c = .error (.format .unsupportedWhiteSpace r.GetLocation, r) := by
  rcases h with rfl | rfl | rfl | rfl <;> rfl

theorem peekStep_cr (r : InputStreamFormatter) :
    peekStep r 13 = (do
      let s1 ← r.onStream (r._stream.MovePointer 1)
      let r1 := { r with _stream := s1 }
      let s2 ←
        if r1._stream.RemainingBytes > 1 ∧ r1._stream.Remaining.head? = some 10 then
          r1.onStream (r1._stream.MovePointer 1)
        else .ok r1._stream
      .ok (.next { r1 with _stream := s2, _activeLineSpaces := 0,
                           _lineIndex := u32 (r1._lineIndex + 1),
                           _lineStart := s2.ReadPointer })) := rfl

theorem peekStep_lf (r : InputStreamFormatter) :
    peekStep r 10 = (do
      let s ← r.onStream (r._stream.MovePointer 1)
      .ok (.next { r with _stream := s, _activeLineSpaces := 0,
                          _lineIndex := u32 (r._lineIndex + 1),
                          _lineStart := s.ReadPointer })) := rfl

theorem peekStep_semicolon (r : InputStreamFormatter) :
    peekStep r 59 = (do
      let s ← r.onStream (r._stream.MovePointer 1)
      .ok (.next { r with _stream := s })) := rfl

theorem peekStep_assign (r : InputStreamFormatter) :
    peekStep r 61 = (do
      let s1 ← r.onStream (r._stream.MovePointer 1)
      let r1 := { r with _stream := s1 }
      let s2 ← r1.onStream (EatWhitespace r1._stream)
      let r2 := { r1 with _stream := s2 }
      let (p, s3) ← r2.onStream (TryEat r2._stream ProtectedNamePrefix)
      .ok (.done (.AttributeValue,
                  { r2 with _stream := s3, _protectedStringMode := p,
                            _primed := .AttributeValue }))) := rfl

theorem peekStep_marker (r : InputStreamFormatter) :
    peekStep r 126 = (do
      let (isComment, s1) ← r.onStream (TryEat r._stream CommentPrefix)
      let r1 := { r with _stream := s1 }
      if isComment then do
        let s2 ← r1.onStream (r1._stream.MovePointer 2)
        let r2 := { r1 with _stream := s2 }
        let s3 ← r2.onStream
          (r2._stream.SetPointer (skipToLineEnd r2._stream.Remaining r2._stream.ReadPointer))
        .ok (.next { r2 with _stream := s3 })
      else if r1._activeLineSpaces ≤ r1._parentBaseLine then
        .ok (.done (.EndElement,
                    { r1 with _protectedStringMode := false, _primed := .EndElement }))
      else do
        let s2 ← r1.onStream (r1._stream.MovePointer 1)
        let r2 := { r1 with _stream := s2 }
        let (p, s3) ← r2.onStream (TryEat r2._stream ProtectedNamePrefix)
        .ok (.done (.BeginElement,
                    { r2 with _stream := s3, _protectedStringMode := p,
                              _primed := .BeginElement }))) := rfl

theorem peekStep_plain (r : InputStreamFormatter) (c : CharType) (h : PlainChar c) :
    peekStep r c =
      (if r._activeLineSpaces ≤ r._parentBaseLine then
        .ok (.done (.EndElement,
                    { r with _protectedStringMode := false, _primed := .EndElement }))
      else do
        let (p, s) ← r.onStream (TryEat r._stream ProtectedNamePrefix)
        .ok (.done (.AttributeName,
                    { r with _stream := s, _protectedStringMode := p,
                             _primed := .AttributeName }))) := by
  obtain ⟨h1, h2, h3, h4, h5, h6, h7, h8, h9, h10, h11⟩ := h
  rw [peekStep, if_neg h1, if_neg h2, if_neg (by tauto), if_neg h7, if_neg h8, if_neg h9,
    if_neg h10, if_neg h11]

theorem peekStep_done (r r' : InputStreamFormatter) (c : CharType) (b : Blob)
    (h : peekStep r c = .ok (.done (b, r'))) : r'._primed = b ∧ b ≠ .None := by
  rcases char_cases c with rfl | rfl | hc | rfl | rfl | rfl | rfl | rfl | hc
  · rw [peekStep_tab] at h
    simp only [Except.bind_eq_ok, onStream_eq_ok, Except.ok.injEq, reduceCtorEq, and_false,
      exists_false] at h
  · rw [peekStep_space] at h
    simp only [Except.bind_eq_ok, onStream_eq_ok, Except.ok.injEq, reduceCtorEq, and_false,
      exists_false] at h
  · rw [peekStep_extended r c hc] at h
    cases h
  · rw [peekStep_cr] at h
    simp only [Except.bind_eq_ok, onStream_eq_ok] at h
    obtain ⟨a, _, h2⟩ := h
    split_ifs at h2 <;>
      simp only [Except.bind_eq_ok, onStream_eq_ok, Except.ok.injEq, reduceCtorEq, and_false,
        exists_false] at h2
  · rw [peekStep_lf] at h
    simp only [Except.bind_eq_ok, onStream_eq_ok, Except.ok.injEq, reduceCtorEq, and_false,
      exists_false] at h
  · rw [peekStep_semicolon] at h
    simp only [Except.bind_eq_ok, onStream_eq_ok, Except.ok.injEq, reduceCtorEq, and_false,
      exists_false] at h
  · rw [peekStep_assign] at h
    simp only [Except.bind_eq_ok, onStream_eq_ok, Except.ok.injEq, LoopStep.done.injEq,
      Prod.mk.injEq, Prod.exists] at h
    obtain ⟨_, _, _, _, _, _, _, rfl, rfl⟩ := h
    simp
  · rw [peekStep_marker] at h
    simp only [Except.bind_eq_ok, onStream_eq_ok, Prod.exists] at h
    obtain ⟨x, y, h1, h2⟩ := h
    split_ifs at h2
    · simp only [Except.bind_eq_ok, onStream_eq_ok, Except.ok.injEq, reduceCtorEq, and_false,
        exists_false] at h2
    · simp only [Except.ok.injEq, LoopStep.done.injEq, Prod.mk.injEq] at h2
      obtain ⟨rfl, rfl⟩ := h2; simp
    · simp only [Except.bind_eq_ok, onStream_eq_ok, Except.ok.injEq, LoopStep.done.injEq,
        Prod.mk.injEq, Prod.exists] at h2
      obtain ⟨_, _, _, _, _, rfl, rfl⟩ := h2; simp
  · rw [peekStep_plain r c hc] at h
    split_ifs at h
    · simp only [Except.ok.injEq, LoopStep.done.injEq, Prod.mk.injEq] at h
      obtain ⟨rfl, rfl⟩ := h; simp
    · simp only [Except.bind_eq_ok, onStream_eq_ok, Except.ok.injEq, LoopStep.done.injEq,
        Prod.mk.injEq, Prod.exists] at h
      obtain ⟨_, _, _, rfl, rfl⟩ := h; simp

end InputStreamFormatter
end Utility


namespace Utility
open FormatterConstants

/-! ## Bounds of the scanning loops -/

theorem skipWhitespace_bounds (rest : List CharType) (ptr : Nat) :
    ptr ≤ skipWhitespace rest ptr ∧ skipWhitespace rest ptr ≤ ptr + rest.length := by
  induction rest generalizing ptr with
  | nil => simp [skipWhitespace]
  | cons a t ih =>
    simp only [skipWhitespace, List.length_cons]
    split
    · have := ih (ptr + 1); omega
    · omega

theorem skipToLineEnd_bounds (rest : List CharType) (ptr : Nat) :
    ptr ≤ skipToLineEnd rest ptr ∧ skipToLineEnd rest ptr ≤ ptr + rest.length := by
  induction rest generalizing ptr with
  | nil => simp [skipToLineEnd]
  | cons a t ih =>
    simp only [skipToLineEnd, List.length_cons]
    split
    · have := ih (ptr + 1); omega
    · omega

theorem scanUnprotected_bounds (rest : List CharType) (ptr se : Nat) (h : se ≤ ptr) :
    ptr ≤ (scanUnprotected rest ptr se).1 ∧
    (scanUnprotected rest ptr se).1 ≤ ptr + rest.length ∧
    se ≤ (scanUnprotected rest ptr se).2 ∧
    (scanUnprotected rest ptr se).2 ≤ (scanUnprotected rest ptr se).1 := by
  induction rest generalizing ptr se with
  | nil => simp [scanUnprotected, h]
  | cons a t ih =>
    simp only [scanUnprotected, List.length_cons]
    split
    · simp; omega
    · split
      · have := ih (ptr + 1) (ptr + 1) (by omega); omega
      · have := ih (ptr + 1) se (by omega); omega

theorem scanProtected_bounds (rest : List CharType) (ptr p : Nat)
    (h : scanProtected rest ptr = some p) :
    ptr ≤ p ∧ p + ProtectedNamePostfix.length ≤ ptr + rest.length := by
  induction rest generalizing ptr with
  | nil => simp [scanProtected] at h
  | cons a t ih =>
    simp only [scanProtected] at h
    split at h
    · cases h
    · split at h
      · cases h
        simp only [List.length_cons] at *
        omega
      · have := ih (ptr + 1) h
        simp only [List.length_cons]
        omega

namespace MemoryMappedInputStream

theorem Step.step_refl (s : MemoryMappedInputStream) : Step s s := by simp [Step]

theorem Step.step_trans {a b c : MemoryMappedInputStream} (h1 : Step a b) (h2 : Step b c) :
    Step a c := by
  obtain ⟨a1, a2, a3⟩ := h1
  obtain ⟨b1, b2, b3⟩ := h2
  exact ⟨b1.trans a1, a2.trans b2, fun h => b3 (a3 h)⟩

theorem Step_of_MovePointer (s s' : MemoryMappedInputStream) (n : Nat)
    (h : s.MovePointer n = .ok s') : Step s s' ∧ s'._ptr = s._ptr + n := by
  rw [MovePointer_eq_ok] at h
  obtain ⟨h1, rfl⟩ := h
  simp [Step]
  omega

theorem Step_of_SetPointer (s s' : MemoryMappedInputStream) (n : Nat) (hn : s._ptr ≤ n)
    (h : s.SetPointer n = .ok s') : Step s s' ∧ s'._ptr = n := by
  rw [SetPointer_eq_ok] at h
  obtain ⟨h1, rfl⟩ := h
  simp [Step]
  omega

end MemoryMappedInputStream

open MemoryMappedInputStream in
theorem Step_of_TryEat (st st' : MemoryMappedInputStream) (pat : List CharType) (b : Bool)
    (h : TryEat st pat = .ok (b, st')) : Step st st' := by
  obtain ⟨h1, h2, h3, h4⟩ := TryEat_eq_ok st st' pat b h
  refine ⟨h1, h2, ?_⟩
  intro hv
  cases b with
  | true => rw [h1]; exact (h3 rfl).2
  | false => rw [h4 rfl]; exact hv

open MemoryMappedInputStream in
theorem Step_of_EatWhitespace (st st' : MemoryMappedInputStream)
    (h : EatWhitespace st = .ok st') : Step st st' := by
  simp only [EatWhitespace] at h
  exact (Step_of_SetPointer st st' _ (skipWhitespace_bounds _ _).1 h).1

open MemoryMappedInputStream in
theorem Step_of_ReadToStringEnd (st st' : MemoryMappedInputStream) (p : Bool)
    (loc : StreamLocation) (e : Nat) (h : ReadToStringEnd st p loc = .ok (e, st')) :
    Step st st' ∧ st._ptr ≤ e ∧ e ≤ st'._ptr := by
  simp only [ReadToStringEnd, ReadPointer] at h
  split at h
  · split at h
    · rename_i q hq
      rw [Except.bind_eq_ok] at h
      obtain ⟨a, h1, h2⟩ := h
      cases h2
      have hb := scanProtected_bounds _ _ _ hq
      have := Step_of_SetPointer st st' _ (by omega) h1
      exact ⟨this.1, hb.1, by omega⟩
    · cases h
  · rw [Except.bind_eq_ok] at h
    obtain ⟨a, h1, h2⟩ := h
    cases h2
    have hb := scanUnprotected_bounds st.Remaining st.ReadPointer st.ReadPointer (le_refl _)
    simp only [ReadPointer] at hb
    have := Step_of_SetPointer st st' _ hb.1 h1
    exact ⟨this.1, hb.2.2.1, by omega⟩

theorem CeilToMultiple_nonneg (x : Int) (m : Nat) (h : 0 ≤ x) : 0 ≤ CeilToMultiple (x + 1) m := by
  simp only [CeilToMultiple]
  apply Int.mul_nonneg
  · apply Int.ediv_nonneg
    · omega
    · omega
  · omega

namespace InputStreamFormatter

/-! ## Properties of every outcome -/

theorem Result.All_ok {α : Type} (P : InputStreamFormatter → Prop) (Q : α → Prop) (a : α)
    (h : Q a) : Result.All P Q (.ok a) := h

theorem Result.All_error {α : Type} (P : InputStreamFormatter → Prop) (Q : α → Prop)
    (e : Error) (r : InputStreamFormatter) (h : P r) : Result.All P Q (.error (e, r)) := h

theorem Result.All_bind {α β : Type} (P : InputStreamFormatter → Prop) (Q' : β → Prop)
    (Q : α → Prop) (x : Result β) (f : β → Result α)
    (hx : Result.All P Q' x) (hf : ∀ b, x = .ok b → Q' b → Result.All P Q (f b)) :
    Result.All P Q (x >>= f) := by
  cases x with
  | error e => obtain ⟨e, r⟩ := e; exact hx
  | ok b => exact hf b rfl hx

theorem Result.All_bind_mono {α β : Type} (P' P : InputStreamFormatter → Prop)
    (Q' : β → Prop) (Q : α → Prop) (x : Result β) (f : β → Result α)
    (hx : Result.All P' Q' x) (hP : ∀ r, P' r → P r)
    (hf : ∀ b, x = .ok b → Q' b → Result.All P Q (f b)) :
    Result.All P Q (x >>= f) := by
  cases x with
  | error e => obtain ⟨e, r⟩ := e; exact hP r hx
  | ok b => exact hf b rfl hx

theorem Result.All_onStream_bind {α β : Type} (P : InputStreamFormatter → Prop)
    (Q : α → Prop) (r : InputStreamFormatter) (x : Except Error β) (f : β → Result α)
    (hP : P r) (hf : ∀ b, x = .ok b → Result.All P Q (f b)) :
    Result.All P Q (r.onStream x >>= f) := by
  cases x with
  | error e => exact hP
  | ok b => exact hf b rfl

theorem Result.All_mono {α : Type} (P P' : InputStreamFormatter → Prop) (Q Q' : α → Prop)
    (x : Result α) (h : Result.All P Q x) (hP : ∀ r, P r → P' r) (hQ : ∀ a, Q a → Q' a) :
    Result.All P' Q' x := by
  cases x with
  | error e => obtain ⟨e, r⟩ := e; exact hP r h
  | ok b => exact hQ b h

theorem Result.All_of_ok {α : Type} (P : InputStreamFormatter → Prop) (Q : α → Prop)
    (x : Result α) (a : α) (h : Result.All P Q x) (hx : x = .ok a) : Q a := by
  subst hx; exact h

theorem Result.All_of_error {α : Type} (P : InputStreamFormatter → Prop) (Q : α → Prop)
    (x : Result α) (e : Error) (r : InputStreamFormatter) (h : Result.All P Q x)
    (hx : x = .error (e, r)) : P r := by
  subst hx; exact h

end InputStreamFormatter
end Utility


namespace Utility
open FormatterConstants
namespace InputStreamFormatter
open MemoryMappedInputStream

theorem peekStep_all (r : InputStreamFormatter) (c : CharType) :
    Result.All (peekRaisePost r) (peekStepPost r) (peekStep r c) := by
  have hP : peekRaisePost r r := ⟨Frame.frame_refl r, rfl, rfl, rfl⟩
  rcases char_cases c with rfl | rfl | hc | rfl | rfl | rfl | rfl | rfl | hc
  · rw [peekStep_tab]
    refine Result.All_onStream_bind _ _ _ _ _ hP ?_
    intro s hs
    obtain ⟨⟨h1, h2, h3⟩, h4⟩ := Step_of_MovePointer _ _ _ hs
    exact ⟨⟨rfl, rfl, rfl, h1, h2, h3, fun h => CeilToMultiple_nonneg _ _ h⟩, rfl, rfl, rfl,
      by show _ < s._ptr; omega⟩
  · rw [peekStep_space]
    refine Result.All_onStream_bind _ _ _ _ _ hP ?_
    intro s hs
    obtain ⟨⟨h1, h2, h3⟩, h4⟩ := Step_of_MovePointer _ _ _ hs
    exact ⟨⟨rfl, rfl, rfl, h1, h2, h3, fun h => by show (0 : Int) ≤ r._activeLineSpaces + 1; omega⟩,
      rfl, rfl, rfl, by show _ < s._ptr; omega⟩
  · rw [peekStep_extended r c hc]
    exact hP
  · rw [peekStep_cr]
    refine Result.All_onStream_bind _ _ _ _ _ hP ?_
    intro s hs
    obtain ⟨⟨h1, h2, h3⟩, h4⟩ := Step_of_MovePointer _ _ _ hs
    dsimp only []
    split
    · refine Result.All_onStream_bind _ _ _ _ _
        ⟨⟨rfl, rfl, rfl, h1, h2, h3, fun h => h⟩, rfl, rfl, rfl⟩ ?_
      intro s2 hs2
      obtain ⟨⟨g1, g2, g3⟩, g4⟩ := Step_of_MovePointer _ _ _ hs2
      exact ⟨⟨rfl, rfl, rfl, g1.trans h1, by show r._stream._ptr ≤ s2._ptr; omega,
        fun h => g3 (h3 h), fun _ => le_refl _⟩, rfl, rfl, rfl,
        by show r._stream._ptr < s2._ptr; omega⟩
    · exact ⟨⟨rfl, rfl, rfl, h1, h2, h3, fun _ => le_refl _⟩, rfl, rfl, rfl,
        by show r._stream._ptr < s._ptr; omega⟩
  · rw [peekStep_lf]
    refine Result.All_onStream_bind _ _ _ _ _ hP ?_
    intro s hs
    obtain ⟨⟨h1, h2, h3⟩, h4⟩ := Step_of_MovePointer _ _ _ hs
    exact ⟨⟨rfl, rfl, rfl, h1, h2, h3, fun _ => le_refl _⟩, rfl, rfl, rfl,
      by show _ < s._ptr; omega⟩
  · rw [peekStep_semicolon]
    refine Result.All_onStream_bind _ _ _ _ _ hP ?_
    intro s hs
    obtain ⟨⟨h1, h2, h3⟩, h4⟩ := Step_of_MovePointer _ _ _ hs
    exact ⟨⟨rfl, rfl, rfl, h1, h2, h3, fun h => h⟩, rfl, rfl, rfl, by show _ < s._ptr; omega⟩
  · rw [peekStep_assign]
    refine Result.All_onStream_bind _ _ _ _ _ hP ?_
    intro s1 hs1
    have a := (Step_of_MovePointer _ _ _ hs1).1
    refine Result.All_onStream_bind _ _ _ _ _
      ⟨⟨rfl, rfl, rfl, a.1, a.2.1, a.2.2, fun h => h⟩, rfl, rfl, rfl⟩ ?_
    intro s2 hs2
    have b := a.step_trans (Step_of_EatWhitespace _ _ hs2)
    refine Result.All_onStream_bind _ _ _ _ _
      ⟨⟨rfl, rfl, rfl, b.1, b.2.1, b.2.2, fun h => h⟩, rfl, rfl, rfl⟩ ?_
    rintro ⟨p, s3⟩ hs3
    have d := b.step_trans (Step_of_TryEat _ _ _ _ hs3)
    exact ⟨⟨rfl, rfl, rfl, d.1, d.2.1, d.2.2, fun h => h⟩, rfl, by simp, rfl, rfl, by simp⟩
  · rw [peekStep_marker]
    refine Result.All_onStream_bind _ _ _ _ _ hP ?_
    rintro ⟨isComment, s1⟩ hs1
    have a := Step_of_TryEat _ _ _ _ hs1
    obtain ⟨t1, t2, t3, t4⟩ := TryEat_eq_ok _ _ _ _ hs1
    have hP1 : peekRaisePost r { r with _stream := s1 } :=
      ⟨⟨rfl, rfl, rfl, a.1, a.2.1, a.2.2, fun h => h⟩, rfl, rfl, rfl⟩
    cases isComment with
    | true =>
      simp only [if_true]
      refine Result.All_onStream_bind _ _ _ _ _ hP1 ?_
      intro s2 hs2
      have b := a.step_trans (Step_of_MovePointer _ _ _ hs2).1
      refine Result.All_onStream_bind _ _ _ _ _
        ⟨⟨rfl, rfl, rfl, b.1, b.2.1, b.2.2, fun h => h⟩, rfl, rfl, rfl⟩ ?_
      intro s3 hs3
      have d := b.step_trans (Step_of_SetPointer _ _ _ (skipToLineEnd_bounds _ _).1 hs3).1
      have e1 := (Step_of_MovePointer _ _ _ hs2).2
      have e2 := (Step_of_SetPointer _ _ _ (skipToLineEnd_bounds _ _).1 hs3).1.2.1
      exact ⟨⟨rfl, rfl, rfl, d.1, d.2.1, d.2.2, fun h => h⟩, rfl, rfl, rfl,
        by show r._stream._ptr < s3._ptr; omega⟩
    | false =>
      simp only [Bool.false_eq_true, if_false]
      split
      · rename_i hle
        exact ⟨⟨rfl, rfl, rfl, a.1, a.2.1, a.2.2, fun h => h⟩, rfl, by simp, rfl, rfl,
          fun _ => hle⟩
      · refine Result.All_onStream_bind _ _ _ _ _ hP1 ?_
        intro s2 hs2
        have b := a.step_trans (Step_of_MovePointer _ _ _ hs2).1
        refine Result.All_onStream_bind _ _ _ _ _
          ⟨⟨rfl, rfl, rfl, b.1, b.2.1, b.2.2, fun h => h⟩, rfl, rfl, rfl⟩ ?_
        rintro ⟨p, s3⟩ hs3
        have d := b.step_trans (Step_of_TryEat _ _ _ _ hs3)
        exact ⟨⟨rfl, rfl, rfl, d.1, d.2.1, d.2.2, fun h => h⟩, rfl, by simp, rfl, rfl, by simp⟩
  · rw [peekStep_plain r c hc]
    split
    · rename_i hle
      exact ⟨Frame.frame_refl r, rfl, by simp, rfl, rfl, fun _ => hle⟩
    · refine Result.All_onStream_bind _ _ _ _ _ hP ?_
      rintro ⟨p, s3⟩ hs3
      have d := Step_of_TryEat _ _ _ _ hs3
      exact ⟨⟨rfl, rfl, rfl, d.1, d.2.1, d.2.2, fun h => h⟩, rfl, by simp, rfl, rfl, by simp⟩

end InputStreamFormatter
end Utility


namespace Utility
open FormatterConstants
namespace InputStreamFormatter
open MemoryMappedInputStream

theorem peekRaisePost.raise_trans {r1 r2 r3 : InputStreamFormatter} (h1 : peekRaisePost r1 r2)
    (h2 : peekRaisePost r2 r3) : peekRaisePost r1 r3 := by
  obtain ⟨a1, a2, a3, a4⟩ := h1
  obtain ⟨b1, b2, b3, b4⟩ := h2
  exact ⟨a1.frame_trans b1, b2.trans a2, b3.trans a3, b4.trans a4⟩

theorem peekLoop_nil (fuel : Nat) (r : InputStreamFormatter) (h : r._stream.Remaining = []) :
    peekLoop (fuel + 1) r =
      (if r._baseLineStackPtr > 0 then .ok (.EndElement, { r with _primed := .EndElement })
       else .ok (.None, r)) := by
  rw [peekLoop]
  split
  · rfl
  · rename_i c t hc
    rw [h] at hc
    cases hc

theorem peekLoop_cons (fuel : Nat) (r : InputStreamFormatter) (c : CharType)
    (t : List CharType) (h : r._stream.Remaining = c :: t) :
    peekLoop (fuel + 1) r =
      (do
        match ← peekStep r c with
        | .next r1 => peekLoop fuel r1
        | .done res => .ok res) := by
  rw [peekLoop]
  split
  · rename_i hc
    rw [h] at hc
    cases hc
  · rename_i c' t' hc
    rw [h] at hc
    cases hc
    rfl

theorem peekLoop_all (fuel : Nat) (r : InputStreamFormatter) :
    Result.All (peekRaisePost r) (peekPost r) (peekLoop fuel r) := by
  induction fuel generalizing r with
  | zero => exact ⟨Frame.frame_refl r, rfl, rfl, rfl⟩
  | succ n ih =>
    cases hrem : r._stream.Remaining with
    | nil =>
      rw [peekLoop_nil n r hrem]
      split
      · rename_i hpos
        exact ⟨Frame.frame_refl r, rfl, rfl, Or.inl ⟨by simp, rfl⟩, fun _ => Or.inr hpos⟩
      · rename_i hpos
        exact ⟨Frame.frame_refl r, rfl, rfl, Or.inr ⟨rfl, rfl, hrem, by omega⟩, by simp⟩
    | cons c t =>
      rw [peekLoop_cons n r c t hrem]
      refine Result.All_bind _ _ _ _ _ (peekStep_all r c) ?_
      intro st _ hst
      cases st with
      | next r1 =>
        obtain ⟨f, p1, p2, p3, p4⟩ := hst
        refine Result.All_mono _ _ _ _ _ (ih r1) ?_ ?_
        · intro r' h'
          exact peekRaisePost.raise_trans ⟨f, p1, p2, p3⟩ h'
        · rintro ⟨b, r'⟩ ⟨g, q1, q2, q3, q4⟩
          refine ⟨f.frame_trans g, q1.trans p2, q2.trans p3, ?_, q4⟩
          rcases q3 with q3 | ⟨q3, q5, q6⟩
          · exact Or.inl q3
          · exact Or.inr ⟨q3, q5.trans p1, q6⟩
      | done res =>
        obtain ⟨b, r'⟩ := res
        obtain ⟨f, p1, p2, p3, p4, p5⟩ := hst
        exact ⟨f, p3, p4, Or.inl ⟨p2, p1⟩, fun hb => Or.inl (p5 hb)⟩

theorem peekLoop_fuel (f1 f2 : Nat) (r : InputStreamFormatter)
    (h1 : r._stream.RemainingBytes < f1) (h2 : r._stream.RemainingBytes < f2) :
    peekLoop f1 r = peekLoop f2 r := by
  induction f1 generalizing f2 r with
  | zero => omega
  | succ n ih =>
    cases f2 with
    | zero => omega
    | succ m =>
      cases hrem : r._stream.Remaining with
      | nil => rw [peekLoop_nil n r hrem, peekLoop_nil m r hrem]
      | cons c t =>
        rw [peekLoop_cons n r c t hrem, peekLoop_cons m r c t hrem]
        have hall := peekStep_all r c
        cases hs : peekStep r c with
        | error e => rfl
        | ok st =>
          cases st with
          | done res => rfl
          | next r1 =>
            rw [hs] at hall
            obtain ⟨⟨_, _, _, g4, g5, g6, _⟩, _, _, _, p4⟩ := hall
            have hlt := r._stream.ptr_le_of_Remaining_ne_nil (by rw [hrem]; simp)
            have := g6 (by omega)
            show peekLoop n r1 = peekLoop m r1
            apply ih
            · simp only [RemainingBytes, End] at h1 ⊢; rw [g4]; omega
            · simp only [RemainingBytes, End] at h2 ⊢; rw [g4]; omega

theorem peekLoop_succ (f : Nat) (r : InputStreamFormatter)
    (h : r._stream.RemainingBytes < f) :
    peekLoop f r = peekLoop (r._stream.RemainingBytes + 1) r :=
  peekLoop_fuel _ _ r h (by omega)

end InputStreamFormatter
end Utility


namespace Utility
open FormatterConstants
namespace InputStreamFormatter
open MemoryMappedInputStream

theorem headerPost.header_trans {r1 r2 r3 : InputStreamFormatter} (h1 : headerPost r1 r2)
    (h2 : headerPost r2 r3) : headerPost r1 r3 := by
  obtain ⟨a1, a2, a3, a4⟩ := h1
  obtain ⟨b1, b2, b3, b4⟩ := h2
  exact ⟨a1.frame_trans b1, b2.trans a2, b3.trans a3, b4.trans a4⟩

theorem readHeaderStep_all (aName : Option InteriorSection) (r : InputStreamFormatter)
    (c : CharType) :
    Result.All (headerPost r) (fun st => headerPost r (headerStepState st))
      (readHeaderStep aName r c) := by
  have hP : headerPost r r := ⟨Frame.frame_refl r, rfl, rfl, rfl⟩
  rw [readHeaderStep]
  split
  · refine Result.All_onStream_bind _ _ _ _ _ hP ?_
    intro s hs
    obtain ⟨⟨h1, h2, h3⟩, h4⟩ := Step_of_MovePointer _ _ _ hs
    exact ⟨⟨rfl, rfl, rfl, h1, h2, h3, fun h => h⟩, rfl, rfl, rfl⟩
  split
  · exact hP
  split
  · exact hP
  split
  · exact hP
  split
  · refine Result.All_onStream_bind _ _ _ _ _ hP ?_
    intro s1 hs1
    have a := (Step_of_MovePointer _ _ _ hs1).1
    refine Result.All_onStream_bind _ _ _ _ _
      ⟨⟨rfl, rfl, rfl, a.1, a.2.1, a.2.2, fun h => h⟩, rfl, rfl, rfl⟩ ?_
    intro s2 hs2
    have b := a.step_trans (Step_of_EatWhitespace _ _ hs2)
    refine Result.All_onStream_bind _ _ _ _ _
      ⟨⟨rfl, rfl, rfl, b.1, b.2.1, b.2.2, fun h => h⟩, rfl, rfl, rfl⟩ ?_
    rintro ⟨e, s3⟩ hs3
    have d := b.step_trans (Step_of_ReadToStringEnd _ _ _ _ _ hs3).1
    have hP3 : ∀ tw, headerPost r { r with _stream := s3, _tabWidth := tw } := fun tw =>
      ⟨⟨rfl, rfl, rfl, d.1, d.2.1, d.2.2, fun h => h⟩, rfl, rfl, rfl⟩
    dsimp only []
    split
    · split
      · exact hP3 _
      · exact hP3 _
    · split
      · split
        · exact hP3 _
        · exact hP3 _
      · exact hP3 _
  · refine Result.All_onStream_bind _ _ _ _ _ hP ?_
    rintro ⟨e, s3⟩ hs3
    have d := (Step_of_ReadToStringEnd _ _ _ _ _ hs3).1
    exact ⟨⟨rfl, rfl, rfl, d.1, d.2.1, d.2.2, fun h => h⟩, rfl, rfl, rfl⟩

theorem readHeaderLoop_all (fuel : Nat) (aName : Option InteriorSection)
    (r : InputStreamFormatter) :
    Result.All (headerPost r) (headerPost r) (readHeaderLoop fuel aName r) := by
  induction fuel generalizing aName r with
  | zero => exact ⟨Frame.frame_refl r, rfl, rfl, rfl⟩
  | succ n ih =>
    rw [readHeaderLoop]
    split
    · exact ⟨Frame.frame_refl r, rfl, rfl, rfl⟩
    · rename_i c t hrem
      refine Result.All_bind _ _ _ _ _ (readHeaderStep_all aName r c) ?_
      intro st _ hst
      cases st with
      | next p =>
        obtain ⟨aName1, r1⟩ := p
        exact Result.All_mono _ _ _ _ _ (ih aName1 r1) (fun r' h' => hst.header_trans h')
          (fun r' h' => hst.header_trans h')
      | done r1 => exact hst

theorem ReadHeader_all (r : InputStreamFormatter) :
    Result.All (headerPost r) (headerPost r) r.ReadHeader :=
  readHeaderLoop_all _ _ r

theorem PeekNext_primed (r : InputStreamFormatter) (h : r._primed ≠ .None) :
    r.PeekNext = .ok (r._primed, r) := by
  simp [PeekNext, h]

theorem PeekNext_unprimed (r : InputStreamFormatter) (h : r._primed = .None)
    (hh : r._pendingHeader = false) :
    r.PeekNext = peekLoop (r._stream.RemainingBytes + 1) r := by
  simp [PeekNext, h, hh, bind, Except.bind]

theorem PeekNext_header (r : InputStreamFormatter) (h : r._primed = .None)
    (hh : r._pendingHeader = true) :
    r.PeekNext =
      (r.onStream (TryEat r._stream HeaderPrefix) >>= fun p =>
        (if p.1 then ReadHeader { r with _stream := p.2 }
         else .ok { r with _stream := p.2 }) >>= fun r0 =>
          peekLoop (r0._stream.RemainingBytes + 1) { r0 with _pendingHeader := false }) := by
  simp only [PeekNext, h, hh, ne_eq, not_true_eq_false, if_false, if_true, bind, Except.bind]
  cases hte : r.onStream (TryEat r._stream HeaderPrefix) with
  | error e => rfl
  | ok p =>
    obtain ⟨isHeader, s⟩ := p
    cases isHeader with
    | false => rfl
    | true =>
      show _ = _
      dsimp only []
      cases ReadHeader { r with _stream := s } with
      | error e => rfl
      | ok r0 => rfl

theorem PeekNext_all (r : InputStreamFormatter) :
    Result.All (peekNextRaisePost r) (peekNextPost r) r.PeekNext := by
  by_cases hp : r._primed = .None
  · have key : ∀ r1 : InputStreamFormatter, Frame r r1 → r1._primed = .None →
        r1._pendingHeader = false →
        Result.All (peekNextRaisePost r) (peekNextPost r)
          (peekLoop (r1._stream.RemainingBytes + 1) r1) := by
      intro r1 g g1 g2
      refine Result.All_mono _ _ _ _ _ (peekLoop_all _ r1) ?_ ?_
      · rintro r' ⟨k, k1, _, _⟩
        exact ⟨g.frame_trans k, (k1.trans g1).trans hp.symm⟩
      · rintro ⟨b, r'⟩ ⟨k, k1, k2, k3, k4⟩
        refine ⟨g.frame_trans k, ?_, fun _ => k4, fun hc => absurd hp hc⟩
        rcases k3 with k3 | ⟨k3, k5, k6, k7⟩
        · exact Or.inl k3
        · exact Or.inr ⟨k3, k5.trans g1, k1.trans g2, k6, k7⟩
    cases hh : r._pendingHeader with
    | false =>
      rw [PeekNext_unprimed r hp hh]
      exact key r (Frame.frame_refl r) hp hh
    | true =>
      rw [PeekNext_header r hp hh]
      refine Result.All_onStream_bind _ _ _ _ _ ⟨Frame.frame_refl r, rfl⟩ ?_
      rintro ⟨isHeader, s⟩ hs
      have a := Step_of_TryEat _ _ _ _ hs
      have f0 : Frame r { r with _stream := s } :=
        ⟨rfl, rfl, rfl, a.1, a.2.1, a.2.2, fun h => h⟩
      refine Result.All_bind _ (fun r1 => Frame r r1 ∧ r1._primed = .None) _ _ _ ?_ ?_
      · split
        · refine Result.All_mono _ _ _ _ _ (ReadHeader_all _) ?_ ?_
          · rintro r' ⟨g, g1, _, _⟩
            exact ⟨f0.frame_trans g, g1⟩
          · rintro r' ⟨g, g1, _, _⟩
            exact ⟨f0.frame_trans g, g1.trans hp⟩
        · exact ⟨f0, hp⟩
      · rintro r1 _ ⟨g, g1⟩
        exact key { r1 with _pendingHeader := false } g g1 rfl
  · rw [PeekNext_primed r hp]
    exact ⟨Frame.frame_refl r, Or.inl ⟨hp, rfl⟩, fun h => absurd h hp, fun _ => ⟨rfl, rfl⟩⟩

end InputStreamFormatter

theorem peekNext_fixed (r r1 : InputStreamFormatter) (t : Blob)
    (h : r.PeekNext = .ok (t, r1)) : r1.PeekNext = .ok (t, r1) := by
  have hall := InputStreamFormatter.PeekNext_all r
  rw [h] at hall
  obtain ⟨_, hcase, _, _⟩ := hall
  rcases hcase with ⟨h1, h2⟩ | ⟨h1, h2, h3, h4, h5⟩
  · rw [InputStreamFormatter.PeekNext_primed r1 (by rw [h2]; exact h1), h2]
  · rw [InputStreamFormatter.PeekNext_unprimed r1 h2 h3]
    have : r1._stream.RemainingBytes = 0 := by
      rw [← MemoryMappedInputStream.length_Remaining, h4]; rfl
    rw [this, InputStreamFormatter.peekLoop_nil 0 r1 h4, if_neg (by omega), h1]

/-- C6: idempotent peek.  When `PeekNext` returns the token `t` in the state `r1`,
any number of further `PeekNext` calls with no other call in between return `t`
again and leave the whole reader state as it is: the read pointer, the column count,
the line counter, the indentation stack and the protected-mode flag. -/
theorem peekNext_idempotent (r r1 : InputStreamFormatter) (t : Blob)
    (h : r.PeekNext = .ok (t, r1)) (n : Nat) : r1.peekAgain n = .ok (t, r1) := by
  have hfix := peekNext_fixed r r1 t h
  induction n with
  | zero => exact hfix
  | succ k ih =>
    rw [InputStreamFormatter.peekAgain, hfix]
    exact ih

/-- C6, witness: the first token of `~A`, peeked four more times. -/
theorem peekNext_idempotent_witness :
    InputStreamFormatter.peekAgain 3
        { _stream := { data := [126, 65], _ptr := 1 }, _primed := .BeginElement,
          _activeLineSpaces := 0, _parentBaseLine := -1, _baseLineStack := [0, 0],
          _baseLineStackPtr := 0, _protectedStringMode := false, _lineIndex := 0,
          _lineStart := 0, _tabWidth := 4, _pendingHeader := false } =
      .ok (.BeginElement,
        { _stream := { data := [126, 65], _ptr := 1 }, _primed := .BeginElement,
          _activeLineSpaces := 0, _parentBaseLine := -1, _baseLineStack := [0, 0],
          _baseLineStackPtr := 0, _protectedStringMode := false, _lineIndex := 0,
          _lineStart := 0, _tabWidth := 4, _pendingHeader := false }) :=
  peekNext_idempotent (InputStreamFormatter.fresh 2 [126, 65]) _ _ (by rfl) 3

end Utility


namespace Utility
open FormatterConstants
namespace InputStreamFormatter
open MemoryMappedInputStream

/-! ## The end of the input -/

theorem RemainingBytes_of_nil (s : MemoryMappedInputStream) (h : s.Remaining = []) :
    s.RemainingBytes = 0 := by
  rw [← length_Remaining, h]; rfl

theorem PeekNext_eof (r : InputStreamFormatter) (hp : r._primed = .None)
    (hrem : r._stream.Remaining = []) :
    r.PeekNext =
      (if r._baseLineStackPtr > 0 then
        .ok (.EndElement, { r with _primed := .EndElement, _pendingHeader := false })
       else .ok (.None, { r with _pendingHeader := false })) := by
  cases hh : r._pendingHeader with
  | false =>
    rw [PeekNext_unprimed r hp hh, RemainingBytes_of_nil _ hrem, peekLoop_nil 0 r hrem]
    obtain ⟨a, b, c, d, e, f, g, h, i, j, k⟩ := r
    simp only at hh
    subst hh
    rfl
  | true =>
    have hte : TryEat r._stream HeaderPrefix = .ok (false, r._stream) := by
      apply TryEat_fail
      rw [hrem]
      simp [HeaderPrefix]
    rw [PeekNext_header r hp hh, hte]
    show peekLoop _ { r with _stream := r._stream, _pendingHeader := false } = _
    rw [RemainingBytes_of_nil _ hrem]
    exact peekLoop_nil 0 _ hrem

theorem TryReadEndElement_primed (r : InputStreamFormatter) (hp : r._primed = .EndElement) :
    r.TryReadEndElement =
      .ok (true,
        { (if r._baseLineStackPtr ≠ 0 then
            { r with _parentBaseLine :=
                        if r._baseLineStackPtr > 1
                        then r._baseLineStack.getD (r._baseLineStackPtr - 2) 0
                        else -1,
                     _baseLineStackPtr := r._baseLineStackPtr - 1 }
           else r) with _primed := .None, _protectedStringMode := false }) := by
  rw [TryReadEndElement, PeekNext_primed r (by rw [hp]; simp)]
  simp [bind, Except.bind, hp]

theorem readEvents_succ (fuel : Nat) (r : InputStreamFormatter) :
    r.readEvents (fuel + 1) = (do
      let (b, r1) ← r.PeekNext
      match b with
      | .None => .ok ([], r1)
      | .BeginElement =>
        let (res, r2) ← r1.TryReadBeginElement
        match res with
        | none => .error (.format .malformedBeginElement r2.GetLocation, r2)
        | some name =>
          let (evs, r3) ← readEvents fuel r2
          .ok (.BeginElement (name.content r2._stream.data) :: evs, r3)
      | .AttributeName =>
        let (res, r2) ← r1.TryReadAttribute
        match res with
        | none => .error (.format .malformedAttribute r2.GetLocation, r2)
        | some (name, value) =>
          let (evs, r3) ← readEvents fuel r2
          .ok (.Attribute (name.content r2._stream.data) (value.content r2._stream.data) :: evs,
               r3)
      | .EndElement =>
        let (res, r2) ← r1.TryReadEndElement
        if ¬ res then .error (.format .malformedEndElement r2.GetLocation, r2)
        else
          let (evs, r3) ← readEvents fuel r2
          .ok (.EndElement :: evs, r3)
      | .AttributeValue => .error (.format .unexpectedBlob r1.GetLocation, r1)) := by
  rfl

theorem readEvents_end (fuel : Nat) (r r1 r2 : InputStreamFormatter)
    (h1 : r.PeekNext = .ok (.EndElement, r1))
    (h2 : r1.TryReadEndElement = .ok (true, r2)) :
    r.readEvents (fuel + 1) = (do
      let (evs, r3) ← readEvents fuel r2
      .ok (.EndElement :: evs, r3)) := by
  rw [readEvents_succ, h1]
  simp only [bind, Except.bind, h2]
  rfl

theorem readEvents_none (fuel : Nat) (r r1 : InputStreamFormatter)
    (h1 : r.PeekNext = .ok (.None, r1)) :
    r.readEvents (fuel + 1) = .ok ([], r1) := by
  rw [readEvents_succ, h1]
  rfl

theorem readEvents_eof (N : Nat) (r : InputStreamFormatter)
    (hrem : r._stream.Remaining = []) (hp : r._primed = .None)
    (hN : r._baseLineStackPtr = N) :
    ∃ r', r.readEvents (N + 1) = .ok (List.replicate N .EndElement, r') ∧
      r'._baseLineStackPtr = 0 ∧ r'._stream = r._stream ∧ r'.PeekNext = .ok (.None, r') := by
  induction N generalizing r with
  | zero =>
    have h0 : r.PeekNext = .ok (.None, { r with _pendingHeader := false }) := by
      rw [PeekNext_eof r hp hrem, if_neg (by omega)]
    exact ⟨{ r with _pendingHeader := false }, readEvents_none _ _ _ h0, hN, rfl,
      peekNext_fixed _ _ _ h0⟩
  | succ n ih =>
    have h1 : r.PeekNext =
        .ok (.EndElement, { r with _primed := .EndElement, _pendingHeader := false }) := by
      rw [PeekNext_eof r hp hrem, if_pos (by omega)]
    have h2 := TryReadEndElement_primed
      { r with _primed := .EndElement, _pendingHeader := false } rfl
    rw [readEvents_end _ r _ _ h1 h2]
    simp only [hN, ne_eq, Nat.add_one_ne_zero, not_false_eq_true, if_true]
    obtain ⟨r', e1, e2, e3, e4⟩ := ih
      { r with _parentBaseLine :=
                 if n + 1 > 1 then r._baseLineStack.getD (n + 1 - 2) 0 else -1,
               _baseLineStackPtr := n + 1 - 1, _primed := .None,
               _protectedStringMode := false, _pendingHeader := false }
      hrem rfl (by simp)
    refine ⟨r', ?_, e2, e3, e4⟩
    rw [e1]
    rfl

end InputStreamFormatter

/-- C7: the end of the input closes all open elements.  For every reader state with
the read pointer at the end of the input, no token primed and an indentation stack
of depth `N`, the reading loop (`PeekNext`, then `TryReadEndElement` for every
`EndElement`) delivers exactly `N` `EndElement` tokens, each `TryReadEndElement`
returning true, and after them `PeekNext` returns `None`, with an empty stack. -/
theorem end_of_input_closes_all (N : Nat) (r : InputStreamFormatter)
    (hrem : r._stream.Remaining = []) (hp : r._primed = .None)
    (hN : r._baseLineStackPtr = N) (_hcap : N ≤ r._baseLineStack.length) :
    ∃ r', r.readEvents (N + 1) = .ok (List.replicate N .EndElement, r') ∧
      r'._baseLineStackPtr = 0 ∧ r'.PeekNext = .ok (.None, r') := by
  obtain ⟨r', h1, h2, _, h4⟩ := InputStreamFormatter.readEvents_eof N r hrem hp hN
  exact ⟨r', h1, h2, h4⟩

/-- C7, witness: the reader behind the name of `~A~B`'s two nested elements at
depth two, at the end of the input. -/
theorem end_of_input_closes_all_witness :
    ∃ r', InputStreamFormatter.readEvents (2 + 1)
        { _stream := { data := [126, 65, 10, 32, 126, 66], _ptr := 6 }, _primed := .None,
          _activeLineSpaces := 1, _parentBaseLine := 1, _baseLineStack := [0, 1, 0],
          _baseLineStackPtr := 2, _protectedStringMode := false, _lineIndex := 1,
          _lineStart := 3, _tabWidth := 4, _pendingHeader := false } =
        .ok (List.replicate 2 .EndElement, r') ∧
      r'._baseLineStackPtr = 0 ∧ r'.PeekNext = .ok (.None, r') :=
  end_of_input_closes_all 2 _ (by rfl) (by rfl) (by rfl) (by decide)

end Utility


namespace Utility
open FormatterConstants
namespace InputStreamFormatter
open MemoryMappedInputStream

/-! ## The invariant of the reader -/

theorem Inv_fresh (capacity : Nat) (data : List CharType) : Inv (fresh capacity data) := by
  simp [Inv, fresh, MemoryMappedInputStream.mk0]

theorem Inv_of_Frame (r r' : InputStreamFormatter) (h : Inv r) (f : Frame r r')
    (hp : r'._primed = .EndElement → 0 < r'._baseLineStackPtr) : Inv r' := by
  obtain ⟨h1, h2, h3, h4, h5, h6⟩ := h
  obtain ⟨f1, f2, f3, f4, f5, f6, f7⟩ := f
  refine ⟨by rw [f1, f2]; exact h1, by rw [f1, f2, f3]; exact h2, f7 h3,
    by rw [f1, f2]; exact h4, hp, f6 h6⟩

theorem Inv_parent_neg (r : InputStreamFormatter) (h : Inv r) (h0 : r._baseLineStackPtr = 0) :
    r._parentBaseLine = -1 := by
  obtain ⟨_, h2, _⟩ := h
  rw [h2, if_pos h0]

theorem PeekNext_inv (r : InputStreamFormatter) (h : Inv r) :
    Result.All (fun r' => Inv r' ∧ Frame r r' ∧ r'._primed = r._primed)
      (fun p => Inv p.2 ∧ Frame r p.2 ∧
        ((p.1 ≠ .None ∧ p.2._primed = p.1) ∨ (p.1 = .None ∧ p.2._primed = .None)))
      r.PeekNext := by
  refine Result.All_mono _ _ _ _ _ (PeekNext_all r) ?_ ?_
  · rintro r' ⟨f, hp⟩
    refine ⟨Inv_of_Frame r r' h f ?_, f, hp⟩
    rw [hp, f.2.1]
    exact h.2.2.2.2.1
  · rintro ⟨b, r'⟩ ⟨f, hc, he, hk⟩
    have hprim : (b ≠ .None ∧ r'._primed = b) ∨ (b = .None ∧ r'._primed = .None) := by
      rcases hc with hc | ⟨c1, c2, _⟩
      · exact Or.inl hc
      · exact Or.inr ⟨c1, c2⟩
    refine ⟨Inv_of_Frame r r' h f ?_, f, hprim⟩
    intro hend
    by_cases hr : r._primed = .None
    · have hb : b = .EndElement := by
        rcases hprim with ⟨_, c2⟩ | ⟨_, c2⟩
        · rw [← c2]; exact hend
        · rw [c2] at hend; cases hend
      rcases he hr hb with hle | hpos
      · by_contra hz
        have hz0 : r'._baseLineStackPtr = 0 := by omega
        rw [f.2.1] at hz0
        have hpar := Inv_parent_neg r h hz0
        rw [f.2.2.1, hpar] at hle
        have := f.2.2.2.2.2.2 h.2.2.1
        omega
      · exact hpos
    · obtain ⟨k1, k2⟩ := hk hr
      rw [k1] at hend ⊢
      exact h.2.2.2.2.1 hend

theorem Inv_stream (r : InputStreamFormatter) (s : MemoryMappedInputStream) (h : Inv r)
    (hs : Step r._stream s) : Inv { r with _stream := s } := by
  obtain ⟨h1, h2, h3, h4, h5, h6⟩ := h
  exact ⟨h1, h2, h3, h4, h5, hs.2.2 h6⟩

theorem TryReadBeginElement_inv (r : InputStreamFormatter) (h : Inv r) :
    Result.All (fun r' => Inv r' ∧ r'._baseLineStackPtr = r._baseLineStackPtr)
      (fun p => Inv p.2 ∧
        p.2._baseLineStackPtr = r._baseLineStackPtr + (if p.1.isSome then 1 else 0))
      r.TryReadBeginElement := by
  rw [TryReadBeginElement]
  refine Result.All_bind_mono _ _ _ _ _ _ (PeekNext_inv r h) ?_ ?_
  · rintro r' ⟨i, f, _⟩
    exact ⟨i, f.2.1⟩
  · rintro ⟨b, r1⟩ _ ⟨i1, f1, hprim⟩
    dsimp only []
    split
    · exact ⟨i1, by simpa using f1.2.1⟩
    · rename_i hb
      have hb' : b = .BeginElement := by simpa using hb
      subst hb'
      have hp1 : r1._primed = .BeginElement := by
        rcases hprim with ⟨_, c⟩ | ⟨c, _⟩
        · exact c
        · cases c
      refine Result.All_onStream_bind _ _ _ _ _ ⟨i1, f1.2.1⟩ ?_
      rintro ⟨nameEnd, s⟩ hs
      have st := (Step_of_ReadToStringEnd _ _ _ _ _ hs).1
      have i2 := Inv_stream r1 s i1 st
      dsimp only []
      split
      · exact ⟨i2, f1.2.1⟩
      · rename_i hcap
        obtain ⟨a1, a2, a3, a4, a5, a6⟩ := i2
        simp only at a1 a2 a3 a4 a5 a6 hcap
        refine ⟨⟨?_, ?_, a3, ?_, by simp, a6⟩, by simp; exact f1.2.1⟩
        · simp only [List.length_set]; omega
        · simp only [Nat.add_one_ne_zero, if_false, Nat.add_sub_cancel]
          rw [List.getD_eq_getElem?_getD, List.getElem?_set_self (by omega)]
          rfl
        · intro j hj
          simp only at hj
          by_cases hj2 : j = r1._baseLineStackPtr
          · subst hj2
            simp only []
            rw [List.getD_eq_getElem?_getD, List.getElem?_set_self (by omega)]
            exact a3
          · simp only []
            rw [List.getD_eq_getElem?_getD, List.getElem?_set_ne (by omega),
              ← List.getD_eq_getElem?_getD]
            exact a4 j (by omega)

theorem TryReadEndElement_inv (r : InputStreamFormatter) (h : Inv r) :
    Result.All (fun r' => Inv r' ∧ r'._baseLineStackPtr = r._baseLineStackPtr)
      (fun p => Inv p.2 ∧
        p.2._baseLineStackPtr + (if p.1 then 1 else 0) = r._baseLineStackPtr)
      r.TryReadEndElement := by
  rw [TryReadEndElement]
  refine Result.All_bind_mono _ _ _ _ _ _ (PeekNext_inv r h) ?_ ?_
  · rintro r' ⟨i, f, _⟩
    exact ⟨i, f.2.1⟩
  · rintro ⟨b, r1⟩ _ ⟨i1, f1, hprim⟩
    dsimp only []
    split
    · exact ⟨i1, by simpa using f1.2.1⟩
    · rename_i hb
      have hb' : b = .EndElement := by simpa using hb
      subst hb'
      have hp1 : r1._primed = .EndElement := by
        rcases hprim with ⟨_, c⟩ | ⟨c, _⟩
        · exact c
        · cases c
      obtain ⟨a1, a2, a3, a4, a5, a6⟩ := i1
      simp only at a1 a2 a3 a4 a5 a6 f1
      have hpos := a5 hp1
      have hne : r1._baseLineStackPtr ≠ 0 := by omega
      simp only [hne, ne_eq, not_false_eq_true, if_true]
      refine ⟨⟨by simp only []; omega, ?_, a3, ?_, by simp, a6⟩, ?_⟩
      · simp only []
        by_cases h1 : r1._baseLineStackPtr > 1
        · rw [if_pos h1, if_neg (by omega)]
          congr 1
        · rw [if_neg h1, if_pos (by omega)]
      · intro j hj
        simp only at hj
        exact a4 j (by omega)
      · simp only [if_true]
        rw [← f1.2.1]
        omega

theorem TryReadAttribute_inv (r : InputStreamFormatter) (h : Inv r) :
    Result.All (fun r' => Inv r' ∧ r'._baseLineStackPtr = r._baseLineStackPtr)
      (fun p => Inv p.2 ∧ p.2._baseLineStackPtr = r._baseLineStackPtr)
      r.TryReadAttribute := by
  rw [TryReadAttribute]
  refine Result.All_bind_mono _ _ _ _ _ _ (PeekNext_inv r h) ?_ ?_
  · rintro r' ⟨i, f, _⟩
    exact ⟨i, f.2.1⟩
  · rintro ⟨b, r1⟩ _ ⟨i1, f1, hprim⟩
    dsimp only []
    split
    · exact ⟨i1, by simpa using f1.2.1⟩
    · rename_i hb
      have hb' : b = .AttributeName := by simpa using hb
      subst hb'
      have hp1 : r1._primed = .AttributeName := by
        rcases hprim with ⟨_, c⟩ | ⟨c, _⟩
        · exact c
        · cases c
      simp only at i1 f1
      refine Result.All_onStream_bind _ _ _ _ _ ⟨i1, f1.2.1⟩ ?_
      rintro ⟨nameEnd, s1⟩ hs1
      have st1 := (Step_of_ReadToStringEnd _ _ _ _ _ hs1).1
      have i2 := Inv_stream r1 s1 i1 st1
      dsimp only []
      refine Result.All_onStream_bind _ _ _ _ _ ⟨i2, f1.2.1⟩ ?_
      intro s2 hs2
      have st2 := Step_of_EatWhitespace _ _ hs2
      have i3 : Inv { r1 with _stream := s2, _primed := .None, _protectedStringMode := false } := by
        obtain ⟨a1, a2, a3, a4, a5, a6⟩ := i2
        exact ⟨a1, a2, a3, a4, by simp, st2.2.2 a6⟩
      refine Result.All_bind_mono _ _ _ _ _ _ (PeekNext_inv _ i3) ?_ ?_
      · rintro r' ⟨i, f, _⟩
        exact ⟨i, f.2.1.trans f1.2.1⟩
      · rintro ⟨b2, r4⟩ _ ⟨i4, f4, hprim4⟩
        dsimp only []
        simp only at i4 f4
        have hptr : r4._baseLineStackPtr = r._baseLineStackPtr := f4.2.1.trans f1.2.1
        split
        · refine Result.All_onStream_bind _ _ _ _ _ ⟨i4, hptr⟩ ?_
          rintro ⟨valueEnd, s3⟩ hs3
          have st3 := (Step_of_ReadToStringEnd _ _ _ _ _ hs3).1
          obtain ⟨a1, a2, a3, a4, a5, a6⟩ := i4
          exact ⟨⟨a1, a2, a3, a4, by simp, st3.2.2 a6⟩, hptr⟩
        · exact ⟨i4, hptr⟩

theorem call_inv (r : InputStreamFormatter) (op : ReaderOp) (h : Inv r) :
    Inv (r.call op).1 ∧
      (r.call op).1._baseLineStackPtr + (r.call op).2.2.toNat =
        r._baseLineStackPtr + (r.call op).2.1.toNat := by
  cases op with
  | PeekNext =>
    have := PeekNext_inv r h
    simp only [call]
    cases hx : r.PeekNext with
    | error e =>
      obtain ⟨e, r'⟩ := e
      rw [hx] at this
      exact ⟨this.1, by simp [this.2.1.2.1]⟩
    | ok p =>
      obtain ⟨b, r'⟩ := p
      rw [hx] at this
      exact ⟨this.1, by simpa using this.2.1.2.1⟩
  | TryReadBeginElement =>
    have := TryReadBeginElement_inv r h
    simp only [call]
    cases hx : r.TryReadBeginElement with
    | error e =>
      obtain ⟨e, r'⟩ := e
      rw [hx] at this
      exact ⟨this.1, by simp [this.2]⟩
    | ok p =>
      obtain ⟨b, r'⟩ := p
      rw [hx] at this
      refine ⟨this.1, ?_⟩
      have h2 := this.2
      simp only at h2 ⊢
      rw [h2]
      cases b <;> simp
  | TryReadAttribute =>
    have := TryReadAttribute_inv r h
    simp only [call]
    cases hx : r.TryReadAttribute with
    | error e =>
      obtain ⟨e, r'⟩ := e
      rw [hx] at this
      exact ⟨this.1, by simp [this.2]⟩
    | ok p =>
      obtain ⟨b, r'⟩ := p
      rw [hx] at this
      exact ⟨this.1, by simpa using this.2⟩
  | TryReadEndElement =>
    have := TryReadEndElement_inv r h
    simp only [call]
    cases hx : r.TryReadEndElement with
    | error e =>
      obtain ⟨e, r'⟩ := e
      rw [hx] at this
      exact ⟨this.1, by simp [this.2]⟩
    | ok p =>
      obtain ⟨b, r'⟩ := p
      rw [hx] at this
      refine ⟨this.1, ?_⟩
      have h2 := this.2
      simp only at h2 ⊢
      rw [← h2]
      cases b <;> simp

theorem run_inv (r : InputStreamFormatter) (ops : List ReaderOp) (h : Inv r) :
    Inv (r.run ops).1 ∧
      (r.run ops).1._baseLineStackPtr + (r.run ops).2.2 =
        r._baseLineStackPtr + (r.run ops).2.1 := by
  induction ops generalizing r with
  | nil => exact ⟨h, rfl⟩
  | cons op ops ih =>
    obtain ⟨i1, c1⟩ := call_inv r op h
    obtain ⟨i2, c2⟩ := ih (r.call op).1 i1
    refine ⟨i2, ?_⟩
    show ((r.call op).1.run ops).1._baseLineStackPtr +
        (((r.call op).1.run ops).2.2 + (r.call op).2.2.toNat) =
      r._baseLineStackPtr + (((r.call op).1.run ops).2.1 + (r.call op).2.1.toNat)
    omega

end InputStreamFormatter

/-- C8: the indentation invariant.  For every input, every stack capacity and every
sequence of reader calls (`PeekNext`, `TryReadBeginElement`, `TryReadAttribute`,
`TryReadEndElement`) on a fresh reader, exceptions included, the depth of the
indentation stack after the sequence is the number of `TryReadBeginElement` calls
that returned true minus the number of `TryReadEndElement` calls that returned
true (no more of the second than of the first). -/
theorem indentation_depth_counts (capacity : Nat) (data : List CharType)
    (ops : List ReaderOp) :
    ((InputStreamFormatter.fresh capacity data).run ops).1._baseLineStackPtr +
        ((InputStreamFormatter.fresh capacity data).run ops).2.2 =
      ((InputStreamFormatter.fresh capacity data).run ops).2.1 := by
  have := (InputStreamFormatter.run_inv _ ops
    (InputStreamFormatter.Inv_fresh capacity data)).2
  simpa [InputStreamFormatter.fresh] using this

end Utility


namespace Utility
open FormatterConstants

/-! ## SkipElement and comments on concrete inputs -/

/-- C9: `SkipElement` on the input `~A; x=1`, line feed, `~B`, with the
`BeginElement` of `A` primed.  The call reads that `BeginElement` and returns: the
stack depth goes from 0 to 1 and the next token is the attribute of `A`, not the
`BeginElement` of `B` that follows the element. -/
theorem skipElement_stops_after_begin :
    skipFirstElement 4 (text "~A; x=1\n~B") =
      some (.BeginElement, 0, 1, .AttributeName) := by
  decide

/-- C10: a comment line in front of the element `~A`.  Without the comment the
reader delivers the element; with the comment line `~~c` in front, the reader skips
two more code units than the comment marker before it looks for the end of the line,
here the `c` and the line feed, and runs over the line of the element: no token is
left.  On the input `~~` alone the second advance fails the bound assertion of
`MovePointer`. -/
theorem comment_line_swallows_next_line :
    (InputStreamFormatter.fresh 4 (text "~A")).events 3 =
      .ok [.BeginElement (text "A"), .EndElement] ∧
    (InputStreamFormatter.fresh 4 (text "~~c\n~A")).events 3 = .ok [] ∧
    (InputStreamFormatter.fresh 4 (text "~~")).events 3 = .error .assertion :=
  ⟨rfl, rfl, rfl⟩

end Utility


namespace Utility
open FormatterConstants
namespace InputStreamFormatter
open MemoryMappedInputStream

/-! ## The reader between two tokens -/

theorem readEvents_congr (fuel : Nat) (r r' : InputStreamFormatter)
    (h : r.PeekNext = r'.PeekNext) : r.readEvents (fuel + 1) = r'.readEvents (fuel + 1) := by
  rw [readEvents_succ, readEvents_succ, h]

theorem drop_advance (data : List CharType) (ptr : Nat) (a b : List CharType)
    (h : data.drop ptr = a ++ b) : data.drop (ptr + a.length) = b := by
  rw [← List.drop_drop, h, List.drop_left]

theorem drop_advance_to (data : List CharType) (ptr n : Nat) (a b : List CharType)
    (h : data.drop ptr = a ++ b) (hn : n = ptr + a.length) : data.drop n = b := by
  subst hn
  exact drop_advance data ptr a b h

theorem ptr_lt_of_drop (data : List CharType) (ptr : Nat) (c : CharType) (t : List CharType)
    (h : data.drop ptr = c :: t) : ptr < data.length := by
  by_contra hc
  rw [List.drop_eq_nil_of_le (by omega)] at h
  cases h

/-- One iteration of the loop that goes on: `PeekNext` in the state `r` is `PeekNext`
in the state `r'` of the next iteration. -/
theorem PeekNext_next (r r' : InputStreamFormatter) (c : CharType) (t : List CharType)
    (hp : r._primed = .None) (hh : r._pendingHeader = false)
    (hrem : r._stream.Remaining = c :: t)
    (hstep : peekStep r c = .ok (.next r')) : r.PeekNext = r'.PeekNext := by
  have hall := peekStep_all r c
  rw [hstep] at hall
  obtain ⟨⟨_, _, _, g4, g5, g6, _⟩, p1, p2, _, p4⟩ := hall
  rw [PeekNext_unprimed r hp hh, PeekNext_unprimed r' (p1.trans hp) (p2.trans hh),
    peekLoop_cons _ r c t hrem, hstep]
  show peekLoop _ r' = _
  apply peekLoop_fuel
  · have hlt := r._stream.ptr_le_of_Remaining_ne_nil (by rw [hrem]; simp)
    have := g6 (by omega)
    simp only [RemainingBytes, End]
    rw [g4]
    omega
  · omega

/-- The iteration that returns: `PeekNext` returns what it returns. -/
theorem PeekNext_done (r : InputStreamFormatter) (c : CharType) (t : List CharType)
    (res : Blob × InputStreamFormatter)
    (hp : r._primed = .None) (hh : r._pendingHeader = false)
    (hrem : r._stream.Remaining = c :: t)
    (hstep : peekStep r c = .ok (.done res)) : r.PeekNext = .ok res := by
  rw [PeekNext_unprimed r hp hh, peekLoop_cons _ r c t hrem, hstep]
  rfl

theorem add_length_le_of_drop (data : List CharType) (ptr : Nat) (a b : List CharType)
    (h : data.drop ptr = a ++ b) (ha : a ≠ []) : ptr + a.length ≤ data.length := by
  have hl := congrArg List.length h
  simp only [List.length_drop, List.length_append] at hl
  have : 0 < a.length := List.length_pos.mpr ha
  omega

theorem MovePointer_at (data : List CharType) (ptr n : Nat) (h : ptr + n ≤ data.length) :
    MovePointer { data := data, _ptr := ptr } n = .ok { data := data, _ptr := ptr + n } := by
  simp [MovePointer, End, h]

theorem SetPointer_at (data : List CharType) (ptr n : Nat) (h : n ≤ data.length) :
    SetPointer { data := data, _ptr := ptr } n = .ok { data := data, _ptr := n } := by
  simp [SetPointer, End, h]

theorem TryEat_at (data : List CharType) (ptr : Nat) (pat rest : List CharType)
    (h : data.drop ptr = pat ++ rest) (hp : pat ≠ []) :
    TryEat { data := data, _ptr := ptr } pat =
      .ok (true, { data := data, _ptr := ptr + pat.length }) :=
  TryEat_prefix { data := data, _ptr := ptr } pat rest h hp

theorem TryEat_at_fail (data : List CharType) (ptr : Nat) (p : CharType)
    (pat : List CharType) (h : (data.drop ptr).head? ≠ some p) :
    TryEat { data := data, _ptr := ptr } (p :: pat) = .ok (false, { data := data, _ptr := ptr }) :=
  TryEat_fail_head { data := data, _ptr := ptr } p pat h

theorem PeekNext_tab (data : List CharType) (ptr : Nat) (active parent : Int)
    (stack : List Int) (depth li ls : Nat) (t : List CharType)
    (h : data.drop ptr = 9 :: t) :
    (idle data ptr active parent stack depth li ls).PeekNext =
      (idle data (ptr + 1) (CeilToMultiple (active + 1) TabWidth) parent stack depth li
        ls).PeekNext := by
  refine PeekNext_next (idle data ptr active parent stack depth li ls) _ 9 t rfl rfl h ?_
  rw [peekStep_tab]
  simp only [idle, MovePointer_at data ptr 1 (ptr_lt_of_drop data ptr 9 t h)]
  rfl

theorem PeekNext_space (data : List CharType) (ptr : Nat) (active parent : Int)
    (stack : List Int) (depth li ls : Nat) (t : List CharType)
    (h : data.drop ptr = 32 :: t) :
    (idle data ptr active parent stack depth li ls).PeekNext =
      (idle data (ptr + 1) (active + 1) parent stack depth li ls).PeekNext := by
  refine PeekNext_next (idle data ptr active parent stack depth li ls) _ 32 t rfl rfl h ?_
  rw [peekStep_space]
  simp only [idle, MovePointer_at data ptr 1 (ptr_lt_of_drop data ptr 32 t h)]
  rfl

theorem PeekNext_semicolon (data : List CharType) (ptr : Nat) (active parent : Int)
    (stack : List Int) (depth li ls : Nat) (t : List CharType)
    (h : data.drop ptr = 59 :: t) :
    (idle data ptr active parent stack depth li ls).PeekNext =
      (idle data (ptr + 1) active parent stack depth li ls).PeekNext := by
  refine PeekNext_next (idle data ptr active parent stack depth li ls) _ 59 t rfl rfl h ?_
  rw [peekStep_semicolon]
  simp only [idle, MovePointer_at data ptr 1 (ptr_lt_of_drop data ptr 59 t h)]
  rfl

theorem PeekNext_crlf (data : List CharType) (ptr : Nat) (active parent : Int)
    (stack : List Int) (depth li ls : Nat) (c : CharType) (t : List CharType)
    (h : data.drop ptr = 13 :: 10 :: c :: t) :
    (idle data ptr active parent stack depth li ls).PeekNext =
      (idle data (ptr + 2) 0 parent stack depth (u32 (li + 1)) (ptr + 2)).PeekNext := by
  refine PeekNext_next (idle data ptr active parent stack depth li ls) _ 13 (10 :: c :: t) rfl rfl h ?_
  rw [peekStep_cr]
  have h1 := add_length_le_of_drop data ptr [13, 10, c] t h (by simp)
  simp only [List.length_cons, List.length_nil] at h1
  have hd : data.drop (ptr + 1) = 10 :: c :: t := drop_advance data ptr [13] _ h
  have hcond : (MemoryMappedInputStream.mk data (ptr + 1)).RemainingBytes > 1 ∧
      (MemoryMappedInputStream.mk data (ptr + 1)).Remaining.head? = some 10 := by
    constructor
    · simp only [RemainingBytes, End]; omega
    · simp only [Remaining, hd, List.head?_cons]
  simp only [idle, MovePointer_at data ptr 1 (by omega), bind, Except.bind, onStream, hcond,
    and_self, if_true, MovePointer_at data (ptr + 1) 1 (by omega), ReadPointer]

theorem CeilToMultiple_four (i : Int) (_h : 0 ≤ i) :
    CeilToMultiple (4 * i + 1) TabWidth = 4 * (i + 1) := by
  simp only [CeilToMultiple, TabWidth, Nat.cast_ofNat]
  omega

theorem PeekNext_tabs (n : Nat) (data : List CharType) (ptr : Nat) (i : Nat) (parent : Int)
    (stack : List Int) (depth li ls : Nat) (t : List CharType)
    (h : data.drop ptr = List.replicate n Tab ++ t) :
    (idle data ptr (4 * (i : Int)) parent stack depth li ls).PeekNext =
      (idle data (ptr + n) (4 * ((i + n : Nat) : Int)) parent stack depth li ls).PeekNext := by
  induction n generalizing ptr i with
  | zero => rfl
  | succ m ih =>
    have h' : data.drop ptr = 9 :: (List.replicate m Tab ++ t) := by
      rw [h]; rfl
    rw [PeekNext_tab data ptr _ parent stack depth li ls _ h',
      CeilToMultiple_four _ (by omega)]
    have := ih (ptr + 1) (i + 1) (drop_advance data ptr [9] _ h')
    simp only [Nat.cast_add, Nat.cast_one] at this ⊢
    rw [this]
    congr 2
    · omega
    · omega

/-- The end of a line and the indentation of the next line, in front of more input:
the reader arrives behind them in column `4 * n`. -/
theorem PeekNext_newline (n : Nat) (data : List CharType) (ptr : Nat) (active parent : Int)
    (stack : List Int) (depth li ls : Nat) (c : CharType) (t : List CharType)
    (h : data.drop ptr = EndLine ++ List.replicate n Tab ++ c :: t) :
    (idle data ptr active parent stack depth li ls).PeekNext =
      (idle data (ptr + 2 + n) (4 * (n : Int)) parent stack depth (u32 (li + 1))
        (ptr + 2)).PeekNext := by
  obtain ⟨c', t', hc⟩ : ∃ c' t', List.replicate n Tab ++ c :: t = c' :: t' := by
    cases n with
    | zero => exact ⟨c, t, rfl⟩
    | succ m => exact ⟨Tab, List.replicate m Tab ++ c :: t, rfl⟩
  have h1 : data.drop ptr = 13 :: 10 :: c' :: t' := by
    rw [h, List.append_assoc, hc]; rfl
  rw [PeekNext_crlf data ptr active parent stack depth li ls c' t' h1]
  have h2 : data.drop (ptr + 2) = List.replicate n Tab ++ c :: t := by
    have := drop_advance data ptr [13, 10] _ h1
    rw [hc]
    exact this
  have := PeekNext_tabs n data (ptr + 2) 0 parent stack depth (u32 (li + 1)) (ptr + 2) _ h2
  simp only [Nat.cast_zero, mul_zero, zero_add] at this
  rw [this]

end InputStreamFormatter
end Utility


namespace Utility
open FormatterConstants

/-! ## Reading one written name or value -/

theorem writtenForm_head (s : List CharType) :
    ∃ c t, writtenForm s = c :: t ∧ PlainChar c ∧ WhitespaceChar c = false := by
  by_cases hs : IsSimpleString s = true
  · obtain ⟨h1, _, h3, h4, a, ha, hw⟩ := isSimpleString_facts s hs
    cases s with
    | nil => exact absurd rfl h4
    | cons c t =>
      simp only [List.head?_cons, Option.some.injEq] at ha
      subst ha
      refine ⟨c, t, by simp [writtenForm, hs], ?_, hw⟩
      have hf := h1 c (by simp)
      simp only [FormattingChar, Bool.or_eq_false_iff, beq_eq_false_iff_ne, ne_eq] at hf
      simp only [WhitespaceChar, Bool.or_eq_false_iff, beq_eq_false_iff_ne, ne_eq] at hw
      unfold PlainChar
      tauto
  · refine ⟨60, [58, 40] ++ s ++ ProtectedNamePostfix, ?_, by decide, by decide⟩
    simp [writtenForm, hs, ProtectedNamePrefix]

theorem written_read (st : MemoryMappedInputStream) (s rest : List CharType)
    (h : st.Remaining = writtenForm s ++ rest) (hs : Readable s)
    (hrest : IsSimpleString s = true → StopsScan rest) :
    ∃ p s1 e, TryEat st ProtectedNamePrefix = .ok (p, s1) ∧ s1.data = st.data ∧
      (∀ loc, ReadToStringEnd s1 p loc =
        .ok (e, { st with _ptr := st._ptr + (writtenForm s).length })) ∧
      InteriorSection.content { _start := s1._ptr, _end := e } st.data = s := by
  by_cases hsimple : IsSimpleString s = true
  · simp only [writtenForm, hsimple, if_true] at h ⊢
    obtain ⟨_, _, hhead, hne, _⟩ := isSimpleString_facts s hsimple
    have hte : TryEat st ProtectedNamePrefix = .ok (false, st) := by
      apply TryEat_fail_head
      rw [h]
      cases s with
      | nil => exact absurd rfl hne
      | cons a t => simpa using hhead
    exact ⟨false, st, st._ptr + s.length, hte, rfl,
      fun loc => ReadToStringEnd_bare st s rest loc h hsimple (hrest hsimple),
      st.content_of_Remaining s rest h⟩
  · have hinf : ¬ ProtectedNamePostfix <:+: s := by
      rcases hs with hs | hs
      · exact absurd hs hsimple
      · exact hs
    simp only [writtenForm, hsimple, Bool.false_eq_true, if_false] at h ⊢
    have h' : st.Remaining = ProtectedNamePrefix ++ (s ++ ProtectedNamePostfix ++ rest) := by
      rw [h]; simp [List.append_assoc]
    have hte := TryEat_prefix st ProtectedNamePrefix _ h' (by simp [ProtectedNamePrefix])
    have hrem := st.Remaining_advance ProtectedNamePrefix _ h'
    refine ⟨true, _, st._ptr + ProtectedNamePrefix.length + s.length, hte, rfl, ?_, ?_⟩
    · intro loc
      rw [ReadToStringEnd_protected _ s rest loc hrem hinf]
      simp [Nat.add_assoc]
    · have := MemoryMappedInputStream.content_of_Remaining _ s (ProtectedNamePostfix ++ rest)
        (by rw [hrem]; simp [List.append_assoc])
      simpa using this

namespace InputStreamFormatter
open MemoryMappedInputStream

/-! ## Reading one element marker, one attribute, one closing -/

theorem TryReadBeginElement_primed (r : InputStreamFormatter)
    (hp : r._primed = .BeginElement) :
    r.TryReadBeginElement = (do
      let (nameEnd, s) ←
        r.onStream (ReadToStringEnd r._stream r._protectedStringMode r.GetLocation)
      let r2 := { r with _stream := s }
      if r2._baseLineStackPtr + 1 > r2._baseLineStack.length then
        .error (.format .excessiveIndentation r2.GetLocation, r2)
      else
        .ok (some { _start := r._stream.ReadPointer, _end := nameEnd },
             { r2 with _baseLineStack := r2._baseLineStack.set r2._baseLineStackPtr
                                           r2._activeLineSpaces,
                       _baseLineStackPtr := r2._baseLineStackPtr + 1,
                       _parentBaseLine := r2._activeLineSpaces,
                       _primed := .None,
                       _protectedStringMode := false })) := by
  rw [TryReadBeginElement, PeekNext_primed r (by rw [hp]; simp)]
  simp only [bind, Except.bind, hp, ne_eq, not_true_eq_false, if_false]

theorem readEvents_begin (fuel : Nat) (data : List CharType) (ptr : Nat)
    (active parent : Int) (stack : List Int) (depth li ls : Nat)
    (name rest : List CharType)
    (h : data.drop ptr = ElementPrefix :: (writtenForm name ++ rest))
    (hr : Readable name) (hrest : StopsScan rest) (hcol : parent < active)
    (hcap : depth < stack.length) :
    (idle data ptr active parent stack depth li ls).readEvents (fuel + 1) = (do
      let (evs, r3) ← (idle data (ptr + 1 + (writtenForm name).length) active active
        (stack.set depth active) (depth + 1) li ls).readEvents fuel
      .ok (.BeginElement name :: evs, r3)) := by
  obtain ⟨c, t, hform, hplain, hws⟩ := writtenForm_head name
  have hd1 : data.drop (ptr + 1) = writtenForm name ++ rest :=
    drop_advance data ptr [ElementPrefix] _ h
  obtain ⟨p, s1, e, hte, hdata, hread, hcontent⟩ :=
    written_read { data := data, _ptr := ptr + 1 } name rest hd1 hr (fun _ => hrest)
  obtain ⟨sdata, sptr⟩ := s1
  simp only at hdata hread hcontent
  subst hdata
  -- the token
  have hpeek : (idle sdata ptr active parent stack depth li ls).PeekNext =
      .ok (.BeginElement,
        { idle sdata ptr active parent stack depth li ls with
          _stream := { data := sdata, _ptr := sptr }, _protectedStringMode := p,
          _primed := .BeginElement }) := by
    refine PeekNext_done _ ElementPrefix (writtenForm name ++ rest) _ rfl rfl h ?_
    show peekStep _ 126 = _
    rw [peekStep_marker]
    have hnc : TryEat { data := sdata, _ptr := ptr } CommentPrefix =
        .ok (false, { data := sdata, _ptr := ptr }) := by
      apply TryEat_fail
      show ¬ [126, 126] <+: sdata.drop ptr
      rw [h, hform]
      obtain ⟨_, _, _, _, _, _, _, _, _, _, h126⟩ := hplain
      simp [ElementPrefix, List.prefix_cons_inj, Ne.symm h126]
    have hlt := ptr_lt_of_drop sdata ptr _ _ h
    simp only [idle, hnc, bind, Except.bind, onStream, Bool.false_eq_true, if_false,
      not_le.mpr hcol, MovePointer_at sdata ptr 1 hlt, hte]
  rw [readEvents_succ, hpeek]
  simp only [bind, Except.bind]
  rw [TryReadBeginElement_primed _ rfl]
  simp only [bind, Except.bind, onStream, hread, idle, not_lt.mpr (Nat.succ_le_of_lt hcap),
    gt_iff_lt, if_false, ReadPointer, hcontent, Nat.add_assoc]

theorem skipWhitespace_head (c : CharType) (t : List CharType) (ptr : Nat)
    (h : WhitespaceChar c = false) : skipWhitespace (c :: t) ptr = ptr := by
  simp [skipWhitespace, h]

theorem EatWhitespace_at (data : List CharType) (ptr : Nat) (c : CharType)
    (t : List CharType) (h : data.drop ptr = c :: t) (hw : WhitespaceChar c = false) :
    EatWhitespace { data := data, _ptr := ptr } = .ok { data := data, _ptr := ptr } := by
  have hlt := ptr_lt_of_drop data ptr c t h
  simp only [EatWhitespace, Remaining, h, ReadPointer, skipWhitespace_head c t ptr hw]
  exact SetPointer_at data ptr ptr (by omega)

theorem TryReadAttribute_primed (r : InputStreamFormatter)
    (hp : r._primed = .AttributeName) :
    r.TryReadAttribute = (do
      let (nameEnd, s1) ←
        r.onStream (ReadToStringEnd r._stream r._protectedStringMode r.GetLocation)
      let r2 := { r with _stream := s1 }
      let s2 ← r2.onStream (EatWhitespace r2._stream)
      let r3 := { r2 with _stream := s2, _primed := .None, _protectedStringMode := false }
      let name : InteriorSection := { _start := r._stream.ReadPointer, _end := nameEnd }
      let (b2, r4) ← r3.PeekNext
      if b2 = .AttributeValue then
        let valueStart := r4._stream.ReadPointer
        let (valueEnd, s3) ←
          r4.onStream (ReadToStringEnd r4._stream r4._protectedStringMode r4.GetLocation)
        .ok (some (name, { _start := valueStart, _end := valueEnd }),
             { r4 with _stream := s3, _protectedStringMode := false, _primed := .None })
      else
        .ok (some (name, { _start := 0, _end := 0 }), r4)) := by
  rw [TryReadAttribute, PeekNext_primed r (by rw [hp]; simp)]
  simp only [bind, Except.bind, hp, ne_eq, not_true_eq_false, if_false]

theorem readEvents_attribute (fuel : Nat) (data : List CharType) (ptr : Nat)
    (active parent : Int) (stack : List Int) (depth li ls : Nat)
    (name value rest : List CharType)
    (h : data.drop ptr = writtenForm name ++ 61 :: (writtenForm value ++ rest))
    (hn : Readable name) (hv : Readable value) (hrest : StopsScan rest)
    (hcol : parent < active) :
    (idle data ptr active parent stack depth li ls).readEvents (fuel + 1) = (do
      let (evs, r3) ← (idle data
        (ptr + (writtenForm name).length + 1 + (writtenForm value).length) active parent
        stack depth li ls).readEvents fuel
      .ok (.Attribute name value :: evs, r3)) := by
  obtain ⟨c, t, hform, hplain, hws⟩ := writtenForm_head name
  obtain ⟨c2, t2, hform2, hplain2, hws2⟩ := writtenForm_head value
  -- the name
  obtain ⟨p, s1, e, hte, hdata, hread, hcontent⟩ :=
    written_read { data := data, _ptr := ptr } name (61 :: (writtenForm value ++ rest)) h hn
      (fun _ => Or.inr ⟨61, _, rfl, by decide⟩)
  obtain ⟨sdata, sptr⟩ := s1
  simp only at hdata hread hcontent
  subst hdata
  have hd1 : sdata.drop (ptr + (writtenForm name).length) =
      61 :: (writtenForm value ++ rest) := drop_advance sdata ptr _ _ h
  have hd2 : sdata.drop (ptr + (writtenForm name).length + 1) = writtenForm value ++ rest :=
    drop_advance sdata _ [61] _ hd1
  -- the value
  obtain ⟨p2, s3, e2, hte2, hdata2, hread2, hcontent2⟩ :=
    written_read { data := sdata, _ptr := ptr + (writtenForm name).length + 1 } value rest hd2 hv
      (fun _ => hrest)
  obtain ⟨sdata3, sptr3⟩ := s3
  simp only at hdata2 hread2 hcontent2
  subst hdata2
  have hpeek : (idle sdata3 ptr active parent stack depth li ls).PeekNext =
      .ok (.AttributeName,
        { idle sdata3 ptr active parent stack depth li ls with
          _stream := { data := sdata3, _ptr := sptr }, _protectedStringMode := p,
          _primed := .AttributeName }) := by
    have h' : sdata3.drop ptr = c :: (t ++ 61 :: (writtenForm value ++ rest)) := by
      rw [h, hform]; rfl
    refine PeekNext_done _ c _ _ rfl rfl h' ?_
    rw [peekStep_plain _ c hplain]
    simp only [idle, not_le.mpr hcol, if_false, bind, Except.bind, onStream, hte]
  have hpeek2 : (idle sdata3 (ptr + (writtenForm name).length) active parent stack depth li
      ls).PeekNext =
      .ok (.AttributeValue,
        { idle sdata3 (ptr + (writtenForm name).length) active parent stack depth li ls with
          _stream := { data := sdata3, _ptr := sptr3 }, _protectedStringMode := p2,
          _primed := .AttributeValue }) := by
    refine PeekNext_done _ 61 _ _ rfl rfl hd1 ?_
    rw [peekStep_assign]
    have hlt := ptr_lt_of_drop sdata3 _ _ _ hd1
    have hew := EatWhitespace_at sdata3 (ptr + (writtenForm name).length + 1) c2
      (t2 ++ rest) (by rw [hd2, hform2]; rfl) hws2
    simp only [idle, bind, Except.bind, onStream, MovePointer_at sdata3 _ 1 hlt, hew, hte2]
  have hew1 := EatWhitespace_at sdata3 (ptr + (writtenForm name).length) 61 _ hd1 (by decide)
  rw [readEvents_succ, hpeek]
  simp only [bind, Except.bind]
  rw [TryReadAttribute_primed _ rfl]
  simp only [bind, Except.bind, onStream, hread, hew1]
  simp only [idle] at hpeek2 ⊢
  simp only [hpeek2, if_true, hread2, ReadPointer, hcontent, hcontent2]

theorem readEvents_close (fuel : Nat) (data : List CharType) (ptr : Nat)
    (active parent : Int) (stack : List Int) (depth li ls : Nat)
    (c : CharType) (t : List CharType)
    (h : data.drop ptr = ElementPrefix :: c :: t) (hc : c ≠ 126) (hcol : active ≤ parent)
    (hpos : 0 < depth) :
    (idle data ptr active parent stack depth li ls).readEvents (fuel + 1) = (do
      let (evs, r3) ← (idle data ptr active
        (if depth > 1 then stack.getD (depth - 2) 0 else -1) stack (depth - 1) li
        ls).readEvents fuel
      .ok (.EndElement :: evs, r3)) := by
  have hpeek : (idle data ptr active parent stack depth li ls).PeekNext =
      .ok (.EndElement,
        { idle data ptr active parent stack depth li ls with
          _protectedStringMode := false, _primed := .EndElement }) := by
    refine PeekNext_done _ ElementPrefix (c :: t) _ rfl rfl h ?_
    show peekStep _ 126 = _
    rw [peekStep_marker]
    have hnc : TryEat { data := data, _ptr := ptr } CommentPrefix =
        .ok (false, { data := data, _ptr := ptr }) := by
      apply TryEat_fail
      show ¬ [126, 126] <+: data.drop ptr
      rw [h]
      simp [ElementPrefix, List.prefix_cons_inj, Ne.symm hc]
    simp only [idle, hnc, bind, Except.bind, onStream, Bool.false_eq_true, if_false, hcol,
      if_true]
  rw [readEvents_end fuel _ _ _ hpeek (TryReadEndElement_primed _ rfl)]
  have hne : depth ≠ 0 := by omega
  simp only [idle, ne_eq, hne, not_false_eq_true, if_true]

theorem readEvents_eof_fuel (N fuel : Nat) (r : InputStreamFormatter)
    (hrem : r._stream.Remaining = []) (hp : r._primed = .None)
    (hN : r._baseLineStackPtr = N) (hfuel : N < fuel) :
    ∃ r', r.readEvents fuel = .ok (List.replicate N .EndElement, r') := by
  induction N generalizing r fuel with
  | zero =>
    obtain ⟨f, rfl⟩ : ∃ f, fuel = f + 1 := ⟨fuel - 1, by omega⟩
    have h0 : r.PeekNext = .ok (.None, { r with _pendingHeader := false }) := by
      rw [PeekNext_eof r hp hrem, if_neg (by omega)]
    exact ⟨_, readEvents_none _ _ _ h0⟩
  | succ n ih =>
    obtain ⟨f, rfl⟩ : ∃ f, fuel = f + 1 := ⟨fuel - 1, by omega⟩
    have h1 : r.PeekNext =
        .ok (.EndElement, { r with _primed := .EndElement, _pendingHeader := false }) := by
      rw [PeekNext_eof r hp hrem, if_pos (by omega)]
    have h2 := TryReadEndElement_primed
      { r with _primed := .EndElement, _pendingHeader := false } rfl
    rw [readEvents_end _ r _ _ h1 h2]
    simp only [hN, ne_eq, Nat.add_one_ne_zero, not_false_eq_true, if_true]
    obtain ⟨r', e1⟩ := ih f
      { r with _parentBaseLine :=
                 if n + 1 > 1 then r._baseLineStack.getD (n + 1 - 2) 0 else -1,
               _baseLineStackPtr := n + 1 - 1, _primed := .None,
               _protectedStringMode := false, _pendingHeader := false }
      hrem rfl (by simp) (by omega)
    refine ⟨r', ?_⟩
    rw [e1]
    rfl

/-- The header line met after the first token is a comment to the reader. -/
theorem PeekNext_header_comment (data : List CharType) (ptr : Nat) (active parent : Int)
    (stack : List Int) (depth li ls : Nat) (t : List CharType)
    (h : data.drop ptr = HeaderPrefix ++ OutputStreamFormatter.headerText ++ 13 :: t) :
    (idle data ptr active parent stack depth li ls).PeekNext =
      (idle data (ptr + 18) active parent stack depth li ls).PeekNext := by
  have h' : data.drop ptr = 126 :: ([126, 33] ++ OutputStreamFormatter.headerText ++ 13 :: t) := by
    rw [h]; rfl
  refine PeekNext_next (idle data ptr active parent stack depth li ls) _ 126 _ rfl rfl h' ?_
  rw [peekStep_marker]
  have hte : TryEat { data := data, _ptr := ptr } [126, 126] =
      .ok (true, { data := data, _ptr := ptr + 2 }) :=
    TryEat_at data ptr CommentPrefix
      (33 :: (OutputStreamFormatter.headerText ++ 13 :: t)) (by rw [h]; rfl) (by decide)
  have hlen := add_length_le_of_drop data ptr
    (HeaderPrefix ++ OutputStreamFormatter.headerText ++ [13]) t
    (by rw [h]; simp [List.append_assoc]) (by decide)
  have hl : (HeaderPrefix ++ OutputStreamFormatter.headerText ++ [13]).length = 19 := by decide
  rw [hl] at hlen
  have hd4 : data.drop (ptr + 2 + 2) =
      [111, 114, 109, 97, 116, 61, 49, 59, 32, 84, 97, 98, 61, 52] ++ 13 :: t := by
    have := drop_advance data ptr [126, 126, 33, 70] _ (show data.drop ptr = _ from by
      rw [h]; rfl)
    exact this
  have hskip : skipToLineEnd (data.drop (ptr + 2 + 2)) (ptr + 2 + 2) = ptr + 18 := by
    rw [hd4]
    simp [skipToLineEnd]
  simp only [idle, hte, bind, Except.bind, onStream, if_true, CommentPrefix, List.length_cons,
    List.length_nil, MovePointer_at data (ptr + 2) 2 (by omega), Remaining, ReadPointer,
    hskip, SetPointer_at data (ptr + 2 + 2) (ptr + 18) (by omega)]

end InputStreamFormatter

end Utility


namespace Utility
open FormatterConstants
namespace InputStreamFormatter
open MemoryMappedInputStream

/-! ## The header the writer emits -/

theorem readHeaderLoop_cons (fuel : Nat) (aName : Option InteriorSection)
    (r : InputStreamFormatter) (c : CharType) (t : List CharType)
    (h : r._stream.Remaining = c :: t) :
    readHeaderLoop (fuel + 1) aName r = (do
      match ← readHeaderStep aName r c with
      | .next (aName1, r1) => readHeaderLoop fuel aName1 r1
      | .done r1 => .ok r1) := by
  rw [readHeaderLoop]
  split
  · rename_i hc
    rw [h] at hc
    cases hc
  · rename_i c' t' hc
    rw [h] at hc
    cases hc
    rfl

theorem readHeaderStep_name (aName : Option InteriorSection) (r : InputStreamFormatter)
    (c : CharType) (hc : c = 70 ∨ c = 84) :
    readHeaderStep aName r c = (do
      let (aNameEnd, s) ← r.onStream (ReadToStringEnd r._stream false r.GetLocation)
      .ok (.next (some { _start := r._stream.ReadPointer, _end := aNameEnd },
        { r with _stream := s }))) := by
  rcases hc with rfl | rfl <;> rfl

theorem readHeaderStep_skip (aName : Option InteriorSection) (r : InputStreamFormatter)
    (c : CharType) (hc : c = 59 ∨ c = 32) :
    readHeaderStep aName r c = (do
      let s ← r.onStream (r._stream.MovePointer 1)
      .ok (.next (aName, { r with _stream := s }))) := by
  rcases hc with rfl | rfl <;> rfl

theorem readHeaderStep_cr (aName : Option InteriorSection) (r : InputStreamFormatter) :
    readHeaderStep aName r 13 = .ok (.done r) := rfl

theorem readHeaderStep_assign (aName : Option InteriorSection) (r : InputStreamFormatter) :
    readHeaderStep aName r 61 = (do
      let s1 ← r.onStream (r._stream.MovePointer 1)
      let r1 := { r with _stream := s1 }
      let s2 ← r1.onStream (EatWhitespace r1._stream)
      let r2 := { r1 with _stream := s2 }
      let aValueStart := r2._stream.ReadPointer
      let (aValueEnd, s3) ← r2.onStream (ReadToStringEnd r2._stream false r2.GetLocation)
      let r3 := { r2 with _stream := s3 }
      let aValue : InteriorSection := { _start := aValueStart, _end := aValueEnd }
      let convBuffer :=
        Convert 12 (match aName with
                    | some n => n.content r3._stream.data
                    | none => [])
      if XlCompareStringI convBuffer [70, 111, 114, 109, 97, 116] = 0 then
        if AsInt (aValue.content r3._stream.data) ≠ 1 then
          .error (.format .unsupportedFormat r3.GetLocation, r3)
        else .ok (.next (aName, r3))
      else if XlCompareStringI convBuffer [84, 97, 98] = 0 then
        let r4 := { r3 with _tabWidth :=
                      Int.toNat (AsInt (aValue.content r3._stream.data) % 4294967296) }
        if r4._tabWidth = 0 then
          .error (.format .badTabWidth r4.GetLocation, r4)
        else .ok (.next (aName, r4))
      else .ok (.next (aName, r3))) := rfl

theorem ReadToStringEnd_bare_at (data : List CharType) (ptr : Nat) (s rest : List CharType)
    (loc : StreamLocation) (h : data.drop ptr = s ++ rest) (hs : IsSimpleString s = true)
    (hrest : StopsScan rest) :
    ReadToStringEnd { data := data, _ptr := ptr } false loc =
      .ok (ptr + s.length, { data := data, _ptr := ptr + s.length }) :=
  ReadToStringEnd_bare { data := data, _ptr := ptr } s rest loc h hs hrest

theorem content_at (data : List CharType) (ptr : Nat) (s rest : List CharType)
    (h : data.drop ptr = s ++ rest) :
    InteriorSection.content { _start := ptr, _end := ptr + s.length } data = s :=
  MemoryMappedInputStream.content_of_Remaining { data := data, _ptr := ptr } s rest h

theorem ReadHeader_written (r : InputStreamFormatter) (t : List CharType)
    (hd : r._stream.data = HeaderPrefix ++ OutputStreamFormatter.headerText ++ 13 :: t)
    (hp : r._stream._ptr = 3) :
    r.ReadHeader =
      .ok { r with _stream := { data := r._stream.data, _ptr := 18 }, _tabWidth := 4 } := by
  obtain ⟨⟨data, ptr⟩, b, c, d, e, f, g, h, i, j, k⟩ := r
  simp only at hd hp
  subst hp
  have hlen : data.length = t.length + 19 := by
    rw [hd]; simp [HeaderPrefix, OutputStreamFormatter.headerText]
  have hfuel : (MemoryMappedInputStream.mk data 3).RemainingBytes + 1 = (t.length + 10) + 7 := by
    simp only [RemainingBytes, End, hlen]
    omega
  have d3 : data.drop 3 = [70, 111, 114, 109, 97, 116] ++ 61 :: ([49] ++ 59 :: 32 ::
      ([84, 97, 98] ++ 61 :: ([52] ++ 13 :: t))) := by rw [hd]; rfl
  have d9 : data.drop 9 = 61 :: ([49] ++ 59 :: 32 :: ([84, 97, 98] ++ 61 :: ([52] ++ 13 :: t))) :=
    drop_advance data 3 [70, 111, 114, 109, 97, 116] _ d3
  have d10 : data.drop 10 = [49] ++ 59 :: 32 :: ([84, 97, 98] ++ 61 :: ([52] ++ 13 :: t)) :=
    drop_advance data 9 [61] _ d9
  have d11 : data.drop 11 = 59 :: 32 :: ([84, 97, 98] ++ 61 :: ([52] ++ 13 :: t)) :=
    drop_advance data 10 [49] _ d10
  have d12 : data.drop 12 = 32 :: ([84, 97, 98] ++ 61 :: ([52] ++ 13 :: t)) :=
    drop_advance data 11 [59] _ d11
  have d13 : data.drop 13 = [84, 97, 98] ++ 61 :: ([52] ++ 13 :: t) :=
    drop_advance data 12 [32] _ d12
  have d16 : data.drop 16 = 61 :: ([52] ++ 13 :: t) :=
    drop_advance data 13 [84, 97, 98] _ d13
  have d17 : data.drop 17 = [52] ++ 13 :: t := drop_advance data 16 [61] _ d16
  have d18 : data.drop 18 = 13 :: t := drop_advance data 17 [52] _ d17
  have c1 : InteriorSection.content { _start := 3, _end := 9 } data =
      [70, 111, 114, 109, 97, 116] := content_at data 3 [70, 111, 114, 109, 97, 116] _ d3
  have c2 : InteriorSection.content { _start := 10, _end := 11 } data = [49] :=
    content_at data 10 [49] _ d10
  have c3 : InteriorSection.content { _start := 13, _end := 16 } data = [84, 97, 98] :=
    content_at data 13 [84, 97, 98] _ d13
  have c4 : InteriorSection.content { _start := 17, _end := 18 } data = [52] :=
    content_at data 17 [52] _ d17
  have e1 : XlCompareStringI (Convert 12 [70, 111, 114, 109, 97, 116])
      [70, 111, 114, 109, 97, 116] = 0 := by decide
  have e2 : ¬ AsInt [49] ≠ 1 := by decide
  have e3 : ¬ XlCompareStringI (Convert 12 [84, 97, 98]) [70, 111, 114, 109, 97, 116] = 0 := by
    decide
  have e4 : XlCompareStringI (Convert 12 [84, 97, 98]) [84, 97, 98] = 0 := by decide
  have e5 : Int.toNat (AsInt [52] % 4294967296) = 4 := by decide
  simp only [ReadHeader, hfuel]
  -- `Format`
  rw [readHeaderLoop_cons _ _ ⟨⟨data, 3⟩, b, c, d, e, f, g, h, i, j, k⟩ 70 _ d3,
    readHeaderStep_name _ _ 70 (Or.inl rfl)]
  simp only [onStream, bind, Except.bind, ReadPointer,
    ReadToStringEnd_bare_at data 3 _ _ _ d3 (by decide) (Or.inr ⟨61, _, rfl, by decide⟩),
    List.length_cons, List.length_nil, Nat.reduceAdd]
  -- `=1`
  rw [readHeaderLoop_cons _ _ ⟨⟨data, 9⟩, b, c, d, e, f, g, h, i, j, k⟩ 61 _ d9,
    readHeaderStep_assign]
  simp only [onStream, bind, Except.bind, ReadPointer,
    MovePointer_at data 9 1 (by omega), Nat.reduceAdd,
    EatWhitespace_at data 10 49 _ d10 (by decide),
    ReadToStringEnd_bare_at data 10 _ _ _ d10 (by decide) (Or.inr ⟨59, _, rfl, by decide⟩),
    List.length_cons, List.length_nil, c1, c2, e1, e2, if_true, if_false]
  -- `; `
  rw [readHeaderLoop_cons _ _ ⟨⟨data, 11⟩, b, c, d, e, f, g, h, i, j, k⟩ 59 _ d11,
    readHeaderStep_skip _ _ 59 (Or.inl rfl)]
  simp only [onStream, bind, Except.bind, MovePointer_at data 11 1 (by omega), Nat.reduceAdd]
  rw [readHeaderLoop_cons _ _ ⟨⟨data, 12⟩, b, c, d, e, f, g, h, i, j, k⟩ 32 _ d12,
    readHeaderStep_skip _ _ 32 (Or.inr rfl)]
  simp only [onStream, bind, Except.bind, MovePointer_at data 12 1 (by omega), Nat.reduceAdd]
  -- `Tab`
  rw [readHeaderLoop_cons _ _ ⟨⟨data, 13⟩, b, c, d, e, f, g, h, i, j, k⟩ 84 _ d13,
    readHeaderStep_name _ _ 84 (Or.inr rfl)]
  simp only [onStream, bind, Except.bind, ReadPointer,
    ReadToStringEnd_bare_at data 13 _ _ _ d13 (by decide) (Or.inr ⟨61, _, rfl, by decide⟩),
    List.length_cons, List.length_nil, Nat.reduceAdd]
  -- `=4`
  rw [readHeaderLoop_cons _ _ ⟨⟨data, 16⟩, b, c, d, e, f, g, h, i, j, k⟩ 61 _ d16,
    readHeaderStep_assign]
  simp only [onStream, bind, Except.bind, ReadPointer,
    MovePointer_at data 16 1 (by omega), Nat.reduceAdd,
    EatWhitespace_at data 17 52 _ d17 (by decide),
    ReadToStringEnd_bare_at data 17 _ _ _ d17 (by decide) (Or.inr ⟨13, _, rfl, by decide⟩),
    List.length_cons, List.length_nil, c3, c4, e3, e4, e5, if_true, if_false]
  -- the end of the line
  show readHeaderLoop (t.length + 10 + 1) (some { _start := 13, _end := 16 })
    ⟨⟨data, 18⟩, b, c, d, e, f, g, h, i, 4, k⟩ = _
  rw [readHeaderLoop_cons _ _ ⟨⟨data, 18⟩, b, c, d, e, f, g, h, i, 4, k⟩ 13 _ d18,
    readHeaderStep_cr]
  rfl

/-- A fresh reader over an input that begins with the header line of the writer:
the first `PeekNext` goes on behind the header text, in front of the line break. -/
theorem PeekNext_fresh_header (capacity : Nat) (data t : List CharType)
    (hd : data = HeaderPrefix ++ OutputStreamFormatter.headerText ++ 13 :: t) :
    (fresh capacity data).PeekNext =
      (idle data 18 0 (-1) (List.replicate capacity 0) 0 0 0).PeekNext := by
  have hte : TryEat { data := data, _ptr := 0 } HeaderPrefix =
      .ok (true, { data := data, _ptr := 3 }) :=
    TryEat_at data 0 HeaderPrefix (OutputStreamFormatter.headerText ++ 13 :: t)
      (by rw [hd]; simp [List.append_assoc]) (by decide)
  rw [PeekNext_header (fresh capacity data) rfl rfl]
  simp only [fresh, MemoryMappedInputStream.mk0, onStream, hte, bind, Except.bind, if_true]
  rw [ReadHeader_written _ t hd rfl]
  simp only []
  rw [PeekNext_unprimed _ rfl rfl]
  rfl

/-- A fresh reader over an input that does not begin with the element marker: there
is no header, and the first `PeekNext` starts at the first code unit. -/
theorem PeekNext_fresh_plain (capacity : Nat) (data : List CharType)
    (hd : data.head? ≠ some 126) :
    (fresh capacity data).PeekNext =
      (idle data 0 0 (-1) (List.replicate capacity 0) 0 0 0).PeekNext := by
  have hte : TryEat { data := data, _ptr := 0 } HeaderPrefix =
      .ok (false, { data := data, _ptr := 0 }) :=
    TryEat_at_fail data 0 126 [126, 33] (by simpa using hd)
  rw [PeekNext_header (fresh capacity data) rfl rfl]
  simp only [fresh, MemoryMappedInputStream.mk0, onStream, hte, bind, Except.bind,
    Bool.false_eq_true, if_false]
  rw [PeekNext_unprimed _ rfl rfl]
  rfl

end InputStreamFormatter
end Utility


namespace Utility
open FormatterConstants

/-! ## What the writer appends -/

theorem applyAll_cons (w wf : OutputStreamFormatter) (op : WriterOp) (ops : List WriterOp)
    (h : w.applyAll (op :: ops) = .ok wf) :
    ∃ w1, w.apply op = .ok w1 ∧ w1.applyAll ops = .ok wf := by
  rw [OutputStreamFormatter.applyAll, Except.bind_eq_ok] at h
  exact h

theorem apply_begin (w w1 : OutputStreamFormatter) (name : List CharType)
    (h : w.apply (.BeginElement name) = .ok w1) :
    ∃ id, w.BeginElement name = .ok (id, w1) := by
  rw [OutputStreamFormatter.apply, Except.bind_eq_ok] at h
  obtain ⟨⟨id, w'⟩, h1, h2⟩ := h
  cases h2
  exact ⟨id, h1⟩

theorem newLineText_hot (w : OutputStreamFormatter) (h : w._hotLine = true) :
    w.newLineText =
      (if w._pendingHeader then HeaderPrefix ++ OutputStreamFormatter.headerText else []) ++
        (EndLine ++ List.replicate w._currentIndentLevel Tab) := by
  simp [OutputStreamFormatter.newLineText, h]

theorem StopsScan_newLineText (w : OutputStreamFormatter) (t : List CharType)
    (h : w._hotLine = true ∨ w._pendingHeader = true) : StopsScan (w.newLineText ++ t) := by
  right
  cases hp : w._pendingHeader with
  | true =>
    exact ⟨126, _, by simp [OutputStreamFormatter.newLineText, hp, HeaderPrefix]; rfl,
      by decide⟩
  | false =>
    have hh : w._hotLine = true := by
      rcases h with h | h
      · exact h
      · rw [hp] at h; cases h
    exact ⟨13, _, by simp [OutputStreamFormatter.newLineText, hp, hh, EndLine]; rfl, by decide⟩

theorem StopsScan_beginText (w : OutputStreamFormatter) (t : List CharType) :
    StopsScan (w.beginText ++ t) := by
  by_cases h : w._hotLine = true ∨ w._pendingHeader = true
  · have := StopsScan_newLineText w
      (EndLine ++ List.replicate w._currentIndentLevel Tab ++ t) h
    simpa [OutputStreamFormatter.beginText, List.append_assoc] using this
  · right
    have h1 : w._hotLine = false := by
      cases hh : w._hotLine
      · rfl
      · exact absurd (Or.inl hh) h
    have h2 : w._pendingHeader = false := by
      cases hh : w._pendingHeader
      · rfl
      · exact absurd (Or.inr hh) h
    exact ⟨13, _, by simp [OutputStreamFormatter.beginText, OutputStreamFormatter.newLineText,
      h1, h2, EndLine]; rfl, by decide⟩

theorem applyAll_future (ops : List WriterOp) (w wf : OutputStreamFormatter)
    (h : w.applyAll ops = .ok wf) (hh : w._hotLine = true) :
    ∃ future, wf._stream = w._stream ++ future ∧ StopsScan future := by
  induction ops generalizing w with
  | nil =>
    cases h
    exact ⟨[], by simp, Or.inl rfl⟩
  | cons op ops ih =>
    obtain ⟨w1, h1, h2⟩ := applyAll_cons w wf op ops h
    cases op with
    | BeginElement name =>
      obtain ⟨id, hb⟩ := apply_begin w w1 name h1
      obtain ⟨_, hs, _, hh1, _⟩ := BeginElement_spec w w1 name id hb
      obtain ⟨f, hf, _⟩ := ih w1 h2 hh1
      refine ⟨w.beginText ++ [ElementPrefix] ++ writtenForm name ++ f, ?_, ?_⟩
      · rw [hf, hs]; simp [List.append_assoc]
      · have := StopsScan_beginText w ([ElementPrefix] ++ writtenForm name ++ f)
        simpa [List.append_assoc] using this
    | WriteAttribute name value =>
      obtain ⟨hs, _, hh1, _⟩ := WriteAttribute_spec w w1 name value h1
      obtain ⟨f, hf, _⟩ := ih w1 h2 hh1
      refine ⟨w.attributeSeparator name value ++ writtenForm name ++ [61] ++
        writtenForm value ++ f, ?_, ?_⟩
      · rw [hf, hs]; simp [List.append_assoc]
      · simp only [OutputStreamFormatter.attributeSeparator, hh, if_true]
        split
        · have := StopsScan_newLineText w (writtenForm name ++ [61] ++ writtenForm value ++ f)
            (Or.inl hh)
          simpa [List.append_assoc] using this
        · exact Or.inr ⟨59, _, rfl, by decide⟩
    | EndElement id =>
      obtain ⟨hs, _, hh1, _⟩ := EndElement_spec w w1 id h1
      obtain ⟨f, hf, hst⟩ := ih w1 h2 (hh1.trans hh)
      exact ⟨f, by rw [hf, hs], hst⟩

/-! ## The reader over one chunk of the writer -/

namespace InputStreamFormatter

theorem StackOk_parent (stack : List Int) (depth : Nat) (parent : Int)
    (h : StackOk stack depth parent) :
    parent = (if depth = 0 then -1 else 4 * ((depth : Int) - 1)) := h.2.2

theorem StackOk_pop (stack : List Int) (depth : Nat) (parent : Int)
    (h : StackOk stack (depth + 1) parent) :
    StackOk stack depth (if depth + 1 > 1 then stack.getD (depth + 1 - 2) 0 else -1) := by
  obtain ⟨h1, h2, h3⟩ := h
  refine ⟨by omega, fun i hi => h2 i (by omega), ?_⟩
  by_cases hd : depth = 0
  · subst hd; simp
  · rw [if_pos (by omega), if_neg hd, h2 (depth + 1 - 2) (by omega)]
    have : ((depth + 1 - 2 : Nat) : Int) = (depth : Int) - 1 := by omega
    rw [this]

theorem StackOk_push (stack : List Int) (depth : Nat) (parent : Int)
    (h : StackOk stack depth parent) (hcap : depth < stack.length) :
    StackOk (stack.set depth (4 * (depth : Int))) (depth + 1) (4 * (depth : Int)) := by
  obtain ⟨h1, h2, h3⟩ := h
  refine ⟨by simp only [List.length_set]; omega, ?_, ?_⟩
  · intro i hi
    by_cases hid : i = depth
    · subst hid
      rw [List.getD_eq_getElem?_getD, List.getElem?_set_self (by omega)]
      rfl
    · rw [List.getD_eq_getElem?_getD, List.getElem?_set_ne (by omega),
        ← List.getD_eq_getElem?_getD]
      exact h2 i (by omega)
  · rw [if_neg (by omega)]
    push_cast
    ring

theorem readEvents_closes (k : Nat) (fuel : Nat) (data : List CharType) (ptr : Nat)
    (parent : Int) (stack : List Int) (d li ls : Nat) (c : CharType) (t : List CharType)
    (evs : List Event) (rf : InputStreamFormatter)
    (h : data.drop ptr = ElementPrefix :: c :: t) (hc : c ≠ 126)
    (hst : StackOk stack (d + k) parent)
    (hnext : (idle data ptr (4 * (d : Int)) (if d = 0 then -1 else 4 * ((d : Int) - 1)) stack d
      li ls).readEvents fuel = .ok (evs, rf)) :
    (idle data ptr (4 * (d : Int)) parent stack (d + k) li ls).readEvents (fuel + k) =
      .ok (List.replicate k .EndElement ++ evs, rf) := by
  induction k generalizing parent with
  | zero =>
    rw [StackOk_parent _ _ _ hst]
    simpa using hnext
  | succ n ih =>
    have hp := StackOk_parent _ _ _ hst
    have hcol : 4 * (d : Int) ≤ parent := by
      rw [hp, if_neg (by omega)]
      push_cast
      omega
    have := readEvents_close (fuel + n) data ptr (4 * (d : Int)) parent stack (d + (n + 1)) li
      ls c t h hc hcol (by omega)
    rw [show fuel + (n + 1) = fuel + n + 1 from rfl, this]
    have hpop := StackOk_pop stack (d + n) parent hst
    have e := ih _ hpop
    simp only [show d + (n + 1) - 1 = d + n from rfl, show d + (n + 1) - 2 = d + n + 1 - 2 from rfl,
      show (d + (n + 1) > 1) = (d + n + 1 > 1) from rfl]
    rw [e]
    rfl

theorem readEvents_of_peek (fuel : Nat) (r r' : InputStreamFormatter)
    (res : List Event × InputStreamFormatter)
    (hpeek : r.PeekNext = r'.PeekNext) (h : r'.readEvents (fuel + 1) = .ok res) :
    r.readEvents (fuel + 1) = .ok res := by
  rw [readEvents_congr fuel r r' hpeek]
  exact h

theorem PeekNext_header_opt (pending : Bool) (data : List CharType) (ptr : Nat)
    (active parent : Int) (stack : List Int) (depth li ls : Nat) (t : List CharType)
    (h : data.drop ptr =
      (if pending then HeaderPrefix ++ OutputStreamFormatter.headerText else []) ++ 13 :: t) :
    (idle data ptr active parent stack depth li ls).PeekNext =
      (idle data (ptr + (if pending then 18 else 0)) active parent stack depth li ls).PeekNext ∧
    data.drop (ptr + (if pending then 18 else 0)) = 13 :: t := by
  cases pending with
  | false => exact ⟨rfl, by simpa using h⟩
  | true =>
    simp only [if_true] at h ⊢
    exact ⟨PeekNext_header_comment data ptr active parent stack depth li ls t h,
      drop_advance data ptr (HeaderPrefix ++ OutputStreamFormatter.headerText) _ h⟩

/-- The chunk of `BeginElement` behind the header: two line ends with the indentation
of depth `d`, the element marker and the name.  The reader closes the `k` elements
that are still open below that column and opens the new one. -/
theorem read_begin_chunk (k fuel : Nat) (data : List CharType) (p : Nat)
    (active parent : Int) (stack : List Int) (d li ls : Nat)
    (name future : List CharType) (evs : List Event)
    (h : data.drop p = EndLine ++ List.replicate d Tab ++
      (EndLine ++ List.replicate d Tab ++ ElementPrefix :: (writtenForm name ++ future)))
    (hr : Readable name) (hfut : StopsScan future) (hst : StackOk stack (d + k) parent)
    (hcap : d < stack.length)
    (hnext : ∃ rf, (idle data (p + 2 + d + 2 + d + 1 + (writtenForm name).length)
      (4 * (d : Int)) (4 * (d : Int)) (stack.set d (4 * (d : Int))) (d + 1)
      (u32 (u32 (li + 1) + 1)) (p + 2 + d + 2)).readEvents fuel = .ok (evs, rf)) :
    ∃ rf, (idle data p active parent stack (d + k) li ls).readEvents (fuel + 1 + k) =
      .ok (List.replicate k .EndElement ++ .BeginElement name :: evs, rf) := by
  obtain ⟨rf, hrf⟩ := hnext
  refine ⟨rf, ?_⟩
  obtain ⟨c, t, hform, hplain, _⟩ := writtenForm_head name
  -- the two line ends
  have h1 : data.drop p = EndLine ++ List.replicate d Tab ++
      13 :: (10 :: (List.replicate d Tab ++ ElementPrefix :: (writtenForm name ++ future))) := h
  have e1 := PeekNext_newline d data p active parent stack (d + k) li ls 13 _ h1
  have h2 : data.drop (p + 2 + d) = EndLine ++ List.replicate d Tab ++
      ElementPrefix :: (writtenForm name ++ future) := by
    exact drop_advance_to data p _ (EndLine ++ List.replicate d Tab) _ h
      (by simp [EndLine]; omega)
  have e2 := PeekNext_newline d data (p + 2 + d) (4 * (d : Int)) parent stack (d + k)
    (u32 (li + 1)) (p + 2) ElementPrefix _ h2
  have h3 : data.drop (p + 2 + d + 2 + d) = ElementPrefix :: c :: (t ++ future) := by
    have := drop_advance_to data (p + 2 + d) (p + 2 + d + 2 + d)
      (EndLine ++ List.replicate d Tab) _ h2 (by simp [EndLine]; omega)
    rw [this, hform]
    rfl
  have h3' : data.drop (p + 2 + d + 2 + d) = ElementPrefix :: (writtenForm name ++ future) := by
    rw [h3, hform]; rfl
  -- the new element
  have hb := readEvents_begin fuel data (p + 2 + d + 2 + d) (4 * (d : Int))
    (if d = 0 then -1 else 4 * ((d : Int) - 1)) stack d (u32 (u32 (li + 1) + 1)) (p + 2 + d + 2)
    name future h3' hr hfut (by split <;> omega) hcap
  rw [hrf] at hb
  -- the elements to close
  have hc := readEvents_closes k (fuel + 1) data (p + 2 + d + 2 + d) parent stack d
    (u32 (u32 (li + 1) + 1)) (p + 2 + d + 2) c (t ++ future) _ rf h3 hplain.2.2.2.2.2.2.2.2.2.2 hst hb
  rw [show fuel + 1 + k = fuel + k + 1 by omega] at hc ⊢
  exact readEvents_of_peek _ _ _ _ (e1.trans e2) hc

/-- The chunk of a `WriteAttribute` that starts a new line, behind the header. -/
theorem read_attribute_line (fuel : Nat) (data : List CharType) (p : Nat)
    (active parent : Int) (stack : List Int) (d li ls : Nat)
    (name value future : List CharType) (evs : List Event)
    (h : data.drop p = EndLine ++ List.replicate d Tab ++
      (writtenForm name ++ 61 :: (writtenForm value ++ future)))
    (hn : Readable name) (hv : Readable value) (hfut : StopsScan future)
    (hst : StackOk stack d parent)
    (hnext : ∃ rf, (idle data
      (p + 2 + d + (writtenForm name).length + 1 + (writtenForm value).length)
      (4 * (d : Int)) parent stack d (u32 (li + 1)) (p + 2)).readEvents fuel = .ok (evs, rf)) :
    ∃ rf, (idle data p active parent stack d li ls).readEvents (fuel + 1) =
      .ok (.Attribute name value :: evs, rf) := by
  obtain ⟨rf, hrf⟩ := hnext
  refine ⟨rf, ?_⟩
  obtain ⟨c, t, hform, _, _⟩ := writtenForm_head name
  have h1 : data.drop p = EndLine ++ List.replicate d Tab ++
      c :: (t ++ 61 :: (writtenForm value ++ future)) := by
    rw [h, hform]; rfl
  have e1 := PeekNext_newline d data p active parent stack d li ls c _ h1
  have h2 : data.drop (p + 2 + d) = writtenForm name ++ 61 :: (writtenForm value ++ future) :=
    drop_advance_to data p _ (EndLine ++ List.replicate d Tab) _ h (by simp [EndLine]; omega)
  have hcol : parent < 4 * (d : Int) := by
    rw [StackOk_parent _ _ _ hst]
    split <;> omega
  have ha := readEvents_attribute fuel data (p + 2 + d) (4 * (d : Int)) parent stack d
    (u32 (li + 1)) (p + 2) name value future h2 hn hv hfut hcol
  rw [hrf] at ha
  exact readEvents_of_peek _ _ _ _ e1 ha

/-- The chunk of a `WriteAttribute` that goes on in the current line. -/
theorem read_attribute_same_line (fuel : Nat) (data : List CharType) (p : Nat)
    (active parent : Int) (stack : List Int) (d li ls : Nat)
    (name value future : List CharType) (evs : List Event)
    (h : data.drop p = [59, 32] ++
      (writtenForm name ++ 61 :: (writtenForm value ++ future)))
    (hn : Readable name) (hv : Readable value) (hfut : StopsScan future)
    (hcol : parent ≤ active)
    (hnext : ∃ rf, (idle data
      (p + 2 + (writtenForm name).length + 1 + (writtenForm value).length)
      (active + 1) parent stack d li ls).readEvents fuel = .ok (evs, rf)) :
    ∃ rf, (idle data p active parent stack d li ls).readEvents (fuel + 1) =
      .ok (.Attribute name value :: evs, rf) := by
  obtain ⟨rf, hrf⟩ := hnext
  refine ⟨rf, ?_⟩
  have h1 : data.drop p = 59 :: (32 :: (writtenForm name ++ 61 :: (writtenForm value ++ future))) :=
    h
  have e1 := PeekNext_semicolon data p active parent stack d li ls _ h1
  have h2 : data.drop (p + 1) = 32 :: (writtenForm name ++ 61 :: (writtenForm value ++ future)) :=
    drop_advance data p [59] _ h1
  have e2 := PeekNext_space data (p + 1) active parent stack d li ls _ h2
  have h3 : data.drop (p + 2) = writtenForm name ++ 61 :: (writtenForm value ++ future) :=
    drop_advance data (p + 1) [32] _ h2
  have ha := readEvents_attribute fuel data (p + 2) (active + 1) parent stack d li ls name value
    future h3 hn hv hfut (by omega)
  rw [hrf] at ha
  exact readEvents_of_peek _ _ _ _ (e1.trans e2) ha

end InputStreamFormatter

end Utility


namespace Utility
open FormatterConstants
namespace InputStreamFormatter

/-! ## The reader over the output of the writer -/

theorem StackOk_shrink (stack : List Int) (d k : Nat) (parent : Int)
    (h : StackOk stack (d + k) parent) :
    StackOk stack d (if d = 0 then -1 else 4 * ((d : Int) - 1)) := by
  obtain ⟨h1, h2, _⟩ := h
  exact ⟨by omega, fun i hi => h2 i (by omega), rfl⟩

theorem read_ops (ops : List WriterOp) :
    ∀ (w wf : OutputStreamFormatter) (k : Nat) (afterEnd : Bool) (active parent : Int)
      (stack : List Int) (li ls fuel : Nat),
      w.applyAll ops = .ok wf →
      w._hotLine = true →
      StackOk stack (w._currentIndentLevel + k) parent →
      (k = 0 → parent ≤ active) →
      (afterEnd = false → k = 0) →
      attributesFirst afterEnd ops = true →
      (∀ op ∈ ops, op.Readable) →
      depthWithin stack.length w._currentIndentLevel ops = true →
      ops.length + k + wf._currentIndentLevel < fuel →
      ∃ rf, (idle wf._stream w._stream.length active parent stack
          (w._currentIndentLevel + k) li ls).readEvents fuel =
        .ok (List.replicate k .EndElement ++ ops.map WriterOp.event ++
          List.replicate wf._currentIndentLevel .EndElement, rf) := by
  induction ops with
  | nil =>
    intro w wf k afterEnd active parent stack li ls fuel h hh hst hcol hk hord hread hdepth hfuel
    cases h
    obtain ⟨rf, hrf⟩ := readEvents_eof_fuel (w._currentIndentLevel + k) fuel
      (idle w._stream w._stream.length active parent stack (w._currentIndentLevel + k) li ls)
      (by simp [idle, MemoryMappedInputStream.Remaining]) rfl rfl
      (by simp only [List.length_nil] at hfuel; omega)
    refine ⟨rf, ?_⟩
    rw [hrf, Nat.add_comm, List.replicate_add]
    simp
  | cons op ops ih =>
    intro w wf k afterEnd active parent stack li ls fuel h hh hst hcol hk hord hread hdepth hfuel
    obtain ⟨w1, h1, h2⟩ := applyAll_cons w wf op ops h
    have hread' : ∀ o ∈ ops, o.Readable := fun o ho => hread o (by simp [ho])
    cases op with
    | EndElement id =>
      obtain ⟨hs, hind, hh1, _⟩ := EndElement_spec w w1 id h1
      have hd : w1._currentIndentLevel + (k + 1) = w._currentIndentLevel + k := by omega
      obtain ⟨rf, hrf⟩ := ih w1 wf (k + 1) true active parent stack li ls fuel h2
        (hh1.trans hh) (by rw [hd]; exact hst) (by omega) (by simp)
        (by simpa [attributesFirst] using hord) hread'
        (by
          have : w1._currentIndentLevel = w._currentIndentLevel - 1 := by omega
          rw [this]
          simpa [depthWithin] using hdepth)
        (by simp only [List.length_cons] at hfuel; omega)
      refine ⟨rf, ?_⟩
      rw [hd, hs] at hrf
      rw [hrf]
      simp [List.replicate_succ', WriterOp.event]
    | BeginElement name =>
      obtain ⟨id, hb⟩ := apply_begin w w1 name h1
      obtain ⟨_, hs, hind, hh1, _, _, _⟩ := BeginElement_spec w w1 name id hb
      obtain ⟨future, hf, hfut⟩ := applyAll_future ops w1 wf h2 hh1
      have hr : Readable name := hread (.BeginElement name) (by simp)
      simp only [depthWithin, Bool.and_eq_true, decide_eq_true_eq] at hdepth
      obtain ⟨hcap, hdepth'⟩ := hdepth
      -- the input from the read pointer on
      have hdata : wf._stream.drop w._stream.length =
          (if w._pendingHeader then HeaderPrefix ++ OutputStreamFormatter.headerText else []) ++
          13 :: (10 :: (List.replicate w._currentIndentLevel Tab ++
            (EndLine ++ List.replicate w._currentIndentLevel Tab ++
              ElementPrefix :: (writtenForm name ++ future)))) := by
        rw [hf, hs, OutputStreamFormatter.beginText, newLineText_hot w hh]
        simp [List.append_assoc, EndLine]
      obtain ⟨e0, hd0⟩ := PeekNext_header_opt w._pendingHeader wf._stream w._stream.length
        active parent stack (w._currentIndentLevel + k) li ls _ hdata
      have hlen : w1._stream.length =
          w._stream.length + (if w._pendingHeader = true then 18 else 0) + 2 +
            w._currentIndentLevel + 2 + w._currentIndentLevel + 1 +
            (writtenForm name).length := by
        rw [hs, OutputStreamFormatter.beginText, newLineText_hot w hh]
        cases w._pendingHeader <;>
          simp [EndLine, HeaderPrefix, OutputStreamFormatter.headerText] <;> omega
      -- the rest of the document
      obtain ⟨f', hf'⟩ : ∃ f', fuel = f' + 1 + k := ⟨fuel - 1 - k, by
        simp only [List.length_cons] at hfuel; omega⟩
      have hpush := StackOk_push stack w._currentIndentLevel _
        (StackOk_shrink stack _ k parent hst) hcap
      have hnext := ih w1 wf 0 false (4 * (w._currentIndentLevel : Int))
        (4 * (w._currentIndentLevel : Int))
        (stack.set w._currentIndentLevel (4 * (w._currentIndentLevel : Int)))
        (u32 (u32 (li + 1) + 1))
        (w._stream.length + (if w._pendingHeader = true then 18 else 0) + 2 +
          w._currentIndentLevel + 2) f' h2 hh1
        (by rw [hind]; exact hpush) (fun _ => le_refl _) (fun _ => rfl)
        (by simpa [attributesFirst] using hord) hread'
        (by rw [List.length_set, hind]; exact hdepth')
        (by simp only [List.length_cons] at hfuel; omega)
      rw [hlen, hind] at hnext
      simp only [List.replicate_zero, List.nil_append, Nat.add_zero] at hnext
      obtain ⟨rf, hrf⟩ := read_begin_chunk k f' wf._stream
        (w._stream.length + (if w._pendingHeader = true then 18 else 0)) active parent stack
        w._currentIndentLevel li ls name future _ (by rw [hd0]; simp [EndLine])
        hr hfut hst hcap hnext
      refine ⟨rf, ?_⟩
      rw [hf', show f' + 1 + k = f' + k + 1 by omega] at *
      rw [readEvents_of_peek _ _ _ _ e0 hrf]
      simp [WriterOp.event]
    | WriteAttribute name value =>
      obtain ⟨hs, hind, hh1, _, _, _⟩ := WriteAttribute_spec w w1 name value h1
      obtain ⟨future, hf, hfut⟩ := applyAll_future ops w1 wf h2 hh1
      obtain ⟨hn, hv⟩ : Readable name ∧ Readable value :=
        hread (.WriteAttribute name value) (by simp)
      simp only [attributesFirst, Bool.and_eq_true, Bool.not_eq_true'] at hord
      obtain ⟨hae, hord'⟩ := hord
      have hk0 : k = 0 := hk hae
      subst hk0
      simp only [Nat.add_zero] at hst ⊢
      have hcol' := hcol rfl
      simp only [depthWithin] at hdepth
      obtain ⟨f', hf'⟩ : ∃ f', fuel = f' + 1 := ⟨fuel - 1, by
        simp only [List.length_cons] at hfuel; omega⟩
      have hfuel' : ops.length + 0 + wf._currentIndentLevel < f' := by
        simp only [List.length_cons] at hfuel; omega
      have hst1 : StackOk stack (w1._currentIndentLevel + 0) parent := by
        rw [hind]; exact hst
      by_cases hforce : w.forcesNewLine name value = true
      · -- a new line
        have hdata : wf._stream.drop w._stream.length =
            (if w._pendingHeader then HeaderPrefix ++ OutputStreamFormatter.headerText
             else []) ++
            13 :: (10 :: (List.replicate w._currentIndentLevel Tab ++
              (writtenForm name ++ 61 :: (writtenForm value ++ future)))) := by
          rw [hf, hs, OutputStreamFormatter.attributeSeparator, if_pos hforce,
            newLineText_hot w hh]
          simp [List.append_assoc, EndLine]
        obtain ⟨e0, hd0⟩ := PeekNext_header_opt w._pendingHeader wf._stream w._stream.length
          active parent stack w._currentIndentLevel li ls _ hdata
        have hlen : w1._stream.length =
            w._stream.length + (if w._pendingHeader = true then 18 else 0) + 2 +
              w._currentIndentLevel + (writtenForm name).length + 1 +
              (writtenForm value).length := by
          rw [hs, OutputStreamFormatter.attributeSeparator, if_pos hforce, newLineText_hot w hh]
          cases w._pendingHeader <;>
            simp [EndLine, HeaderPrefix, OutputStreamFormatter.headerText] <;> omega
        have hnext := ih w1 wf 0 false (4 * (w._currentIndentLevel : Int)) parent stack
          (u32 (li + 1))
          (w._stream.length + (if w._pendingHeader = true then 18 else 0) + 2) f' h2 hh1 hst1
          (fun _ => by
            rw [StackOk_parent _ _ _ hst]
            split <;> omega)
          (fun _ => rfl) hord' hread' (by rw [hind]; exact hdepth) hfuel'
        rw [hlen, hind] at hnext
        simp only [List.replicate_zero, List.nil_append, Nat.add_zero] at hnext
        obtain ⟨rf, hrf⟩ := read_attribute_line f' wf._stream
          (w._stream.length + (if w._pendingHeader = true then 18 else 0)) active parent stack
          w._currentIndentLevel li ls name value future _ (by rw [hd0]; simp [EndLine])
          hn hv hfut hst hnext
        refine ⟨rf, ?_⟩
        rw [hf']
        rw [readEvents_of_peek _ _ _ _ e0 hrf]
        simp [WriterOp.event]
      · -- the same line
        have hdata : wf._stream.drop w._stream.length =
            [59, 32] ++ (writtenForm name ++ 61 :: (writtenForm value ++ future)) := by
          rw [hf, hs, OutputStreamFormatter.attributeSeparator, if_neg hforce, if_pos hh]
          simp [List.append_assoc]
        have hlen : w1._stream.length =
            w._stream.length + 2 + (writtenForm name).length + 1 +
              (writtenForm value).length := by
          rw [hs, OutputStreamFormatter.attributeSeparator, if_neg hforce, if_pos hh]
          simp
          omega
        have hnext := ih w1 wf 0 false (active + 1) parent stack li ls f' h2 hh1 hst1
          (fun _ => by omega) (fun _ => rfl) hord' hread' (by rw [hind]; exact hdepth) hfuel'
        rw [hlen, hind] at hnext
        simp only [List.replicate_zero, List.nil_append, Nat.add_zero] at hnext
        obtain ⟨rf, hrf⟩ := read_attribute_same_line f' wf._stream w._stream.length active
          parent stack w._currentIndentLevel li ls name value future _ hdata hn hv hfut hcol'
          hnext
        refine ⟨rf, ?_⟩
        rw [hf', hrf]
        simp [WriterOp.event]

theorem StackOk_fresh (capacity : Nat) : StackOk (List.replicate capacity 0) 0 (-1) := by
  simp [StackOk]

theorem apply_end_fresh (chk : Bool) (nid id : Nat) (w1 : OutputStreamFormatter) :
    (OutputStreamFormatter.fresh chk nid).apply (.EndElement id) ≠ .ok w1 := by
  simp [OutputStreamFormatter.apply, OutputStreamFormatter.EndElement,
    OutputStreamFormatter.fresh]

/-- The reader over the whole output of a fresh writer. -/
theorem read_document (capacity : Nat) (chk : Bool) (nid : Nat) (ops : List WriterOp)
    (wf : OutputStreamFormatter)
    (hw : (OutputStreamFormatter.fresh chk nid).applyAll ops = .ok wf)
    (hord : attributesFirst false ops = true) (hread : ∀ op ∈ ops, op.Readable)
    (hdepth : depthWithin capacity 0 ops = true) (fuel : Nat)
    (hfuel : ops.length + wf._currentIndentLevel < fuel) :
    ∃ rf, (fresh capacity wf._stream).readEvents fuel =
      .ok (ops.map WriterOp.event ++ List.replicate wf._currentIndentLevel .EndElement, rf) := by
  cases ops with
  | nil =>
    cases hw
    obtain ⟨rf, hrf⟩ := readEvents_eof_fuel 0 fuel (fresh capacity []) rfl rfl rfl (by omega)
    exact ⟨rf, by simpa [OutputStreamFormatter.fresh] using hrf⟩
  | cons op ops =>
    obtain ⟨w1, h1, h2⟩ := applyAll_cons _ wf op ops hw
    have hread' : ∀ o ∈ ops, o.Readable := fun o ho => hread o (by simp [ho])
    obtain ⟨f', hf'⟩ : ∃ f', fuel = f' + 1 := ⟨fuel - 1, by
      simp only [List.length_cons] at hfuel; omega⟩
    have hfuel' : ops.length + 0 + wf._currentIndentLevel < f' := by
      simp only [List.length_cons] at hfuel; omega
    cases op with
    | EndElement id => exact absurd h1 (apply_end_fresh chk nid id w1)
    | BeginElement name =>
      obtain ⟨id, hb⟩ := apply_begin _ w1 name h1
      obtain ⟨_, hs, hind, hh1, _, _, _⟩ := BeginElement_spec _ w1 name id hb
      obtain ⟨future, hf, hfut⟩ := applyAll_future ops w1 wf h2 hh1
      have hr : Readable name := hread (.BeginElement name) (by simp)
      simp only [depthWithin, Bool.and_eq_true, decide_eq_true_eq] at hdepth
      obtain ⟨hcap, hdepth'⟩ := hdepth
      have hs' : w1._stream = HeaderPrefix ++ OutputStreamFormatter.headerText ++
          13 :: (10 :: (EndLine ++ ElementPrefix :: writtenForm name)) := by
        rw [hs]
        simp [OutputStreamFormatter.fresh, OutputStreamFormatter.beginText,
          OutputStreamFormatter.newLineText, EndLine, List.append_assoc]
      have hdata : wf._stream = HeaderPrefix ++ OutputStreamFormatter.headerText ++
          13 :: (10 :: (EndLine ++ ElementPrefix :: (writtenForm name ++ future))) := by
        rw [hf, hs']; simp [List.append_assoc, EndLine]
      have e0 := PeekNext_fresh_header capacity wf._stream _ hdata
      have hd18 : wf._stream.drop 18 = EndLine ++ List.replicate 0 Tab ++
          (EndLine ++ List.replicate 0 Tab ++ ElementPrefix :: (writtenForm name ++ future)) := by
        rw [hdata]; rfl
      have hlen : w1._stream.length = 18 + 2 + 0 + 2 + 0 + 1 + (writtenForm name).length := by
        rw [hs']
        simp [EndLine, HeaderPrefix, OutputStreamFormatter.headerText]
        omega
      have hpush := StackOk_push (List.replicate capacity 0) 0 (-1) (StackOk_fresh capacity)
        (by simpa using hcap)
      have hind0 : w1._currentIndentLevel = 1 := by
        rw [hind]; rfl
      have hnext := read_ops ops w1 wf 0 false (4 * ((0 : Nat) : Int)) (4 * ((0 : Nat) : Int))
        ((List.replicate capacity 0).set 0 (4 * ((0 : Nat) : Int))) (u32 (u32 (0 + 1) + 1))
        (18 + 2 + 0 + 2) f' h2 hh1 (by rw [hind0]; exact hpush) (fun _ => le_refl _)
        (fun _ => rfl) (by simpa [attributesFirst] using hord) hread'
        (by rw [List.length_set, hind0]; simpa using hdepth') hfuel'
      rw [hlen, hind0] at hnext
      simp only [List.replicate_zero, List.nil_append, Nat.add_zero] at hnext
      obtain ⟨rf, hrf⟩ := read_begin_chunk 0 f' wf._stream 18 0 (-1) (List.replicate capacity 0)
        0 0 0 name future _ hd18 hr hfut (StackOk_fresh capacity) (by simpa using hcap) hnext
      refine ⟨rf, ?_⟩
      rw [hf', readEvents_of_peek _ _ _ _ e0 hrf]
      simp [WriterOp.event]
    | WriteAttribute name value =>
      obtain ⟨hs, hind, hh1, _, _, _⟩ := WriteAttribute_spec _ w1 name value h1
      obtain ⟨future, hf, hfut⟩ := applyAll_future ops w1 wf h2 hh1
      obtain ⟨hn, hv⟩ : Readable name ∧ Readable value :=
        hread (.WriteAttribute name value) (by simp)
      simp only [attributesFirst, Bool.and_eq_true, Bool.not_eq_true'] at hord
      obtain ⟨_, hord'⟩ := hord
      simp only [depthWithin] at hdepth
      have hind0 : w1._currentIndentLevel = 0 := by
        rw [hind]; rfl
      have hst1 : StackOk (List.replicate capacity 0) (w1._currentIndentLevel + 0) (-1) := by
        rw [hind0]; exact StackOk_fresh capacity
      by_cases hforce : (OutputStreamFormatter.fresh chk nid).forcesNewLine name value = true
      · have hs' : w1._stream = HeaderPrefix ++ OutputStreamFormatter.headerText ++
            13 :: (10 :: (writtenForm name ++ 61 :: writtenForm value)) := by
          rw [hs, OutputStreamFormatter.attributeSeparator, if_pos hforce]
          simp [OutputStreamFormatter.fresh, OutputStreamFormatter.newLineText, EndLine,
            List.append_assoc]
        have hdata : wf._stream = HeaderPrefix ++ OutputStreamFormatter.headerText ++
            13 :: (10 :: (writtenForm name ++ 61 :: (writtenForm value ++ future))) := by
          rw [hf, hs']; simp [List.append_assoc]
        have e0 := PeekNext_fresh_header capacity wf._stream _ hdata
        have hd18 : wf._stream.drop 18 = EndLine ++ List.replicate 0 Tab ++
            (writtenForm name ++ 61 :: (writtenForm value ++ future)) := by
          rw [hdata]; rfl
        have hlen : w1._stream.length =
            18 + 2 + 0 + (writtenForm name).length + 1 + (writtenForm value).length := by
          rw [hs']
          simp [HeaderPrefix, OutputStreamFormatter.headerText]
          omega
        have hnext := read_ops ops w1 wf 0 false (4 * ((0 : Nat) : Int)) (-1)
          (List.replicate capacity 0) (u32 (0 + 1)) (18 + 2) f' h2 hh1 hst1
          (fun _ => by simp) (fun _ => rfl) hord' hread'
          (by rw [List.length_replicate, hind0]; exact hdepth) hfuel'
        rw [hlen, hind0] at hnext
        simp only [List.replicate_zero, List.nil_append, Nat.add_zero] at hnext
        obtain ⟨rf, hrf⟩ := read_attribute_line f' wf._stream 18 0 (-1)
          (List.replicate capacity 0) 0 0 0 name value future _ hd18 hn hv hfut
          (StackOk_fresh capacity) hnext
        refine ⟨rf, ?_⟩
        rw [hf', readEvents_of_peek _ _ _ _ e0 hrf]
        simp [WriterOp.event]
      · have hs' : w1._stream = writtenForm name ++ 61 :: writtenForm value := by
          rw [hs, OutputStreamFormatter.attributeSeparator, if_neg hforce]
          simp [OutputStreamFormatter.fresh, List.append_assoc]
        have hdata : wf._stream = writtenForm name ++ 61 :: (writtenForm value ++ future) := by
          rw [hf, hs']; simp [List.append_assoc]
        obtain ⟨c, t, hform, hplain, _⟩ := writtenForm_head name
        have e0 := PeekNext_fresh_plain capacity wf._stream (by
          rw [hdata, hform]
          simp only [List.cons_append, List.head?_cons, ne_eq, Option.some.injEq]
          exact hplain.2.2.2.2.2.2.2.2.2.2)
        have hlen : w1._stream.length =
            0 + (writtenForm name).length + 1 + (writtenForm value).length := by
          rw [hs']
          simp
          omega
        have hnext := read_ops ops w1 wf 0 false 0 (-1) (List.replicate capacity 0) 0 0 f' h2
          hh1 hst1 (fun _ => by simp) (fun _ => rfl) hord' hread'
          (by rw [List.length_replicate, hind0]; exact hdepth) hfuel'
        rw [hlen, hind0] at hnext
        simp only [List.replicate_zero, List.nil_append, Nat.add_zero] at hnext
        obtain ⟨rf, hrf⟩ := hnext
        have ha := readEvents_attribute f' wf._stream 0 0 (-1) (List.replicate capacity 0) 0 0 0
          name value future (by rw [List.drop_zero]; exact hdata) hn hv hfut (by simp)
        rw [hrf] at ha
        refine ⟨rf, ?_⟩
        rw [hf', readEvents_of_peek _ _ _ _ e0 ha]
        simp [WriterOp.event]

end InputStreamFormatter
end Utility


namespace Utility
open FormatterConstants

/-! ## The depth of the events read -/

namespace InputStreamFormatter

theorem TryReadBeginElement_length (r : InputStreamFormatter) :
    Result.All (fun _ => True)
      (fun p => p.2._baseLineStack.length = r._baseLineStack.length)
      r.TryReadBeginElement := by
  rw [TryReadBeginElement]
  refine Result.All_bind_mono _ _ _ _ _ _ (PeekNext_all r) (fun _ _ => trivial) ?_
  rintro ⟨b, r1⟩ _ ⟨f, _⟩
  dsimp only []
  split
  · show r1._baseLineStack.length = _
    rw [f.1]
  · refine Result.All_onStream_bind _ _ _ _ _ trivial ?_
    rintro ⟨nameEnd, s⟩ _
    dsimp only []
    split
    · trivial
    · show (r1._baseLineStack.set _ _).length = _
      rw [List.length_set, f.1]

theorem TryReadEndElement_length (r : InputStreamFormatter) :
    Result.All (fun _ => True)
      (fun p => p.2._baseLineStack.length = r._baseLineStack.length)
      r.TryReadEndElement := by
  rw [TryReadEndElement]
  refine Result.All_bind_mono _ _ _ _ _ _ (PeekNext_all r) (fun _ _ => trivial) ?_
  rintro ⟨b, r1⟩ _ ⟨f, _⟩
  dsimp only []
  split
  · show r1._baseLineStack.length = _
    rw [f.1]
  · show (if r1._baseLineStackPtr ≠ 0 then _ else r1)._baseLineStack.length = _
    split
    · show r1._baseLineStack.length = _
      rw [f.1]
    · rw [f.1]

theorem TryReadAttribute_length (r : InputStreamFormatter) :
    Result.All (fun _ => True)
      (fun p => p.2._baseLineStack.length = r._baseLineStack.length)
      r.TryReadAttribute := by
  rw [TryReadAttribute]
  refine Result.All_bind_mono _ _ _ _ _ _ (PeekNext_all r) (fun _ _ => trivial) ?_
  rintro ⟨b, r1⟩ _ ⟨f, _⟩
  dsimp only []
  split
  · show r1._baseLineStack.length = _
    rw [f.1]
  · refine Result.All_onStream_bind _ _ _ _ _ trivial ?_
    rintro ⟨nameEnd, s1⟩ _
    dsimp only []
    refine Result.All_onStream_bind _ _ _ _ _ trivial ?_
    intro s2 _
    refine Result.All_bind_mono _ _ _ _ _ _ (PeekNext_all _) (fun _ _ => trivial) ?_
    rintro ⟨b2, r4⟩ _ ⟨f4, _⟩
    dsimp only []
    have h4 : r4._baseLineStack.length = r._baseLineStack.length := by
      rw [f4.1]
      show r1._baseLineStack.length = _
      rw [f.1]
    split
    · refine Result.All_onStream_bind _ _ _ _ _ trivial ?_
      rintro ⟨valueEnd, s3⟩ _
      exact h4
    · exact h4

/-- The events that the reading loop returns never nest deeper than the stack of the
reader has entries. -/
theorem readEvents_depth (fuel : Nat) :
    ∀ (r rf : InputStreamFormatter) (evs : List Event), Inv r →
      r.readEvents fuel = .ok (evs, rf) →
      deepest r._baseLineStackPtr evs ≤ r._baseLineStack.length := by
  induction fuel with
  | zero =>
    intro r rf evs _ h
    cases h
  | succ fuel ih =>
    intro r rf evs hi h
    rw [readEvents_succ, Except.bind_eq_ok] at h
    obtain ⟨⟨b, r1⟩, hpeek, h⟩ := h
    have hp := Result.All_of_ok _ _ _ _ (PeekNext_inv r hi) hpeek
    obtain ⟨i1, f1, _⟩ := hp
    simp only at i1 f1
    have hlen1 : r1._baseLineStack.length = r._baseLineStack.length := by rw [f1.1]
    have hptr1 : r1._baseLineStackPtr = r._baseLineStackPtr := f1.2.1
    cases b with
    | None =>
      simp only at h
      cases h
      simpa [deepest] using hi.1
    | AttributeValue =>
      simp only at h
      cases h
    | BeginElement =>
      simp only at h
      rw [Except.bind_eq_ok] at h
      obtain ⟨⟨res, r2⟩, hread, h⟩ := h
      have a := Result.All_of_ok _ _ _ _ (TryReadBeginElement_inv r1 i1) hread
      have l := Result.All_of_ok _ _ _ _ (TryReadBeginElement_length r1) hread
      cases res with
      | none => simp only at h; cases h
      | some name =>
        simp only at h a l
        rw [Except.bind_eq_ok] at h
        obtain ⟨⟨evs2, r3⟩, hrest, h⟩ := h
        simp only at h
        have := ih r2 r3 evs2 a.1 hrest
        cases h
        rw [a.2, l, hlen1, hptr1] at this
        simpa [deepest] using this
    | AttributeName =>
      simp only at h
      rw [Except.bind_eq_ok] at h
      obtain ⟨⟨res, r2⟩, hread, h⟩ := h
      have a := Result.All_of_ok _ _ _ _ (TryReadAttribute_inv r1 i1) hread
      have l := Result.All_of_ok _ _ _ _ (TryReadAttribute_length r1) hread
      cases res with
      | none => simp only at h; cases h
      | some nv =>
        obtain ⟨name, value⟩ := nv
        simp only at h a l
        rw [Except.bind_eq_ok] at h
        obtain ⟨⟨evs2, r3⟩, hrest, h⟩ := h
        simp only at h
        have := ih r2 r3 evs2 a.1 hrest
        cases h
        rw [a.2, l, hlen1, hptr1] at this
        simpa [deepest] using this
    | EndElement =>
      simp only at h
      rw [Except.bind_eq_ok] at h
      obtain ⟨⟨res, r2⟩, hread, h⟩ := h
      have a := Result.All_of_ok _ _ _ _ (TryReadEndElement_inv r1 i1) hread
      have l := Result.All_of_ok _ _ _ _ (TryReadEndElement_length r1) hread
      cases res with
      | false => simp at h
      | true =>
        simp only [not_true_eq_false, if_false] at h
        rw [Except.bind_eq_ok] at h
        obtain ⟨⟨evs2, r3⟩, hrest, h⟩ := h
        simp only at h
        have := ih r2 r3 evs2 a.1 hrest
        cases h
        have hd : r2._baseLineStackPtr = r._baseLineStackPtr - 1 := by
          have := a.2
          simp only [if_true] at this
          omega
        rw [hd, l, hlen1] at this
        simp only [deepest, max_le_iff]
        exact ⟨hi.1, this⟩

theorem events_depth (capacity fuel : Nat) (data : List CharType) (evs : List Event)
    (h : (fresh capacity data).events fuel = .ok evs) : deepest 0 evs ≤ capacity := by
  unfold events at h
  cases hr : (fresh capacity data).readEvents fuel with
  | error e =>
    rw [hr] at h
    cases h
  | ok p =>
    obtain ⟨evs2, rf⟩ := p
    rw [hr] at h
    have := readEvents_depth fuel _ rf evs2 (Inv_fresh capacity data) hr
    cases h
    simpa [fresh] using this

end InputStreamFormatter

/-! ## The writer accepts a nested document -/

namespace OutputStreamFormatter

theorem DoNewLine_ok (w : OutputStreamFormatter) (h : w._currentIndentLevel ≤ tabBufferSize) :
    ∃ w1, w.DoNewLine = .ok w1 ∧ w1._currentIndentLevel = w._currentIndentLevel ∧
      w1.checkElements = w.checkElements := by
  unfold DoNewLine
  dsimp only []
  split
  · split
    · rw [if_neg (by simpa [WriteConst] using h)]
      exact ⟨_, rfl, rfl, rfl⟩
    · exact ⟨_, rfl, rfl, rfl⟩
  · split
    · rw [if_neg (by simpa [WriteConst] using h)]
      exact ⟨_, rfl, rfl, rfl⟩
    · exact ⟨_, rfl, rfl, rfl⟩

theorem apply_begin_ok (w : OutputStreamFormatter) (name : List CharType) (hn : name ≠ [])
    (h : w._currentIndentLevel ≤ tabBufferSize) (hc : w.checkElements = false) :
    ∃ w1, w.apply (.BeginElement name) = .ok w1 ∧
      w1._currentIndentLevel = w._currentIndentLevel + 1 ∧ w1.checkElements = false := by
  obtain ⟨w1, e1, l1, c1⟩ := DoNewLine_ok w h
  obtain ⟨w2, e2, l2, c2⟩ := DoNewLine_ok { w1 with _hotLine := true } (by simpa [l1] using h)
  have hlen : name.length > 0 := List.length_pos.mpr hn
  simp only [apply, BeginElement, bind, Except.bind, e1, e2, hlen, not_true_eq_false, if_false]
  have hc2 : w2.checkElements = false := by rw [c2]; simpa [c1] using hc
  have hw : (WriteNameOrValue { w2 with _stream := w2._stream ++ [ElementPrefix] }
      name).checkElements = false := by
    unfold WriteNameOrValue
    split <;> simpa [WriteConst] using hc2
  have hl : (WriteNameOrValue { w2 with _stream := w2._stream ++ [ElementPrefix] }
      name)._currentIndentLevel = w._currentIndentLevel := by
    unfold WriteNameOrValue
    split <;> simp [WriteConst, l2, l1]
  simp only [hw, Bool.false_eq_true, if_false]
  refine ⟨_, rfl, ?_, ?_⟩
  · simp only [Nat.add_right_cancel_iff]
    exact hl
  · rfl

theorem apply_end_ok (w : OutputStreamFormatter) (id : Nat)
    (h : 0 < w._currentIndentLevel) (hc : w.checkElements = false) :
    ∃ w1, w.apply (.EndElement id) = .ok w1 ∧
      w1._currentIndentLevel + 1 = w._currentIndentLevel ∧ w1.checkElements = false := by
  have h0 : w._currentIndentLevel ≠ 0 := by omega
  simp only [apply, EndElement, h0, if_false, hc, Bool.false_eq_true]
  refine ⟨_, rfl, ?_, ?_⟩
  · show w._currentIndentLevel - 1 + 1 = _
    omega
  · rfl

theorem applyAll_append (ops ops2 : List WriterOp) :
    ∀ (w w1 : OutputStreamFormatter), w.applyAll ops = .ok w1 →
      w.applyAll (ops ++ ops2) = w1.applyAll ops2 := by
  induction ops with
  | nil =>
    intro w w1 h
    cases h
    rfl
  | cons op ops ih =>
    intro w w1 h
    obtain ⟨wm, h1, h2⟩ := (Except.bind_eq_ok _ _ _).mp h
    show (w.apply op >>= fun x => x.applyAll (ops ++ ops2)) = _
    rw [h1]
    exact ih wm w1 h2

theorem applyAll_begins (name : List CharType) (hn : name ≠ []) (n : Nat) :
    ∀ (w : OutputStreamFormatter), w._currentIndentLevel + n ≤ tabBufferSize + 1 →
      w.checkElements = false →
      ∃ w1, w.applyAll (List.replicate n (.BeginElement name)) = .ok w1 ∧
        w1._currentIndentLevel = w._currentIndentLevel + n ∧ w1.checkElements = false := by
  induction n with
  | zero =>
    intro w _ hc
    exact ⟨w, rfl, rfl, hc⟩
  | succ n ih =>
    intro w h hc
    obtain ⟨w1, e1, l1, c1⟩ := apply_begin_ok w name hn (by omega) hc
    obtain ⟨w2, e2, l2, c2⟩ := ih w1 (by omega) c1
    refine ⟨w2, ?_, by omega, c2⟩
    show (w.apply (.BeginElement name) >>= fun x => x.applyAll _) = _
    rw [e1]
    exact e2

theorem applyAll_ends (id : Nat) (n : Nat) :
    ∀ (w : OutputStreamFormatter), n ≤ w._currentIndentLevel → w.checkElements = false →
      ∃ w1, w.applyAll (List.replicate n (.EndElement id)) = .ok w1 ∧
        w1._currentIndentLevel + n = w._currentIndentLevel := by
  induction n with
  | zero =>
    intro w _ _
    exact ⟨w, rfl, rfl⟩
  | succ n ih =>
    intro w h hc
    obtain ⟨w1, e1, l1, c1⟩ := apply_end_ok w id (by omega) hc
    obtain ⟨w2, e2, l2⟩ := ih w1 (by omega) c1
    refine ⟨w2, ?_, by omega⟩
    show (w.apply (.EndElement id) >>= fun x => x.applyAll _) = _
    rw [e1]
    exact e2

theorem applyAll_nested (n : Nat) (h : n ≤ tabBufferSize + 1) :
    ∃ w, (fresh false 0).applyAll (nested n) = .ok w ∧ w._currentIndentLevel = 0 := by
  obtain ⟨w1, e1, l1, c1⟩ := applyAll_begins (text "A") (by decide) n (fresh false 0)
    (by simpa [fresh] using h) rfl
  obtain ⟨w2, e2, l2⟩ := applyAll_ends 0 n w1 (by omega) c1
  refine ⟨w2, ?_, ?_⟩
  · rw [nested, applyAll_append _ _ _ _ e1]
    exact e2
  · have : w1._currentIndentLevel = n := by simpa [fresh] using l1
    omega

end OutputStreamFormatter

theorem deepest_begins (name : List CharType) (n : Nat) :
    ∀ (d : Nat) (evs : List Event),
      d + n ≤ deepest d (List.replicate n (.BeginElement name) ++ evs) := by
  induction n with
  | zero =>
    intro d evs
    cases evs with
    | nil => simp [deepest]
    | cons e evs =>
      have key : ∀ (l : List Event) (k : Nat), k ≤ deepest k l := by
        intro l
        induction l with
        | nil => intro k; simp [deepest]
        | cons e l ih =>
          intro k
          cases e with
          | BeginElement _ => exact Nat.le_trans (Nat.le_succ k) (ih (k + 1))
          | Attribute _ _ => exact ih k
          | EndElement => simp [deepest]
      simpa using key (e :: evs) d
  | succ n ih =>
    intro d evs
    have := ih (d + 1) evs
    rw [List.replicate_succ, List.cons_append, deepest]
    omega

theorem deepest_nested (n : Nat) : n ≤ deepest 0 ((nested n).map WriterOp.event) := by
  have := deepest_begins (text "A") n 0 ((List.replicate n (WriterOp.EndElement 0)).map
    WriterOp.event)
  simpa [nested, WriterOp.event] using this

end Utility


namespace Utility
open FormatterConstants

/-! ## Round trip -/

theorem events_of_readEvents (r rf : InputStreamFormatter) (fuel : Nat) (evs : List Event)
    (h : r.readEvents fuel = .ok (evs, rf)) : r.events fuel = .ok evs := by
  simp [InputStreamFormatter.events, h]

theorem events_of_document (capacity : Nat) (chk : Bool) (nid : Nat) (ops : List WriterOp)
    (wf : OutputStreamFormatter)
    (hw : (OutputStreamFormatter.fresh chk nid).applyAll ops = .ok wf)
    (hbal : wf._currentIndentLevel = 0)
    (hord : attributesFirst false ops = true) (hread : ∀ op ∈ ops, op.Readable)
    (hdepth : depthWithin capacity 0 ops = true) (fuel : Nat) (hfuel : ops.length < fuel) :
    (InputStreamFormatter.fresh capacity wf._stream).events fuel =
      .ok (ops.map WriterOp.event) := by
  obtain ⟨rf, hrf⟩ := InputStreamFormatter.read_document capacity chk nid ops wf hw hord hread
    hdepth fuel (by omega)
  rw [hbal] at hrf
  simp only [List.replicate_zero, List.append_nil] at hrf
  exact events_of_readEvents _ rf fuel _ hrf

/-- C1 (amended): round trip.  For every sequence of writer calls that a fresh writer
accepts without an exception and that is balanced (the indentation depth is back at
zero), in which no `WriteAttribute` comes straight after an `EndElement`, in which
every name and value is simple or free of `):>`, and whose nesting stays within the
stack capacity of the reader, a fresh reader over the output, calling `PeekNext` and
the matching `TryRead...` until `PeekNext` returns `None`, delivers the events of the
calls in order, with the names and values code unit for code unit. -/
theorem round_trip (capacity : Nat) (chk : Bool) (nid : Nat) (ops : List WriterOp)
    (wf : OutputStreamFormatter)
    (hw : (OutputStreamFormatter.fresh chk nid).applyAll ops = .ok wf)
    (hbal : wf._currentIndentLevel = 0)
    (hord : attributesFirst false ops = true) (hread : ∀ op ∈ ops, op.Readable)
    (hdepth : depthWithin capacity 0 ops = true) (fuel : Nat) (hfuel : ops.length < fuel) :
    (InputStreamFormatter.fresh capacity wf._stream).events fuel =
      .ok (ops.map WriterOp.event) :=
  events_of_document capacity chk nid ops wf hw hbal hord hread hdepth fuel hfuel

/-- C1, witness: the element `A` with the protected attribute value ` v;` and the
child element `B`. -/
theorem round_trip_witness :
    (InputStreamFormatter.fresh 4
        (text "~~!Format=1; Tab=4\r\n\r\n~A; k=<:( v;):>\r\n\t\r\n\t~B")).events 6 =
      .ok [.BeginElement (text "A"), .Attribute (text "k") (text " v;"),
        .BeginElement (text "B"), .EndElement, .EndElement] :=
  round_trip 4 false 0
    [.BeginElement (text "A"), .WriteAttribute (text "k") (text " v;"),
      .BeginElement (text "B"), .EndElement 0, .EndElement 0]
    { _stream := text "~~!Format=1; Tab=4\r\n\r\n~A; k=<:( v;):>\r\n\t\r\n\t~B",
      _currentIndentLevel := 0, _hotLine := true, _currentLineLength := 6,
      _pendingHeader := false, checkElements := false, _elementStack := [],
      _nextElementId := 0 }
    (by rfl) rfl (by decide) (by decide) (by decide) 6 (by decide)

/-- C1, counterexample.  The balanced document `attributeAfterChild` writes the
attribute `x` of `A` behind the child `B`; the writer puts it on the line of `B`, and
every reader with room for two elements delivers it as an attribute of `B`: the
events read are not the events written.  The balanced document `postfixInValue` has
the attribute value ` ):>`; the reader delivers the value ` ` and a further attribute
`):>`.  The balanced document `nested (capacity + 1)` is accepted by the writer for
every `capacity` up to the size of the tab buffer, and no reader whose stack has
`capacity` entries delivers its events. -/
theorem round_trip_counterexample :
    (∃ wf, (OutputStreamFormatter.fresh false 0).applyAll attributeAfterChild = .ok wf ∧
      wf._currentIndentLevel = 0 ∧
      ∀ capacity fuel, 2 ≤ capacity → 5 < fuel →
        (InputStreamFormatter.fresh capacity wf._stream).events fuel =
          .ok (attributeInChild.map WriterOp.event)) ∧
    attributeInChild.map WriterOp.event ≠ attributeAfterChild.map WriterOp.event ∧
    (∃ wf, (OutputStreamFormatter.fresh false 0).applyAll postfixInValue = .ok wf ∧
      wf._currentIndentLevel = 0 ∧
      (InputStreamFormatter.fresh 32 wf._stream).events 5 =
        .ok [.BeginElement (text "A"), .Attribute (text "x") (text " "),
          .Attribute (text "):>") [], .EndElement]) ∧
    [Event.BeginElement (text "A"), .Attribute (text "x") (text " "),
      .Attribute (text "):>") [], .EndElement] ≠ postfixInValue.map WriterOp.event ∧
    (∀ capacity, capacity ≤ OutputStreamFormatter.tabBufferSize →
      ∃ wf, (OutputStreamFormatter.fresh false 0).applyAll (nested (capacity + 1)) = .ok wf ∧
        wf._currentIndentLevel = 0 ∧
        ∀ fuel, (InputStreamFormatter.fresh capacity wf._stream).events fuel ≠
          .ok ((nested (capacity + 1)).map WriterOp.event)) := by
  refine ⟨⟨_, by rfl, rfl, ?_⟩, by decide,
    ⟨_, by rfl, rfl, by rfl⟩, by decide, ?_⟩
  swap
  · intro capacity hc
    obtain ⟨wf, hw, hl⟩ := OutputStreamFormatter.applyAll_nested (capacity + 1) (by omega)
    refine ⟨wf, hw, hl, ?_⟩
    intro fuel h
    have h1 := InputStreamFormatter.events_depth capacity fuel _ _ h
    have h2 := deepest_nested (capacity + 1)
    omega
  intro capacity fuel hc hf
  refine events_of_document capacity false 0 attributeInChild _ (by rfl) rfl (by decide)
    (by decide) ?_ fuel (by simpa [attributeInChild] using hf)
  simp only [attributeInChild, depthWithin, Bool.and_eq_true, decide_eq_true_eq, and_true]
  omega

theorem scenario_depth (capacity : Nat) (value : List CharType) (hc : 2 ≤ capacity) :
    depthWithin capacity 0 (scenario value) = true := by
  simp only [scenario, depthWithin, Bool.and_eq_true, decide_eq_true_eq, and_true]
  omega

/-- C2: the concrete scenario.  On a fresh writer the six calls produce the text
shown, in which the value `has space` stands bare, and every fresh reader with room
for two elements tokenises it as `BeginElement(Root)`, `Attribute(x, 1)`,
`BeginElement(Child)`, `Attribute(name, has space)`, `EndElement`, `EndElement`,
`None`.  With the value ` leading` the text holds the protected form
`<:( leading):>` and the reader delivers exactly ` leading`. -/
theorem concrete_scenario (capacity fuel : Nat) (hc : 2 ≤ capacity) (hf : 6 < fuel) :
    (∃ w, (OutputStreamFormatter.fresh false 0).applyAll (scenario (text "has space")) = .ok w ∧
      w._stream =
        text "~~!Format=1; Tab=4\r\n\r\n~Root; x=1\r\n\t\r\n\t~Child; name=has space" ∧
      (InputStreamFormatter.fresh capacity w._stream).events fuel =
        .ok (scenarioEvents (text "has space"))) ∧
    (∃ w, (OutputStreamFormatter.fresh false 0).applyAll (scenario (text " leading")) = .ok w ∧
      w._stream =
        text "~~!Format=1; Tab=4\r\n\r\n~Root; x=1\r\n\t\r\n\t~Child; name=<:( leading):>" ∧
      (InputStreamFormatter.fresh capacity w._stream).events fuel =
        .ok (scenarioEvents (text " leading"))) := by
  constructor
  · refine ⟨_, by rfl, rfl, ?_⟩
    exact events_of_document capacity false 0 (scenario (text "has space")) _ (by rfl) rfl
      (by decide) (by decide) (scenario_depth capacity _ hc) fuel
      (by simpa [scenario] using hf)
  · refine ⟨_, by rfl, rfl, ?_⟩
    exact events_of_document capacity false 0 (scenario (text " leading")) _ (by rfl) rfl
      (by decide) (by decide) (scenario_depth capacity _ hc) fuel
      (by simpa [scenario] using hf)

/-- C2, witness: a reader with a stack of 32 entries. -/
theorem concrete_scenario_witness :
    (∃ w, (OutputStreamFormatter.fresh false 0).applyAll (scenario (text "has space")) = .ok w ∧
      w._stream =
        text "~~!Format=1; Tab=4\r\n\r\n~Root; x=1\r\n\t\r\n\t~Child; name=has space" ∧
      (InputStreamFormatter.fresh 32 w._stream).events 7 =
        .ok (scenarioEvents (text "has space"))) ∧
    (∃ w, (OutputStreamFormatter.fresh false 0).applyAll (scenario (text " leading")) = .ok w ∧
      w._stream =
        text "~~!Format=1; Tab=4\r\n\r\n~Root; x=1\r\n\t\r\n\t~Child; name=<:( leading):>" ∧
      (InputStreamFormatter.fresh 32 w._stream).events 7 =
        .ok (scenarioEvents (text " leading"))) :=
  concrete_scenario 32 7 (by decide) (by decide)

end Utility


namespace Utility
open FormatterConstants

/-! ## The writer calls one by one -/

namespace OutputStreamFormatter

theorem DoNewLine_total (w : OutputStreamFormatter)
    (h : w._currentIndentLevel ≤ tabBufferSize) :
    ∃ w1, w.DoNewLine = .ok w1 ∧ w1._stream = w._stream ++ w.newLineText ∧
      w1._currentIndentLevel = w._currentIndentLevel ∧ w1._hotLine = false ∧
      w1._pendingHeader = false := by
  obtain ⟨w1, h1, _⟩ := DoNewLine_ok w h
  obtain ⟨a1, a2, a3, a4, _⟩ := DoNewLine_spec w w1 h1
  exact ⟨w1, h1, a1, a2, a3, a4⟩

theorem BeginElement_total (w : OutputStreamFormatter) (name : List CharType)
    (hd : w._currentIndentLevel ≤ tabBufferSize) (hn : name ≠ []) :
    ∃ id w1, w.BeginElement name = .ok (id, w1) := by
  obtain ⟨w1, e1, l1, _⟩ := DoNewLine_ok w hd
  obtain ⟨w2, e2, _, _⟩ := DoNewLine_ok { w1 with _hotLine := true } (by simpa [l1] using hd)
  have hlen : name.length > 0 := List.length_pos.mpr hn
  simp only [BeginElement, bind, Except.bind, e1, e2, hlen, not_true_eq_false, if_false]
  split
  · exact ⟨_, _, rfl⟩
  · exact ⟨_, _, rfl⟩

theorem WriteAttribute_total (w : OutputStreamFormatter) (name value : List CharType)
    (hd : w._currentIndentLevel ≤ tabBufferSize) :
    ∃ w1, w.WriteAttribute name value = .ok w1 := by
  obtain ⟨w1, e1, _⟩ := DoNewLine_ok w hd
  simp only [WriteAttribute, bind, Except.bind, e1]
  split
  · exact ⟨_, rfl⟩
  · split
    · exact ⟨_, rfl⟩
    · exact ⟨_, rfl⟩

end OutputStreamFormatter

/-- C13: `EndElement` of the unchecked writer.  The call raises exactly when the
indentation depth is 0; the exception is the unexpected `EndElement` one and leaves
the writer as it was.  At any other depth the call returns, and the writer it leaves
is the one before with the depth one less: nothing is written and no other member
changes. -/
theorem endElement_unchecked (w : OutputStreamFormatter) (id : Nat)
    (hc : w.checkElements = false) :
    (w._currentIndentLevel = 0 →
      w.EndElement id = .error (.basic .unexpectedEndElement, w)) ∧
    (w._currentIndentLevel ≠ 0 →
      w.EndElement id =
        .ok { w with _currentIndentLevel := w._currentIndentLevel - 1 } ∧
      w._currentIndentLevel - 1 + 1 = w._currentIndentLevel) ∧
    ((∃ e w1, w.EndElement id = .error (e, w1)) ↔ w._currentIndentLevel = 0) := by
  refine ⟨?_, ?_, ?_⟩
  · intro h0
    simp [OutputStreamFormatter.EndElement, h0]
  · intro h0
    refine ⟨?_, by omega⟩
    simp [OutputStreamFormatter.EndElement, h0, hc]
  · constructor
    · rintro ⟨e, w1, h⟩
      by_contra h0
      simp [OutputStreamFormatter.EndElement, h0, hc] at h
    · intro h0
      exact ⟨.basic .unexpectedEndElement, w, by simp [OutputStreamFormatter.EndElement, h0]⟩

/-- C13, witness: one open element, and none. -/
theorem endElement_unchecked_witness :
    ((1 : Nat) = 0 →
      OutputStreamFormatter.EndElement
        { _stream := [126, 65], _currentIndentLevel := 1, _hotLine := true,
          _currentLineLength := 2, _pendingHeader := false, checkElements := false,
          _elementStack := [], _nextElementId := 0 } 0 =
        .error (.basic .unexpectedEndElement,
          { _stream := [126, 65], _currentIndentLevel := 1, _hotLine := true,
            _currentLineLength := 2, _pendingHeader := false, checkElements := false,
            _elementStack := [], _nextElementId := 0 })) ∧
    ((1 : Nat) ≠ 0 →
      OutputStreamFormatter.EndElement
        { _stream := [126, 65], _currentIndentLevel := 1, _hotLine := true,
          _currentLineLength := 2, _pendingHeader := false, checkElements := false,
          _elementStack := [], _nextElementId := 0 } 0 =
        .ok { _stream := [126, 65], _currentIndentLevel := 0, _hotLine := true,
              _currentLineLength := 2, _pendingHeader := false, checkElements := false,
              _elementStack := [], _nextElementId := 0 } ∧
      1 - 1 + 1 = 1) ∧
    ((∃ e w1, OutputStreamFormatter.EndElement
        { _stream := [126, 65], _currentIndentLevel := 1, _hotLine := true,
          _currentLineLength := 2, _pendingHeader := false, checkElements := false,
          _elementStack := [], _nextElementId := 0 } 0 = .error (e, w1)) ↔ (1 : Nat) = 0) :=
  endElement_unchecked
    { _stream := [126, 65], _currentIndentLevel := 1, _hotLine := true,
      _currentLineLength := 2, _pendingHeader := false, checkElements := false,
      _elementStack := [], _nextElementId := 0 } 0 rfl

/-- C14: `EndElement` of the checked writer with a wrong id.  In every writer state
with an open element, for every `id` that is not the id on top of the shadow stack,
the call raises and leaves the writer as it was: the shadow stack and the depth are
the ones before.  When the shadow stack has one entry for each open element, the
exception is the wrong element id one. -/
theorem endElement_mismatch (w : OutputStreamFormatter) (id : Nat)
    (hc : w.checkElements = true) (hopen : 0 < w._currentIndentLevel)
    (hid : w._elementStack.getLast? ≠ some id) :
    (∃ e, w.EndElement id = .error (e, w)) ∧
    (w._elementStack.length = w._currentIndentLevel →
      w.EndElement id = .error (.basic .endElementWrongId, w)) := by
  have h0 : w._currentIndentLevel ≠ 0 := by omega
  by_cases hlen : w._elementStack.length = w._currentIndentLevel
  · have hne : w._elementStack ≠ [] := by
      intro hnil
      rw [hnil] at hlen
      simp at hlen
      omega
    have htop : w._elementStack.getLastD 0 ≠ id := by
      intro heq
      apply hid
      rw [List.getLast?_eq_getLast _ hne, ← heq, List.getLastD_eq_getLast?,
        List.getLast?_eq_getLast _ hne]
      rfl
    have htop2 : ¬ w._elementStack.getLast?.getD 0 = id := by
      rwa [← List.getLastD_eq_getLast?]
    have : w.EndElement id = .error (.basic .endElementWrongId, w) := by
      simp [OutputStreamFormatter.EndElement, h0, hc, hlen, htop2]
    exact ⟨⟨_, this⟩, fun _ => this⟩
  · refine ⟨⟨.assertion, ?_⟩, fun h => absurd h hlen⟩
    simp [OutputStreamFormatter.EndElement, h0, hc, hlen]

/-- C14, witness: the elements with the ids 7 and 8 are open and `EndElement(7)` is
called. -/
theorem endElement_mismatch_witness :
    (∃ e, OutputStreamFormatter.EndElement
        { _stream := [126, 65], _currentIndentLevel := 2, _hotLine := true,
          _currentLineLength := 2, _pendingHeader := false, checkElements := true,
          _elementStack := [7, 8], _nextElementId := 9 } 7 =
      .error (e,
        { _stream := [126, 65], _currentIndentLevel := 2, _hotLine := true,
          _currentLineLength := 2, _pendingHeader := false, checkElements := true,
          _elementStack := [7, 8], _nextElementId := 9 })) ∧
    ((2 : Nat) = 2 →
      OutputStreamFormatter.EndElement
        { _stream := [126, 65], _currentIndentLevel := 2, _hotLine := true,
          _currentLineLength := 2, _pendingHeader := false, checkElements := true,
          _elementStack := [7, 8], _nextElementId := 9 } 7 =
      .error (.basic .endElementWrongId,
        { _stream := [126, 65], _currentIndentLevel := 2, _hotLine := true,
          _currentLineLength := 2, _pendingHeader := false, checkElements := true,
          _elementStack := [7, 8], _nextElementId := 9 })) :=
  endElement_mismatch
    { _stream := [126, 65], _currentIndentLevel := 2, _hotLine := true,
      _currentLineLength := 2, _pendingHeader := false, checkElements := true,
      _elementStack := [7, 8], _nextElementId := 9 } 7 rfl (by decide) (by decide)

/-- C15: the ids of the checked writer.  On a fresh checked writer whose id counter
is `nid`, `BeginElement` of `A` and then of `B` both return `nid`, the counter is
still `nid` afterwards, and `EndElement(nid)`, the id of the outer element `A`, is
accepted for the inner element `B`. -/
theorem element_ids_repeat (nid : Nat) :
    ∃ w1 w2 w3,
      (OutputStreamFormatter.fresh true nid).BeginElement (text "A") = .ok (nid, w1) ∧
      w1.BeginElement (text "B") = .ok (nid, w2) ∧
      w2._nextElementId = nid ∧ w2._elementStack = [nid, nid] ∧
      w2.EndElement nid = .ok w3 ∧ w3._elementStack = [nid] ∧
      w3._currentIndentLevel = 1 := by
  have key : ∀ w : OutputStreamFormatter, w.checkElements = true →
      w._currentIndentLevel = 2 → w._elementStack = [nid, nid] →
      w.EndElement nid = .ok { w with _elementStack := [nid], _currentIndentLevel := 1 } := by
    intro w a b c
    simp [OutputStreamFormatter.EndElement, a, b, c]
  exact ⟨_, _, _, rfl, rfl, rfl, rfl, key _ rfl rfl rfl, rfl, rfl⟩

/-- C20: the layout of `BeginElement`.  In every writer state with `d` open elements,
`d` within the tab buffer, whose header has been written, and for every non-empty
name, `BeginElement` returns and has appended: the line end and `d` tabs when the
line had content, then a line end and `d` tabs, then the element marker and the
name, bare or protected.  Afterwards the depth is `d + 1` and the line has content. -/
theorem beginElement_layout (w : OutputStreamFormatter) (name : List CharType)
    (hh : w._pendingHeader = false)
    (hd : w._currentIndentLevel ≤ OutputStreamFormatter.tabBufferSize) (hn : name ≠ []) :
    ∃ id w1, w.BeginElement name = .ok (id, w1) ∧
      w1._stream = w._stream ++
        (if w._hotLine then EndLine ++ List.replicate w._currentIndentLevel Tab else []) ++
        (EndLine ++ List.replicate w._currentIndentLevel Tab) ++
        [ElementPrefix] ++ writtenForm name ∧
      w1._currentIndentLevel = w._currentIndentLevel + 1 ∧ w1._hotLine = true := by
  obtain ⟨id, w1, h⟩ := OutputStreamFormatter.BeginElement_total w name hd hn
  obtain ⟨_, hs, hl, hhot, _⟩ := BeginElement_spec w w1 name id h
  refine ⟨id, w1, h, ?_, hl, hhot⟩
  rw [hs]
  simp [OutputStreamFormatter.beginText, OutputStreamFormatter.newLineText, hh]

/-- C20, witness: the element `B` inside the element `A`. -/
theorem beginElement_layout_witness :
    ∃ id w1, OutputStreamFormatter.BeginElement
        { _stream := text "~~!Format=1; Tab=4\r\n\r\n~A", _currentIndentLevel := 1,
          _hotLine := true, _currentLineLength := 2, _pendingHeader := false,
          checkElements := false, _elementStack := [], _nextElementId := 0 }
        (text "B") = .ok (id, w1) ∧
      w1._stream = text "~~!Format=1; Tab=4\r\n\r\n~A" ++
        (if true then EndLine ++ List.replicate 1 Tab else []) ++
        (EndLine ++ List.replicate 1 Tab) ++ [ElementPrefix] ++ writtenForm (text "B") ∧
      w1._currentIndentLevel = 1 + 1 ∧ w1._hotLine = true :=
  beginElement_layout
    { _stream := text "~~!Format=1; Tab=4\r\n\r\n~A", _currentIndentLevel := 1,
      _hotLine := true, _currentLineLength := 2, _pendingHeader := false,
      checkElements := false, _elementStack := [], _nextElementId := 0 }
    (text "B") rfl (by decide) (by decide)

/-- C19 (amended): the layout of `WriteAttribute`.  In every writer state whose header
has been written and whose depth is within the tab buffer, `WriteAttribute` returns.
When `currentLineLength + |name| + |value| + 3 > 100` it has appended a line end and
one tab for each open element if the line had content, and nothing if the line had
none; otherwise it has appended the separator `; ` exactly if the line had content.
Behind that come the name, `=` and the value, each bare or protected by
`IsSimpleString`.  The depth is the same and the line has content afterwards. -/
theorem writeAttribute_layout (w : OutputStreamFormatter) (name value : List CharType)
    (hh : w._pendingHeader = false)
    (hd : w._currentIndentLevel ≤ OutputStreamFormatter.tabBufferSize) :
    ∃ w1, w.WriteAttribute name value = .ok w1 ∧
      w1._stream = w._stream ++
        (if w._currentLineLength + name.length + value.length + 3 > 100 then
           (if w._hotLine then EndLine ++ List.replicate w._currentIndentLevel Tab else [])
         else if w._hotLine then [59, 32] else []) ++
        writtenForm name ++ [61] ++ writtenForm value ∧
      w1._currentIndentLevel = w._currentIndentLevel ∧ w1._hotLine = true := by
  obtain ⟨w1, h⟩ := OutputStreamFormatter.WriteAttribute_total w name value hd
  obtain ⟨hs, hl, hhot, _⟩ := WriteAttribute_spec w w1 name value h
  refine ⟨w1, h, ?_, hl, hhot⟩
  rw [hs]
  have e : (w._currentLineLength + value.length + name.length + 3 > 100) =
      (w._currentLineLength + name.length + value.length + 3 > 100) := by
    apply propext
    constructor <;> intro h <;> omega
  simp [OutputStreamFormatter.attributeSeparator, OutputStreamFormatter.forcesNewLine,
    OutputStreamFormatter.newLineText, OutputStreamFormatter.idealLineLength, hh, e]

/-- C19, witness: a second attribute on the line of the element `A`. -/
theorem writeAttribute_layout_witness :
    ∃ w1, OutputStreamFormatter.WriteAttribute
        { _stream := text "~~!Format=1; Tab=4\r\n\r\n~A; x=1", _currentIndentLevel := 1,
          _hotLine := true, _currentLineLength := 7, _pendingHeader := false,
          checkElements := false, _elementStack := [], _nextElementId := 0 }
        (text "y") (text " 2") = .ok w1 ∧
      w1._stream = text "~~!Format=1; Tab=4\r\n\r\n~A; x=1" ++
        (if 7 + (text "y").length + (text " 2").length + 3 > 100 then
           (if true then EndLine ++ List.replicate 1 Tab else [])
         else if true then [59, 32] else []) ++
        writtenForm (text "y") ++ [61] ++ writtenForm (text " 2") ∧
      w1._currentIndentLevel = 1 ∧ w1._hotLine = true :=
  writeAttribute_layout
    { _stream := text "~~!Format=1; Tab=4\r\n\r\n~A; x=1", _currentIndentLevel := 1,
      _hotLine := true, _currentLineLength := 7, _pendingHeader := false,
      checkElements := false, _elementStack := [], _nextElementId := 0 }
    (text "y") (text " 2") rfl (by decide)

/-- C19, counterexample.  The attribute `longName = 1` does not fit on a line.  After
`NewLine` on a fresh writer the line has no content, and `WriteAttribute` appends the
attribute with no line end in front.  On a fresh writer, whose header is pending,
`WriteAttribute` writes the header in front of the line end.  With 65 open elements
`WriteAttribute` raises the excessive indent level exception. -/
theorem writeAttribute_layout_counterexample :
    (∃ w1 w2, (OutputStreamFormatter.fresh false 0).NewLine = .ok w1 ∧
      w1._currentLineLength + longName.length + (text "1").length + 3 > 100 ∧
      w1.WriteAttribute longName (text "1") = .ok w2 ∧
      w2._stream = w1._stream ++ longName ++ [61] ++ text "1" ∧
      w2._stream ≠ w1._stream ++ (EndLine ++ List.replicate w1._currentIndentLevel Tab) ++
        writtenForm longName ++ [61] ++ writtenForm (text "1")) ∧
    (∃ w2, (OutputStreamFormatter.fresh false 0).WriteAttribute longName (text "1") = .ok w2 ∧
      w2._stream = text "~~!Format=1; Tab=4\r\n" ++ longName ++ [61] ++ text "1" ∧
      w2._stream ≠ (OutputStreamFormatter.fresh false 0)._stream ++
        (EndLine ++ List.replicate 0 Tab) ++
        writtenForm longName ++ [61] ++ writtenForm (text "1")) ∧
    (deepWriter._currentLineLength + longName.length + (text "1").length + 3 > 100 ∧
      ∃ w2, deepWriter.WriteAttribute longName (text "1") =
        .error (.basic .excessiveIndentLevel, w2)) := by
  refine ⟨⟨_, _, rfl, by decide, rfl, by decide, by decide⟩,
    ⟨_, rfl, by decide, by decide⟩, by decide, _, rfl⟩

/-- C18: an attribute as the first call.  On a fresh writer `WriteAttribute(x, 1)`
writes `x=1` and no header, and the header stays pending; `BeginElement(A)` after it
writes the header behind the attribute, on the same line. -/
theorem header_after_first_attribute :
    (∃ w1, (OutputStreamFormatter.fresh false 0).applyAll
        [.WriteAttribute (text "x") (text "1")] = .ok w1 ∧
      w1._stream = text "x=1" ∧ w1._pendingHeader = true) ∧
    (∃ w2, (OutputStreamFormatter.fresh false 0).applyAll
        [.WriteAttribute (text "x") (text "1"), .BeginElement (text "A")] = .ok w2 ∧
      w2._stream = text "x=1~~!Format=1; Tab=4\r\n\r\n~A") :=
  ⟨⟨_, rfl, rfl, rfl⟩, ⟨_, rfl, rfl⟩⟩

end Utility


namespace Utility
open FormatterConstants

/-! ## The consuming calls on a token they do not read -/

namespace InputStreamFormatter

theorem EatWhitespace_total (s : MemoryMappedInputStream) (h : s._ptr ≤ s.data.length) :
    ∃ s2, EatWhitespace s = .ok s2 := by
  have hb := (skipWhitespace_bounds s.Remaining s.ReadPointer).2
  have hl := MemoryMappedInputStream.length_Remaining s
  refine ⟨{ s with _ptr := skipWhitespace s.Remaining s.ReadPointer }, ?_⟩
  rw [EatWhitespace, MemoryMappedInputStream.SetPointer_eq_ok]
  refine ⟨?_, rfl⟩
  simp only [MemoryMappedInputStream.ReadPointer, MemoryMappedInputStream.RemainingBytes,
    MemoryMappedInputStream.End] at hb hl ⊢
  omega

theorem ptr_le_of_ReadToStringEnd (st st1 : MemoryMappedInputStream) (p : Bool)
    (loc : StreamLocation) (e : Nat) (h : ReadToStringEnd st p loc = .ok (e, st1)) :
    st1._ptr ≤ st1.data.length := by
  simp only [ReadToStringEnd] at h
  split at h
  · split at h
    · rw [Except.bind_eq_ok] at h
      obtain ⟨a, h1, h2⟩ := h
      cases h2
      obtain ⟨hle, rfl⟩ := (MemoryMappedInputStream.SetPointer_eq_ok _ _ _).mp h1
      exact hle
    · cases h
  · rw [Except.bind_eq_ok] at h
    obtain ⟨a, h1, h2⟩ := h
    cases h2
    obtain ⟨hle, rfl⟩ := (MemoryMappedInputStream.SetPointer_eq_ok _ _ _).mp h1
    exact hle

end InputStreamFormatter

/-- C11: `TryReadEndElement` on another token.  Whenever `PeekNext` returns a token
`b` other than `EndElement`, in the state `r1`, `TryReadEndElement` returns false and
does not raise, called in place of that `PeekNext` or after it; the indentation
stack, its depth and the parent base line are the ones before, and the next
`PeekNext` returns `b` again. -/
theorem tryReadEndElement_wrong_token (r r1 : InputStreamFormatter) (b : Blob)
    (hpeek : r.PeekNext = .ok (b, r1)) (hb : b ≠ .EndElement) :
    r.TryReadEndElement = .ok (false, r1) ∧ r1.TryReadEndElement = .ok (false, r1) ∧
    r1._baseLineStack = r._baseLineStack ∧ r1._baseLineStackPtr = r._baseLineStackPtr ∧
    r1._parentBaseLine = r._parentBaseLine ∧ r1.PeekNext = .ok (b, r1) := by
  have hfix := peekNext_fixed r r1 b hpeek
  have hall := InputStreamFormatter.Result.All_of_ok _ _ _ _
    (InputStreamFormatter.PeekNext_all r) hpeek
  obtain ⟨f, _⟩ := hall
  refine ⟨?_, ?_, f.1, f.2.1, f.2.2.1, hfix⟩
  · rw [InputStreamFormatter.TryReadEndElement, hpeek]
    simp [bind, Except.bind, hb]
  · rw [InputStreamFormatter.TryReadEndElement, hfix]
    simp [bind, Except.bind, hb]

/-- C11, witness: the element `A` is primed. -/
theorem tryReadEndElement_wrong_token_witness :
    (primedReader (text "~A") 1 .BeginElement).TryReadEndElement =
      .ok (false, primedReader (text "~A") 1 .BeginElement) ∧
    (primedReader (text "~A") 1 .BeginElement).TryReadEndElement =
      .ok (false, primedReader (text "~A") 1 .BeginElement) ∧
    (primedReader (text "~A") 1 .BeginElement)._baseLineStack =
      (primedReader (text "~A") 1 .BeginElement)._baseLineStack ∧
    (primedReader (text "~A") 1 .BeginElement)._baseLineStackPtr =
      (primedReader (text "~A") 1 .BeginElement)._baseLineStackPtr ∧
    (primedReader (text "~A") 1 .BeginElement)._parentBaseLine =
      (primedReader (text "~A") 1 .BeginElement)._parentBaseLine ∧
    (primedReader (text "~A") 1 .BeginElement).PeekNext =
      .ok (.BeginElement, primedReader (text "~A") 1 .BeginElement) :=
  tryReadEndElement_wrong_token (primedReader (text "~A") 1 .BeginElement)
    (primedReader (text "~A") 1 .BeginElement) .BeginElement rfl (by decide)

/-- C12: an attribute with and without a value.  `AttributeName` is primed in the
state `r` and the name is read up to `nameEnd`.  The whitespace behind the name is
eaten without an exception.  When the `PeekNext` that follows returns a token `b2`
other than `AttributeValue`, `TryReadAttribute` returns true with the name section
and the empty section at the null pointer as the value, and `b2` stays primed: the
next `PeekNext` returns it again.  When it returns `AttributeValue` and the value is
read up to `valueEnd`, `TryReadAttribute` returns true with the name section and the
value section, and nothing is primed afterwards. -/
theorem tryReadAttribute_value_optional (r : InputStreamFormatter)
    (hp : r._primed = .AttributeName) (nameEnd : Nat) (s1 : MemoryMappedInputStream)
    (hname :
      ReadToStringEnd r._stream r._protectedStringMode r.GetLocation = .ok (nameEnd, s1)) :
    ∃ s2, EatWhitespace s1 = .ok s2 ∧
      ∀ b2 r4,
        InputStreamFormatter.PeekNext
          { r with _stream := s2, _primed := .None, _protectedStringMode := false } =
            .ok (b2, r4) →
        (b2 ≠ .AttributeValue →
          r.TryReadAttribute =
            .ok (some ({ _start := r._stream.ReadPointer, _end := nameEnd },
              { _start := 0, _end := 0 }), r4) ∧
          InteriorSection.content { _start := 0, _end := 0 } r4._stream.data = [] ∧
          r4.PeekNext = .ok (b2, r4)) ∧
        (b2 = .AttributeValue → ∀ valueEnd s3,
          ReadToStringEnd r4._stream r4._protectedStringMode r4.GetLocation =
            .ok (valueEnd, s3) →
          r.TryReadAttribute =
            .ok (some ({ _start := r._stream.ReadPointer, _end := nameEnd },
              { _start := r4._stream.ReadPointer, _end := valueEnd }),
              { r4 with _stream := s3, _protectedStringMode := false, _primed := .None })) := by
  obtain ⟨s2, hs2⟩ := InputStreamFormatter.EatWhitespace_total s1
    (InputStreamFormatter.ptr_le_of_ReadToStringEnd _ _ _ _ _ hname)
  refine ⟨s2, hs2, ?_⟩
  intro b2 r4 hpeek
  have hfix := peekNext_fixed _ r4 b2 hpeek
  constructor
  · intro hb
    refine ⟨?_, by simp [InteriorSection.content], hfix⟩
    rw [InputStreamFormatter.TryReadAttribute_primed r hp]
    simp only [bind, Except.bind, InputStreamFormatter.onStream, hname, hs2, hpeek, hb,
      if_false]
  · intro hb valueEnd s3 hvalue
    subst hb
    rw [InputStreamFormatter.TryReadAttribute_primed r hp]
    simp only [bind, Except.bind, InputStreamFormatter.onStream, hname, hs2, hpeek, hvalue,
      if_true]

/-- C12, witness: the attribute `a` of the input `a; b=1` is primed. -/
theorem tryReadAttribute_value_optional_witness :
    ∃ s2, EatWhitespace { data := text "a; b=1", _ptr := 1 } = .ok s2 ∧
      ∀ b2 r4,
        InputStreamFormatter.PeekNext
          { primedReader (text "a; b=1") 0 .AttributeName with
            _stream := s2, _primed := .None, _protectedStringMode := false } =
            .ok (b2, r4) →
        (b2 ≠ .AttributeValue →
          (primedReader (text "a; b=1") 0 .AttributeName).TryReadAttribute =
            .ok (some ({ _start := 0, _end := 1 }, { _start := 0, _end := 0 }), r4) ∧
          InteriorSection.content { _start := 0, _end := 0 } r4._stream.data = [] ∧
          r4.PeekNext = .ok (b2, r4)) ∧
        (b2 = .AttributeValue → ∀ valueEnd s3,
          ReadToStringEnd r4._stream r4._protectedStringMode r4.GetLocation =
            .ok (valueEnd, s3) →
          (primedReader (text "a; b=1") 0 .AttributeName).TryReadAttribute =
            .ok (some ({ _start := 0, _end := 1 },
              { _start := r4._stream.ReadPointer, _end := valueEnd }),
              { r4 with _stream := s3, _protectedStringMode := false, _primed := .None })) :=
  tryReadAttribute_value_optional (primedReader (text "a; b=1") 0 .AttributeName) rfl 1
    { data := text "a; b=1", _ptr := 1 } rfl

end Utility


namespace Utility
open FormatterConstants

/-! ## The header line -/

theorem headerWithTab_eq (ds : List CharType) :
    headerWithTab ds = HeaderPrefix ++ ([70, 111, 114, 109, 97, 116] ++ 61 :: ([49] ++
      59 :: 32 :: ([84, 97, 98] ++ 61 :: ds))) := rfl

theorem digitsValue_digits (ds : List CharType) (h : ∀ c ∈ ds, 48 ≤ c ∧ c ≤ 57) (acc : Nat) :
    digitsValue ds acc = ds.foldl (fun a c => a * 10 + (c - 48)) acc := by
  induction ds generalizing acc with
  | nil => rfl
  | cons c cs ih =>
    have hc := h c (by simp)
    simp only [digitsValue, hc, and_self, if_true, List.foldl_cons]
    exact ih (fun d hd => h d (by simp [hd])) _

theorem digit_facts (c : Nat) (h : 48 ≤ c ∧ c ≤ 57) :
    c ≠ 45 ∧ c ≠ 43 ∧ c ≠ 32 ∧ ¬ c ≤ 13 ∧ c ≠ 60 ∧
    c ∉ [126, 59, 61, 13, 10, 0] ∧ c ∉ [32, 9, 11, 12, 133, 160, 0] := by
  simp only [List.mem_cons, List.mem_singleton, List.not_mem_nil, or_false, not_or]
  omega

theorem AsInt_digits (ds : List CharType) (h : IsDigits ds) (hl : ds.length ≤ 31) :
    AsInt ds = (decimalValue ds : Int) := by
  obtain ⟨hne, hd⟩ := h
  have hconv : Convert 32 ds = ds := by
    simp only [Convert]
    exact List.take_of_length_le (by omega)
  rw [AsInt, hconv]
  cases ds with
  | nil => exact absurd rfl hne
  | cons c cs =>
    obtain ⟨h45, h43, h32, h13, _⟩ := digit_facts c (hd c (by simp))
    have hp : (c == 32 || (decide (9 ≤ c) && decide (c ≤ 13))) = false := by
      simp only [Bool.or_eq_false_iff, beq_eq_false_iff_ne, ne_eq, Bool.and_eq_false_iff,
        decide_eq_false_iff_not]
      exact ⟨h32, Or.inr h13⟩
    have hdw : List.dropWhile (fun c => c == 32 || (decide (9 ≤ c) && decide (c ≤ 13)))
        (c :: cs) = c :: cs := by
      rw [List.dropWhile_cons]
      simp only [hp, Bool.false_eq_true, if_false]
    unfold XlAtoI32
    rw [hdw]
    split
    · rename_i heq
      cases heq
      exact absurd rfl h45
    · rename_i heq
      cases heq
      exact absurd rfl h43
    · rw [digitsValue_digits _ hd]
      rfl

theorem isSimpleString_digits (ds : List CharType) (h : IsDigits ds) :
    IsSimpleString ds = true := by
  obtain ⟨hne, hd⟩ := h
  rw [isSimpleString_spec]
  refine ⟨hne, ?_, ?_, ?_, ?_⟩
  · intro c hc
    exact (digit_facts c (hd c hc)).2.2.2.2.2.1
  · intro c hc
    exact (digit_facts c (hd c (List.mem_of_mem_head? hc))).2.2.2.2.2.2
  · intro c hc
    exact (digit_facts c (hd c (List.mem_of_mem_getLast? hc))).2.2.2.2.2.2
  · intro hc
    exact (digit_facts 60 (hd 60 (List.mem_of_mem_head? hc))).2.2.2.2.1 rfl

namespace InputStreamFormatter
open MemoryMappedInputStream

theorem readHeaderStep_plain (aName : Option InteriorSection) (r : InputStreamFormatter)
    (c : CharType) (h : PlainChar c) :
    readHeaderStep aName r c = (do
      let (aNameEnd, s) ← r.onStream (ReadToStringEnd r._stream false r.GetLocation)
      .ok (.next (some { _start := r._stream.ReadPointer, _end := aNameEnd },
        { r with _stream := s }))) := by
  obtain ⟨h1, h2, h3, h4, h5, h6, h7, h8, h9, h10, h11⟩ := h
  rw [readHeaderStep, if_neg (by tauto), if_neg (by tauto), if_neg h11, if_neg (by tauto),
    if_neg h10]

theorem readHeaderStep_separator (aName : Option InteriorSection) (r : InputStreamFormatter)
    (c : CharType) (hc : c = 9 ∨ c = 32 ∨ c = 59) :
    readHeaderStep aName r c = (do
      let s ← r.onStream (r._stream.MovePointer 1)
      .ok (.next (aName, { r with _stream := s }))) := by
  rcases hc with rfl | rfl | rfl <;> rfl

theorem readHeaderStep_line_end (aName : Option InteriorSection) (r : InputStreamFormatter)
    (c : CharType) (hc : c = 13 ∨ c = 10) :
    readHeaderStep aName r c = .ok (.done r) := by
  rcases hc with rfl | rfl <;> rfl

/-- The loop of `ReadHeader` at a separator: on to the next code unit. -/
theorem readHeaderLoop_separator (fuel : Nat) (aName : Option InteriorSection)
    (r : InputStreamFormatter) (c : CharType) (t : List CharType)
    (h : r._stream.Remaining = c :: t) (hc : c = 9 ∨ c = 32 ∨ c = 59) :
    readHeaderLoop (fuel + 1) aName r =
      readHeaderLoop fuel aName
        (r.movedTo (r._stream._ptr + 1)) := by
  obtain ⟨⟨data, p⟩, b, c1, d, e, f, g, h1, i, j, k⟩ := r
  have hd : data.drop p = c :: t := h
  have hlt := ptr_lt_of_drop data p c t hd
  rw [readHeaderLoop_cons _ _ _ c t h, readHeaderStep_separator _ _ c hc]
  simp only [onStream, bind, Except.bind, MovePointer_at data p 1 (by omega)]
  rfl

/-- The loop of `ReadHeader` at the end of the header line. -/
theorem readHeaderLoop_line_end (fuel : Nat) (aName : Option InteriorSection)
    (r : InputStreamFormatter) (t : List CharType)
    (h : r._stream.Remaining = [] ∨ ∃ c, (c = 13 ∨ c = 10) ∧ r._stream.Remaining = c :: t) :
    readHeaderLoop (fuel + 1) aName r = .ok r := by
  rcases h with h | ⟨c, hc, h⟩
  · rw [readHeaderLoop, h]
  · rw [readHeaderLoop_cons _ _ _ c t h, readHeaderStep_line_end _ _ c hc]
    rfl

/-- The loop of `ReadHeader` at a field `name=value` with a bare name and a bare
value: two iterations read the field, and the name decides what the value does. -/
theorem readHeaderLoop_field (fuel : Nat) (aName : Option InteriorSection)
    (r : InputStreamFormatter) (name value rest : List CharType)
    (h : r._stream.Remaining = name ++ 61 :: (value ++ rest))
    (hn : IsSimpleString name = true) (hv : IsSimpleString value = true)
    (hrest : StopsScan rest) :
    readHeaderLoop (fuel + 2) aName r =
      (if XlCompareStringI (Convert 12 name) [70, 111, 114, 109, 97, 116] = 0 then
        if AsInt value ≠ 1 then
          .error (.format .unsupportedFormat
            (GetLocation (r.movedTo (r._stream._ptr + name.length + 1 + value.length))),
            (r.movedTo (r._stream._ptr + name.length + 1 + value.length)))
        else
          readHeaderLoop fuel
            (some { _start := r._stream._ptr, _end := r._stream._ptr + name.length })
            (r.movedTo (r._stream._ptr + name.length + 1 + value.length))
      else if XlCompareStringI (Convert 12 name) [84, 97, 98] = 0 then
        if Int.toNat (AsInt value % 4294967296) = 0 then
          .error (.format .badTabWidth
            (GetLocation (r.movedTo (r._stream._ptr + name.length + 1 + value.length))),
            { r.movedTo (r._stream._ptr + name.length + 1 + value.length) with
              _tabWidth := Int.toNat (AsInt value % 4294967296) })
        else
          readHeaderLoop fuel
            (some { _start := r._stream._ptr, _end := r._stream._ptr + name.length })
            { r.movedTo (r._stream._ptr + name.length + 1 + value.length) with
              _tabWidth := Int.toNat (AsInt value % 4294967296) }
      else
        readHeaderLoop fuel
          (some { _start := r._stream._ptr, _end := r._stream._ptr + name.length })
          (r.movedTo (r._stream._ptr + name.length + 1 + value.length))) := by
  obtain ⟨⟨data, p⟩, b, c1, d, e, f, g, h1, i, j, k⟩ := r
  have hd : data.drop p = name ++ 61 :: (value ++ rest) := h
  obtain ⟨_, _, _, hne, a, ha, haw⟩ := isSimpleString_facts name hn
  obtain ⟨hvf, _, _, hvne, v, hv1, hvw⟩ := isSimpleString_facts value hv
  obtain ⟨c, t, hform, hplain, _⟩ := writtenForm_head name
  have hwf : writtenForm name = name := by simp [writtenForm, hn]
  rw [hwf] at hform
  obtain ⟨v0, vt, hvform⟩ : ∃ v0 vt, value = v0 :: vt := by
    cases value with
    | nil => exact absurd rfl hvne
    | cons v0 vt => exact ⟨v0, vt, rfl⟩
  have hv0 : WhitespaceChar v0 = false := by
    rw [hvform] at hv1
    simp only [List.head?_cons, Option.some.injEq] at hv1
    rw [hv1]
    exact hvw
  have hd1 : data.drop (p + name.length) = 61 :: (value ++ rest) :=
    drop_advance data p name _ hd
  have hd2 : data.drop (p + name.length + 1) = value ++ rest :=
    drop_advance data (p + name.length) [61] _ hd1
  have hlt := ptr_lt_of_drop data (p + name.length) 61 _ hd1
  have cn : InteriorSection.content { _start := p, _end := p + name.length } data = name :=
    content_at data p name _ hd
  have cv : InteriorSection.content
      { _start := p + name.length + 1, _end := p + name.length + 1 + value.length }
      data = value :=
    content_at data (p + name.length + 1) value _ hd2
  -- the name
  rw [show fuel + 2 = (fuel + 1) + 1 from rfl,
    readHeaderLoop_cons _ _ ⟨⟨data, p⟩, b, c1, d, e, f, g, h1, i, j, k⟩ c (t ++ 61 ::
      (value ++ rest)) (by show data.drop p = _; rw [hd, hform]; rfl),
    readHeaderStep_plain _ _ c hplain]
  simp only [onStream, bind, Except.bind, ReadPointer,
    ReadToStringEnd_bare_at data p name _ _ hd hn (Or.inr ⟨61, _, rfl, by decide⟩)]
  -- the value
  rw [readHeaderLoop_cons _ _ ⟨⟨data, p + name.length⟩, b, c1, d, e, f, g, h1, i, j, k⟩ 61 _ hd1,
    readHeaderStep_assign]
  simp only [onStream, bind, Except.bind, ReadPointer,
    MovePointer_at data (p + name.length) 1 (by omega),
    EatWhitespace_at data (p + name.length + 1) v0 (vt ++ rest)
      (by rw [hd2, hvform]; rfl) hv0,
    ReadToStringEnd_bare_at data (p + name.length + 1) value _ _ hd2 hv hrest, cn, cv]
  by_cases e1 : XlCompareStringI (Convert 12 name) [70, 111, 114, 109, 97, 116] = 0
  · by_cases e2 : AsInt value = 1
    · simp only [e1, e2, if_true, ne_eq, not_true_eq_false, if_false]
      rfl
    · simp only [e1, e2, if_true, ne_eq, not_false_eq_true]
      rfl
  · by_cases e3 : XlCompareStringI (Convert 12 name) [84, 97, 98] = 0
    · by_cases e4 : Int.toNat (AsInt value % 4294967296) = 0
      · simp only [e1, e3, e4, if_true, if_false]
        rfl
      · simp only [e1, e3, e4, if_true, if_false]
        rfl
    · simp only [e1, e3, if_false]
      rfl

/-- `ReadHeader` behind the header marker of the line `~~!Format=1; Tab=` with the
digits `ds`, in front of a line end: the tab width is the number the digits denote
and the read pointer is at the line end. -/
theorem ReadHeader_tab (r : InputStreamFormatter) (ds : List CharType) (c : CharType)
    (t : List CharType) (hd : r._stream.data = headerWithTab ds ++ c :: t)
    (hp : r._stream._ptr = 3) (hds : IsDigits ds) (hl : ds.length ≤ 31)
    (hpos : 0 < decimalValue ds) (hlt : decimalValue ds < 4294967296)
    (hc : c = 13 ∨ c = 10) :
    r.ReadHeader =
      .ok { r.movedTo (17 + ds.length) with _tabWidth := decimalValue ds } := by
  obtain ⟨⟨data, p⟩, b, c1, d, e, f, g, h1, i, j, k⟩ := r
  simp only at hd hp
  subst hp
  have hlen : data.length = ds.length + t.length + 18 := by
    rw [hd, headerWithTab_eq]
    simp [HeaderPrefix]
    omega
  have hfuel : (MemoryMappedInputStream.mk data 3).RemainingBytes + 1 =
      ((((ds.length + t.length + 9) + 1) + 2) + 1 + 1) + 2 := by
    simp only [RemainingBytes, End, hlen]
    omega
  have d3 : data.drop 3 = [70, 111, 114, 109, 97, 116] ++ 61 :: ([49] ++ 59 :: 32 ::
      ([84, 97, 98] ++ 61 :: (ds ++ c :: t))) := by
    rw [hd, headerWithTab_eq]
    simp [HeaderPrefix]
  have d11 : data.drop 11 = 59 :: 32 :: ([84, 97, 98] ++ 61 :: (ds ++ c :: t)) :=
    drop_advance_to data 3 11 ([70, 111, 114, 109, 97, 116] ++ 61 :: [49]) _
      (by rw [d3]; rfl) (by simp)
  have d12 : data.drop 12 = 32 :: ([84, 97, 98] ++ 61 :: (ds ++ c :: t)) :=
    drop_advance data 11 [59] _ d11
  have d13 : data.drop 13 = [84, 97, 98] ++ 61 :: (ds ++ c :: t) :=
    drop_advance data 12 [32] _ d12
  have d17 : data.drop (17 + ds.length) = c :: t :=
    drop_advance_to data 13 (17 + ds.length) ([84, 97, 98] ++ 61 :: ds) _
      (by rw [d13]; simp) (by simp; omega)
  have hstop : StopsScan (c :: t) :=
    Or.inr ⟨c, t, rfl, by rcases hc with rfl | rfl <;> decide⟩
  have e1 : XlCompareStringI (Convert 12 [70, 111, 114, 109, 97, 116])
      [70, 111, 114, 109, 97, 116] = 0 := by decide
  have e2 : ¬ AsInt [49] ≠ 1 := by decide
  have e3 : ¬ XlCompareStringI (Convert 12 [84, 97, 98]) [70, 111, 114, 109, 97, 116] = 0 := by
    decide
  have e4 : XlCompareStringI (Convert 12 [84, 97, 98]) [84, 97, 98] = 0 := by decide
  have e5 : Int.toNat (AsInt ds % 4294967296) = decimalValue ds := by
    rw [AsInt_digits ds hds hl]
    omega
  have e6 : ¬ decimalValue ds = 0 := by omega
  simp only [ReadHeader, hfuel]
  rw [readHeaderLoop_field _ _ ⟨⟨data, 3⟩, b, c1, d, e, f, g, h1, i, j, k⟩
    [70, 111, 114, 109, 97, 116] [49] _ d3 (by decide) (by decide)
    (Or.inr ⟨59, _, rfl, by decide⟩)]
  simp only [e1, e2, if_true, if_false, movedTo, List.length_cons, List.length_nil,
    Nat.reduceAdd]
  rw [readHeaderLoop_separator _ _ ⟨⟨data, 11⟩, b, c1, d, e, f, g, h1, i, j, k⟩ 59 _ d11
    (by decide)]
  simp only [movedTo, Nat.reduceAdd]
  rw [readHeaderLoop_separator _ _ ⟨⟨data, 12⟩, b, c1, d, e, f, g, h1, i, j, k⟩ 32 _ d12
    (by decide)]
  simp only [movedTo, Nat.reduceAdd]
  rw [readHeaderLoop_field _ _ ⟨⟨data, 13⟩, b, c1, d, e, f, g, h1, i, j, k⟩
    [84, 97, 98] ds _ d13 (by decide) (isSimpleString_digits ds hds) hstop]
  simp only [e3, e4, e5, e6, if_true, if_false, movedTo, List.length_cons, List.length_nil,
    Nat.reduceAdd]
  have d17b : data.drop (13 + 3 + 1 + ds.length) = c :: t := by
    rw [← d17]
  rw [readHeaderLoop_line_end _ _
    ⟨⟨data, 13 + 3 + 1 + ds.length⟩, b, c1, d, e, f, g, h1, i, decimalValue ds, k⟩ t
    (Or.inr ⟨c, hc, d17b⟩)]

/-- The first `PeekNext` of a fresh reader over the header line `~~!Format=1; Tab=`
with the digits `ds` and a line end: the scan for the token starts at the line end,
with the number the digits denote as the tab width. -/
theorem PeekNext_fresh_tab (capacity : Nat) (ds : List CharType) (c : CharType)
    (t : List CharType) (hds : IsDigits ds) (hl : ds.length ≤ 31)
    (hpos : 0 < decimalValue ds) (hlt : decimalValue ds < 4294967296)
    (hc : c = 13 ∨ c = 10) :
    (fresh capacity (headerWithTab ds ++ c :: t)).PeekNext =
      peekLoop (t.length + 2)
        { (fresh capacity (headerWithTab ds ++ c :: t)).movedTo (17 + ds.length) with
          _tabWidth := decimalValue ds, _pendingHeader := false } := by
  have hte : TryEat { data := headerWithTab ds ++ c :: t, _ptr := 0 } HeaderPrefix =
      .ok (true, { data := headerWithTab ds ++ c :: t, _ptr := 3 }) :=
    TryEat_at _ 0 HeaderPrefix
      (([70, 111, 114, 109, 97, 116] ++ 61 :: ([49] ++ 59 :: 32 ::
        ([84, 97, 98] ++ 61 :: ds))) ++ c :: t)
      (by rw [headerWithTab_eq]; simp) (by decide)
  rw [PeekNext_header (fresh capacity _) rfl rfl]
  simp only [fresh, MemoryMappedInputStream.mk0, onStream, hte, bind, Except.bind, if_true]
  rw [ReadHeader_tab _ ds c t rfl rfl hds hl hpos hlt hc]
  simp only [movedTo, RemainingBytes, End]
  have : (headerWithTab ds ++ c :: t).length - (17 + ds.length) + 1 = t.length + 2 := by
    rw [headerWithTab_eq]
    simp [HeaderPrefix]
    omega
  rw [this]

end InputStreamFormatter

end Utility


namespace Utility
open FormatterConstants

/-! ## The tab width after the header -/

namespace InputStreamFormatter
open MemoryMappedInputStream

theorem PeekNext_headerDone (w : Nat) (r : InputStreamFormatter) (h : HeaderDone w r) :
    Result.All (HeaderDone w) (fun p => HeaderDone w p.2) r.PeekNext := by
  by_cases hp : r._primed = .None
  · rw [PeekNext_unprimed r hp h.1]
    refine Result.All_mono _ _ _ _ _ (peekLoop_all _ r) ?_ ?_
    · rintro r' ⟨_, _, a, b⟩
      exact ⟨a.trans h.1, b.trans h.2⟩
    · rintro ⟨b, r'⟩ ⟨_, a, c, _⟩
      exact ⟨a.trans h.1, c.trans h.2⟩
  · rw [PeekNext_primed r hp]
    exact h

theorem HeaderDone_stream (w : Nat) (r : InputStreamFormatter) (s : MemoryMappedInputStream)
    (h : HeaderDone w r) : HeaderDone w { r with _stream := s } := h

theorem TryReadBeginElement_headerDone (w : Nat) (r : InputStreamFormatter)
    (h : HeaderDone w r) :
    Result.All (HeaderDone w) (fun p => HeaderDone w p.2) r.TryReadBeginElement := by
  rw [TryReadBeginElement]
  refine Result.All_bind _ _ _ _ _ (PeekNext_headerDone w r h) ?_
  rintro ⟨b, r1⟩ _ h1
  dsimp only []
  split
  · exact h1
  · refine Result.All_onStream_bind _ _ _ _ _ h1 ?_
    rintro ⟨nameEnd, s⟩ _
    dsimp only []
    split
    · exact h1
    · exact h1

theorem TryReadEndElement_headerDone (w : Nat) (r : InputStreamFormatter)
    (h : HeaderDone w r) :
    Result.All (HeaderDone w) (fun p => HeaderDone w p.2) r.TryReadEndElement := by
  rw [TryReadEndElement]
  refine Result.All_bind _ _ _ _ _ (PeekNext_headerDone w r h) ?_
  rintro ⟨b, r1⟩ _ h1
  dsimp only []
  split
  · exact h1
  · show HeaderDone w _
    split
    · exact h1
    · exact h1

theorem TryReadAttribute_headerDone (w : Nat) (r : InputStreamFormatter)
    (h : HeaderDone w r) :
    Result.All (HeaderDone w) (fun p => HeaderDone w p.2) r.TryReadAttribute := by
  rw [TryReadAttribute]
  refine Result.All_bind _ _ _ _ _ (PeekNext_headerDone w r h) ?_
  rintro ⟨b, r1⟩ _ h1
  dsimp only []
  split
  · exact h1
  · refine Result.All_onStream_bind _ _ _ _ _ h1 ?_
    rintro ⟨nameEnd, s1⟩ _
    dsimp only []
    refine Result.All_onStream_bind _ _ _ _ _ h1 ?_
    intro s2 _
    refine Result.All_bind _ _ _ _ _ (PeekNext_headerDone w _ h1) ?_
    rintro ⟨b2, r4⟩ _ h4
    dsimp only []
    split
    · refine Result.All_onStream_bind _ _ _ _ _ h4 ?_
      rintro ⟨valueEnd, s3⟩ _
      exact h4
    · exact h4

theorem call_headerDone (w : Nat) (r : InputStreamFormatter) (op : ReaderOp)
    (h : HeaderDone w r) : HeaderDone w (r.call op).1 := by
  cases op with
  | PeekNext =>
    have := PeekNext_headerDone w r h
    simp only [call]
    cases hx : r.PeekNext with
    | error e => obtain ⟨e, r'⟩ := e; rw [hx] at this; exact this
    | ok p => obtain ⟨b, r'⟩ := p; rw [hx] at this; exact this
  | TryReadBeginElement =>
    have := TryReadBeginElement_headerDone w r h
    simp only [call]
    cases hx : r.TryReadBeginElement with
    | error e => obtain ⟨e, r'⟩ := e; rw [hx] at this; exact this
    | ok p => obtain ⟨b, r'⟩ := p; rw [hx] at this; exact this
  | TryReadAttribute =>
    have := TryReadAttribute_headerDone w r h
    simp only [call]
    cases hx : r.TryReadAttribute with
    | error e => obtain ⟨e, r'⟩ := e; rw [hx] at this; exact this
    | ok p => obtain ⟨b, r'⟩ := p; rw [hx] at this; exact this
  | TryReadEndElement =>
    have := TryReadEndElement_headerDone w r h
    simp only [call]
    cases hx : r.TryReadEndElement with
    | error e => obtain ⟨e, r'⟩ := e; rw [hx] at this; exact this
    | ok p => obtain ⟨b, r'⟩ := p; rw [hx] at this; exact this

theorem run_headerDone (w : Nat) (ops : List ReaderOp) :
    ∀ r : InputStreamFormatter, HeaderDone w r → HeaderDone w (r.run ops).1 := by
  induction ops with
  | nil => intro r h; exact h
  | cons op ops ih =>
    intro r h
    exact ih _ (call_headerDone w r op h)

theorem HeaderDone_of_peekLoop (w fuel : Nat) (r r0 : InputStreamFormatter)
    (h : r.PeekNext = peekLoop fuel r0) (h0 : HeaderDone w r0) :
    HeaderDone w (r.call .PeekNext).1 := by
  have hall := peekLoop_all fuel r0
  simp only [call, h]
  cases hx : peekLoop fuel r0 with
  | error e =>
    obtain ⟨e, r'⟩ := e
    rw [hx] at hall
    obtain ⟨_, _, a, b⟩ := hall
    exact ⟨a.trans h0.1, b.trans h0.2⟩
  | ok p =>
    obtain ⟨b, r'⟩ := p
    rw [hx] at hall
    obtain ⟨_, a, c, _⟩ := hall
    exact ⟨a.trans h0.1, c.trans h0.2⟩

/-- A fresh reader over an input that does not begin with the header marker: the
first `PeekNext` is the scan for a token from the first code unit on. -/
theorem PeekNext_fresh_no_header (capacity : Nat) (data : List CharType)
    (hd : ¬ HeaderPrefix <+: data) :
    (fresh capacity data).PeekNext =
      peekLoop (data.length + 1) { fresh capacity data with _pendingHeader := false } := by
  have hte : TryEat { data := data, _ptr := 0 } HeaderPrefix =
      .ok (false, { data := data, _ptr := 0 }) :=
    TryEat_fail _ _ (by simpa [Remaining] using hd)
  rw [PeekNext_header (fresh capacity data) rfl rfl]
  simp only [fresh, MemoryMappedInputStream.mk0, onStream, hte, bind, Except.bind,
    Bool.false_eq_true, if_false]
  rfl

/-- C16 (amended): the header and the tab width.  For every input that does not
begin with the header marker `~~!`, the first `PeekNext` is the scan for a token
from the first code unit on (no header is consumed), and after it, returned or
raised, the tab width is the default 4.  For every input that begins with
`~~!Format=1; Tab=` and digits `ds`, at most 31 of them, that denote a number `N`
with `0 < N < 2^31`, followed by CR or LF, the first `PeekNext` is the scan for a
token from the line end on with the tab width `N`, and after it the tab width is
`N`.  In both cases no header is pending after the first call, and every sequence of
reader calls after it leaves the tab width as it is. -/
theorem header_defaults_and_tab_width (capacity : Nat) (data ds t : List CharType)
    (c : CharType) (ops : List ReaderOp) :
    (¬ HeaderPrefix <+: data →
      (fresh capacity data).PeekNext =
        peekLoop (data.length + 1) { fresh capacity data with _pendingHeader := false } ∧
      HeaderDone 4 (afterFirstPeek capacity data) ∧
      HeaderDone 4 ((afterFirstPeek capacity data).run ops).1) ∧
    (IsDigits ds → ds.length ≤ 31 → 0 < decimalValue ds → decimalValue ds < 2147483648 →
      c = 13 ∨ c = 10 →
      (fresh capacity (headerWithTab ds ++ c :: t)).PeekNext =
        peekLoop (t.length + 2)
          { (fresh capacity (headerWithTab ds ++ c :: t)).movedTo (17 + ds.length) with
            _tabWidth := decimalValue ds, _pendingHeader := false } ∧
      HeaderDone (decimalValue ds) (afterFirstPeek capacity (headerWithTab ds ++ c :: t)) ∧
      HeaderDone (decimalValue ds)
        ((afterFirstPeek capacity (headerWithTab ds ++ c :: t)).run ops).1) := by
  constructor
  · intro hd
    have h1 := PeekNext_fresh_no_header capacity data hd
    have h2 : HeaderDone 4 (afterFirstPeek capacity data) :=
      HeaderDone_of_peekLoop 4 _ _ _ h1 ⟨rfl, rfl⟩
    exact ⟨h1, h2, run_headerDone 4 ops _ h2⟩
  · intro hds hl hpos hlt hc
    have h1 := PeekNext_fresh_tab capacity ds c t hds hl hpos (by omega) hc
    have h2 : HeaderDone (decimalValue ds)
        (afterFirstPeek capacity (headerWithTab ds ++ c :: t)) :=
      HeaderDone_of_peekLoop _ _ _ _ h1 ⟨rfl, rfl⟩
    exact ⟨h1, h2, run_headerDone _ ops _ h2⟩

/-- C16, witness: the input `~A` without a header, and the header with the tab width
8 in front of a line with a tab. -/
theorem header_defaults_and_tab_width_witness :
    ((fresh 4 (text "~A")).PeekNext =
        peekLoop ((text "~A").length + 1)
          { fresh 4 (text "~A") with _pendingHeader := false } ∧
      HeaderDone 4 (afterFirstPeek 4 (text "~A")) ∧
      HeaderDone 4 ((afterFirstPeek 4 (text "~A")).run [.TryReadBeginElement]).1) ∧
    ((fresh 4 (headerWithTab (text "8") ++ 10 :: text "\t~A")).PeekNext =
        peekLoop ((text "\t~A").length + 2)
          { (fresh 4 (headerWithTab (text "8") ++ 10 :: text "\t~A")).movedTo
              (17 + (text "8").length) with
            _tabWidth := decimalValue (text "8"), _pendingHeader := false } ∧
      HeaderDone (decimalValue (text "8"))
        (afterFirstPeek 4 (headerWithTab (text "8") ++ 10 :: text "\t~A")) ∧
      HeaderDone (decimalValue (text "8"))
        ((afterFirstPeek 4 (headerWithTab (text "8") ++ 10 :: text "\t~A")).run
          [.TryReadBeginElement]).1) :=
  ⟨(header_defaults_and_tab_width 4 (text "~A") (text "8") (text "\t~A") 10
      [.TryReadBeginElement]).1 (by decide),
    (header_defaults_and_tab_width 4 (text "~A") (text "8") (text "\t~A") 10
      [.TryReadBeginElement]).2 (by decide) (by decide) (by decide) (by decide) (by decide)⟩

/-- C16, counterexample.  The digits `4294967296` denote a positive number, and
after the first `PeekNext` on the header `~~!Format=1; Tab=4294967296` and a line
feed the tab width is 0, not that number: the call raises the bad tab width
exception.  The 32 digits `00000000000000000000000000000008` denote 8, and after the
first `PeekNext` the tab width is 0 as well. -/
theorem header_tab_width_counterexample :
    (IsDigits (text "4294967296") ∧ decimalValue (text "4294967296") = 4294967296 ∧
      (afterFirstPeek 4 (headerWithTab (text "4294967296") ++ [10]))._tabWidth = 0 ∧
      ¬ HeaderDone 4294967296 (afterFirstPeek 4 (headerWithTab (text "4294967296") ++ [10]))) ∧
    (IsDigits (List.replicate 31 48 ++ [56]) ∧
      decimalValue (List.replicate 31 48 ++ [56]) = 8 ∧
      (afterFirstPeek 4 (headerWithTab (List.replicate 31 48 ++ [56]) ++ [10]))._tabWidth =
        0) := by
  refine ⟨⟨by decide, by decide, rfl, ?_⟩, by decide, by decide, rfl⟩
  intro h
  exact absurd h.2 (by decide)

end InputStreamFormatter

end Utility


namespace Utility
open FormatterConstants

/-! ## Headers that are not accepted -/

namespace InputStreamFormatter
open MemoryMappedInputStream

/-- The loop of `ReadHeader` at the NUL code unit of `nulHeader`: an iteration takes
the NUL as the start of a name, reads the empty name and leaves the read pointer
where it is, so the loop does not leave, whatever the bound on the iterations. -/
theorem readHeaderLoop_nul (capacity : Nat) (fuel : Nat) :
    ∀ aName : Option InteriorSection,
      readHeaderLoop fuel aName ((fresh capacity nulHeader).movedTo 3) =
        .error (.diverges, (fresh capacity nulHeader).movedTo 3) := by
  induction fuel with
  | zero => intro aName; rfl
  | succ n ih =>
    intro aName
    have step : readHeaderLoop (n + 1) aName ((fresh capacity nulHeader).movedTo 3) =
        readHeaderLoop n (some { _start := 3, _end := 3 })
          ((fresh capacity nulHeader).movedTo 3) := rfl
    rw [step]
    exact ih _

end InputStreamFormatter

namespace InputStreamFormatter
open MemoryMappedInputStream

theorem letter_of_lower (c l : Nat) (h : asciiLower c = l) (hl : 97 ≤ l ∧ l ≤ 122) :
    (65 ≤ c ∧ c ≤ 90) ∨ (97 ≤ c ∧ c ≤ 122) := by
  unfold asciiLower at h
  split at h
  · have h2 : c + 32 = l := h
    omega
  · have h2 : c = l := h
    omega

theorem letter_facts (c : Nat) (h : (65 ≤ c ∧ c ≤ 90) ∨ (97 ≤ c ∧ c ≤ 122)) :
    c ≠ 60 ∧ c ∉ [126, 59, 61, 13, 10, 0] ∧ c ∉ [32, 9, 11, 12, 133, 160, 0] := by
  simp only [List.mem_cons, List.mem_singleton, List.not_mem_nil, or_false, not_or]
  omega

/-- A name that is a word of lower case letters when case is ignored is written
bare. -/
theorem isSimpleString_word (name word : List CharType) (h : name.map asciiLower = word)
    (hne : word ≠ []) (hw : ∀ l ∈ word, 97 ≤ l ∧ l ≤ 122) :
    IsSimpleString name = true := by
  have hletter : ∀ c ∈ name, (65 ≤ c ∧ c ≤ 90) ∨ (97 ≤ c ∧ c ≤ 122) := by
    intro c hc
    refine letter_of_lower c (asciiLower c) rfl (hw _ ?_)
    rw [← h]
    exact List.mem_map_of_mem _ hc
  rw [isSimpleString_spec]
  refine ⟨?_, ?_, ?_, ?_, ?_⟩
  · intro hn
    rw [hn] at h
    exact hne h.symm
  · intro c hc
    exact (letter_facts c (hletter c hc)).2.1
  · intro c hc
    exact (letter_facts c (hletter c (List.mem_of_mem_head? hc))).2.2
  · intro c hc
    exact (letter_facts c (hletter c (List.mem_of_mem_getLast? hc))).2.2
  · intro hc
    exact (letter_facts 60 (hletter 60 (List.mem_of_mem_head? hc))).1 rfl

/-- The first field of the header line is named `Format`, whatever the case of its
letters, and its value is a number other than 1: the first `PeekNext` raises the
unsupported format exception and primes no token. -/
theorem PeekNext_first_field_format (capacity : Nat) (name ds rest : List CharType)
    (hname : name.map asciiLower = text "format") (hds : IsDigits ds)
    (hl : ds.length ≤ 31) (hv : decimalValue ds ≠ 1) (hrest : StopsScan rest) :
    ∃ loc r, (fresh capacity (HeaderPrefix ++ (name ++ 61 :: (ds ++ rest)))).PeekNext =
      .error (.format .unsupportedFormat loc, r) ∧ r._primed = .None := by
  have hlen : name.length = 6 := by
    have := congrArg List.length hname
    simpa using this
  have hsimple : IsSimpleString name = true :=
    isSimpleString_word name _ hname (by decide) (by decide)
  have hte : TryEat { data := HeaderPrefix ++ (name ++ 61 :: (ds ++ rest)), _ptr := 0 }
      HeaderPrefix =
      .ok (true, { data := HeaderPrefix ++ (name ++ 61 :: (ds ++ rest)), _ptr := 3 }) :=
    TryEat_at _ 0 HeaderPrefix _ rfl (by decide)
  have hcmp : XlCompareStringI (Convert 12 name) [70, 111, 114, 109, 97, 116] = 0 := by
    have : Convert 12 name = name := by
      simp only [Convert]
      exact List.take_of_length_le (by omega)
    rw [this, XlCompareStringI, hname]
    rfl
  have hval : AsInt ds ≠ 1 := by
    rw [AsInt_digits ds hds hl]
    exact_mod_cast hv
  have hfuel : (MemoryMappedInputStream.mk (HeaderPrefix ++ (name ++ 61 :: (ds ++ rest)))
      3).RemainingBytes + 1 = (ds.length + rest.length + 6) + 2 := by
    simp [RemainingBytes, End, HeaderPrefix, hlen]
    omega
  rw [PeekNext_header (fresh capacity _) rfl rfl]
  simp only [fresh, MemoryMappedInputStream.mk0, onStream, hte, bind, Except.bind, if_true,
    ReadHeader, hfuel]
  rw [readHeaderLoop_field _ _ _ name ds rest (by simp [Remaining, HeaderPrefix]) hsimple
    (isSimpleString_digits ds hds) hrest]
  simp only [hcmp, hval, if_true, ne_eq, not_false_eq_true]
  exact ⟨_, _, rfl, rfl⟩

/-- The first field of the header line is named `Tab`, whatever the case of its
letters, and its value is the number 0: the first `PeekNext` raises the bad tab width
exception and primes no token. -/
theorem PeekNext_first_field_tab (capacity : Nat) (name ds rest : List CharType)
    (hname : name.map asciiLower = text "tab") (hds : IsDigits ds)
    (hl : ds.length ≤ 31) (hv : decimalValue ds = 0) (hrest : StopsScan rest) :
    ∃ loc r, (fresh capacity (HeaderPrefix ++ (name ++ 61 :: (ds ++ rest)))).PeekNext =
      .error (.format .badTabWidth loc, r) ∧ r._primed = .None := by
  have hlen : name.length = 3 := by
    have := congrArg List.length hname
    simpa using this
  have hsimple : IsSimpleString name = true :=
    isSimpleString_word name _ hname (by decide) (by decide)
  have hte : TryEat { data := HeaderPrefix ++ (name ++ 61 :: (ds ++ rest)), _ptr := 0 }
      HeaderPrefix =
      .ok (true, { data := HeaderPrefix ++ (name ++ 61 :: (ds ++ rest)), _ptr := 3 }) :=
    TryEat_at _ 0 HeaderPrefix _ rfl (by decide)
  have hconv : Convert 12 name = name := by
    simp only [Convert]
    exact List.take_of_length_le (by omega)
  have hcmp1 : ¬ XlCompareStringI (Convert 12 name) [70, 111, 114, 109, 97, 116] = 0 := by
    rw [hconv, XlCompareStringI, hname]
    decide
  have hcmp2 : XlCompareStringI (Convert 12 name) [84, 97, 98] = 0 := by
    rw [hconv, XlCompareStringI, hname]
    rfl
  have hval : Int.toNat (AsInt ds % 4294967296) = 0 := by
    rw [AsInt_digits ds hds hl, hv]
    rfl
  have hfuel : (MemoryMappedInputStream.mk (HeaderPrefix ++ (name ++ 61 :: (ds ++ rest)))
      3).RemainingBytes + 1 = (ds.length + rest.length + 3) + 2 := by
    simp [RemainingBytes, End, HeaderPrefix, hlen]
    omega
  rw [PeekNext_header (fresh capacity _) rfl rfl]
  simp only [fresh, MemoryMappedInputStream.mk0, onStream, hte, bind, Except.bind, if_true,
    ReadHeader, hfuel]
  rw [readHeaderLoop_field _ _ _ name ds rest (by simp [Remaining, HeaderPrefix]) hsimple
    (isSimpleString_digits ds hds) hrest]
  simp only [hcmp1, hcmp2, hval, if_true, if_false]
  exact ⟨_, _, rfl, rfl⟩

end InputStreamFormatter

/-- C17: a header with a NUL code unit.  The header line `~~!; Format=2` makes the
first `PeekNext` raise the unsupported format exception, with no token primed.  With
a NUL code unit behind the header marker (`nulHeader`) the loop of `ReadHeader`
never leaves, for every bound on its iterations, and the first `PeekNext` does not
raise the exception. -/
theorem header_nul_never_raises (capacity : Nat) :
    (∃ loc r, (InputStreamFormatter.fresh capacity (text "~~!; Format=2\r\n")).PeekNext =
        .error (.format .unsupportedFormat loc, r) ∧ r._primed = .None) ∧
    (∀ fuel aName,
      InputStreamFormatter.readHeaderLoop fuel aName
          ((InputStreamFormatter.fresh capacity nulHeader).movedTo 3) =
        .error (.diverges, (InputStreamFormatter.fresh capacity nulHeader).movedTo 3)) ∧
    (InputStreamFormatter.fresh capacity nulHeader).PeekNext =
      .error (.diverges, (InputStreamFormatter.fresh capacity nulHeader).movedTo 3) := by
  refine ⟨⟨_, _, rfl, rfl⟩, fun fuel aName =>
    InputStreamFormatter.readHeaderLoop_nul capacity fuel aName, ?_⟩
  rw [InputStreamFormatter.PeekNext_header _ rfl rfl]
  have hte : TryEat (InputStreamFormatter.fresh capacity nulHeader)._stream HeaderPrefix =
      .ok (true, { data := nulHeader, _ptr := 3 }) := rfl
  simp only [InputStreamFormatter.onStream, hte, bind, Except.bind, if_true,
    InputStreamFormatter.ReadHeader]
  have h := InputStreamFormatter.readHeaderLoop_nul capacity
    (MemoryMappedInputStream.RemainingBytes { data := nulHeader, _ptr := 3 } + 1) none
  have e : (InputStreamFormatter.fresh capacity nulHeader).movedTo 3 =
      { InputStreamFormatter.fresh capacity nulHeader with
        _stream := { data := nulHeader, _ptr := 3 } } := rfl
  rw [e] at h
  rw [h]
  rfl

end Utility


namespace Utility
open FormatterConstants

/-! ## A rejected field anywhere in the header line -/

theorem skipWhitespace_within (v tail : List CharType) (q : Nat)
    (h : ∃ c ∈ v, WhitespaceChar c = false) :
    q ≤ skipWhitespace (v ++ tail) q ∧ skipWhitespace (v ++ tail) q < q + v.length := by
  induction v generalizing q with
  | nil => simp at h
  | cons a t ih =>
    simp only [List.cons_append, skipWhitespace, List.length_cons, List.append_eq]
    by_cases ha : WhitespaceChar a = true
    · simp only [ha, if_true]
      obtain ⟨c, hc, hw⟩ := h
      have hct : c ∈ t := by
        rcases List.mem_cons.mp hc with rfl | hct
        · rw [ha] at hw; cases hw
        · exact hct
      have := ih (q + 1) ⟨c, hct, hw⟩
      omega
    · simp only [ha, Bool.false_eq_true, if_false]
      omega

theorem scanUnprotected_within (v tail : List CharType) (q se : Nat)
    (h : ∃ c ∈ v, FormattingChar c = true) :
    q ≤ (scanUnprotected (v ++ tail) q se).1 ∧
      (scanUnprotected (v ++ tail) q se).1 < q + v.length := by
  induction v generalizing q se with
  | nil => simp at h
  | cons a t ih =>
    simp only [List.cons_append, scanUnprotected, List.length_cons, List.append_eq]
    by_cases ha : FormattingChar a = true
    · simp only [ha, if_true]
      omega
    · simp only [ha, Bool.false_eq_true, if_false]
      obtain ⟨c, hc, hf⟩ := h
      have hct : c ∈ t := by
        rcases List.mem_cons.mp hc with rfl | hct
        · exact absurd hf ha
        · exact hct
      split
      · have := ih (q + 1) (q + 1) ⟨c, hct, hf⟩
        omega
      · have := ih (q + 1) se ⟨c, hct, hf⟩
        omega

theorem scanUnprotected_progress (c : CharType) (t : List CharType) (q se : Nat)
    (hc : FormattingChar c = false) : q + 1 ≤ (scanUnprotected (c :: t) q se).1 := by
  simp only [scanUnprotected, hc, Bool.false_eq_true, if_false]
  split
  · exact (scanUnprotected_bounds t (q + 1) (q + 1) (le_refl _)).1
  · by_cases hse : se ≤ q + 1
    · exact (scanUnprotected_bounds t (q + 1) se hse).1
    · -- the pointer does not depend on the end of the string found so far
      have key : ∀ (l : List CharType) (p a b : Nat),
          (scanUnprotected l p a).1 = (scanUnprotected l p b).1 := by
        intro l
        induction l with
        | nil => intro p a b; rfl
        | cons x xs ih =>
          intro p a b
          simp only [scanUnprotected]
          split
          · rfl
          · split
            · rfl
            · exact ih _ _ _
      rw [key t (q + 1) se (q + 1)]
      exact (scanUnprotected_bounds t (q + 1) (q + 1) (le_refl _)).1

open MemoryMappedInputStream in
theorem EatWhitespace_eval (data : List CharType) (q : Nat) (h : q ≤ data.length) :
    EatWhitespace { data := data, _ptr := q } =
      .ok { data := data, _ptr := skipWhitespace (data.drop q) q } := by
  have hb := (skipWhitespace_bounds (data.drop q) q).2
  simp only [List.length_drop] at hb
  simp only [EatWhitespace, Remaining, ReadPointer]
  exact InputStreamFormatter.SetPointer_at data q _ (by omega)

open MemoryMappedInputStream in
theorem ReadToStringEnd_eval (data : List CharType) (q : Nat) (loc : StreamLocation)
    (h : q ≤ data.length) :
    ReadToStringEnd { data := data, _ptr := q } false loc =
      .ok ((scanUnprotected (data.drop q) q q).2,
        { data := data, _ptr := (scanUnprotected (data.drop q) q q).1 }) := by
  have hb := (scanUnprotected_bounds (data.drop q) q q (le_refl _)).2.1
  simp only [List.length_drop] at hb
  simp only [ReadToStringEnd, Bool.false_eq_true, if_false, Remaining, ReadPointer]
  rw [InputStreamFormatter.SetPointer_at data q _ (by omega)]
  rfl

namespace InputStreamFormatter
open MemoryMappedInputStream

theorem readHeaderStep_extended (aName : Option InteriorSection) (r : InputStreamFormatter)
    (c : CharType) (hc : c = 0x0B ∨ c = 0x0C ∨ c = 0x85 ∨ c = 0xA0) :
    readHeaderStep aName r c = .error (.format .unsupportedWhiteSpace r.GetLocation, r) := by
  rcases hc with rfl | rfl | rfl | rfl <;> rfl

theorem readHeaderStep_marker (aName : Option InteriorSection) (r : InputStreamFormatter) :
    readHeaderStep aName r 126 =
      .error (.format .unexpectedElementInHeader r.GetLocation, r) := rfl

theorem mem_of_last (u : List CharType) (hu : u ≠ []) (h : u = [] ∨ u.getLast? = some 59) :
    (59 : CharType) ∈ u := by
  rcases h with h | h
  · exact absurd h hu
  · exact List.mem_of_mem_getLast? h

theorem FieldStart_drop (u : List CharType) (m : Nat) (h : FieldStart u) :
    FieldStart (u.drop m) := by
  obtain ⟨h1, h2⟩ := h
  refine ⟨?_, fun c hc => h2 c (List.mem_of_mem_drop hc)⟩
  by_cases hm : u.length ≤ m
  · exact Or.inl (List.drop_eq_nil_of_le hm)
  · rcases h1 with h1 | h1
    · rw [h1]; simp
    · right
      rw [List.getLast?_drop, if_neg hm, h1]

theorem assign_outcome (r r3 : InputStreamFormatter) (aName : Option InteriorSection)
    (conv value : List CharType) (hi : Nat) (hdata : r3._stream.data = r._stream.data)
    (hlo : r._stream._ptr < r3._stream._ptr) (hhi : r3._stream._ptr ≤ hi)
    (hp : r3._primed = r._primed) :
    HeaderOutcome r hi
      (if XlCompareStringI conv [70, 111, 114, 109, 97, 116] = 0 then
        if AsInt value ≠ 1 then
          .error (.format .unsupportedFormat r3.GetLocation, r3)
        else .ok (.next (aName, r3))
      else if XlCompareStringI conv [84, 97, 98] = 0 then
        if Int.toNat (AsInt value % 4294967296) = 0 then
          .error (.format .badTabWidth
            (GetLocation { r3 with _tabWidth := Int.toNat (AsInt value % 4294967296) }),
            { r3 with _tabWidth := Int.toNat (AsInt value % 4294967296) })
        else .ok (.next (aName, { r3 with _tabWidth := Int.toNat (AsInt value % 4294967296) }))
      else .ok (.next (aName, r3))) := by
  by_cases e1 : XlCompareStringI conv [70, 111, 114, 109, 97, 116] = 0
  · by_cases e2 : AsInt value = 1
    · simp only [e1, e2, if_true, ne_eq, not_true_eq_false, if_false]
      exact ⟨hdata, hlo, hhi, hp⟩
    · simp only [e1, e2, if_true, ne_eq, not_false_eq_true]
      exact ⟨⟨_, _, rfl⟩, hp⟩
  · by_cases e3 : XlCompareStringI conv [84, 97, 98] = 0
    · by_cases e4 : Int.toNat (AsInt value % 4294967296) = 0
      · simp only [e1, e3, e4, if_true, if_false]
        exact ⟨⟨_, _, rfl⟩, hp⟩
      · simp only [e1, e3, e4, if_true, if_false]
        exact ⟨hdata, hlo, hhi, hp⟩
    · simp only [e1, e3, if_false]
      exact ⟨hdata, hlo, hhi, hp⟩

/-- One iteration of the loop of `ReadHeader` in front of a field. -/
theorem readHeaderStep_outcome (aName : Option InteriorSection) (r : InputStreamFormatter)
    (c : CharType) (v tail : List CharType)
    (h : r._stream.Remaining = c :: (v ++ tail)) (hs : FieldStart (c :: v)) :
    HeaderOutcome r (r._stream._ptr + (v.length + 1)) (readHeaderStep aName r c) := by
  obtain ⟨⟨data, q⟩, b, c1, d, e, f, g, h1, i, j, k⟩ := r
  have hd : data.drop q = c :: (v ++ tail) := h
  have hlt := ptr_lt_of_drop data q c _ hd
  have hmem := hs.2
  have hc0 := hmem c (by simp)
  have h59 : (59 : CharType) ∈ c :: v := mem_of_last (c :: v) (by simp) hs.1
  have hsep : ∀ x : CharType, x = 9 ∨ x = 32 ∨ x = 59 → c = x →
      HeaderOutcome ⟨⟨data, q⟩, b, c1, d, e, f, g, h1, i, j, k⟩ (q + (v.length + 1))
        (readHeaderStep aName ⟨⟨data, q⟩, b, c1, d, e, f, g, h1, i, j, k⟩ c) := by
    intro x hx hcx
    rw [readHeaderStep_separator _ _ c (by rw [hcx]; exact hx)]
    simp only [onStream, bind, Except.bind, MovePointer_at data q 1 (by omega)]
    exact ⟨rfl, by show q < q + 1; omega, by show q + 1 ≤ _; omega, rfl⟩
  rcases char_cases c with hc | hc | hc | hc | hc | hc | hc | hc | hc
  · exact hsep 9 (by decide) hc
  · exact hsep 32 (by decide) hc
  · rw [readHeaderStep_extended _ _ c hc]
    exact ⟨⟨_, _, rfl⟩, rfl⟩
  · exact absurd hc hc0.2.1
  · exact absurd hc hc0.2.2
  · exact hsep 59 (by decide) hc
  · -- the assignment sign: the value ends in front of the separator at the latest
    subst hc
    have hv : v ≠ [] := by
      intro hv
      rcases hs.1 with h0 | h0
      · cases h0
      · rw [hv] at h0
        simp at h0
    have hv59 : (59 : CharType) ∈ v := by
      rcases List.mem_cons.mp h59 with h0 | h0
      · cases h0
      · exact h0
    have e1 : data.drop (q + 1) = v ++ tail := drop_advance data q [61] _ hd
    have b2 := skipWhitespace_within v tail (q + 1) ⟨59, hv59, by decide⟩
    rw [← e1] at b2
    obtain ⟨m, hm⟩ : ∃ m, skipWhitespace (data.drop (q + 1)) (q + 1) = q + 1 + m :=
      ⟨skipWhitespace (data.drop (q + 1)) (q + 1) - (q + 1), by omega⟩
    have hmv : m < v.length := by omega
    have e2 : data.drop (q + 1 + m) = v.drop m ++ tail :=
      drop_advance_to data (q + 1) (q + 1 + m) (v.take m) _
        (by rw [e1, ← List.append_assoc, List.take_append_drop])
        (by rw [List.length_take]; omega)
    have hv2 : (59 : CharType) ∈ v.drop m := by
      have hfs := FieldStart_drop (61 :: v) (m + 1) hs
      simp only [List.drop_succ_cons] at hfs
      exact mem_of_last _ (by
        intro h0
        have := congrArg List.length h0
        simp at this
        omega) hfs.1
    have b3 := scanUnprotected_within (v.drop m) tail (q + 1 + m) (q + 1 + m)
      ⟨59, hv2, by decide⟩
    rw [← e2, List.length_drop] at b3
    have hl1 : data.length - (q + 1) = v.length + tail.length := by
      have := congrArg List.length e1
      simpa using this
    have hb : q < (scanUnprotected (data.drop (q + 1 + m)) (q + 1 + m) (q + 1 + m)).1 ∧
        (scanUnprotected (data.drop (q + 1 + m)) (q + 1 + m) (q + 1 + m)).1 ≤
          q + (v.length + 1) := by omega
    rw [readHeaderStep_assign]
    simp only [onStream, bind, Except.bind, MovePointer_at data q 1 (by omega),
      EatWhitespace_eval data (q + 1) (by omega), hm,
      ReadToStringEnd_eval data (q + 1 + m) _ (by omega), ReadPointer]
    exact assign_outcome _ _ _ _ _ _ rfl hb.1 hb.2 rfl
  · subst hc
    rw [readHeaderStep_marker]
    exact ⟨⟨_, _, rfl⟩, rfl⟩
  · -- the start of a name: the name ends in front of the separator at the latest
    have hfc : FormattingChar c = false := by
      obtain ⟨p1, p2, p3, p4, p5, p6, p7, p8, p9, p10, p11⟩ := hc
      simp only [FormattingChar, Bool.or_eq_false_iff, beq_eq_false_iff_ne, ne_eq]
      exact ⟨⟨⟨⟨⟨p11, p9⟩, p10⟩, p7⟩, p8⟩, hc0.1⟩
    have b1 := scanUnprotected_within (c :: v) tail q q ⟨59, h59, by decide⟩
    have b0 := scanUnprotected_progress c (v ++ tail) q q hfc
    simp only [List.cons_append, List.length_cons] at b1
    rw [← hd] at b1 b0
    rw [readHeaderStep_plain _ _ c hc]
    simp only [onStream, bind, Except.bind, ReadToStringEnd_eval data q _ (by omega),
      ReadPointer]
    have hb : q < (scanUnprotected (data.drop q) q q).1 ∧
        (scanUnprotected (data.drop q) q q).1 ≤ q + (v.length + 1) := by omega
    exact ⟨rfl, hb.1, hb.2, rfl⟩

/-- The loop of `ReadHeader` over the text `u` in front of a field: it raises a
format exception, or it reaches the end of `u` with some of the iterations left. -/
theorem readHeaderLoop_prefix (n : Nat) :
    ∀ (u tail : List CharType) (r : InputStreamFormatter) (aName : Option InteriorSection)
      (k : Nat), u.length ≤ n → r._stream.Remaining = u ++ tail → FieldStart u →
      (∃ label loc r1, readHeaderLoop (n + k) aName r = .error (.format label loc, r1) ∧
        r1._primed = r._primed) ∨
      (∃ aName1 r1 j, readHeaderLoop (n + k) aName r = readHeaderLoop (j + k) aName1 r1 ∧
        r1._stream.Remaining = tail ∧ r1._primed = r._primed) := by
  induction n with
  | zero =>
    intro u tail r aName k hn h _
    have hu : u = [] := List.length_eq_zero.mp (by omega)
    subst hu
    exact Or.inr ⟨aName, r, 0, rfl, h, rfl⟩
  | succ n ih =>
    intro u tail r aName k hn h hs
    cases u with
    | nil => exact Or.inr ⟨aName, r, n + 1, rfl, h, rfl⟩
    | cons c v =>
      have hstep := readHeaderStep_outcome aName r c v tail h hs
      rw [show n + 1 + k = (n + k) + 1 by omega, readHeaderLoop_cons _ _ r c (v ++ tail) h]
      cases hx : readHeaderStep aName r c with
      | error e =>
        obtain ⟨e, r1⟩ := e
        rw [hx] at hstep
        obtain ⟨⟨label, loc, rfl⟩, hp⟩ := hstep
        exact Or.inl ⟨label, loc, r1, rfl, hp⟩
      | ok st =>
        cases st with
        | done r1 =>
          rw [hx] at hstep
          exact hstep.elim
        | next p =>
          obtain ⟨a1, r1⟩ := p
          rw [hx] at hstep
          obtain ⟨hdata, hlo, hhi, hp⟩ := hstep
          obtain ⟨m, hm⟩ : ∃ m, r1._stream._ptr = r._stream._ptr + m :=
            ⟨r1._stream._ptr - r._stream._ptr, by omega⟩
          have hm1 : m ≤ (c :: v).length := by
            simp only [List.length_cons]
            omega
          have hrem : r1._stream.Remaining = (c :: v).drop m ++ tail := by
            show r1._stream.data.drop r1._stream._ptr = _
            rw [hdata, hm]
            exact drop_advance_to _ r._stream._ptr _ ((c :: v).take m) _
              (by
                show r._stream.Remaining = _
                rw [h, ← List.append_assoc, List.take_append_drop])
              (by rw [List.length_take]; omega)
          have hlen : ((c :: v).drop m).length ≤ n := by
            rw [List.length_drop]
            simp only [List.length_cons] at hn ⊢
            omega
          simp only [bind, Except.bind]
          rcases ih _ tail r1 a1 k hlen hrem (FieldStart_drop _ m hs) with
            ⟨label, loc, r2, h1, h2⟩ | ⟨a2, r2, j, h1, h2, h3⟩
          · exact Or.inl ⟨label, loc, r2, h1, h2.trans hp⟩
          · exact Or.inr ⟨a2, r2, j, h1, h2, h3.trans hp⟩

/-- The loop of `ReadHeader` over tabs and spaces. -/
theorem readHeaderLoop_blanks (ws : List CharType) :
    ∀ (tail : List CharType) (r : InputStreamFormatter) (aName : Option InteriorSection)
      (k : Nat), r._stream.Remaining = ws ++ tail → (∀ c ∈ ws, c = 9 ∨ c = 32) →
      ∃ r1, readHeaderLoop (ws.length + k) aName r = readHeaderLoop k aName r1 ∧
        r1._stream.Remaining = tail ∧ r1._primed = r._primed := by
  induction ws with
  | nil =>
    intro tail r aName k h _
    exact ⟨r, by simp, h, rfl⟩
  | cons c t ih =>
    intro tail r aName k h hws
    have hc : c = 9 ∨ c = 32 ∨ c = 59 := by
      rcases hws c (by simp) with h0 | h0
      · exact Or.inl h0
      · exact Or.inr (Or.inl h0)
    have hrem : (r.movedTo (r._stream._ptr + 1))._stream.Remaining = t ++ tail :=
      drop_advance r._stream.data r._stream._ptr [c] _ h
    obtain ⟨r1, h1, h2, h3⟩ := ih tail (r.movedTo (r._stream._ptr + 1)) aName k hrem
      (fun d hd => hws d (by simp [hd]))
    refine ⟨r1, ?_, h2, h3⟩
    rw [show (c :: t).length + k = (t.length + k) + 1 by simp; omega,
      readHeaderLoop_separator _ _ r c (t ++ tail) h hc]
    exact h1

/-- `ReadHeader` in front of a rejected field: it raises a format exception. -/
theorem ReadHeader_rejects (r : InputStreamFormatter) (pre ws name ds rest : List CharType)
    (hrem : r._stream.Remaining = pre ++ (ws ++ (name ++ 61 :: (ds ++ rest))))
    (hpre : FieldStart pre) (hws : ∀ c ∈ ws, c = 9 ∨ c = 32) (hds : IsDigits ds)
    (hl : ds.length ≤ 31) (hrest : StopsScan rest) (hbad : RejectedField name ds) :
    ∃ label loc r1, r.ReadHeader = .error (.format label loc, r1) ∧
      r1._primed = r._primed := by
  have hfuel : r._stream.RemainingBytes + 1 =
      pre.length + (ws.length + ((name.length + ds.length + rest.length) + 2)) := by
    rw [← length_Remaining, hrem]
    simp
    omega
  rw [ReadHeader, hfuel]
  rcases readHeaderLoop_prefix pre.length pre (ws ++ (name ++ 61 :: (ds ++ rest))) r none
      (ws.length + ((name.length + ds.length + rest.length) + 2)) (le_refl _) hrem hpre with
    ⟨label, loc, r1, h1, h2⟩ | ⟨a1, r1, j, h1, h2, h3⟩
  · exact ⟨label, loc, r1, h1, h2⟩
  · rw [h1, show j + (ws.length + ((name.length + ds.length + rest.length) + 2)) =
      ws.length + (((j + (name.length + ds.length + rest.length))) + 2) by omega]
    obtain ⟨r2, g1, g2, g3⟩ := readHeaderLoop_blanks ws _ r1 a1
      (((j + (name.length + ds.length + rest.length))) + 2) h2 hws
    rw [g1]
    have hp2 : r2._primed = r._primed := g3.trans h3
    rcases hbad with ⟨hname, hv⟩ | ⟨hname, hv⟩
    · have hlen : name.length = 6 := by
        have := congrArg List.length hname
        simpa using this
      have hcmp : XlCompareStringI (Convert 12 name) [70, 111, 114, 109, 97, 116] = 0 := by
        have : Convert 12 name = name := by
          simp only [Convert]
          exact List.take_of_length_le (by omega)
        rw [this, XlCompareStringI, hname]
        rfl
      have hval : AsInt ds ≠ 1 := by
        rw [AsInt_digits ds hds hl]
        exact_mod_cast hv
      rw [readHeaderLoop_field _ _ r2 name ds rest g2
        (isSimpleString_word name _ hname (by decide) (by decide))
        (isSimpleString_digits ds hds) hrest]
      simp only [hcmp, hval, if_true, ne_eq, not_false_eq_true]
      exact ⟨_, _, _, rfl, hp2⟩
    · have hlen : name.length = 3 := by
        have := congrArg List.length hname
        simpa using this
      have hconv : Convert 12 name = name := by
        simp only [Convert]
        exact List.take_of_length_le (by omega)
      have hcmp1 : ¬ XlCompareStringI (Convert 12 name) [70, 111, 114, 109, 97, 116] = 0 := by
        rw [hconv, XlCompareStringI, hname]
        decide
      have hcmp2 : XlCompareStringI (Convert 12 name) [84, 97, 98] = 0 := by
        rw [hconv, XlCompareStringI, hname]
        rfl
      have hval : Int.toNat (AsInt ds % 4294967296) = 0 := by
        rw [AsInt_digits ds hds hl, hv]
        rfl
      rw [readHeaderLoop_field _ _ r2 name ds rest g2
        (isSimpleString_word name _ hname (by decide) (by decide))
        (isSimpleString_digits ds hds) hrest]
      simp only [hcmp1, hcmp2, hval, if_true, if_false]
      exact ⟨_, _, _, rfl, hp2⟩

/-- A header line with a rejected field anywhere in it.  The input begins with the
header marker; in front of the field stands text without NUL, CR and LF that is
empty or ends with `;`, then tabs and spaces; the field is `name=digits` with at most
31 digits.  The first `PeekNext` raises a format exception and primes no token. -/
theorem PeekNext_header_rejects (capacity : Nat) (pre ws name ds rest : List CharType)
    (hpre : FieldStart pre) (hws : ∀ c ∈ ws, c = 9 ∨ c = 32) (hds : IsDigits ds)
    (hl : ds.length ≤ 31) (hrest : StopsScan rest) (hbad : RejectedField name ds) :
    ∃ label loc r,
      (fresh capacity
        (HeaderPrefix ++ (pre ++ (ws ++ (name ++ 61 :: (ds ++ rest)))))).PeekNext =
        .error (.format label loc, r) ∧ r._primed = .None := by
  have hte : TryEat
      { data := HeaderPrefix ++ (pre ++ (ws ++ (name ++ 61 :: (ds ++ rest)))), _ptr := 0 }
      HeaderPrefix =
      .ok (true,
        { data := HeaderPrefix ++ (pre ++ (ws ++ (name ++ 61 :: (ds ++ rest)))), _ptr := 3 }) :=
    TryEat_at _ 0 HeaderPrefix _ rfl (by decide)
  obtain ⟨label, loc, r1, h1, h2⟩ := ReadHeader_rejects
    ((fresh capacity (HeaderPrefix ++ (pre ++ (ws ++ (name ++ 61 :: (ds ++ rest)))))).movedTo 3)
    pre ws name ds rest (by simp [movedTo, fresh, mk0, Remaining, HeaderPrefix])
    hpre hws hds hl hrest hbad
  refine ⟨label, loc, r1, ?_, h2⟩
  rw [PeekNext_header (fresh capacity _) rfl rfl]
  simp only [fresh, MemoryMappedInputStream.mk0, onStream, hte, bind, Except.bind, if_true]
  simp only [fresh, MemoryMappedInputStream.mk0, movedTo] at h1
  rw [h1]

end InputStreamFormatter

end Utility


namespace Utility
open FormatterConstants
open MemoryMappedInputStream

/-! ## The two scans of `ReadToStringEnd` -/

theorem scanProtected_none (l : List CharType) (ptr : Nat) (h : scanProtected l ptr = none) :
    ¬ ProtectedNamePostfix <:+: l := by
  induction l generalizing ptr with
  | nil => simp [ProtectedNamePostfix]
  | cons c cs ih =>
    rw [scanProtected] at h
    by_cases hlen : (c :: cs).length < ProtectedNamePostfix.length
    · intro hc
      have := hc.length_le
      omega
    · rw [if_neg hlen] at h
      by_cases htake : (c :: cs).take ProtectedNamePostfix.length = ProtectedNamePostfix
      · rw [if_pos htake] at h
        cases h
      · rw [if_neg htake] at h
        intro hc
        rcases List.infix_cons_iff.1 hc with hpre | hin
        · exact htake (List.prefix_iff_eq_take.1 hpre).symm
        · exact ih _ h hin

theorem scanProtected_some (l : List CharType) (ptr p : Nat) (h : scanProtected l ptr = some p) :
    ∃ a b, l = a ++ ProtectedNamePostfix ++ b ∧ p = ptr + a.length ∧
      ∀ a' b', l = a' ++ ProtectedNamePostfix ++ b' → a.length ≤ a'.length := by
  induction l generalizing ptr with
  | nil => simp [scanProtected] at h
  | cons c cs ih =>
    rw [scanProtected] at h
    by_cases hlen : (c :: cs).length < ProtectedNamePostfix.length
    · rw [if_pos hlen] at h
      cases h
    · rw [if_neg hlen] at h
      by_cases htake : (c :: cs).take ProtectedNamePostfix.length = ProtectedNamePostfix
      · rw [if_pos htake] at h
        cases h
        refine ⟨[], (c :: cs).drop ProtectedNamePostfix.length, ?_, rfl,
          fun _ _ _ => Nat.zero_le _⟩
        conv_lhs => rw [← List.take_append_drop ProtectedNamePostfix.length (c :: cs)]
        rw [htake, List.nil_append]
      · rw [if_neg htake] at h
        obtain ⟨a, b, hl, hp, hmin⟩ := ih _ h
        refine ⟨c :: a, b, by rw [hl]; rfl, by rw [hp, List.length_cons]; omega, ?_⟩
        intro a' b' h'
        cases a' with
        | nil =>
          exfalso
          apply htake
          rw [h']
          simp [ProtectedNamePostfix]
        | cons x a'' =>
          simp only [List.cons_append, List.cons.injEq] at h'
          have := hmin a'' b' h'.2
          simp only [List.length_cons]
          omega

theorem rdropWhile_cons (p : CharType → Bool) (a : CharType) (l : List CharType) :
    (a :: l).rdropWhile p =
      if l.rdropWhile p = [] then (if p a then [] else [a]) else a :: l.rdropWhile p := by
  simp only [List.rdropWhile, List.reverse_cons, List.dropWhile_append]
  by_cases h : List.dropWhile p l.reverse = []
  · simp only [h, List.isEmpty_nil, if_true, List.reverse_nil]
    by_cases hp : p a = true
    · simp [List.dropWhile, hp]
    · simp [List.dropWhile, hp]
  · have h2 : (List.dropWhile p l.reverse).isEmpty = false := by
      cases hd : List.dropWhile p l.reverse with
      | nil => exact absurd hd h
      | cons _ _ => rfl
    simp [h2, h]

theorem scanUnprotected_spec (l : List CharType) (ptr se : Nat) :
    scanUnprotected l ptr se =
      (ptr + (scannedText l).length,
       if trimmedEnd (scannedText l) = [] then se
       else ptr + (trimmedEnd (scannedText l)).length) := by
  induction l generalizing ptr se with
  | nil => simp [scanUnprotected, scannedText, trimmedEnd]
  | cons c cs ih =>
    rw [scanUnprotected]
    by_cases hf : FormattingChar c = true
    · simp [hf, scannedText, trimmedEnd]
    · rw [if_neg hf]
      have hs : scannedText (c :: cs) = c :: scannedText cs := by
        simp [scannedText, List.takeWhile, hf]
      rw [hs]
      simp only [trimmedEnd] at ih ⊢
      rw [rdropWhile_cons]
      by_cases hw : WhitespaceChar c = true
      · rw [if_neg (by simpa using hw), ih]
        by_cases ht : (scannedText cs).rdropWhile WhitespaceChar = []
        · simp [ht, hw]
          omega
        · simp [ht]
          omega
      · rw [if_pos hw, ih]
        by_cases ht : (scannedText cs).rdropWhile WhitespaceChar = []
        · simp [ht, hw]
          omega
        · simp [ht]
          omega

theorem scannedText_split (l : List CharType) :
    ∃ rest, l = scannedText l ++ rest ∧ (∀ c ∈ scannedText l, FormattingChar c = false) ∧
      (rest = [] ∨ ∃ c t, rest = c :: t ∧ FormattingChar c = true) := by
  refine ⟨l.dropWhile (fun c => !FormattingChar c), ?_, ?_, ?_⟩
  · exact (List.takeWhile_append_dropWhile _ l).symm
  · intro c hc
    have := List.mem_takeWhile_imp hc
    simpa using this
  · cases hd : l.dropWhile (fun c => !FormattingChar c) with
    | nil => exact Or.inl rfl
    | cons c t =>
      refine Or.inr ⟨c, t, rfl, ?_⟩
      have := List.head_dropWhile_not (fun c => !FormattingChar c) l (by rw [hd]; simp)
      simp only [hd, List.head_cons] at this
      simpa using this

theorem trimmedEnd_split (s : List CharType) :
    ∃ ws, s = trimmedEnd s ++ ws ∧ (∀ c ∈ ws, WhitespaceChar c = true) ∧
      (∀ h : trimmedEnd s ≠ [], WhitespaceChar ((trimmedEnd s).getLast h) = false) := by
  refine ⟨s.rtakeWhile WhitespaceChar, ?_, ?_, ?_⟩
  · simp only [trimmedEnd, List.rdropWhile, List.rtakeWhile, ← List.reverse_append]
    rw [List.takeWhile_append_dropWhile, List.reverse_reverse]
  · intro c hc
    simp only [List.rtakeWhile, List.mem_reverse] at hc
    exact List.mem_takeWhile_imp hc
  · intro h
    have := List.rdropWhile_last_not WhitespaceChar s h
    simpa using this

theorem ReadToStringEnd_protected_spec (st : MemoryMappedInputStream) (loc : StreamLocation)
    (hv : st._ptr ≤ st.data.length) :
    ((∃ e, ReadToStringEnd st true loc = .error e) ↔
        ¬ ProtectedNamePostfix <:+: st.Remaining) ∧
    (∀ e, ReadToStringEnd st true loc = .error e →
        e = .format .stringDeliminatorNotFound loc) ∧
    (ProtectedNamePostfix <:+: st.Remaining →
      ∃ a b, st.Remaining = a ++ ProtectedNamePostfix ++ b ∧
        (∀ a' b', st.Remaining = a' ++ ProtectedNamePostfix ++ b' → a.length ≤ a'.length) ∧
        ReadToStringEnd st true loc =
          .ok (st._ptr + a.length,
               { st with _ptr := st._ptr + a.length + ProtectedNamePostfix.length }) ∧
        InteriorSection.content { _start := st._ptr, _end := st._ptr + a.length } st.data
          = a) := by
  cases hs : scanProtected st.Remaining st._ptr with
  | none =>
    have hno := scanProtected_none _ _ hs
    have hr : ReadToStringEnd st true loc = .error (.format .stringDeliminatorNotFound loc) := by
      simp only [ReadToStringEnd, if_true, ReadPointer, hs]
    refine ⟨⟨fun _ => hno, fun _ => ⟨_, hr⟩⟩, ?_, fun h => absurd h hno⟩
    intro e he
    rw [hr] at he
    cases he
    rfl
  | some p =>
    obtain ⟨a, b, hl, hp, hmin⟩ := scanProtected_some _ _ _ hs
    have hin : ProtectedNamePostfix <:+: st.Remaining := ⟨a, b, hl.symm⟩
    have hset := st.SetPointer_ok (a ++ ProtectedNamePostfix) b hl hv
    have hr : ReadToStringEnd st true loc =
        .ok (st._ptr + a.length,
             { st with _ptr := st._ptr + a.length + ProtectedNamePostfix.length }) := by
      simp only [ReadToStringEnd, if_true, ReadPointer, hs]
      simp only [List.length_append, ← Nat.add_assoc] at hset
      rw [hp, hset]
      rfl
    refine ⟨⟨?_, fun h => absurd hin h⟩, ?_, fun _ => ⟨a, b, hl, hmin, hr, ?_⟩⟩
    · rintro ⟨e, he⟩
      rw [hr] at he
      cases he
    · intro e he
      rw [hr] at he
      cases he
    · exact st.content_of_Remaining a (ProtectedNamePostfix ++ b) (by rw [hl, List.append_assoc])

/-- C22.  `ReadToStringEnd` in protected mode, with the cursor inside the buffer:
it raises exactly when the protected postfix does not occur in the input from the
cursor on, and what it raises then is the format error "string deliminator not
found"; when the postfix occurs, the section returned starts at the cursor and ends
where the first occurrence of the postfix starts, its content is the text `a` in
front of that occurrence, and the cursor is left just behind the occurrence. -/
theorem protected_read_stops_at_first (st : MemoryMappedInputStream) (loc : StreamLocation)
    (hv : st._ptr ≤ st.data.length) :
    ((∃ e, ReadToStringEnd st true loc = .error e) ↔
        ¬ ProtectedNamePostfix <:+: st.Remaining) ∧
    (∀ e, ReadToStringEnd st true loc = .error e →
        e = .format .stringDeliminatorNotFound loc) ∧
    (ProtectedNamePostfix <:+: st.Remaining →
      ∃ a b, st.Remaining = a ++ ProtectedNamePostfix ++ b ∧
        (∀ a' b', st.Remaining = a' ++ ProtectedNamePostfix ++ b' → a.length ≤ a'.length) ∧
        ReadToStringEnd st true loc =
          .ok (st._ptr + a.length,
               { st with _ptr := st._ptr + a.length + ProtectedNamePostfix.length }) ∧
        InteriorSection.content { _start := st._ptr, _end := st._ptr + a.length } st.data
          = a) :=
  ReadToStringEnd_protected_spec st loc hv

/-- C22 at the input `a):>b):>` read from its start: the read does not raise, the
section is `a` and the cursor is left at offset 4, behind the first postfix. -/
theorem protected_read_stops_at_first_witness :
    twoPostfixes._ptr ≤ twoPostfixes.data.length ∧
    ((∃ e, ReadToStringEnd twoPostfixes true ⟨1, 1⟩ = .error e) ↔
        ¬ ProtectedNamePostfix <:+: twoPostfixes.Remaining) ∧
    (∀ e, ReadToStringEnd twoPostfixes true ⟨1, 1⟩ = .error e →
        e = .format .stringDeliminatorNotFound ⟨1, 1⟩) ∧
    (ProtectedNamePostfix <:+: twoPostfixes.Remaining →
      ∃ a b, twoPostfixes.Remaining = a ++ ProtectedNamePostfix ++ b ∧
        (∀ a' b', twoPostfixes.Remaining = a' ++ ProtectedNamePostfix ++ b' →
          a.length ≤ a'.length) ∧
        ReadToStringEnd twoPostfixes true ⟨1, 1⟩ =
          .ok (twoPostfixes._ptr + a.length,
               { twoPostfixes with
                 _ptr := twoPostfixes._ptr + a.length + ProtectedNamePostfix.length }) ∧
        InteriorSection.content
          { _start := twoPostfixes._ptr, _end := twoPostfixes._ptr + a.length }
          twoPostfixes.data = a) :=
  ⟨by decide, protected_read_stops_at_first twoPostfixes ⟨1, 1⟩ (by decide)⟩

theorem ReadToStringEnd_unprotected_spec (st : MemoryMappedInputStream) (loc : StreamLocation)
    (hv : st._ptr ≤ st.data.length) :
    ReadToStringEnd st false loc =
      .ok (st._ptr + (trimmedEnd (scannedText st.Remaining)).length,
           { st with _ptr := st._ptr + (scannedText st.Remaining).length }) ∧
    InteriorSection.content
        { _start := st._ptr,
          _end := st._ptr + (trimmedEnd (scannedText st.Remaining)).length } st.data
      = trimmedEnd (scannedText st.Remaining) ∧
    (∃ rest, st.Remaining = scannedText st.Remaining ++ rest ∧
      (∀ c ∈ scannedText st.Remaining, FormattingChar c = false) ∧
      (rest = [] ∨ ∃ c t, rest = c :: t ∧ FormattingChar c = true)) ∧
    (∃ ws, scannedText st.Remaining = trimmedEnd (scannedText st.Remaining) ++ ws ∧
      (∀ c ∈ ws, WhitespaceChar c = true) ∧
      (∀ h : trimmedEnd (scannedText st.Remaining) ≠ [],
        WhitespaceChar ((trimmedEnd (scannedText st.Remaining)).getLast h) = false)) := by
  obtain ⟨rest, h1, h2, h3⟩ := scannedText_split st.Remaining
  obtain ⟨ws, g1, g2, g3⟩ := trimmedEnd_split (scannedText st.Remaining)
  refine ⟨?_, ?_, ⟨rest, h1, h2, h3⟩, ⟨ws, g1, g2, g3⟩⟩
  · have hset := st.SetPointer_ok (scannedText st.Remaining) rest h1 hv
    simp only [ReadToStringEnd, ReadPointer, scanUnprotected_spec, Bool.false_eq_true, if_false]
    rw [hset]
    by_cases ht : trimmedEnd (scannedText st.Remaining) = []
    · simp [ht]
      rfl
    · simp [ht]
      rfl
  · apply st.content_of_Remaining _ (ws ++ rest)
    rw [← List.append_assoc, ← g1]
    exact h1

/-- C27.  `ReadToStringEnd` in unprotected mode, with the cursor inside the buffer,
returns: the cursor is moved over the scanned text, the code units in front of the
first formatting character (or of the end of the input), and stands on that
formatting character; the section returned starts at the old cursor and ends just
behind the last code unit of the scanned text that is not whitespace, so its
content is the scanned text without its trailing whitespace, and it is empty when
the scanned text is whitespace only. -/
theorem unprotected_read_total (st : MemoryMappedInputStream) (loc : StreamLocation)
    (hv : st._ptr ≤ st.data.length) :
    ReadToStringEnd st false loc =
      .ok (st._ptr + (trimmedEnd (scannedText st.Remaining)).length,
           { st with _ptr := st._ptr + (scannedText st.Remaining).length }) ∧
    InteriorSection.content
        { _start := st._ptr,
          _end := st._ptr + (trimmedEnd (scannedText st.Remaining)).length } st.data
      = trimmedEnd (scannedText st.Remaining) ∧
    (∃ rest, st.Remaining = scannedText st.Remaining ++ rest ∧
      (∀ c ∈ scannedText st.Remaining, FormattingChar c = false) ∧
      (rest = [] ∨ ∃ c t, rest = c :: t ∧ FormattingChar c = true)) ∧
    (∃ ws, scannedText st.Remaining = trimmedEnd (scannedText st.Remaining) ++ ws ∧
      (∀ c ∈ ws, WhitespaceChar c = true) ∧
      (∀ h : trimmedEnd (scannedText st.Remaining) ≠ [],
        WhitespaceChar ((trimmedEnd (scannedText st.Remaining)).getLast h) = false)) :=
  ReadToStringEnd_unprotected_spec st loc hv

/-- C27 at the input `ab  ;c` read from its start: the read returns, the cursor
stops on the `;` and the section is `ab`. -/
theorem unprotected_read_total_witness :
    (0 : Nat) ≤ (text "ab  ;c").length ∧
    ReadToStringEnd (MemoryMappedInputStream.mk0 (text "ab  ;c")) false ⟨1, 1⟩ =
      .ok ((MemoryMappedInputStream.mk0 (text "ab  ;c"))._ptr +
            (trimmedEnd (scannedText
              (MemoryMappedInputStream.mk0 (text "ab  ;c")).Remaining)).length,
           { MemoryMappedInputStream.mk0 (text "ab  ;c") with
             _ptr := (MemoryMappedInputStream.mk0 (text "ab  ;c"))._ptr +
               (scannedText (MemoryMappedInputStream.mk0 (text "ab  ;c")).Remaining).length }) ∧
    trimmedEnd (scannedText (MemoryMappedInputStream.mk0 (text "ab  ;c")).Remaining)
      = text "ab" :=
  ⟨by decide,
   (unprotected_read_total (MemoryMappedInputStream.mk0 (text "ab  ;c")) ⟨1, 1⟩ (by decide)).1,
   by decide⟩

end Utility


namespace Utility
open FormatterConstants
open MemoryMappedInputStream

/-! ## What the stream calls raise -/

theorem MovePointer_error (s : MemoryMappedInputStream) (n : Nat) (e : Error)
    (h : s.MovePointer n = .error e) : e = .assertion := by
  simp only [MovePointer] at h
  split at h
  · cases h
  · cases h; rfl

theorem SetPointer_error (s : MemoryMappedInputStream) (n : Nat) (e : Error)
    (h : s.SetPointer n = .error e) : e = .assertion := by
  simp only [SetPointer] at h
  split at h
  · cases h
  · cases h; rfl

theorem TryEat_error (s : MemoryMappedInputStream) (pat : List CharType) (e : Error)
    (h : TryEat s pat = .error e) : e = .assertion := by
  simp only [TryEat] at h
  split at h
  · cases h
  · split at h
    · cases h
    · cases hm : s.MovePointer pat.length with
      | ok s1 => rw [hm] at h; cases h
      | error e1 =>
        rw [hm] at h
        cases h
        exact MovePointer_error _ _ _ hm

theorem EatWhitespace_error (s : MemoryMappedInputStream) (e : Error)
    (h : EatWhitespace s = .error e) : e = .assertion :=
  SetPointer_error _ _ _ h

theorem ReadToStringEnd_error (s : MemoryMappedInputStream) (p : Bool) (loc : StreamLocation)
    (e : Error) (h : ReadToStringEnd s p loc = .error e) :
    e = .assertion ∨ (p = true ∧ e = .format .stringDeliminatorNotFound loc) := by
  simp only [ReadToStringEnd] at h
  split at h
  · rename_i hp
    split at h
    · rename_i q hq
      cases hm : s.SetPointer (q + ProtectedNamePostfix.length) with
      | ok s1 => rw [hm] at h; cases h
      | error e1 =>
        rw [hm] at h
        cases h
        exact Or.inl (SetPointer_error _ _ _ hm)
    · cases h
      exact Or.inr ⟨hp, rfl⟩
  · cases hm : s.SetPointer (scanUnprotected s.Remaining s.ReadPointer s.ReadPointer).1 with
    | ok s1 => rw [hm] at h; cases h
    | error e1 =>
      rw [hm] at h
      cases h
      exact Or.inl (SetPointer_error _ _ _ hm)

namespace InputStreamFormatter

/-! ## What `PeekNext` raises -/

theorem Result.Raises_bind {α β : Type} (K : Error → Prop) (x : Result β) (f : β → Result α)
    (hx : Result.Raises K x) (hf : ∀ b, x = .ok b → Result.Raises K (f b)) :
    Result.Raises K (x >>= f) := by
  cases x with
  | error e => obtain ⟨e, r⟩ := e; exact hx
  | ok b => exact hf b rfl

theorem Result.Raises_onStream_bind {α β : Type} (K : Error → Prop)
    (r : InputStreamFormatter) (x : Except Error β) (f : β → Result α)
    (hx : ∀ e, x = .error e → K e) (hf : ∀ b, x = .ok b → Result.Raises K (f b)) :
    Result.Raises K (r.onStream x >>= f) := by
  cases x with
  | error e => exact hx e rfl
  | ok b => exact hf b rfl

theorem Result.Raises_of_error {α : Type} (K : Error → Prop) (x : Result α) (e : Error)
    (r : InputStreamFormatter) (h : Result.Raises K x) (hx : x = .error (e, r)) : K e := by
  subst hx; exact h

theorem Result.Raises_mono {α : Type} (K K' : Error → Prop) (x : Result α)
    (h : Result.Raises K x) (hK : ∀ e, K e → K' e) : Result.Raises K' x := by
  cases x with
  | error e => obtain ⟨e, r⟩ := e; exact hK e h
  | ok b => trivial

theorem PeekError_assertion : PeekError .assertion := Or.inl rfl

theorem peekStep_raises (r : InputStreamFormatter) (c : CharType) :
    Result.Raises PeekError (peekStep r c) := by
  have hM : ∀ (s : MemoryMappedInputStream) (n : Nat) (e : Error),
      s.MovePointer n = .error e → PeekError e :=
    fun s n e h => by rw [MovePointer_error s n e h]; exact PeekError_assertion
  have hT : ∀ (s : MemoryMappedInputStream) (pat : List CharType) (e : Error),
      TryEat s pat = .error e → PeekError e :=
    fun s n e h => by rw [TryEat_error s n e h]; exact PeekError_assertion
  rcases char_cases c with rfl | rfl | hc | rfl | rfl | rfl | rfl | rfl | hc
  · rw [peekStep_tab]
    exact Result.Raises_onStream_bind _ _ _ _ (hM _ _) (fun _ _ => trivial)
  · rw [peekStep_space]
    exact Result.Raises_onStream_bind _ _ _ _ (hM _ _) (fun _ _ => trivial)
  · rw [peekStep_extended r c hc]
    exact Or.inr (Or.inr ⟨_, Or.inl rfl⟩)
  · rw [peekStep_cr]
    refine Result.Raises_onStream_bind _ _ _ _ (hM _ _) ?_
    intro s hs
    dsimp only []
    split
    · exact Result.Raises_onStream_bind _ _ _ _ (hM _ _) (fun _ _ => trivial)
    · trivial
  · rw [peekStep_lf]
    exact Result.Raises_onStream_bind _ _ _ _ (hM _ _) (fun _ _ => trivial)
  · rw [peekStep_semicolon]
    exact Result.Raises_onStream_bind _ _ _ _ (hM _ _) (fun _ _ => trivial)
  · rw [peekStep_assign]
    refine Result.Raises_onStream_bind _ _ _ _ (hM _ _) ?_
    intro s1 _
    refine Result.Raises_onStream_bind _ _ _ _
      (fun e h => by rw [EatWhitespace_error _ e h]; exact PeekError_assertion) ?_
    intro s2 _
    refine Result.Raises_onStream_bind _ _ _ _ (hT _ _) ?_
    rintro ⟨p, s3⟩ _
    trivial
  · rw [peekStep_marker]
    refine Result.Raises_onStream_bind _ _ _ _ (hT _ _) ?_
    rintro ⟨isComment, s1⟩ _
    cases isComment with
    | true =>
      simp only [if_true]
      refine Result.Raises_onStream_bind _ _ _ _ (hM _ _) ?_
      intro s2 _
      refine Result.Raises_onStream_bind _ _ _ _
        (fun e h => by rw [SetPointer_error _ _ e h]; exact PeekError_assertion) ?_
      intro s3 _
      trivial
    | false =>
      simp only [Bool.false_eq_true, if_false]
      split
      · trivial
      · refine Result.Raises_onStream_bind _ _ _ _ (hM _ _) ?_
        intro s2 _
        refine Result.Raises_onStream_bind _ _ _ _ (hT _ _) ?_
        rintro ⟨p, s3⟩ _
        trivial
  · rw [peekStep_plain r c hc]
    split
    · trivial
    · refine Result.Raises_onStream_bind _ _ _ _ (hT _ _) ?_
      rintro ⟨p, s3⟩ _
      trivial

theorem peekLoop_raises (fuel : Nat) (r : InputStreamFormatter) :
    Result.Raises PeekError (peekLoop fuel r) := by
  induction fuel generalizing r with
  | zero => exact Or.inr (Or.inl rfl)
  | succ n ih =>
    rw [peekLoop]
    split
    · split
      · trivial
      · trivial
    · rename_i c t hrem
      refine Result.Raises_bind _ _ _ (peekStep_raises r c) ?_
      intro st _
      cases st with
      | next r1 => exact ih r1
      | done res => trivial

theorem readHeaderStep_raises (aName : Option InteriorSection) (r : InputStreamFormatter)
    (c : CharType) : Result.Raises PeekError (readHeaderStep aName r c) := by
  have hM : ∀ (s : MemoryMappedInputStream) (n : Nat) (e : Error),
      s.MovePointer n = .error e → PeekError e :=
    fun s n e h => by rw [MovePointer_error s n e h]; exact PeekError_assertion
  have hR : ∀ (s : MemoryMappedInputStream) (loc : StreamLocation) (e : Error),
      ReadToStringEnd s false loc = .error e → PeekError e := by
    intro s loc e h
    rcases ReadToStringEnd_error s false loc e h with h1 | ⟨h1, _⟩
    · rw [h1]; exact PeekError_assertion
    · cases h1
  rw [readHeaderStep]
  split
  · exact Result.Raises_onStream_bind _ _ _ _ (hM _ _) (fun _ _ => trivial)
  split
  · exact Or.inr (Or.inr ⟨_, Or.inl rfl⟩)
  split
  · exact Or.inr (Or.inr ⟨_, Or.inr (Or.inl rfl)⟩)
  split
  · trivial
  split
  · refine Result.Raises_onStream_bind _ _ _ _ (hM _ _) ?_
    intro s1 _
    refine Result.Raises_onStream_bind _ _ _ _
      (fun e h => by rw [EatWhitespace_error _ e h]; exact PeekError_assertion) ?_
    intro s2 _
    refine Result.Raises_onStream_bind _ _ _ _ (hR _ _) ?_
    rintro ⟨e, s3⟩ _
    dsimp only []
    split
    · split
      · exact Or.inr (Or.inr ⟨_, Or.inr (Or.inr (Or.inl rfl))⟩)
      · trivial
    · split
      · split
        · exact Or.inr (Or.inr ⟨_, Or.inr (Or.inr (Or.inr rfl))⟩)
        · trivial
      · trivial
  · refine Result.Raises_onStream_bind _ _ _ _ (hR _ _) ?_
    rintro ⟨e, s3⟩ _
    trivial

theorem readHeaderLoop_raises (fuel : Nat) (aName : Option InteriorSection)
    (r : InputStreamFormatter) : Result.Raises PeekError (readHeaderLoop fuel aName r) := by
  induction fuel generalizing aName r with
  | zero => exact Or.inr (Or.inl rfl)
  | succ n ih =>
    rw [readHeaderLoop]
    split
    · trivial
    · rename_i c t hrem
      refine Result.Raises_bind _ _ _ (readHeaderStep_raises aName r c) ?_
      intro st _
      cases st with
      | next p =>
        obtain ⟨aName1, r1⟩ := p
        exact ih aName1 r1
      | done r1 => trivial

/-- What `PeekNext` raises is a failing assertion, a loop without progress, or one of
the format errors of the scan and of the header. -/
theorem PeekNext_raises (r : InputStreamFormatter) : Result.Raises PeekError r.PeekNext := by
  by_cases hp : r._primed = .None
  · cases hh : r._pendingHeader with
    | false =>
      rw [PeekNext_unprimed r hp hh]
      exact peekLoop_raises _ _
    | true =>
      rw [PeekNext_header r hp hh]
      refine Result.Raises_onStream_bind _ _ _ _
        (fun e h => by rw [TryEat_error _ _ e h]; exact PeekError_assertion) ?_
      rintro ⟨isHeader, s⟩ _
      refine Result.Raises_bind _ _ _ ?_ ?_
      · split
        · exact readHeaderLoop_raises _ _ _
        · trivial
      · intro r1 _
        exact peekLoop_raises _ _
  · rw [PeekNext_primed r hp]
    trivial

/-! ## Nesting beyond the capacity of the stack -/

theorem TryReadBeginElement_raises (r : InputStreamFormatter)
    (h : r._baseLineStackPtr < r._baseLineStack.length) :
    Result.Raises (fun e => ∀ loc, e ≠ .format .excessiveIndentation loc)
      r.TryReadBeginElement := by
  have hK : ∀ e, PeekError e → ∀ loc, e ≠ .format .excessiveIndentation loc := by
    rintro e (h1 | h1 | ⟨l, h1 | h1 | h1 | h1⟩) loc <;> rw [h1] <;> simp
  rw [TryReadBeginElement]
  refine Result.Raises_bind _ _ _ (Result.Raises_mono _ _ _ (PeekNext_raises r) hK) ?_
  rintro ⟨b, r1⟩ hpk
  have hall := Result.All_of_ok _ _ _ _ (PeekNext_all r) hpk
  obtain ⟨⟨f1, f2, _⟩, _⟩ := hall
  dsimp only []
  split
  · trivial
  · refine Result.Raises_onStream_bind _ _ _ _ ?_ ?_
    · intro e he loc
      rcases ReadToStringEnd_error _ _ _ _ he with h1 | ⟨_, h1⟩ <;> rw [h1] <;> simp
    · rintro ⟨nameEnd, s⟩ _
      dsimp only []
      rw [if_neg (by rw [f1, f2]; omega)]
      trivial

/-- C21, amended.  `BeginElement` is primed in the state `r`, the cursor is inside
the buffer and the indentation stack is at its capacity.  `TryReadBeginElement` reads
the element name first: when the name is protected and its postfix is missing, it
raises "string deliminator not found" and leaves the reader as it is; in every other
case it raises "excessive indentation" with the location of the cursor behind the
name, and the reader it leaves differs from `r` in the stream only: nothing is
pushed, no stack entry is written and the parent base line stays.  Below the
capacity, in whatever state, `TryReadBeginElement` never raises "excessive
indentation". -/
theorem excessive_nesting_located (r : InputStreamFormatter) :
    (r._primed = .BeginElement → r._stream._ptr ≤ r._stream.data.length →
      r._baseLineStack.length ≤ r._baseLineStackPtr →
      (r._protectedStringMode = true ∧ ¬ ProtectedNamePostfix <:+: r._stream.Remaining →
        r.TryReadBeginElement =
          .error (.format .stringDeliminatorNotFound r.GetLocation, r)) ∧
      (¬ (r._protectedStringMode = true ∧ ¬ ProtectedNamePostfix <:+: r._stream.Remaining) →
        ∃ nameEnd s,
          ReadToStringEnd r._stream r._protectedStringMode r.GetLocation = .ok (nameEnd, s) ∧
          r.TryReadBeginElement =
            .error (.format .excessiveIndentation (GetLocation { r with _stream := s }),
                    { r with _stream := s }))) ∧
    (r._baseLineStackPtr < r._baseLineStack.length →
      ∀ e r', r.TryReadBeginElement = .error (e, r') →
        ∀ loc, e ≠ .format .excessiveIndentation loc) := by
  refine ⟨fun hp hv hcap => ⟨?_, ?_⟩, fun h e r' he => ?_⟩
  · rintro ⟨hm, hno⟩
    rw [TryReadBeginElement_primed r hp, hm]
    have hr := ((ReadToStringEnd_protected_spec r._stream r.GetLocation hv).1.2 hno)
    obtain ⟨e, he⟩ := hr
    have := (ReadToStringEnd_protected_spec r._stream r.GetLocation hv).2.1 e he
    rw [he, this]
    rfl
  · intro hc
    have hok : ∃ nameEnd s,
        ReadToStringEnd r._stream r._protectedStringMode r.GetLocation = .ok (nameEnd, s) := by
      cases hm : r._protectedStringMode with
      | false => exact ⟨_, _, (ReadToStringEnd_unprotected_spec r._stream r.GetLocation hv).1⟩
      | true =>
        have hin : ProtectedNamePostfix <:+: r._stream.Remaining := by
          by_contra hno
          exact hc ⟨hm, hno⟩
        obtain ⟨a, b, _, _, hr, _⟩ :=
          (ReadToStringEnd_protected_spec r._stream r.GetLocation hv).2.2 hin
        exact ⟨_, _, hr⟩
    obtain ⟨nameEnd, s, hr⟩ := hok
    refine ⟨nameEnd, s, hr, ?_⟩
    rw [TryReadBeginElement_primed r hp, hr]
    simp only [onStream, bind, Except.bind]
    rw [if_pos (by show r._baseLineStackPtr + 1 > r._baseLineStack.length; omega)]
  · exact Result.Raises_of_error _ _ _ _ (TryReadBeginElement_raises r h) he

/-- C21 at the reader with one open element and a stack of one entry, on the input
`~A`, line feed, ` ~B` with `BeginElement` primed in front of `B`: the element name
is read and "excessive indentation" is raised, and the reader left behind differs in
the stream only; the same reader with a stack of two entries does not raise it. -/
theorem excessive_nesting_located_witness :
    (∃ nameEnd s,
      ReadToStringEnd (nestedReader 1 (text "~A\n ~B") 5 false)._stream false
        (nestedReader 1 (text "~A\n ~B") 5 false).GetLocation = .ok (nameEnd, s) ∧
      (nestedReader 1 (text "~A\n ~B") 5 false).TryReadBeginElement =
        .error (.format .excessiveIndentation
                  (GetLocation { nestedReader 1 (text "~A\n ~B") 5 false with _stream := s }),
                { nestedReader 1 (text "~A\n ~B") 5 false with _stream := s })) ∧
    (∀ e r', (nestedReader 2 (text "~A\n ~B") 5 false).TryReadBeginElement = .error (e, r') →
      ∀ loc, e ≠ .format .excessiveIndentation loc) :=
  ⟨((excessive_nesting_located (nestedReader 1 (text "~A\n ~B") 5 false)).1 rfl (by decide)
      (by decide)).2 (by decide),
   (excessive_nesting_located (nestedReader 2 (text "~A\n ~B") 5 false)).2 (by decide)⟩

/-- C21 as stated fails: a reader with a stack of one entry reads the element `A` of
the input `~A`, line feed, ` ~<:(B`, and the `PeekNext` that follows primes
`BeginElement` for the nested element; the stack is at its capacity, and
`TryReadBeginElement` raises "string deliminator not found", not "excessive
indentation". -/
theorem excessive_nesting_counterexample :
    ∃ r, ((fresh 1 (text "~A\n ~<:(B")).run [.TryReadBeginElement, .PeekNext]).1 = r ∧
      r._primed = .BeginElement ∧ r._baseLineStackPtr = r._baseLineStack.length ∧
      r.TryReadBeginElement = .error (.format .stringDeliminatorNotFound ⟨6, 2⟩, r) :=
  ⟨_, rfl, by decide, by decide, rfl⟩

end InputStreamFormatter
end Utility


namespace Utility
open FormatterConstants
open MemoryMappedInputStream

theorem TryEat_total (st : MemoryMappedInputStream) (pat : List CharType)
    (hpat : 0 < pat.length) : ∃ p s, TryEat st pat = .ok (p, s) := by
  simp only [TryEat]
  split
  · exact ⟨_, _, rfl⟩
  · split
    · exact ⟨_, _, rfl⟩
    · rename_i h1 h2
      have : st._ptr + pat.length ≤ st.End := by
        simp only [RemainingBytes] at h1
        omega
      refine ⟨true, { st with _ptr := st._ptr + pat.length }, ?_⟩
      simp [MovePointer, this, bind, Except.bind]

theorem CeilToMultiple_next (x : Int) (w : Nat) (hw : 0 < w) :
    (w : Int) ∣ CeilToMultiple (x + 1) w ∧ x < CeilToMultiple (x + 1) w ∧
      ∀ m : Int, (w : Int) ∣ m → x < m → CeilToMultiple (x + 1) w ≤ m := by
  have hw0 : (0 : Int) < w := by exact_mod_cast hw
  have e : x + 1 + (w : Int) - 1 = x + w := by ring
  simp only [CeilToMultiple, e]
  have h1 : (x + w) / (w : Int) * w ≤ x + w := Int.ediv_mul_le _ (ne_of_gt hw0)
  have h2 : x + w < ((x + w) / (w : Int) + 1) * w := Int.lt_ediv_add_one_mul_self _ hw0
  refine ⟨Dvd.intro_left _ rfl, by linarith, ?_⟩
  rintro m ⟨k, rfl⟩ hk
  by_contra hc
  have hlt : (w : Int) * k < (x + w) / (w : Int) * w := by omega
  have hkq : k < (x + w) / (w : Int) := by
    by_contra hge
    have : (x + w) / (w : Int) * w ≤ k * w :=
      mul_le_mul_of_nonneg_right (by omega) (le_of_lt hw0)
    linarith
  have : (k + 1) * (w : Int) ≤ (x + w) / (w : Int) * w :=
    mul_le_mul_of_nonneg_right (by omega) (le_of_lt hw0)
  linarith

namespace InputStreamFormatter

/-! ## The start of the loop of `PeekNext` and the code units it skips -/

theorem PeekNext_scanStart (r : InputStreamFormatter) (hp : r._primed = .None) :
    r.PeekNext = (r.scanStart >>= fun r1 => peekLoop (r1._stream.RemainingBytes + 1) r1) := by
  cases hh : r._pendingHeader with
  | false =>
    rw [PeekNext_unprimed r hp hh]
    simp only [scanStart, hh, Bool.false_eq_true, if_false]
    rfl
  | true =>
    rw [PeekNext_header r hp hh]
    simp only [scanStart, hh, if_true]
    cases hte : r.onStream (TryEat r._stream HeaderPrefix) with
    | error e => rfl
    | ok p =>
      obtain ⟨isHeader, s⟩ := p
      cases isHeader with
      | false => rfl
      | true =>
        simp only [bind, Except.bind, if_true]
        cases ReadHeader { r with _stream := s, _pendingHeader := true } with
        | error e => rfl
        | ok r0 => rfl

theorem scanStart_primed (r r1 : InputStreamFormatter) (h : r.scanStart = .ok r1) :
    r1._primed = r._primed ∧ r1._pendingHeader = false ∧ Frame r r1 := by
  rw [scanStart] at h
  split at h
  · rename_i hh
    cases hte : r.onStream (TryEat r._stream HeaderPrefix) with
    | error e => rw [hte] at h; cases h
    | ok p =>
      obtain ⟨isHeader, s⟩ := p
      rw [hte] at h
      have a := Step_of_TryEat _ _ _ _ ((onStream_eq_ok _ _ _).1 hte)
      have f0 : Frame r { r with _stream := s } :=
        ⟨rfl, rfl, rfl, a.1, a.2.1, a.2.2, fun h => h⟩
      cases isHeader with
      | false =>
        cases h
        exact ⟨rfl, rfl, f0⟩
      | true =>
        have hall := ReadHeader_all { r with _stream := s }
        cases hr : ReadHeader { r with _stream := s } with
        | error e =>
          simp only [bind, Except.bind, if_true, hr] at h
          cases h
        | ok r0 =>
          simp only [bind, Except.bind, if_true, hr] at h
          cases h
          rw [hr] at hall
          obtain ⟨g, g1, _, _⟩ := hall
          have f1 := f0.frame_trans g
          exact ⟨g1, rfl, f1⟩
  · rename_i hh
    cases h
    exact ⟨rfl, by simpa using hh, Frame.frame_refl _⟩

theorem Scans_peekLoop (r0 r : InputStreamFormatter) (h : Scans r0 r) :
    (∀ fuel, r0._stream.RemainingBytes < fuel →
      peekLoop fuel r0 = peekLoop (r._stream.RemainingBytes + 1) r) ∧
    r._primed = r0._primed ∧ r._pendingHeader = r0._pendingHeader ∧
    r._tabWidth = r0._tabWidth ∧ Frame r0 r := by
  induction h with
  | here r =>
    exact ⟨fun fuel hf => peekLoop_fuel _ _ r hf (by omega), rfl, rfl, rfl, Frame.frame_refl r⟩
  | step r r1 r2 c t hrem hstep rest ih =>
    have hall := peekStep_all r c
    rw [hstep] at hall
    obtain ⟨g, p1, p2, p3, p4⟩ := hall
    obtain ⟨i1, i2, i3, i4, i5⟩ := ih
    refine ⟨?_, i2.trans p1, i3.trans p2, i4.trans p3, g.frame_trans i5⟩
    intro fuel hf
    cases fuel with
    | zero => omega
    | succ n =>
      rw [peekLoop_cons n r c t hrem, hstep]
      show peekLoop n r1 = _
      apply i1
      obtain ⟨_, _, _, g4, g5, g6, _⟩ := g
      have hlt := r._stream.ptr_le_of_Remaining_ne_nil (by rw [hrem]; simp)
      simp only [RemainingBytes, End] at hf ⊢
      rw [g4]
      omega

/-- From the start of the loop on: `PeekNext` in the state `r0` is the loop in the
state `r` that the scan has reached. -/
theorem PeekNext_scans (r0 r1 r : InputStreamFormatter) (hp : r0._primed = .None)
    (h1 : r0.scanStart = .ok r1) (hs : Scans r1 r) :
    r0.PeekNext = peekLoop (r._stream.RemainingBytes + 1) r ∧ r._primed = .None ∧
      r._pendingHeader = false := by
  obtain ⟨a1, a2, _⟩ := scanStart_primed r0 r1 h1
  obtain ⟨b1, b2, b3, _, _⟩ := Scans_peekLoop r1 r hs
  refine ⟨?_, (b2.trans a1).trans hp, b3.trans a2⟩
  rw [PeekNext_scanStart r0 hp, h1]
  exact b1 _ (by omega)

/-- An iteration of the loop of `PeekNext` goes on to the next one only at a tab, a
space, a line break, a separator or an element marker (of a comment). -/
theorem peekStep_next_char (r r1 : InputStreamFormatter) (c : CharType)
    (h : peekStep r c = .ok (.next r1)) :
    c = 9 ∨ c = 32 ∨ c = 13 ∨ c = 10 ∨ c = 59 ∨ c = 126 := by
  rcases char_cases c with rfl | rfl | hc | rfl | rfl | rfl | rfl | rfl | hc
  · simp
  · simp
  · rw [peekStep_extended r c hc] at h
    cases h
  · simp
  · simp
  · simp
  · exfalso
    rw [peekStep_assign] at h
    cases h1 : r.onStream (r._stream.MovePointer 1) with
    | error e => rw [h1] at h; cases h
    | ok s1 =>
      rw [h1] at h
      simp only [bind, Except.bind] at h
      split at h
      · cases h
      · split at h
        · cases h
        · cases h
  · simp
  · exfalso
    rw [peekStep_plain r c hc] at h
    split at h
    · cases h
    · simp only [bind, Except.bind] at h
      split at h
      · cases h
      · cases h

/-- C28.  No token is primed in the state `r0`, the loop of `PeekNext` starts in the
state `r1` (behind the header, on the first call) and skips code units up to the
state `r`, where it stands at a code unit 0x0B, 0x0C, 0x85 or 0xA0.  Then `PeekNext`
raises "unsupported white space character" with the location of that code unit, and
no token is primed in the state it leaves. -/
theorem extended_whitespace_rejected (r0 r1 r : InputStreamFormatter) (c : CharType)
    (t : List CharType) (hp : r0._primed = .None) (h1 : r0.scanStart = .ok r1)
    (hs : Scans r1 r) (hrem : r._stream.Remaining = c :: t)
    (hc : c = 0x0B ∨ c = 0x0C ∨ c = 0x85 ∨ c = 0xA0) :
    r0.PeekNext = .error (.format .unsupportedWhiteSpace r.GetLocation, r) ∧
      r._primed = .None := by
  obtain ⟨a, b, _⟩ := PeekNext_scans r0 r1 r hp h1 hs
  rw [a, peekLoop_cons _ r c t hrem, peekStep_extended r c hc]
  exact ⟨rfl, b⟩

/-- C28 on the input of a space, a separator, a line feed, a tab and a vertical tab:
the first `PeekNext` of a fresh reader skips up to the vertical tab and raises there,
at line 2, character 2. -/
theorem extended_whitespace_rejected_witness :
    (fresh 4 blanksThenVerticalTab).PeekNext =
      .error (.format .unsupportedWhiteSpace ⟨2, 2⟩,
              idle blanksThenVerticalTab 4 4 (-1) [0, 0, 0, 0] 0 1 3) ∧
    (idle blanksThenVerticalTab 4 4 (-1) [0, 0, 0, 0] 0 1 3)._primed = .None :=
  extended_whitespace_rejected (fresh 4 blanksThenVerticalTab)
    (idle blanksThenVerticalTab 0 0 (-1) [0, 0, 0, 0] 0 0 0)
    (idle blanksThenVerticalTab 4 4 (-1) [0, 0, 0, 0] 0 1 3) 11 [] rfl rfl
    (.step _ (idle blanksThenVerticalTab 1 1 (-1) [0, 0, 0, 0] 0 0 0) _ 32 _ rfl rfl
      (.step _ (idle blanksThenVerticalTab 2 1 (-1) [0, 0, 0, 0] 0 0 0) _ 59 _ rfl rfl
        (.step _ (idle blanksThenVerticalTab 3 0 (-1) [0, 0, 0, 0] 0 1 3) _ 10 _ rfl rfl
          (.step _ (idle blanksThenVerticalTab 4 4 (-1) [0, 0, 0, 0] 0 1 3) _ 9 _ rfl rfl
            (.here _)))))
    rfl (by decide)

/-- C23.  No token is primed in the state `r0`, the loop of `PeekNext` starts in the
state `r1` and skips code units up to the state `r`, where it stands at the code unit
`c`: an element marker that does not start a comment, or a code unit that is neither
whitespace nor a line break, a separator, an assignment or a marker.  With the column
at or left of the parent base line, `PeekNext` primes `EndElement` and the state it
leaves is `r` with that token: cursor and column are the ones of `r`; the
`TryReadEndElement` that follows returns true and leaves cursor and column as they
are, and the `PeekNext` after it runs the body of the loop on the same code unit `c`.
With the column right of the parent base line, `PeekNext` primes `BeginElement` behind
the marker (and behind the protected prefix, when it follows), or `AttributeName` at
the code unit (behind the protected prefix, when it stands there). -/
theorem end_of_subtree_dispatch (r0 r1 r : InputStreamFormatter) (c : CharType)
    (t : List CharType) (hp : r0._primed = .None) (h1 : r0.scanStart = .ok r1)
    (hs : Scans r1 r) (hrem : r._stream.Remaining = c :: t)
    (hc : (c = 126 ∧ ¬ CommentPrefix <+: r._stream.Remaining) ∨ PlainChar c) :
    (r._activeLineSpaces ≤ r._parentBaseLine →
      r0.PeekNext =
        .ok (.EndElement, { r with _protectedStringMode := false, _primed := .EndElement }) ∧
      ∃ r2,
        TryReadEndElement { r with _protectedStringMode := false, _primed := .EndElement }
          = .ok (true, r2) ∧
        r2._stream = r._stream ∧ r2._activeLineSpaces = r._activeLineSpaces ∧
        r2.PeekNext =
          (peekStep r2 c >>= fun st =>
            match st with
            | .next r3 => peekLoop r2._stream.RemainingBytes r3
            | .done res => .ok res)) ∧
    (r._parentBaseLine < r._activeLineSpaces →
      (c = 126 →
        ∃ p s, TryEat { r._stream with _ptr := r._stream._ptr + 1 } ProtectedNamePrefix
            = .ok (p, s) ∧
          r0.PeekNext =
            .ok (.BeginElement,
                 { r with _stream := s, _protectedStringMode := p,
                          _primed := .BeginElement })) ∧
      (PlainChar c →
        ∃ p s, TryEat r._stream ProtectedNamePrefix = .ok (p, s) ∧
          r0.PeekNext =
            .ok (.AttributeName,
                 { r with _stream := s, _protectedStringMode := p,
                          _primed := .AttributeName }))) := by
  obtain ⟨a, b, b2⟩ := PeekNext_scans r0 r1 r hp h1 hs
  rw [a, peekLoop_cons _ r c t hrem]
  refine ⟨fun hle => ⟨?_, ?_⟩, fun hlt => ⟨?_, ?_⟩⟩
  · rcases hc with ⟨rfl, hnc⟩ | hpl
    · rw [peekStep_marker, TryEat_fail _ _ hnc]
      simp only [onStream, bind, Except.bind, Bool.false_eq_true, if_false, if_pos hle]
    · rw [peekStep_plain r c hpl, if_pos hle]
      rfl
  · rw [TryReadEndElement_primed _ rfl]
    refine ⟨_, rfl, ?_, ?_, ?_⟩
    · dsimp only []
      split <;> rfl
    · dsimp only []
      split <;> rfl
    · rw [PeekNext_unprimed _ rfl (by dsimp only []; split <;> exact b2)]
      exact peekLoop_cons _ _ c t (by dsimp only []; split <;> exact hrem)
  · rintro rfl
    obtain ⟨p, s, hte⟩ :=
      TryEat_total { r._stream with _ptr := r._stream._ptr + 1 } ProtectedNamePrefix
        (by decide)
    refine ⟨p, s, hte, ?_⟩
    have hnc : ¬ CommentPrefix <+: r._stream.Remaining := by
      rcases hc with ⟨_, hnc⟩ | hpl
      · exact hnc
      · exact absurd rfl hpl.2.2.2.2.2.2.2.2.2.2
    rw [peekStep_marker, TryEat_fail _ _ hnc]
    simp only [onStream, bind, Except.bind, Bool.false_eq_true, if_false,
      if_neg (not_le.2 hlt), r._stream.MovePointer_one _ _ hrem, hte]
  · intro hpl
    obtain ⟨p, s, hte⟩ := TryEat_total r._stream ProtectedNamePrefix (by decide)
    refine ⟨p, s, hte, ?_⟩
    rw [peekStep_plain r c hpl, if_neg (not_le.2 hlt), hte]
    rfl

/-- C23 on the input `~A`, line feed, `~B` behind the name of `A`: the scan skips the
line feed and stands at the marker of `B` in column 0, the column of `A`;
`EndElement` is primed with the cursor on the marker, and after `TryReadEndElement`
the loop runs on the marker again. -/
theorem end_of_subtree_dispatch_witness :
    afterElementA.PeekNext =
      .ok (.EndElement,
           { atMarkerB with _protectedStringMode := false, _primed := .EndElement }) ∧
    ∃ r2,
      TryReadEndElement { atMarkerB with _protectedStringMode := false, _primed := .EndElement }
        = .ok (true, r2) ∧
      r2._stream = atMarkerB._stream ∧ r2._activeLineSpaces = atMarkerB._activeLineSpaces ∧
      r2.PeekNext =
        (peekStep r2 126 >>= fun st =>
          match st with
          | .next r3 => peekLoop r2._stream.RemainingBytes r3
          | .done res => .ok res) :=
  (end_of_subtree_dispatch afterElementA afterElementA atMarkerB 126 (text "B") rfl rfl
    (.step _ atMarkerB _ 10 _ rfl rfl (.here _)) rfl (Or.inl ⟨rfl, by decide⟩)).1 (by decide)

end InputStreamFormatter
end Utility


namespace Utility
open FormatterConstants
open MemoryMappedInputStream
namespace InputStreamFormatter

/-! ## Columns, line breaks and the parent base line -/

/-- C25.  The loop of `PeekNext` in the state `r` with a tab width above zero: at a
space it goes on one code unit further with
the column count one higher; at a tab it goes on one code unit further with the
column count at the smallest multiple of the tab width that is greater than the
column count before; at a separator `;` it goes on one code unit further with the
column count as it was.  (The multiple is what `CeilToMultiple` returns.) -/
theorem column_counting (r : InputStreamFormatter) (t : List CharType)
    (hw : 0 < r._tabWidth) :
    (r._stream.Remaining = 32 :: t →
      peekStep r 32 =
        .ok (.next { r with _stream := { r._stream with _ptr := r._stream._ptr + 1 },
                            _activeLineSpaces := r._activeLineSpaces + 1 })) ∧
    (r._stream.Remaining = 9 :: t →
      ∃ col : Int,
        peekStep r 9 =
          .ok (.next { r with _stream := { r._stream with _ptr := r._stream._ptr + 1 },
                              _activeLineSpaces := col }) ∧
        (r._tabWidth : Int) ∣ col ∧ r._activeLineSpaces < col ∧
        ∀ m : Int, (r._tabWidth : Int) ∣ m → r._activeLineSpaces < m → col ≤ m) ∧
    (r._stream.Remaining = 59 :: t →
      peekStep r 59 =
        .ok (.next { r with _stream := { r._stream with _ptr := r._stream._ptr + 1 } })) := by
  refine ⟨fun h => ?_, fun h => ?_, fun h => ?_⟩
  · rw [peekStep_space, r._stream.MovePointer_one _ _ h]
    rfl
  · refine ⟨CeilToMultiple (r._activeLineSpaces + 1) r._tabWidth, ?_,
      CeilToMultiple_next _ _ hw⟩
    rw [peekStep_tab, r._stream.MovePointer_one _ _ h]
    rfl
  · rw [peekStep_semicolon, r._stream.MovePointer_one _ _ h]
    rfl

/-- C25 in column 5 with tab width 4: a tab leads to column 8. -/
theorem column_counting_witness :
    ∃ col : Int,
      peekStep (inColumnFive 9) 9 =
        .ok (.next { inColumnFive 9 with
                     _stream := { (inColumnFive 9)._stream with
                                  _ptr := (inColumnFive 9)._stream._ptr + 1 },
                     _activeLineSpaces := col }) ∧
      (((inColumnFive 9)._tabWidth : Nat) : Int) ∣ col ∧
      (inColumnFive 9)._activeLineSpaces < col ∧
      ∀ m : Int, (((inColumnFive 9)._tabWidth : Nat) : Int) ∣ m →
        (inColumnFive 9)._activeLineSpaces < m → col ≤ m :=
  (column_counting (inColumnFive 9) [] (by decide)).2.1 rfl

/-- C26.  In the state reached from a fresh reader by any sequence of reader calls,
exceptions included, the parent base line is the top entry of the indentation stack,
and `-1` when the stack is empty.  A `TryReadBeginElement` that returns true in that
state writes the column count into the next stack entry, takes it into use and makes
it the parent base line; a `TryReadEndElement` that returns true gives up the top
entry and makes the entry below it the parent base line, or `-1` when there is none. -/
theorem parent_base_line_mirrors_stack (capacity : Nat) (data : List CharType)
    (ops : List ReaderOp) :
    ((fresh capacity data).run ops).1._parentBaseLine =
      (if ((fresh capacity data).run ops).1._baseLineStackPtr = 0 then -1
       else ((fresh capacity data).run ops).1._baseLineStack.getD
              (((fresh capacity data).run ops).1._baseLineStackPtr - 1) 0) ∧
    (∀ name r2, ((fresh capacity data).run ops).1.TryReadBeginElement = .ok (some name, r2) →
      r2._baseLineStackPtr = ((fresh capacity data).run ops).1._baseLineStackPtr + 1 ∧
      r2._baseLineStack =
        ((fresh capacity data).run ops).1._baseLineStack.set
          ((fresh capacity data).run ops).1._baseLineStackPtr r2._activeLineSpaces ∧
      r2._baseLineStack.getD (r2._baseLineStackPtr - 1) 0 = r2._activeLineSpaces ∧
      r2._parentBaseLine = r2._activeLineSpaces) ∧
    (∀ r2, ((fresh capacity data).run ops).1.TryReadEndElement = .ok (true, r2) →
      r2._baseLineStackPtr + 1 = ((fresh capacity data).run ops).1._baseLineStackPtr ∧
      r2._baseLineStack = ((fresh capacity data).run ops).1._baseLineStack ∧
      r2._parentBaseLine =
        (if r2._baseLineStackPtr = 0 then -1
         else r2._baseLineStack.getD (r2._baseLineStackPtr - 1) 0)) := by
  have hinv := (run_inv _ ops (Inv_fresh capacity data)).1
  generalize ((fresh capacity data).run ops).1 = r at hinv ⊢
  refine ⟨hinv.2.1, ?_, ?_⟩
  · intro name r2 h
    rw [TryReadBeginElement] at h
    cases hpk : r.PeekNext with
    | error e => rw [hpk] at h; cases h
    | ok p =>
      obtain ⟨b, r1⟩ := p
      have hall := Result.All_of_ok _ _ _ _ (PeekNext_all r) hpk
      obtain ⟨⟨f1, f2, _⟩, _⟩ := hall
      rw [hpk] at h
      simp only [bind, Except.bind] at h
      split at h
      · cases h
      · cases hr : r1.onStream
            (ReadToStringEnd r1._stream r1._protectedStringMode r1.GetLocation) with
        | error e => rw [hr] at h; cases h
        | ok q =>
          obtain ⟨nameEnd, s⟩ := q
          rw [hr] at h
          dsimp only [] at h
          split at h
          · cases h
          · rename_i hcap
            cases h
            dsimp only []
            rw [f1, f2] at hcap ⊢
            refine ⟨rfl, rfl, ?_, rfl⟩
            simp only [Nat.add_sub_cancel, List.getD_eq_getElem?_getD]
            rw [List.getElem?_set_self (by omega)]
            rfl
  · intro r2 h
    have hi := PeekNext_inv r hinv
    rw [TryReadEndElement] at h
    cases hpk : r.PeekNext with
    | error e => rw [hpk] at h; cases h
    | ok p =>
      obtain ⟨b, r1⟩ := p
      rw [hpk] at hi h
      obtain ⟨i1, ⟨f1, f2, _⟩, i3⟩ := hi
      simp only [bind, Except.bind] at h
      split at h
      · cases h
      · rename_i hb
        have hb2 : b = .EndElement := by simpa using hb
        subst hb2
        have hprimed : r1._primed = .EndElement := by
          rcases i3 with ⟨_, i3⟩ | ⟨i3, _⟩
          · exact i3
          · cases i3
        have hpos := i1.2.2.2.2.1 hprimed
        cases h
        dsimp only [] at f1 f2 hpos ⊢
        rw [if_pos (by omega)]
        dsimp only []
        rw [← f1, ← f2]
        refine ⟨by omega, rfl, ?_⟩
        by_cases h1 : r1._baseLineStackPtr > 1
        · rw [if_pos h1, if_neg (by omega)]
          congr 1
        · rw [if_neg h1, if_pos (by omega)]

/-- C24: a CR LF pair at the very end of the input.  The writer ends the document of
the element `A` with CR LF, on `Flush`; the document has three line breaks.  The
reader that has read the element and looks for the next token consumes the last pair
as two line breaks: at the end of the input it is at line 5.  With more text behind
the pair it is consumed as one line break, and the reader is at line 4.  On the input
CR LF alone the reader ends at line 3, and on a lone CR or LF in front of the end at
line 2. -/
theorem crlf_at_end_counts_twice :
    (match (OutputStreamFormatter.fresh false 0).applyAll
        [.BeginElement (text "A"), .EndElement 0] with
      | .ok w =>
        (match w.Flush with
         | .ok w1 => some w1._stream
         | .error _ => none)
      | .error _ => none) = some flushedDocument ∧
    ((fresh 4 flushedDocument).run [.TryReadBeginElement, .PeekNext]).1.GetLocation
      = { _charIndex := 1, _lineIndex := 5 } ∧
    ((fresh 4 (flushedDocument ++ text "~B")).run
        [.TryReadBeginElement, .PeekNext]).1.GetLocation
      = { _charIndex := 1, _lineIndex := 4 } ∧
    ((fresh 4 (text "\r\n")).run [.PeekNext]).1.GetLocation
      = { _charIndex := 1, _lineIndex := 3 } ∧
    ((fresh 4 (text "\r")).run [.PeekNext]).1.GetLocation
      = { _charIndex := 1, _lineIndex := 2 } ∧
    ((fresh 4 (text "\n")).run [.PeekNext]).1.GetLocation
      = { _charIndex := 1, _lineIndex := 2 } := by
  refine ⟨?_, ?_, ?_, ?_, ?_, ?_⟩ <;> decide

end InputStreamFormatter
end Utility


namespace Utility
open FormatterConstants

/-! ## Round trip of the documents that the specification calls well-ordered -/

theorem attributesFirst_of_ordered (ops : List WriterOp) :
    ∀ (opened : List Bool) (afterEnd : Bool),
      attributesBeforeChildren opened ops = true → insideElements opened.length ops = true →
      (∀ b ∈ opened.tail, b = true) →
      (afterEnd = true → opened = [] ∨ opened.head? = some true) →
      attributesFirst afterEnd ops = true := by
  induction ops with
  | nil => intros; rfl
  | cons op ops ih =>
    intro opened afterEnd h1 h2 h4 h3
    cases op with
    | BeginElement name =>
      simp only [attributesBeforeChildren, insideElements, attributesFirst] at h1 h2 ⊢
      refine ih _ false h1 ?_ ?_ (fun h => by cases h)
      · cases opened with
        | nil => simpa using h2
        | cons b outer => simpa using h2
      · cases opened with
        | nil => simp
        | cons b outer =>
          intro x hx
          simp only [List.tail_cons, List.mem_cons] at hx h4
          rcases hx with rfl | hx
          · rfl
          · exact h4 x hx
    | WriteAttribute name value =>
      simp only [attributesBeforeChildren, insideElements, attributesFirst, Bool.and_eq_true,
        decide_eq_true_eq] at h1 h2 ⊢
      refine ⟨?_, ih opened false h1.2 h2.2 h4 (fun h => by cases h)⟩
      cases afterEnd with
      | false => rfl
      | true =>
        exfalso
        rcases h3 rfl with h | h
        · subst h
          simp at h2
        · cases opened with
          | nil => simp at h
          | cons b outer =>
            simp only [List.head?_cons, Option.some.injEq] at h
            subst h
            simp at h1
    | EndElement id =>
      simp only [attributesBeforeChildren, insideElements, attributesFirst] at h1 h2 ⊢
      refine ih opened.tail true h1 (by simpa using h2) ?_ ?_
      · intro x hx
        exact h4 x (List.mem_of_mem_tail hx)
      · intro _
        cases hto : opened.tail with
        | nil => exact Or.inl rfl
        | cons b outer =>
          refine Or.inr ?_
          have := h4 b (by rw [hto]; simp)
          rw [this]
          rfl

theorem apply_level (w w1 : OutputStreamFormatter) (op : WriterOp) (h : w.apply op = .ok w1) :
    match op with
    | .BeginElement _ => w1._currentIndentLevel = w._currentIndentLevel + 1
    | .WriteAttribute _ _ => w1._currentIndentLevel = w._currentIndentLevel
    | .EndElement _ => w1._currentIndentLevel + 1 = w._currentIndentLevel := by
  cases op with
  | BeginElement name =>
    obtain ⟨id, h1⟩ := apply_begin w w1 name h
    exact (BeginElement_spec w w1 name id h1).2.2.1
  | WriteAttribute name value => exact (WriteAttribute_spec w w1 name value h).2.1
  | EndElement id => exact (EndElement_spec w w1 id h).2.1

theorem applyAll_level (ops : List WriterOp) :
    ∀ (w wf : OutputStreamFormatter), w.applyAll ops = .ok wf →
      balanced w._currentIndentLevel ops = true → wf._currentIndentLevel = 0 := by
  induction ops with
  | nil =>
    intro w wf h hb
    cases h
    simpa [balanced] using hb
  | cons op ops ih =>
    intro w wf h hb
    obtain ⟨w1, h1, h2⟩ := applyAll_cons w wf op ops h
    have hl := apply_level w w1 op h1
    apply ih w1 wf h2
    cases op with
    | BeginElement name =>
      simp only at hl
      rw [hl]
      simpa [balanced] using hb
    | WriteAttribute name value =>
      simp only at hl
      rw [hl]
      simpa [balanced] using hb
    | EndElement id =>
      simp only at hl
      simp only [balanced, Bool.and_eq_true, decide_eq_true_eq] at hb
      have : w1._currentIndentLevel = w._currentIndentLevel - 1 := by omega
      rw [this]
      exact hb.2

theorem depthWithin_mono (c1 c2 : Nat) (hc : c1 ≤ c2) (ops : List WriterOp) :
    ∀ depth, depthWithin c1 depth ops = true → depthWithin c2 depth ops = true := by
  induction ops with
  | nil => intros; rfl
  | cons op ops ih =>
    intro depth h
    cases op with
    | BeginElement name =>
      simp only [depthWithin, Bool.and_eq_true, decide_eq_true_eq] at h ⊢
      exact ⟨by omega, ih _ h.2⟩
    | WriteAttribute name value => exact ih _ h
    | EndElement id => exact ih _ h

theorem Readable_of_postfixFree (op : WriterOp) (h : op.PostfixFree) : op.Readable := by
  cases op with
  | BeginElement name => exact Or.inr h
  | WriteAttribute name value => exact ⟨Or.inr h.1, Or.inr h.2⟩
  | EndElement id => trivial

/-- A writer that does not check the element ids carries out every balanced sequence
of calls with element names that are not empty and with at most 64 elements open. -/
theorem applyAll_total (ops : List WriterOp) :
    ∀ (w : OutputStreamFormatter), w.checkElements = false →
      w._currentIndentLevel ≤ OutputStreamFormatter.tabBufferSize →
      balanced w._currentIndentLevel ops = true →
      depthWithin OutputStreamFormatter.tabBufferSize w._currentIndentLevel ops = true →
      (∀ op ∈ ops, op.Named) → ∃ wf, w.applyAll ops = .ok wf := by
  induction ops with
  | nil => intro w _ _ _ _ _; exact ⟨w, rfl⟩
  | cons op ops ih =>
    intro w hc hl hb hd hn
    have hn' : ∀ o ∈ ops, o.Named := fun o ho => hn o (by simp [ho])
    cases op with
    | BeginElement name =>
      have hname : name ≠ [] := hn (.BeginElement name) (by simp)
      obtain ⟨w1, e1, l1, c1⟩ := OutputStreamFormatter.apply_begin_ok w name hname hl hc
      simp only [depthWithin, Bool.and_eq_true, decide_eq_true_eq, balanced] at hd hb
      obtain ⟨wf, hwf⟩ := ih w1 c1 (by omega) (by rw [l1]; exact hb) (by rw [l1]; exact hd.2) hn'
      exact ⟨wf, by simp only [OutputStreamFormatter.applyAll, bind, Except.bind, e1, hwf]⟩
    | WriteAttribute name value =>
      obtain ⟨w1, e1⟩ := OutputStreamFormatter.WriteAttribute_total w name value hl
      obtain ⟨_, l1, _, _, c1, _⟩ := WriteAttribute_spec w w1 name value e1
      simp only [depthWithin, balanced] at hd hb
      obtain ⟨wf, hwf⟩ := ih w1 (c1.trans hc) (by omega) (by rw [l1]; exact hb)
        (by rw [l1]; exact hd) hn'
      exact ⟨wf, by
        simp only [OutputStreamFormatter.applyAll, OutputStreamFormatter.apply, bind,
          Except.bind, e1, hwf]⟩
    | EndElement id =>
      simp only [depthWithin, balanced, Bool.and_eq_true, decide_eq_true_eq] at hd hb
      obtain ⟨w1, e1, l1, c1⟩ := OutputStreamFormatter.apply_end_ok w id hb.1 hc
      have l2 : w1._currentIndentLevel = w._currentIndentLevel - 1 := by omega
      obtain ⟨wf, hwf⟩ := ih w1 c1 (by omega) (by rw [l2]; exact hb.2) (by rw [l2]; exact hd) hn'
      exact ⟨wf, by simp only [OutputStreamFormatter.applyAll, bind, Except.bind, e1, hwf]⟩

/-- C30, amended.  A sequence of writer calls that is balanced, writes each element's
attributes before its child elements, writes every attribute inside an element,
never has more elements open than the stack of the reader has entries, and uses only
names and values without the protected postfix.  For every output that a fresh
writer produces for it, a fresh reader delivers the events of the calls in order and
then `None`.  A writer that does not check the element ids produces the output when
the element names are not empty and the reader has at most 64 stack entries. -/
theorem round_trip_well_ordered (capacity : Nat) (chk : Bool) (nid : Nat)
    (ops : List WriterOp) (fuel : Nat)
    (hbal : balanced 0 ops = true) (hord : attributesBeforeChildren [] ops = true)
    (hin : insideElements 0 ops = true) (hdepth : depthWithin capacity 0 ops = true)
    (hfree : ∀ op ∈ ops, op.PostfixFree) (hfuel : ops.length < fuel) :
    (∀ wf, (OutputStreamFormatter.fresh chk nid).applyAll ops = .ok wf →
      (InputStreamFormatter.fresh capacity wf._stream).events fuel =
        .ok (ops.map WriterOp.event)) ∧
    (chk = false → capacity ≤ OutputStreamFormatter.tabBufferSize →
      (∀ op ∈ ops, op.Named) →
      ∃ wf, (OutputStreamFormatter.fresh chk nid).applyAll ops = .ok wf) := by
  constructor
  · intro wf hw
    exact events_of_document capacity chk nid ops wf hw
      (applyAll_level ops _ wf hw hbal)
      (attributesFirst_of_ordered ops [] false hord hin (by simp) (fun h => by cases h))
      (fun op hop => Readable_of_postfixFree op (hfree op hop)) hdepth fuel hfuel
  · intro hc hcap hn
    subst hc
    exact applyAll_total ops (OutputStreamFormatter.fresh false nid) rfl
      (by simp [OutputStreamFormatter.fresh]) hbal
      (depthWithin_mono _ _ hcap ops 0 hdepth) hn

/-- C30 on the element `A` with the attributes `k=1` and `m= v;` and the child
element `B`, for a reader with four stack entries. -/
theorem round_trip_well_ordered_witness :
    (∀ wf, (OutputStreamFormatter.fresh false 0).applyAll smallDocument = .ok wf →
      (InputStreamFormatter.fresh 4 wf._stream).events 7 =
        .ok (smallDocument.map WriterOp.event)) ∧
    (false = false → 4 ≤ OutputStreamFormatter.tabBufferSize →
      (∀ op ∈ smallDocument, op.Named) →
      ∃ wf, (OutputStreamFormatter.fresh false 0).applyAll smallDocument = .ok wf) :=
  round_trip_well_ordered 4 false 0 smallDocument 7 (by decide) (by decide) (by decide)
    (by decide) (by decide) (by decide)

/-- C30 as stated fails: the sequence `BeginElement(A)`, `EndElement`,
`WriteAttribute(x, 1)` is balanced, starts with `BeginElement`, has no element whose
attribute comes behind a child element, opens one element, and its names and value
are not empty and free of the postfix.  The writer puts the attribute on the line of
`A`, and every reader with at least one stack entry delivers it as an attribute of
`A`, in front of the `EndElement`. -/
theorem round_trip_well_ordered_counterexample :
    balanced 0 attributeBehindElement = true ∧
    (∃ name, attributeBehindElement.head? = some (.BeginElement name)) ∧
    attributesBeforeChildren [] attributeBehindElement = true ∧
    depthWithin 1 0 attributeBehindElement = true ∧
    (∀ op ∈ attributeBehindElement, op.Named ∧ op.PostfixFree) ∧
    (∃ wf, (OutputStreamFormatter.fresh false 0).applyAll attributeBehindElement = .ok wf ∧
      wf._stream = text "~~!Format=1; Tab=4\r\n\r\n~A; x=1" ∧
      (InputStreamFormatter.fresh 1 wf._stream).events 4 =
        .ok [.BeginElement (text "A"), .Attribute (text "x") (text "1"), .EndElement]) ∧
    attributeBehindElement.map WriterOp.event ≠
      [.BeginElement (text "A"), .Attribute (text "x") (text "1"), .EndElement] := by
  refine ⟨by decide, ⟨_, rfl⟩, by decide, by decide, by decide, ⟨_, by rfl, rfl, by rfl⟩,
    by decide⟩

end Utility


namespace Utility
open FormatterConstants
open MemoryMappedInputStream

/-! ## Line breaks in front of an offset -/

theorem notBreak_iff (c : CharType) : notBreak c = true ↔ c ≠ 13 ∧ c ≠ 10 := by
  simp [notBreak]

theorem lineBreaks_append (a b : List CharType)
    (h : ¬ (a.getLast? = some 13 ∧ b.head? = some 10)) :
    lineBreaks (a ++ b) = lineBreaks a + lineBreaks b := by
  induction a with
  | nil => simp [lineBreaks]
  | cons c t ih =>
    cases t with
    | nil =>
      simp only [List.getLast?_singleton, Option.some.injEq] at h
      simp only [List.singleton_append, lineBreaks, List.head?_nil]
      by_cases hc : c = 13
      · subst hc
        have : b.head? ≠ some 10 := fun hb => h ⟨rfl, hb⟩
        simp [this]
      · simp [hc]
    | cons d u =>
      have ih' : lineBreaks (d :: (u ++ b)) = lineBreaks (d :: u) + lineBreaks b :=
        ih (by simpa using h)
      have e1 : lineBreaks (c :: d :: u ++ b) =
          (if c = 10 ∨ (c = 13 ∧ some d ≠ some 10) then 1 else 0) + lineBreaks (d :: (u ++ b)) :=
        rfl
      have e2 : lineBreaks (c :: d :: u) =
          (if c = 10 ∨ (c = 13 ∧ some d ≠ some 10) then 1 else 0) + lineBreaks (d :: u) := rfl
      rw [e1, e2, ih']
      omega

theorem lineBreaks_clean (s : List CharType) (h : ∀ c ∈ s, c ≠ 13 ∧ c ≠ 10) :
    lineBreaks s = 0 := by
  induction s with
  | nil => rfl
  | cons c t ih =>
    have hc := h c (by simp)
    simp only [lineBreaks]
    rw [ih (fun x hx => h x (by simp [hx]))]
    simp [hc.1, hc.2]

theorem lineBreaks_le (s : List CharType) : lineBreaks s ≤ s.length := by
  induction s with
  | nil => simp [lineBreaks]
  | cons c t ih =>
    simp only [lineBreaks, List.length_cons]
    split <;> omega

theorem currentLine_append (a b : List CharType) (h : ∀ c ∈ b, c ≠ 13 ∧ c ≠ 10) :
    currentLine (a ++ b) = currentLine a ++ b := by
  simp only [currentLine, List.rtakeWhile, List.reverse_append]
  rw [List.takeWhile_append_of_pos]
  · simp
  · intro c hc
    exact (notBreak_iff c).2 (h c (List.mem_reverse.1 hc))

theorem currentLine_break (a : List CharType) (c : CharType) (h : c = 13 ∨ c = 10) :
    currentLine (a ++ [c]) = [] := by
  apply List.rtakeWhile_concat_neg
  rcases h with rfl | rfl <;> simp [notBreak]

theorem take_of_drop (data : List CharType) (p : Nat) (mid rest : List CharType)
    (hd : data.drop p = mid ++ rest) : data.take (p + mid.length) = data.take p ++ mid := by
  rw [List.take_add, hd, List.take_left']
  rfl

theorem At_move (data : List CharType) (p li ls : Nat) (mid rest : List CharType)
    (h : At data p li ls) (hd : data.drop p = mid ++ rest)
    (hm : ∀ c ∈ mid, c ≠ 13 ∧ c ≠ 10) : At data (p + mid.length) li ls := by
  obtain ⟨h1, h2, h3, h4⟩ := h
  have hl : (data.drop p).length = mid.length + rest.length := by rw [hd]; simp
  simp only [List.length_drop] at hl
  rw [At, take_of_drop data p mid rest hd, InputStreamFormatter.drop_advance data p mid rest hd]
  refine ⟨by omega, ?_, ?_, ?_⟩
  · rw [lineBreaks_append, lineBreaks_clean mid hm, ← h2]
    · rfl
    · rintro ⟨_, hh⟩
      cases mid with
      | nil => simp at hh
      | cons c t =>
        simp only [List.head?_cons, Option.some.injEq] at hh
        exact (hm c (by simp)).2 hh
  · rw [currentLine_append _ _ hm, List.length_append]
    omega
  · cases hmid : mid with
    | nil =>
      subst hmid
      simp only [List.nil_append] at hd
      rw [List.append_nil, ← hd]
      exact h4
    | cons c t =>
      rintro ⟨hlast, _⟩
      rw [← hmid, List.getLast?_append_of_ne_nil _ (by rw [hmid]; simp)] at hlast
      have := List.mem_of_getLast?_eq_some hlast
      exact (hm 13 this).1 rfl

theorem At_lf (data : List CharType) (p li ls : Nat) (t : List CharType)
    (h : At data p li ls) (hd : data.drop p = 10 :: t) : At data (p + 1) (li + 1) (p + 1) := by
  obtain ⟨h1, h2, h3, h4⟩ := h
  have hl : (data.drop p).length = t.length + 1 := by rw [hd]; simp
  simp only [List.length_drop] at hl
  have ht := take_of_drop data p [10] t hd
  have hdr := InputStreamFormatter.drop_advance data p [10] t hd
  simp only [List.length_singleton] at ht hdr
  rw [At, ht, hdr]
  refine ⟨by omega, ?_, ?_, ?_⟩
  · rw [lineBreaks_append, ← h2]
    · rfl
    · rintro ⟨hh, _⟩
      exact h4 ⟨hh, by rw [hd]; rfl⟩
  · rw [currentLine_break _ _ (Or.inr rfl)]
    rfl
  · rintro ⟨hh, _⟩
    simp at hh

theorem At_cr (data : List CharType) (p li ls : Nat) (t : List CharType)
    (h : At data p li ls) (hd : data.drop p = 13 :: t) (ht : t.head? ≠ some 10) :
    At data (p + 1) (li + 1) (p + 1) := by
  obtain ⟨h1, h2, h3, h4⟩ := h
  have hl : (data.drop p).length = t.length + 1 := by rw [hd]; simp
  simp only [List.length_drop] at hl
  have htk := take_of_drop data p [13] t hd
  have hdr := InputStreamFormatter.drop_advance data p [13] t hd
  simp only [List.length_singleton] at htk hdr
  rw [At, htk, hdr]
  refine ⟨by omega, ?_, ?_, ?_⟩
  · rw [lineBreaks_append, ← h2]
    · rfl
    · rintro ⟨_, hh⟩
      simp at hh
  · rw [currentLine_break _ _ (Or.inl rfl)]
    rfl
  · rintro ⟨_, hh⟩
    exact ht hh

theorem At_crlf (data : List CharType) (p li ls : Nat) (t : List CharType)
    (h : At data p li ls) (hd : data.drop p = 13 :: 10 :: t) :
    At data (p + 2) (li + 1) (p + 2) := by
  obtain ⟨h1, h2, h3, h4⟩ := h
  have hl : (data.drop p).length = t.length + 2 := by rw [hd]; simp
  simp only [List.length_drop] at hl
  have htk := take_of_drop data p [13, 10] t hd
  have hdr := InputStreamFormatter.drop_advance data p [13, 10] t hd
  simp only [List.length_cons, List.length_singleton, List.length_nil] at htk hdr
  rw [At, htk, hdr]
  refine ⟨by omega, ?_, ?_, ?_⟩
  · rw [lineBreaks_append, ← h2]
    · rfl
    · rintro ⟨_, hh⟩
      simp at hh
  · have : data.take p ++ [13, 10] = (data.take p ++ [13]) ++ [10] := by simp
    rw [this, currentLine_break _ _ (Or.inr rfl)]
    rfl
  · rintro ⟨hh, _⟩
    simp at hh

theorem At_start (data : List CharType) : At data 0 0 0 := by
  simp [At, currentLine, lineBreaks]

end Utility


namespace Utility
open FormatterConstants
open MemoryMappedInputStream

/-! ## Moves of the cursor over text without line breaks -/

theorem Clean.clean_refl (s : MemoryMappedInputStream) : Clean s s :=
  ⟨rfl, [], s.Remaining, rfl, rfl, by simp⟩

theorem Clean.clean_trans {a b c : MemoryMappedInputStream} (h1 : Clean a b) (h2 : Clean b c) :
    Clean a c := by
  obtain ⟨d1, m1, r1, e1, p1, c1⟩ := h1
  obtain ⟨d2, m2, r2, e2, p2, c2⟩ := h2
  have hb : b.Remaining = r1 := by
    simp only [Remaining] at e1 ⊢
    rw [d1, p1]
    exact InputStreamFormatter.drop_advance _ _ _ _ e1
  refine ⟨d2.trans d1, m1 ++ m2, r2, ?_, ?_, ?_⟩
  · rw [e1, ← hb, e2, List.append_assoc]
  · rw [p2, p1, List.length_append]
    omega
  · intro x hx
    rcases List.mem_append.1 hx with hx | hx
    · exact c1 x hx
    · exact c2 x hx

theorem clean_MovePointer (s s' : MemoryMappedInputStream) (mid rest : List CharType)
    (h : s.Remaining = mid ++ rest) (hm : ∀ c ∈ mid, c ≠ 13 ∧ c ≠ 10)
    (hmv : s.MovePointer mid.length = .ok s') : Clean s s' := by
  rw [MovePointer_eq_ok] at hmv
  obtain ⟨_, rfl⟩ := hmv
  exact ⟨rfl, mid, rest, h, rfl, hm⟩

theorem clean_TryEat (s s' : MemoryMappedInputStream) (pat : List CharType) (b : Bool)
    (hpat : ∀ c ∈ pat, c ≠ 13 ∧ c ≠ 10) (h : TryEat s pat = .ok (b, s')) :
    Clean s s' ∧ (b = true → pat <+: s.Remaining ∧ pat <:+ s'.data.take s'._ptr) ∧
      (b = false → s' = s) := by
  simp only [TryEat] at h
  split at h
  · cases h
    exact ⟨Clean.clean_refl _, fun hb => Bool.noConfusion hb, fun _ => rfl⟩
  · split at h
    · cases h
      exact ⟨Clean.clean_refl _, fun hb => Bool.noConfusion hb, fun _ => rfl⟩
    · rename_i h1 h2
      simp only [ne_eq, Decidable.not_not] at h2
      rw [Except.bind_eq_ok] at h
      obtain ⟨s1, hmv, hres⟩ := h
      cases hres
      have hrem : s.Remaining = pat ++ s.Remaining.drop pat.length := by
        conv_lhs => rw [← List.take_append_drop pat.length s.Remaining, h2]
      have hc := clean_MovePointer s s' pat _ hrem hpat hmv
      refine ⟨hc, fun _ => ⟨⟨_, hrem.symm⟩, ?_⟩, fun hb => Bool.noConfusion hb⟩
      rw [MovePointer_eq_ok] at hmv
      obtain ⟨_, rfl⟩ := hmv
      show pat <:+ s.data.take (s._ptr + pat.length)
      rw [take_of_drop s.data s._ptr pat _ hrem]
      exact List.suffix_append _ _

theorem skipWhitespace_eq (l : List CharType) (ptr : Nat) :
    skipWhitespace l ptr = ptr + (l.takeWhile WhitespaceChar).length := by
  induction l generalizing ptr with
  | nil => rfl
  | cons c t ih =>
    simp only [skipWhitespace, List.takeWhile]
    by_cases hc : WhitespaceChar c = true
    · simp only [hc, if_true, ih, List.length_cons]
      omega
    · simp [hc]

theorem skipToLineEnd_eq (l : List CharType) (ptr : Nat) :
    skipToLineEnd l ptr = ptr + (l.takeWhile notBreak).length := by
  induction l generalizing ptr with
  | nil => rfl
  | cons c t ih =>
    simp only [skipToLineEnd, List.takeWhile]
    by_cases hc : c ≠ 13 ∧ c ≠ 10
    · rw [if_pos hc, (notBreak_iff c).2 hc, ih, List.length_cons]
      omega
    · rw [if_neg hc]
      have : notBreak c = false := by
        cases hn : notBreak c with
        | false => rfl
        | true => exact absurd ((notBreak_iff c).1 hn) hc
      rw [this]
      rfl

theorem clean_SetPointer_takeWhile (s s' : MemoryMappedInputStream) (p : CharType → Bool)
    (hp : ∀ c, p c = true → c ≠ 13 ∧ c ≠ 10)
    (h : s.SetPointer (s._ptr + (s.Remaining.takeWhile p).length) = .ok s') : Clean s s' := by
  rw [SetPointer_eq_ok] at h
  obtain ⟨_, rfl⟩ := h
  exact ⟨rfl, s.Remaining.takeWhile p, s.Remaining.dropWhile p,
    (List.takeWhile_append_dropWhile p s.Remaining).symm, rfl,
    fun c hc => hp c (List.mem_takeWhile_imp hc)⟩

theorem clean_EatWhitespace (s s' : MemoryMappedInputStream) (h : EatWhitespace s = .ok s') :
    Clean s s' := by
  rw [EatWhitespace, skipWhitespace_eq] at h
  refine clean_SetPointer_takeWhile s s' WhitespaceChar ?_ h
  intro c hc
  constructor <;> rintro rfl <;> simp [WhitespaceChar] at hc

theorem clean_skipToLineEnd (s s' : MemoryMappedInputStream)
    (h : s.SetPointer (skipToLineEnd s.Remaining s.ReadPointer) = .ok s') : Clean s s' := by
  rw [skipToLineEnd_eq] at h
  exact clean_SetPointer_takeWhile s s' notBreak (fun c hc => (notBreak_iff c).1 hc) h

theorem clean_ReadToStringEnd_bare (s s' : MemoryMappedInputStream) (loc : StreamLocation)
    (e : Nat) (h : ReadToStringEnd s false loc = .ok (e, s')) : Clean s s' := by
  simp only [ReadToStringEnd, Bool.false_eq_true, if_false, scanUnprotected_spec, ReadPointer]
    at h
  rw [Except.bind_eq_ok] at h
  obtain ⟨s1, hset, hres⟩ := h
  cases hres
  refine clean_SetPointer_takeWhile s s' (fun c => !FormattingChar c) ?_ hset
  intro c hc
  constructor <;> rintro rfl <;> simp [FormattingChar] at hc

theorem upToPostfix_first (a b : List CharType)
    (hmin : ∀ a' b', a ++ ProtectedNamePostfix ++ b = a' ++ ProtectedNamePostfix ++ b' →
      a.length ≤ a'.length) :
    upToPostfix (a ++ ProtectedNamePostfix ++ b) = some a := by
  induction a with
  | nil =>
    show upToPostfix (41 :: ([58, 62] ++ b)) = some []
    rw [upToPostfix, if_pos ⟨b, rfl⟩]
  | cons c t ih =>
    have hnp : ¬ ProtectedNamePostfix <+: c :: (t ++ ProtectedNamePostfix ++ b) := by
      rintro ⟨b', hb'⟩
      have := hmin [] b' (by simpa using hb'.symm)
      simp at this
    show upToPostfix (c :: (t ++ ProtectedNamePostfix ++ b)) = some (c :: t)
    rw [upToPostfix, if_neg hnp, ih]
    · rfl
    · intro a' b' h'
      have := hmin (c :: a') b' (by simp only [List.cons_append, h'])
      simpa using this

theorem clean_ReadToStringEnd_protected (s s' : MemoryMappedInputStream) (loc : StreamLocation)
    (e : Nat) (h : ReadToStringEnd s true loc = .ok (e, s')) (hv : s._ptr ≤ s.data.length)
    (hC : LineCountable s.data) (hpre : ProtectedNamePrefix <:+ s.data.take s._ptr) :
    Clean s s' := by
  simp only [ReadToStringEnd, if_true, ReadPointer] at h
  cases hs : scanProtected s.Remaining s._ptr with
  | none => rw [hs] at h; cases h
  | some q =>
    rw [hs] at h
    rw [Except.bind_eq_ok] at h
    obtain ⟨s1, hset, hres⟩ := h
    cases hres
    obtain ⟨a, b, hl, hq, hmin⟩ := scanProtected_some _ _ _ hs
    have hfirst := upToPostfix_first a b (by rw [← hl]; exact hmin)
    have hclean := hC.1 s._ptr hv hpre
    rw [show s.data.drop s._ptr = s.Remaining from rfl, hl, hfirst] at hclean
    simp only [Option.all_some, List.all_eq_true] at hclean
    rw [SetPointer_eq_ok] at hset
    obtain ⟨_, rfl⟩ := hset
    refine ⟨rfl, a ++ ProtectedNamePostfix, b, hl, ?_, ?_⟩
    · show e + ProtectedNamePostfix.length = s._ptr + (a ++ ProtectedNamePostfix).length
      rw [hq, List.length_append]
      omega
    · intro c hc
      rcases List.mem_append.1 hc with hc | hc
      · exact (notBreak_iff c).1 (hclean c hc)
      · simp only [ProtectedNamePostfix, List.mem_cons, List.mem_singleton] at hc
        rcases hc with rfl | rfl | rfl | hc
        · simp
        · simp
        · simp
        · simp at hc

namespace InputStreamFormatter

theorem Loc_clean (data : List CharType) (r r' : InputStreamFormatter) (h : Loc data r)
    (hc : Clean r._stream r'._stream) (h1 : r'._lineIndex = r._lineIndex)
    (h2 : r'._lineStart = r._lineStart) : Loc data r' := by
  obtain ⟨hd, hat⟩ := h
  obtain ⟨d1, mid, rest, e1, p1, c1⟩ := hc
  refine ⟨d1.trans hd, ?_⟩
  rw [h1, h2, p1]
  refine At_move data _ _ _ mid rest hat ?_ c1
  rw [← hd]
  exact e1

theorem GetLocation_of_Loc (data : List CharType) (r : InputStreamFormatter)
    (hC : LineCountable data) (h : Loc data r) :
    r.GetLocation =
      { _charIndex := 1 + (currentLine (data.take r._stream._ptr)).length,
        _lineIndex := 1 + lineBreaks (data.take r._stream._ptr) } := by
  obtain ⟨hd, h1, h2, h3, h4⟩ := h
  have hlen := hC.2.2.2
  have hb := lineBreaks_le (data.take r._stream._ptr)
  have ht : (data.take r._stream._ptr).length ≤ data.length := by
    rw [List.length_take]
    omega
  have e1 : r._stream.ReadPointer - r._lineStart =
      (currentLine (data.take r._stream._ptr)).length := by
    simp only [ReadPointer]
    omega
  simp only [GetLocation, e1, ← h2, u32]
  have hli : r._lineIndex ≤ data.length := by omega
  have hcl : (currentLine (data.take r._stream._ptr)).length ≤ data.length := by omega
  congr 1
  · rw [Nat.mod_eq_of_lt (by omega), Nat.mod_eq_of_lt (by omega)]
  · rw [Nat.mod_eq_of_lt (by omega)]

end InputStreamFormatter
end Utility


namespace Utility
open FormatterConstants
open MemoryMappedInputStream
namespace InputStreamFormatter

/-! ## The line counter and the line start along the scan -/

theorem LocInv_of_ScanInv (data : List CharType) (r : InputStreamFormatter)
    (h : ScanInv data r) : LocInv data r :=
  ⟨h.1, fun hm => by rw [h.2.2] at hm; cases hm⟩

theorem ScanInv_of_LocInv (data : List CharType) (r : InputStreamFormatter)
    (h : LocInv data r) (hp : r._primed = .None) : ScanInv data r := by
  refine ⟨h.1, hp, ?_⟩
  cases hm : r._protectedStringMode with
  | false => rfl
  | true => exact absurd hp (h.2 hm).1

theorem u32_lineIndex (data : List CharType) (p li ls : Nat) (hC : LineCountable data)
    (h : At data p (li + 1) ls) : u32 (li + 1) = li + 1 := by
  obtain ⟨h1, h2, _, _⟩ := h
  have hb := lineBreaks_le (data.take p)
  have ht : (data.take p).length ≤ data.length := by
    rw [List.length_take]
    omega
  have := hC.2.2.2
  exact Nat.mod_eq_of_lt (by omega)

theorem peekStep_loc (data : List CharType) (r : InputStreamFormatter) (c : CharType)
    (t : List CharType) (hC : LineCountable data) (h : ScanInv data r)
    (hrem : r._stream.Remaining = c :: t) :
    Result.All (ScanInv data) (peekLocPost data) (peekStep r c) := by
  obtain ⟨hL, hp, hm⟩ := h
  have hd : r._stream.data = data := hL.1
  have hdrop : data.drop r._stream._ptr = c :: t := by rw [← hd]; exact hrem
  have one : ∀ s, r._stream.MovePointer 1 = .ok s → c ≠ 13 → c ≠ 10 → Clean r._stream s :=
    fun s hs h1 h2 => clean_MovePointer r._stream s [c] t hrem (by simp [h1, h2]) hs
  have hpre : ∀ x ∈ ProtectedNamePrefix, x ≠ 13 ∧ x ≠ 10 := by decide
  have hcom : ∀ x ∈ CommentPrefix, x ≠ 13 ∧ x ≠ 10 := by decide
  rcases char_cases c with rfl | rfl | hc | rfl | rfl | rfl | rfl | rfl | hc
  · rw [peekStep_tab]
    refine Result.All_onStream_bind _ _ _ _ _ ⟨hL, hp, hm⟩ ?_
    intro s hs
    exact ⟨Loc_clean data r _ hL (one s hs (by decide) (by decide)) rfl rfl, hp, hm⟩
  · rw [peekStep_space]
    refine Result.All_onStream_bind _ _ _ _ _ ⟨hL, hp, hm⟩ ?_
    intro s hs
    exact ⟨Loc_clean data r _ hL (one s hs (by decide) (by decide)) rfl rfl, hp, hm⟩
  · rw [peekStep_extended r c hc]
    exact ⟨hL, hp, hm⟩
  · rw [peekStep_cr, r._stream.MovePointer_one 13 t hrem]
    have hrem1 : ({ r._stream with _ptr := r._stream._ptr + 1 } :
        MemoryMappedInputStream).Remaining = t := r._stream.Remaining_advance_one 13 t hrem
    have hbytes : ({ r._stream with _ptr := r._stream._ptr + 1 } :
        MemoryMappedInputStream).RemainingBytes = t.length := by
      rw [← length_Remaining, hrem1]
    simp only [onStream, bind, Except.bind, hrem1, hbytes]
    by_cases hcond : t.length > 1 ∧ t.head? = some 10
    · rw [if_pos hcond]
      obtain ⟨t', ht'⟩ : ∃ t', t = 10 :: t' := by
        cases t with
        | nil => simp at hcond
        | cons x t' =>
          simp only [List.head?_cons, Option.some.injEq] at hcond
          exact ⟨t', by rw [hcond.2]⟩
      subst ht'
      rw [MovePointer_one _ 10 t' hrem1]
      have hat := At_crlf data _ _ _ t' hL.2 hdrop
      have hu := u32_lineIndex data _ _ _ hC hat
      refine ⟨⟨hd, ?_⟩, hp, hm⟩
      show At data (r._stream._ptr + 1 + 1) (u32 (r._lineIndex + 1)) (r._stream._ptr + 1 + 1)
      rw [hu]
      exact hat
    · rw [if_neg hcond]
      have hhead : t.head? ≠ some 10 := by
        intro hh
        cases t with
        | nil => simp at hh
        | cons x t' =>
          simp only [List.head?_cons, Option.some.injEq] at hh
          subst hh
          cases t' with
          | nil =>
            apply hC.2.2.1
            rw [EndLine, ← hdrop]
            exact List.drop_suffix _ _
          | cons y u =>
            apply hcond
            simp
      have hat := At_cr data _ _ _ t hL.2 hdrop hhead
      have hu := u32_lineIndex data _ _ _ hC hat
      refine ⟨⟨hd, ?_⟩, hp, hm⟩
      show At data (r._stream._ptr + 1) (u32 (r._lineIndex + 1)) (r._stream._ptr + 1)
      rw [hu]
      exact hat
  · rw [peekStep_lf, r._stream.MovePointer_one 10 t hrem]
    have hat := At_lf data _ _ _ t hL.2 hdrop
    have hu := u32_lineIndex data _ _ _ hC hat
    refine ⟨⟨hd, ?_⟩, hp, hm⟩
    show At data (r._stream._ptr + 1) (u32 (r._lineIndex + 1)) (r._stream._ptr + 1)
    rw [hu]
    exact hat
  · rw [peekStep_semicolon]
    refine Result.All_onStream_bind _ _ _ _ _ ⟨hL, hp, hm⟩ ?_
    intro s hs
    exact ⟨Loc_clean data r _ hL (one s hs (by decide) (by decide)) rfl rfl, hp, hm⟩
  · rw [peekStep_assign]
    refine Result.All_onStream_bind _ _ _ _ _ ⟨hL, hp, hm⟩ ?_
    intro s1 hs1
    have a := one s1 hs1 (by decide) (by decide)
    refine Result.All_onStream_bind _ _ _ _ _ ⟨Loc_clean data r _ hL a rfl rfl, hp, hm⟩ ?_
    intro s2 hs2
    have b := a.clean_trans (clean_EatWhitespace _ _ hs2)
    refine Result.All_onStream_bind _ _ _ _ _ ⟨Loc_clean data r _ hL b rfl rfl, hp, hm⟩ ?_
    rintro ⟨p, s3⟩ hs3
    obtain ⟨d1, d2, _⟩ := clean_TryEat _ _ _ _ hpre hs3
    have d := b.clean_trans d1
    refine ⟨Loc_clean data r _ hL d rfl rfl, ?_⟩
    intro hpt
    refine ⟨by simp, ?_⟩
    have := (d2 hpt).2
    rw [d.1, hd] at this
    exact this
  · rw [peekStep_marker]
    refine Result.All_onStream_bind _ _ _ _ _ ⟨hL, hp, hm⟩ ?_
    rintro ⟨isComment, s1⟩ hs1
    obtain ⟨a, a2, a3⟩ := clean_TryEat _ _ _ _ hcom hs1
    have hS1 : ScanInv data { r with _stream := s1 } := ⟨Loc_clean data r _ hL a rfl rfl, hp, hm⟩
    cases isComment with
    | true =>
      simp only [if_true]
      refine Result.All_onStream_bind _ _ _ _ _ hS1 ?_
      intro s2 hs2
      obtain ⟨hpfx, _⟩ := a2 rfl
      obtain ⟨_, _, e1, _⟩ := TryEat_eq_ok _ _ _ _ hs1
      obtain ⟨e2, _⟩ := e1 rfl
      have hs1rem : s1.Remaining = data.drop (r._stream._ptr + 2) := by
        simp only [Remaining]
        rw [a.1, hd, e2]
        rfl
      have hv := hL.2.1
      have hclean := hC.2.1 r._stream._ptr hv (by rw [← hd]; exact hpfx)
      rw [← hs1rem] at hclean
      have b : Clean s1 s2 := by
        have hmv := hs2
        rw [MovePointer_eq_ok] at hmv
        have hlen : (s1.Remaining.take 2).length = 2 := by
          rw [List.length_take, length_Remaining]
          simp only [RemainingBytes, End]
          omega
        refine clean_MovePointer s1 s2 (s1.Remaining.take 2) (s1.Remaining.drop 2)
          (List.take_append_drop 2 _).symm ?_ (by rw [hlen]; exact hs2)
        intro x hx
        exact (notBreak_iff x).1 (List.all_eq_true.1 hclean x hx)
      have ab := a.clean_trans b
      refine Result.All_onStream_bind _ _ _ _ _ ⟨Loc_clean data r _ hL ab rfl rfl, hp, hm⟩ ?_
      intro s3 hs3
      have abc := ab.clean_trans (clean_skipToLineEnd _ _ hs3)
      exact ⟨Loc_clean data r _ hL abc rfl rfl, hp, hm⟩
    | false =>
      have hs : s1 = r._stream := a3 rfl
      subst hs
      simp only [Bool.false_eq_true, if_false]
      split
      · exact ⟨hL, fun hpt => Bool.noConfusion hpt⟩
      · refine Result.All_onStream_bind _ _ _ _ _ ⟨hL, hp, hm⟩ ?_
        intro s2 hs2
        have b := one s2 hs2 (by decide) (by decide)
        refine Result.All_onStream_bind _ _ _ _ _ ⟨Loc_clean data r _ hL b rfl rfl, hp, hm⟩ ?_
        rintro ⟨p, s3⟩ hs3
        obtain ⟨d1, d2, _⟩ := clean_TryEat _ _ _ _ hpre hs3
        have d := b.clean_trans d1
        refine ⟨Loc_clean data r _ hL d rfl rfl, ?_⟩
        intro hpt
        refine ⟨by simp, ?_⟩
        have := (d2 hpt).2
        rw [d.1, hd] at this
        exact this
  · rw [peekStep_plain r c hc]
    split
    · exact ⟨hL, fun hpt => Bool.noConfusion hpt⟩
    · refine Result.All_onStream_bind _ _ _ _ _ ⟨hL, hp, hm⟩ ?_
      rintro ⟨p, s3⟩ hs3
      obtain ⟨d, d2, _⟩ := clean_TryEat _ _ _ _ hpre hs3
      refine ⟨Loc_clean data r _ hL d rfl rfl, ?_⟩
      intro hpt
      refine ⟨by simp, ?_⟩
      have := (d2 hpt).2
      rw [d.1, hd] at this
      exact this

theorem peekLoop_loc (data : List CharType) (hC : LineCountable data) (fuel : Nat) :
    ∀ r : InputStreamFormatter, ScanInv data r →
      Result.All (ScanInv data) (fun p => LocInv data p.2) (peekLoop fuel r) := by
  induction fuel with
  | zero => intro r h; exact h
  | succ n ih =>
    intro r h
    rw [peekLoop]
    split
    · split
      · exact ⟨h.1, fun hpt => by rw [show _ = r._protectedStringMode from rfl, h.2.2] at hpt; cases hpt⟩
      · exact LocInv_of_ScanInv data r h
    · rename_i c t hrem
      refine Result.All_bind _ _ _ _ _ (peekStep_loc data r c t hC h hrem) ?_
      intro st _ hst
      cases st with
      | next r1 => exact ih r1 hst
      | done res => exact hst

end InputStreamFormatter
end Utility


namespace Utility
open FormatterConstants
open MemoryMappedInputStream
namespace InputStreamFormatter

/-! ## The line counter and the line start along the reader calls -/

theorem readHeaderStep_loc (data : List CharType) (aName : Option InteriorSection)
    (r : InputStreamFormatter) (c : CharType) (t : List CharType)
    (h : ScanInv data r) (hrem : r._stream.Remaining = c :: t) :
    Result.All (ScanInv data) (fun st => ScanInv data (headerStepState st))
      (readHeaderStep aName r c) := by
  obtain ⟨hL, hp, hm⟩ := h
  have one : ∀ s, r._stream.MovePointer 1 = .ok s → c ≠ 13 → c ≠ 10 → Clean r._stream s :=
    fun s hs h1 h2 => clean_MovePointer r._stream s [c] t hrem (by simp [h1, h2]) hs
  rw [readHeaderStep]
  split
  · rename_i hc
    refine Result.All_onStream_bind _ _ _ _ _ ⟨hL, hp, hm⟩ ?_
    intro s hs
    have a := one s hs (by rcases hc with rfl | rfl | rfl <;> decide)
      (by rcases hc with rfl | rfl | rfl <;> decide)
    exact ⟨Loc_clean data r _ hL a rfl rfl, hp, hm⟩
  split
  · exact ⟨hL, hp, hm⟩
  split
  · exact ⟨hL, hp, hm⟩
  split
  · exact ⟨hL, hp, hm⟩
  split
  · rename_i _ _ _ _ hc
    refine Result.All_onStream_bind _ _ _ _ _ ⟨hL, hp, hm⟩ ?_
    intro s1 hs1
    have a := one s1 hs1 (by rw [hc]; decide) (by rw [hc]; decide)
    refine Result.All_onStream_bind _ _ _ _ _ ⟨Loc_clean data r _ hL a rfl rfl, hp, hm⟩ ?_
    intro s2 hs2
    have b := a.clean_trans (clean_EatWhitespace _ _ hs2)
    refine Result.All_onStream_bind _ _ _ _ _ ⟨Loc_clean data r _ hL b rfl rfl, hp, hm⟩ ?_
    rintro ⟨e, s3⟩ hs3
    have d := b.clean_trans (clean_ReadToStringEnd_bare _ _ _ _ hs3)
    have hP3 : ∀ tw, ScanInv data { r with _stream := s3, _tabWidth := tw } := fun tw =>
      ⟨Loc_clean data r _ hL d rfl rfl, hp, hm⟩
    dsimp only []
    split
    · split
      · exact hP3 _
      · exact hP3 _
    · split
      · split
        · exact hP3 _
        · exact hP3 _
      · exact hP3 _
  · refine Result.All_onStream_bind _ _ _ _ _ ⟨hL, hp, hm⟩ ?_
    rintro ⟨e, s3⟩ hs3
    have d := clean_ReadToStringEnd_bare _ _ _ _ hs3
    exact ⟨Loc_clean data r _ hL d rfl rfl, hp, hm⟩

theorem readHeaderLoop_loc (data : List CharType) (fuel : Nat) :
    ∀ (aName : Option InteriorSection) (r : InputStreamFormatter), ScanInv data r →
      Result.All (ScanInv data) (ScanInv data) (readHeaderLoop fuel aName r) := by
  induction fuel with
  | zero => intro aName r h; exact h
  | succ n ih =>
    intro aName r h
    rw [readHeaderLoop]
    split
    · exact h
    · rename_i c t hrem
      refine Result.All_bind _ _ _ _ _ (readHeaderStep_loc data aName r c t h hrem) ?_
      intro st _ hst
      cases st with
      | next p =>
        obtain ⟨aName1, r1⟩ := p
        exact ih aName1 r1 hst
      | done r1 => exact hst

theorem PeekNext_loc (data : List CharType) (hC : LineCountable data)
    (r : InputStreamFormatter) (h : LocInv data r) :
    Result.All (LocInv data) (fun p => LocInv data p.2) r.PeekNext := by
  by_cases hp : r._primed = .None
  · have hS := ScanInv_of_LocInv data r h hp
    have key : ∀ r1 : InputStreamFormatter, ScanInv data r1 →
        Result.All (LocInv data) (fun p => LocInv data p.2)
          (peekLoop (r1._stream.RemainingBytes + 1) r1) := by
      intro r1 h1
      exact Result.All_mono _ _ _ _ _ (peekLoop_loc data hC _ r1 h1)
        (fun r' h' => LocInv_of_ScanInv data r' h') (fun _ h' => h')
    cases hh : r._pendingHeader with
    | false =>
      rw [PeekNext_unprimed r hp hh]
      exact key r hS
    | true =>
      rw [PeekNext_header r hp hh]
      refine Result.All_onStream_bind _ _ _ _ _ h ?_
      rintro ⟨isHeader, s⟩ hs
      obtain ⟨a, _, _⟩ := clean_TryEat _ _ _ _ (by decide) hs
      have h0 : ScanInv data { r with _stream := s } :=
        ⟨Loc_clean data r _ hS.1 a rfl rfl, hS.2.1, hS.2.2⟩
      refine Result.All_bind _ (ScanInv data) _ _ _ ?_ ?_
      · split
        · exact Result.All_mono _ _ _ _ _ (readHeaderLoop_loc data _ _ _ h0)
            (fun r' h' => LocInv_of_ScanInv data r' h') (fun _ h' => h')
        · exact h0
      · intro r1 _ h1
        exact key { r1 with _pendingHeader := false } h1
  · rw [PeekNext_primed r hp]
    exact h

theorem clean_ReadToStringEnd (data : List CharType) (hC : LineCountable data)
    (r : InputStreamFormatter) (h : LocInv data r) (loc : StreamLocation) (e : Nat)
    (s : MemoryMappedInputStream)
    (hr : ReadToStringEnd r._stream r._protectedStringMode loc = .ok (e, s)) :
    Clean r._stream s := by
  cases hm : r._protectedStringMode with
  | false =>
    rw [hm] at hr
    exact clean_ReadToStringEnd_bare _ _ _ _ hr
  | true =>
    rw [hm] at hr
    have hd := h.1.1
    refine clean_ReadToStringEnd_protected _ _ _ _ hr ?_ ?_ ?_
    · rw [hd]; exact h.1.2.1
    · rw [hd]; exact hC
    · rw [hd]; exact (h.2 hm).2

theorem TryReadBeginElement_loc (data : List CharType) (hC : LineCountable data)
    (r : InputStreamFormatter) (h : LocInv data r) :
    Result.All (Loc data) (fun p => LocInv data p.2) r.TryReadBeginElement := by
  rw [TryReadBeginElement]
  refine Result.All_bind_mono _ _ _ _ _ _ (PeekNext_loc data hC r h) (fun _ h' => h'.1) ?_
  rintro ⟨b, r1⟩ _ h1
  dsimp only [] at h1 ⊢
  split
  · exact h1
  · refine Result.All_onStream_bind _ _ _ _ _ h1.1 ?_
    rintro ⟨nameEnd, s⟩ hs
    have a := clean_ReadToStringEnd data hC r1 h1 _ _ _ hs
    dsimp only []
    split
    · exact Loc_clean data r1 _ h1.1 a rfl rfl
    · exact ⟨Loc_clean data r1 _ h1.1 a rfl rfl, fun hpt => Bool.noConfusion hpt⟩

theorem TryReadEndElement_loc (data : List CharType) (hC : LineCountable data)
    (r : InputStreamFormatter) (h : LocInv data r) :
    Result.All (Loc data) (fun p => LocInv data p.2) r.TryReadEndElement := by
  rw [TryReadEndElement]
  refine Result.All_bind_mono _ _ _ _ _ _ (PeekNext_loc data hC r h) (fun _ h' => h'.1) ?_
  rintro ⟨b, r1⟩ _ h1
  dsimp only [] at h1 ⊢
  split
  · exact h1
  · refine ⟨?_, fun hpt => Bool.noConfusion hpt⟩
    dsimp only []
    split
    · exact h1.1
    · exact h1.1

theorem TryReadAttribute_loc (data : List CharType) (hC : LineCountable data)
    (r : InputStreamFormatter) (h : LocInv data r) :
    Result.All (Loc data) (fun p => LocInv data p.2) r.TryReadAttribute := by
  rw [TryReadAttribute]
  refine Result.All_bind_mono _ _ _ _ _ _ (PeekNext_loc data hC r h) (fun _ h' => h'.1) ?_
  rintro ⟨b, r1⟩ _ h1
  dsimp only [] at h1 ⊢
  split
  · exact h1
  · refine Result.All_onStream_bind _ _ _ _ _ h1.1 ?_
    rintro ⟨nameEnd, s1⟩ hs1
    have a := clean_ReadToStringEnd data hC r1 h1 _ _ _ hs1
    refine Result.All_onStream_bind _ _ _ _ _ (Loc_clean data r1 _ h1.1 a rfl rfl) ?_
    intro s2 hs2
    have b := a.clean_trans (clean_EatWhitespace _ _ hs2)
    have h3 : LocInv data
        { r1 with _stream := s2, _primed := .None, _protectedStringMode := false } :=
      ⟨Loc_clean data r1 _ h1.1 b rfl rfl, fun hpt => Bool.noConfusion hpt⟩
    refine Result.All_bind_mono _ _ _ _ _ _ (PeekNext_loc data hC _ h3) (fun _ h' => h'.1) ?_
    rintro ⟨b2, r4⟩ _ h4
    dsimp only [] at h4 ⊢
    split
    · refine Result.All_onStream_bind _ _ _ _ _ h4.1 ?_
      rintro ⟨valueEnd, s3⟩ hs3
      have d := clean_ReadToStringEnd data hC r4 h4 _ _ _ hs3
      exact ⟨Loc_clean data r4 _ h4.1 d rfl rfl, fun hpt => Bool.noConfusion hpt⟩
    · exact h4

theorem call_loc (data : List CharType) (hC : LineCountable data) (r : InputStreamFormatter)
    (op : ReaderOp) (h : LocInv data r) :
    Loc data (r.call op).1 ∧ (r.returns op = true → LocInv data (r.call op).1) := by
  cases op with
  | PeekNext =>
    have := PeekNext_loc data hC r h
    simp only [call, returns]
    cases hx : r.PeekNext with
    | error e => rw [hx] at this; exact ⟨this.1, fun hc => Bool.noConfusion hc⟩
    | ok p => rw [hx] at this; exact ⟨this.1, fun _ => this⟩
  | TryReadBeginElement =>
    have := TryReadBeginElement_loc data hC r h
    simp only [call, returns]
    cases hx : r.TryReadBeginElement with
    | error e => rw [hx] at this; exact ⟨this, fun hc => Bool.noConfusion hc⟩
    | ok p => rw [hx] at this; exact ⟨this.1, fun _ => this⟩
  | TryReadAttribute =>
    have := TryReadAttribute_loc data hC r h
    simp only [call, returns]
    cases hx : r.TryReadAttribute with
    | error e => rw [hx] at this; exact ⟨this, fun hc => Bool.noConfusion hc⟩
    | ok p => rw [hx] at this; exact ⟨this.1, fun _ => this⟩
  | TryReadEndElement =>
    have := TryReadEndElement_loc data hC r h
    simp only [call, returns]
    cases hx : r.TryReadEndElement with
    | error e => rw [hx] at this; exact ⟨this, fun hc => Bool.noConfusion hc⟩
    | ok p => rw [hx] at this; exact ⟨this.1, fun _ => this⟩

theorem runToRaise_loc (data : List CharType) (hC : LineCountable data)
    (ops : List ReaderOp) :
    ∀ r : InputStreamFormatter, LocInv data r → Loc data (r.runToRaise ops) := by
  induction ops with
  | nil => intro r h; exact h.1
  | cons op ops ih =>
    intro r h
    obtain ⟨h1, h2⟩ := call_loc data hC r op h
    rw [runToRaise]
    split
    · rename_i hret
      exact ih _ (h2 hret)
    · exact h1

theorem LocInv_fresh (capacity : Nat) (data : List CharType) :
    LocInv data (fresh capacity data) :=
  ⟨⟨rfl, At_start data⟩, fun hpt => Bool.noConfusion hpt⟩

/-- C29, amended.  The input is line-countable: no line break stands between a
protected prefix and the first protected postfix behind it, the two code units behind
a comment marker are not line breaks, the input does not end with CR LF and is
shorter than `2^32 - 1` code units.  Then in every reader state reached from a fresh
reader by a sequence of calls of which at most the last one raises, `GetLocation`
returns as the line one more than the number of line breaks in front of the cursor,
and as the character one more than the number of code units between the start of the
line of the cursor and the cursor.  A fresh reader reports line 1, character 1 on
every input. -/
theorem location_counts_line_breaks (capacity : Nat) (data : List CharType)
    (ops : List ReaderOp) (hC : LineCountable data) :
    ((fresh capacity data).runToRaise ops).GetLocation =
      { _charIndex :=
          1 + (currentLine
                (data.take ((fresh capacity data).runToRaise ops)._stream._ptr)).length,
        _lineIndex :=
          1 + lineBreaks (data.take ((fresh capacity data).runToRaise ops)._stream._ptr) } ∧
    (fresh capacity data).GetLocation = { _charIndex := 1, _lineIndex := 1 } :=
  ⟨GetLocation_of_Loc data _ hC (runToRaise_loc data hC ops _ (LocInv_fresh capacity data)),
   rfl⟩

/-- C29 on a document of four lines with a protected value, a comment and CR LF
pairs: behind the element `B`, at the end of the input, the reader is at line 4,
character 1. -/
theorem location_counts_line_breaks_witness :
    (((fresh 4 linesDocument).runToRaise
        [.TryReadBeginElement, .TryReadAttribute, .TryReadBeginElement, .PeekNext]).GetLocation =
      { _charIndex :=
          1 + (currentLine
                (linesDocument.take ((fresh 4 linesDocument).runToRaise
                  [.TryReadBeginElement, .TryReadAttribute, .TryReadBeginElement,
                   .PeekNext])._stream._ptr)).length,
        _lineIndex :=
          1 + lineBreaks (linesDocument.take ((fresh 4 linesDocument).runToRaise
                  [.TryReadBeginElement, .TryReadAttribute, .TryReadBeginElement,
                   .PeekNext])._stream._ptr) } ∧
      (fresh 4 linesDocument).GetLocation = { _charIndex := 1, _lineIndex := 1 }) ∧
    ((fresh 4 linesDocument).runToRaise
        [.TryReadBeginElement, .TryReadAttribute, .TryReadBeginElement, .PeekNext]).GetLocation =
      { _charIndex := 1, _lineIndex := 4 } :=
  ⟨location_counts_line_breaks 4 linesDocument
      [.TryReadBeginElement, .TryReadAttribute, .TryReadBeginElement, .PeekNext] (by decide),
   by decide⟩

/-- C29 as stated fails.  On the input `~<:(a`, line feed, `b):> x` the call
`TryReadBeginElement` returns with the cursor at offset 10, behind the protected
name: one line break lies in front of the cursor and the line of the cursor holds
the four code units `b):>`, and `GetLocation` reports line 1, character 11.  On the
input `~A`, line feed, ` ~<:(B):>`, line feed, ` x):>`, which is line-countable, a
reader with one stack entry raises in the second `TryReadBeginElement`; a third call
moves the cursor to the end of the input, with two line breaks in front of it, and
`GetLocation` reports line 2, character 16. -/
theorem location_counts_line_breaks_counterexample :
    ((fresh 4 breakInName).returns .TryReadBeginElement = true ∧
      ((fresh 4 breakInName).run [.TryReadBeginElement]).1._stream._ptr = 10 ∧
      ((fresh 4 breakInName).run [.TryReadBeginElement]).1.GetLocation =
        { _charIndex := 11, _lineIndex := 1 } ∧
      lineBreaks (breakInName.take 10) = 1 ∧
      currentLine (breakInName.take 10) = text "b):>") ∧
    (LineCountable strayPostfix ∧
      ((fresh 1 strayPostfix).run [.TryReadBeginElement]).1.returns .TryReadBeginElement
        = false ∧
      ((fresh 1 strayPostfix).run
        [.TryReadBeginElement, .TryReadBeginElement, .TryReadBeginElement]).1._stream._ptr
        = 18 ∧
      ((fresh 1 strayPostfix).run
        [.TryReadBeginElement, .TryReadBeginElement, .TryReadBeginElement]).1.GetLocation =
        { _charIndex := 16, _lineIndex := 2 } ∧
      lineBreaks (strayPostfix.take 18) = 2 ∧
      currentLine (strayPostfix.take 18) = text " x):>") := by
  refine ⟨⟨?_, ?_, ?_, ?_, ?_⟩, ⟨?_, ?_, ?_, ?_, ?_, ?_⟩⟩ <;> decide

end InputStreamFormatter
end Utility



namespace Utility
open FormatterConstants
open MemoryMappedInputStream

/-! ## Reading back what was written, and the end of an element -/

/-- C31.  A string `s` without the protected postfix inside, followed in the input by
the postfix and any further text: `ReadToStringEnd` in protected mode returns the
section that holds exactly `s` and leaves the cursor just behind the postfix that
follows `s`, which is the first one in the input.  A string `s` with
`IsSimpleString s`, followed by a formatting character or the end of the input:
`ReadToStringEnd` in unprotected mode returns the section that holds exactly `s` and
leaves the cursor behind `s`. -/
theorem protected_read_back (st : MemoryMappedInputStream) (s rest : List CharType)
    (loc : StreamLocation) :
    (¬ ProtectedNamePostfix <:+: s → st.Remaining = s ++ ProtectedNamePostfix ++ rest →
      ReadToStringEnd st true loc =
        .ok (st._ptr + s.length,
             { st with _ptr := st._ptr + s.length + ProtectedNamePostfix.length }) ∧
      InteriorSection.content { _start := st._ptr, _end := st._ptr + s.length } st.data = s ∧
      ∀ a b, st.Remaining = a ++ ProtectedNamePostfix ++ b → s.length ≤ a.length) ∧
    (IsSimpleString s = true → st.Remaining = s ++ rest → StopsScan rest →
      ReadToStringEnd st false loc =
        .ok (st._ptr + s.length, { st with _ptr := st._ptr + s.length }) ∧
      InteriorSection.content { _start := st._ptr, _end := st._ptr + s.length } st.data = s) := by
  constructor
  · intro hs h
    have hr := ReadToStringEnd_protected st s rest loc h hs
    simp only [List.length_append, ← Nat.add_assoc] at hr
    refine ⟨hr, st.content_of_Remaining s (ProtectedNamePostfix ++ rest)
      (by rw [h, List.append_assoc]), ?_⟩
    have hv : st._ptr ≤ st.data.length := by
      have := st.ptr_le_of_Remaining_ne_nil (by rw [h]; simp [ProtectedNamePostfix])
      omega
    obtain ⟨a0, b0, _, hmin, hr0, _⟩ :=
      (ReadToStringEnd_protected_spec st loc hv).2.2 ⟨s, rest, h.symm⟩
    rw [hr] at hr0
    have e : st._ptr + s.length = st._ptr + a0.length := by
      injection hr0 with h1
      exact (Prod.mk.inj h1).1
    intro a b hab
    have := hmin a b hab
    omega
  · intro hs h hrest
    exact ⟨ReadToStringEnd_bare st s rest loc h hs hrest, st.content_of_Remaining s rest h⟩

/-- C31 at the string `a):` in front of the postfix and more text with a second
postfix, and at the simple string `has space` in front of a separator. -/
theorem protected_read_back_witness :
    (ReadToStringEnd (MemoryMappedInputStream.mk0 (text "a):):>b):>")) true ⟨1, 1⟩ =
        .ok ((MemoryMappedInputStream.mk0 (text "a):):>b):>"))._ptr + (text "a):").length,
             { MemoryMappedInputStream.mk0 (text "a):):>b):>") with
               _ptr := (MemoryMappedInputStream.mk0 (text "a):):>b):>"))._ptr +
                 (text "a):").length + ProtectedNamePostfix.length }) ∧
      InteriorSection.content
        { _start := (MemoryMappedInputStream.mk0 (text "a):):>b):>"))._ptr,
          _end := (MemoryMappedInputStream.mk0 (text "a):):>b):>"))._ptr +
            (text "a):").length } (MemoryMappedInputStream.mk0 (text "a):):>b):>")).data
        = text "a):" ∧
      ∀ a b, (MemoryMappedInputStream.mk0 (text "a):):>b):>")).Remaining =
        a ++ ProtectedNamePostfix ++ b → (text "a):").length ≤ a.length) ∧
    (ReadToStringEnd (MemoryMappedInputStream.mk0 (text "has space; x")) false ⟨1, 1⟩ =
        .ok ((MemoryMappedInputStream.mk0 (text "has space; x"))._ptr +
              (text "has space").length,
             { MemoryMappedInputStream.mk0 (text "has space; x") with
               _ptr := (MemoryMappedInputStream.mk0 (text "has space; x"))._ptr +
                 (text "has space").length }) ∧
      InteriorSection.content
        { _start := (MemoryMappedInputStream.mk0 (text "has space; x"))._ptr,
          _end := (MemoryMappedInputStream.mk0 (text "has space; x"))._ptr +
            (text "has space").length } (MemoryMappedInputStream.mk0 (text "has space; x")).data
        = text "has space") :=
  ⟨(protected_read_back (MemoryMappedInputStream.mk0 (text "a):):>b):>")) (text "a):")
      (text "b):>") ⟨1, 1⟩).1 (by decide) (by decide),
   (protected_read_back (MemoryMappedInputStream.mk0 (text "has space; x"))
      (text "has space") (text "; x") ⟨1, 1⟩).2 (by decide) (by decide)
      (Or.inr ⟨59, text " x", by decide, by decide⟩)⟩

namespace InputStreamFormatter

/-- C32.  In the state reached from a fresh reader by any sequence of reader calls,
exceptions included, on any input: when `PeekNext` returns `EndElement` the
indentation stack is not empty, before and after the call; when `TryReadEndElement`
returns true the stack was not empty; and the calls of `TryReadEndElement` that
returned true are not more than the calls of `TryReadBeginElement` that returned
true. -/
theorem endElement_only_inside (capacity : Nat) (data : List CharType)
    (ops : List ReaderOp) :
    (∀ r', ((fresh capacity data).run ops).1.PeekNext = .ok (.EndElement, r') →
      0 < r'._baseLineStackPtr ∧ 0 < ((fresh capacity data).run ops).1._baseLineStackPtr) ∧
    (∀ r2, ((fresh capacity data).run ops).1.TryReadEndElement = .ok (true, r2) →
      0 < ((fresh capacity data).run ops).1._baseLineStackPtr) ∧
    ((fresh capacity data).run ops).2.2 ≤ ((fresh capacity data).run ops).2.1 := by
  obtain ⟨hinv, hcount⟩ := run_inv _ ops (Inv_fresh capacity data)
  have h0 : (fresh capacity data)._baseLineStackPtr = 0 := rfl
  refine ⟨?_, ?_, by omega⟩
  · intro r' h
    have hall := PeekNext_inv _ hinv
    rw [h] at hall
    obtain ⟨i1, f, hprim⟩ := hall
    have hp : r'._primed = .EndElement := by
      rcases hprim with ⟨_, c⟩ | ⟨c, _⟩
      · exact c
      · cases c
    have := i1.2.2.2.2.1 hp
    have e := f.2.1
    exact ⟨this, by omega⟩
  · intro r2 h
    have hall := PeekNext_inv _ hinv
    rw [TryReadEndElement] at h
    cases hpk : ((fresh capacity data).run ops).1.PeekNext with
    | error e => rw [hpk] at h; cases h
    | ok p =>
      obtain ⟨b, r1⟩ := p
      rw [hpk] at hall h
      obtain ⟨i1, f, hprim⟩ := hall
      simp only [bind, Except.bind] at h
      split at h
      · cases h
      · rename_i hb
        have hb2 : b = .EndElement := by simpa using hb
        subst hb2
        have hp : r1._primed = .EndElement := by
          rcases hprim with ⟨_, c⟩ | ⟨c, _⟩
          · exact c
          · cases c
        have := i1.2.2.2.2.1 hp
        have e := f.2.1
        dsimp only [] at this e
        omega

end InputStreamFormatter
end Utility


namespace Utility
open FormatterConstants
open MemoryMappedInputStream

/-! ## The bound assertion of the cursor -/

theorem MovePointer_safe (s : MemoryMappedInputStream) (n : Nat)
    (h : s._ptr + n ≤ s.data.length) : ∀ e, s.MovePointer n = .error e → NoAssert e := by
  intro e he
  simp [MovePointer, End, h] at he

theorem SetPointer_safe (s : MemoryMappedInputStream) (n : Nat)
    (h : n ≤ s.data.length) : ∀ e, s.SetPointer n = .error e → NoAssert e := by
  intro e he
  simp [SetPointer, End, h] at he

theorem safe_of_ok {α : Type} (x : Except Error α) (h : ∃ a, x = .ok a) :
    ∀ e, x = .error e → NoAssert e := by
  obtain ⟨a, rfl⟩ := h
  intro e he
  cases he

theorem ReadToStringEnd_safe (s : MemoryMappedInputStream) (p : Bool) (loc : StreamLocation)
    (hv : s._ptr ≤ s.data.length) : ∀ e, ReadToStringEnd s p loc = .error e → NoAssert e := by
  intro e he
  cases p with
  | false =>
    rw [(ReadToStringEnd_unprotected_spec s loc hv).1] at he
    cases he
  | true =>
    rw [(ReadToStringEnd_protected_spec s loc hv).2.1 e he]
    simp [NoAssert]

theorem skipToLineEnd_safe (s : MemoryMappedInputStream) (hv : s._ptr ≤ s.data.length) :
    ∀ e, s.SetPointer (skipToLineEnd s.Remaining s.ReadPointer) = .error e → NoAssert e := by
  apply SetPointer_safe
  have hb := (skipToLineEnd_bounds s.Remaining s.ReadPointer).2
  rw [length_Remaining] at hb
  simp only [RemainingBytes, End, ReadPointer] at hb ⊢
  omega

namespace InputStreamFormatter

theorem Bounded_stream (data : List CharType) (r : InputStreamFormatter)
    (s : MemoryMappedInputStream) (h : Bounded data r) (hs : Step r._stream s) :
    s.data = data ∧ s._ptr ≤ s.data.length :=
  ⟨hs.1.trans h.1, hs.2.2 (by rw [h.1]; exact h.2)⟩

theorem Bounded_of_Frame (data : List CharType) (r r' : InputStreamFormatter)
    (h : Bounded data r) (f : Frame r r') : Bounded data r' := by
  obtain ⟨_, _, _, f4, _, f6, _⟩ := f
  refine ⟨f4.trans h.1, ?_⟩
  have := f6 (by rw [h.1]; exact h.2)
  rw [f4, h.1] at this
  exact this

theorem peekStep_safe (data : List CharType) (r : InputStreamFormatter) (c : CharType)
    (t : List CharType) (hF : CommentsFit data) (hB : Bounded data r)
    (hrem : r._stream.Remaining = c :: t) : Result.Raises NoAssert (peekStep r c) := by
  have hmv : ∀ e, r._stream.MovePointer 1 = .error e → NoAssert e :=
    safe_of_ok _ ⟨_, r._stream.MovePointer_one c t hrem⟩
  have hte : ∀ (s : MemoryMappedInputStream) (e : Error),
      TryEat s ProtectedNamePrefix = .error e → NoAssert e := by
    intro s
    obtain ⟨p, s', h⟩ := TryEat_total s ProtectedNamePrefix (by decide)
    exact safe_of_ok _ ⟨_, h⟩
  rcases char_cases c with rfl | rfl | hc | rfl | rfl | rfl | rfl | rfl | hc
  · rw [peekStep_tab]
    exact Result.Raises_onStream_bind _ _ _ _ hmv (fun _ _ => trivial)
  · rw [peekStep_space]
    exact Result.Raises_onStream_bind _ _ _ _ hmv (fun _ _ => trivial)
  · rw [peekStep_extended r c hc]
    show NoAssert _
    simp [NoAssert]
  · rw [peekStep_cr]
    refine Result.Raises_onStream_bind _ _ _ _ hmv ?_
    intro s1 hs1
    dsimp only []
    split
    · rename_i hcond
      refine Result.Raises_onStream_bind _ _ _ _ (MovePointer_safe _ _ ?_) (fun _ _ => trivial)
      have := hcond.1
      simp only [RemainingBytes, End] at this
      omega
    · trivial
  · rw [peekStep_lf]
    exact Result.Raises_onStream_bind _ _ _ _ hmv (fun _ _ => trivial)
  · rw [peekStep_semicolon]
    exact Result.Raises_onStream_bind _ _ _ _ hmv (fun _ _ => trivial)
  · rw [peekStep_assign]
    refine Result.Raises_onStream_bind _ _ _ _ hmv ?_
    intro s1 hs1
    have a := Bounded_stream data r s1 hB (Step_of_MovePointer _ _ _ hs1).1
    refine Result.Raises_onStream_bind _ _ _ _
      (safe_of_ok _ (EatWhitespace_total s1 a.2)) ?_
    intro s2 _
    refine Result.Raises_onStream_bind _ _ _ _ (hte _) ?_
    rintro ⟨p, s3⟩ _
    trivial
  · rw [peekStep_marker]
    refine Result.Raises_onStream_bind _ _ _ _
      (safe_of_ok _ (by
        obtain ⟨p, s', h⟩ := TryEat_total r._stream CommentPrefix (by decide)
        exact ⟨_, h⟩)) ?_
    rintro ⟨isComment, s1⟩ hs1
    obtain ⟨e1, _, e3, e4⟩ := TryEat_eq_ok _ _ _ _ hs1
    cases isComment with
    | true =>
      simp only [if_true]
      obtain ⟨e5, e6⟩ := e3 rfl
      obtain ⟨_, hpfx, _⟩ := clean_TryEat _ _ _ _ (by decide) hs1
      have hfit := hF r._stream._ptr hB.2 (by rw [← hB.1]; exact (hpfx rfl).1)
      have hlen : s1.data.length = data.length := by rw [e1, hB.1]
      simp only [CommentPrefix, List.length_cons, List.length_nil] at e5
      refine Result.Raises_onStream_bind _ _ _ _ (MovePointer_safe _ _ (by omega)) ?_
      intro s2 hs2
      have b := (Step_of_MovePointer _ _ _ hs2)
      have hv2 : s2._ptr ≤ s2.data.length := by
        rw [b.1.1, b.2]
        omega
      exact Result.Raises_onStream_bind _ _ _ _ (skipToLineEnd_safe s2 hv2)
        (fun _ _ => trivial)
    | false =>
      have hs : s1 = r._stream := e4 rfl
      subst hs
      simp only [Bool.false_eq_true, if_false]
      split
      · trivial
      · refine Result.Raises_onStream_bind _ _ _ _ hmv ?_
        intro s2 _
        refine Result.Raises_onStream_bind _ _ _ _ (hte _) ?_
        rintro ⟨p, s3⟩ _
        trivial
  · rw [peekStep_plain r c hc]
    split
    · trivial
    · refine Result.Raises_onStream_bind _ _ _ _ (hte _) ?_
      rintro ⟨p, s3⟩ _
      trivial

theorem peekLoop_safe (data : List CharType) (hF : CommentsFit data) (fuel : Nat) :
    ∀ r : InputStreamFormatter, Bounded data r →
      Result.Raises NoAssert (peekLoop fuel r) := by
  induction fuel with
  | zero =>
    intro r _
    show NoAssert _
    simp [NoAssert]
  | succ n ih =>
    intro r hB
    rw [peekLoop]
    split
    · split
      · trivial
      · trivial
    · rename_i c t hrem
      refine Result.Raises_bind _ _ _ (peekStep_safe data r c t hF hB hrem) ?_
      intro st hst
      have hall := Result.All_of_ok _ _ _ _ (peekStep_all r c) hst
      cases st with
      | next r1 => exact ih r1 (Bounded_of_Frame data r r1 hB hall.1)
      | done res => trivial

theorem readHeaderStep_safe (data : List CharType) (aName : Option InteriorSection)
    (r : InputStreamFormatter) (c : CharType) (t : List CharType) (hB : Bounded data r)
    (hrem : r._stream.Remaining = c :: t) :
    Result.Raises NoAssert (readHeaderStep aName r c) := by
  have hmv : ∀ e, r._stream.MovePointer 1 = .error e → NoAssert e :=
    safe_of_ok _ ⟨_, r._stream.MovePointer_one c t hrem⟩
  have hv : r._stream._ptr ≤ r._stream.data.length := by rw [hB.1]; exact hB.2
  rw [readHeaderStep]
  split
  · exact Result.Raises_onStream_bind _ _ _ _ hmv (fun _ _ => trivial)
  split
  · show NoAssert _
    simp [NoAssert]
  split
  · show NoAssert _
    simp [NoAssert]
  split
  · trivial
  split
  · refine Result.Raises_onStream_bind _ _ _ _ hmv ?_
    intro s1 hs1
    have a := Bounded_stream data r s1 hB (Step_of_MovePointer _ _ _ hs1).1
    refine Result.Raises_onStream_bind _ _ _ _
      (safe_of_ok _ (EatWhitespace_total s1 a.2)) ?_
    intro s2 hs2
    have b := (Step_of_EatWhitespace _ _ hs2).2.2 a.2
    refine Result.Raises_onStream_bind _ _ _ _ (ReadToStringEnd_safe _ _ _ b) ?_
    rintro ⟨e, s3⟩ _
    dsimp only []
    split
    · split
      · show NoAssert _
        simp [NoAssert]
      · trivial
    · split
      · split
        · show NoAssert _
          simp [NoAssert]
        · trivial
      · trivial
  · refine Result.Raises_onStream_bind _ _ _ _ (ReadToStringEnd_safe _ _ _ hv) ?_
    rintro ⟨e, s3⟩ _
    trivial

theorem readHeaderLoop_safe (data : List CharType) (fuel : Nat) :
    ∀ (aName : Option InteriorSection) (r : InputStreamFormatter), Bounded data r →
      Result.Raises NoAssert (readHeaderLoop fuel aName r) := by
  induction fuel with
  | zero =>
    intro _ r _
    show NoAssert _
    simp [NoAssert]
  | succ n ih =>
    intro aName r hB
    rw [readHeaderLoop]
    split
    · trivial
    · rename_i c t hrem
      refine Result.Raises_bind _ _ _ (readHeaderStep_safe data aName r c t hB hrem) ?_
      intro st hst
      have hall := Result.All_of_ok _ _ _ _ (readHeaderStep_all aName r c) hst
      cases st with
      | next p =>
        obtain ⟨aName1, r1⟩ := p
        exact ih aName1 r1 (Bounded_of_Frame data r r1 hB hall.1)
      | done r1 => trivial

theorem PeekNext_safe (data : List CharType) (hF : CommentsFit data)
    (r : InputStreamFormatter) (hB : Bounded data r) : Result.Raises NoAssert r.PeekNext := by
  by_cases hp : r._primed = .None
  · cases hh : r._pendingHeader with
    | false =>
      rw [PeekNext_unprimed r hp hh]
      exact peekLoop_safe data hF _ r hB
    | true =>
      rw [PeekNext_header r hp hh]
      refine Result.Raises_onStream_bind _ _ _ _
        (safe_of_ok _ (by
          obtain ⟨p, s', h⟩ := TryEat_total r._stream HeaderPrefix (by decide)
          exact ⟨_, h⟩)) ?_
      rintro ⟨isHeader, s⟩ hs
      have a := Step_of_TryEat _ _ _ _ hs
      have h0 : Bounded data { r with _stream := s } := by
        have := Bounded_stream data r s hB a
        exact ⟨this.1, by rw [← this.1]; exact this.2⟩
      refine Result.Raises_bind _ _ _ ?_ ?_
      · split
        · exact readHeaderLoop_safe data _ _ _ h0
        · trivial
      · intro r1 hr1
        apply peekLoop_safe data hF
        split at hr1
        · have hall := Result.All_of_ok _ _ _ _ (ReadHeader_all _) hr1
          exact Bounded_of_Frame data _ _ h0 hall.1
        · cases hr1
          exact h0
  · rw [PeekNext_primed r hp]
    trivial

theorem Bounded_of_PeekNext (data : List CharType) (r r1 : InputStreamFormatter) (b : Blob)
    (hB : Bounded data r) (h : r.PeekNext = .ok (b, r1)) : Bounded data r1 :=
  Bounded_of_Frame data r r1 hB (Result.All_of_ok _ _ _ _ (PeekNext_all r) h).1

theorem TryReadBeginElement_safe (data : List CharType) (hF : CommentsFit data)
    (r : InputStreamFormatter) (hB : Bounded data r) :
    Result.Raises NoAssert r.TryReadBeginElement := by
  rw [TryReadBeginElement]
  refine Result.Raises_bind _ _ _ (PeekNext_safe data hF r hB) ?_
  rintro ⟨b, r1⟩ hpk
  have h1 := Bounded_of_PeekNext data r r1 b hB hpk
  dsimp only []
  split
  · trivial
  · refine Result.Raises_onStream_bind _ _ _ _
      (ReadToStringEnd_safe _ _ _ (by rw [h1.1]; exact h1.2)) ?_
    rintro ⟨nameEnd, s⟩ _
    dsimp only []
    split
    · show NoAssert _
      simp [NoAssert]
    · trivial

theorem TryReadEndElement_safe (data : List CharType) (hF : CommentsFit data)
    (r : InputStreamFormatter) (hB : Bounded data r) :
    Result.Raises NoAssert r.TryReadEndElement := by
  rw [TryReadEndElement]
  refine Result.Raises_bind _ _ _ (PeekNext_safe data hF r hB) ?_
  rintro ⟨b, r1⟩ _
  dsimp only []
  split
  · trivial
  · trivial

theorem TryReadAttribute_safe (data : List CharType) (hF : CommentsFit data)
    (r : InputStreamFormatter) (hB : Bounded data r) :
    Result.Raises NoAssert r.TryReadAttribute := by
  rw [TryReadAttribute]
  refine Result.Raises_bind _ _ _ (PeekNext_safe data hF r hB) ?_
  rintro ⟨b, r1⟩ hpk
  have h1 := Bounded_of_PeekNext data r r1 b hB hpk
  dsimp only []
  split
  · trivial
  · refine Result.Raises_onStream_bind _ _ _ _
      (ReadToStringEnd_safe _ _ _ (by rw [h1.1]; exact h1.2)) ?_
    rintro ⟨nameEnd, s1⟩ hs1
    have a := Bounded_stream data r1 s1 h1 (Step_of_ReadToStringEnd _ _ _ _ _ hs1).1
    refine Result.Raises_onStream_bind _ _ _ _ (safe_of_ok _ (EatWhitespace_total s1 a.2)) ?_
    intro s2 hs2
    have b2 := (Step_of_EatWhitespace _ _ hs2)
    have h3 : Bounded data
        { r1 with _stream := s2, _primed := .None, _protectedStringMode := false } := by
      refine ⟨(b2.1.trans a.1), ?_⟩
      have := b2.2.2 a.2
      rw [b2.1, a.1] at this
      exact this
    refine Result.Raises_bind _ _ _ (PeekNext_safe data hF _ h3) ?_
    rintro ⟨b3, r4⟩ hpk4
    have h4 := Bounded_of_PeekNext data _ r4 b3 h3 hpk4
    dsimp only []
    split
    · refine Result.Raises_onStream_bind _ _ _ _
        (ReadToStringEnd_safe _ _ _ (by rw [h4.1]; exact h4.2)) ?_
      rintro ⟨valueEnd, s3⟩ _
      trivial
    · trivial

end InputStreamFormatter
end Utility


namespace Utility
open FormatterConstants
open MemoryMappedInputStream
namespace InputStreamFormatter

/-! ## The cursor stays inside the input along the reader calls -/

theorem Bounded_with (data : List CharType) (r r' : InputStreamFormatter)
    (hB : Bounded data r) (hs : Step r._stream r'._stream) : Bounded data r' := by
  have := Bounded_stream data r r'._stream hB hs
  exact ⟨this.1, by rw [← this.1]; exact this.2⟩

theorem PeekNext_bounded (data : List CharType) (r : InputStreamFormatter)
    (hB : Bounded data r) :
    Result.All (Bounded data) (fun p => Bounded data p.2) r.PeekNext :=
  Result.All_mono _ _ _ _ _ (PeekNext_all r)
    (fun r' h' => Bounded_of_Frame data r r' hB h'.1)
    (fun p h' => Bounded_of_Frame data r p.2 hB h'.1)

theorem TryReadBeginElement_bounded (data : List CharType) (r : InputStreamFormatter)
    (hB : Bounded data r) :
    Result.All (Bounded data) (fun p => Bounded data p.2) r.TryReadBeginElement := by
  rw [TryReadBeginElement]
  refine Result.All_bind _ _ _ _ _ (PeekNext_bounded data r hB) ?_
  rintro ⟨b, r1⟩ _ h1
  dsimp only [] at h1 ⊢
  split
  · exact h1
  · refine Result.All_onStream_bind _ _ _ _ _ h1 ?_
    rintro ⟨nameEnd, s⟩ hs
    have a := (Step_of_ReadToStringEnd _ _ _ _ _ hs).1
    dsimp only []
    split
    · exact Bounded_with data r1 _ h1 a
    · exact Bounded_with data r1 _ h1 a

theorem TryReadEndElement_bounded (data : List CharType) (r : InputStreamFormatter)
    (hB : Bounded data r) :
    Result.All (Bounded data) (fun p => Bounded data p.2) r.TryReadEndElement := by
  rw [TryReadEndElement]
  refine Result.All_bind _ _ _ _ _ (PeekNext_bounded data r hB) ?_
  rintro ⟨b, r1⟩ _ h1
  dsimp only [] at h1 ⊢
  split
  · exact h1
  · split
    · exact h1
    · exact h1

theorem TryReadAttribute_bounded (data : List CharType) (r : InputStreamFormatter)
    (hB : Bounded data r) :
    Result.All (Bounded data) (fun p => Bounded data p.2) r.TryReadAttribute := by
  rw [TryReadAttribute]
  refine Result.All_bind _ _ _ _ _ (PeekNext_bounded data r hB) ?_
  rintro ⟨b, r1⟩ _ h1
  dsimp only [] at h1 ⊢
  split
  · exact h1
  · refine Result.All_onStream_bind _ _ _ _ _ h1 ?_
    rintro ⟨nameEnd, s1⟩ hs1
    have a := (Step_of_ReadToStringEnd _ _ _ _ _ hs1).1
    refine Result.All_onStream_bind _ _ _ _ _ (Bounded_with data r1 _ h1 a) ?_
    intro s2 hs2
    have b2 := a.step_trans (Step_of_EatWhitespace _ _ hs2)
    have h3 : Bounded data
        { r1 with _stream := s2, _primed := .None, _protectedStringMode := false } :=
      Bounded_with data r1 _ h1 b2
    refine Result.All_bind _ _ _ _ _ (PeekNext_bounded data _ h3) ?_
    rintro ⟨b3, r4⟩ _ h4
    dsimp only [] at h4 ⊢
    split
    · refine Result.All_onStream_bind _ _ _ _ _ h4 ?_
      rintro ⟨valueEnd, s3⟩ hs3
      exact Bounded_with data r4 _ h4 (Step_of_ReadToStringEnd _ _ _ _ _ hs3).1
    · exact h4

theorem call_bounded (data : List CharType) (r : InputStreamFormatter) (op : ReaderOp)
    (hB : Bounded data r) : Bounded data (r.call op).1 := by
  cases op with
  | PeekNext =>
    have := PeekNext_bounded data r hB
    simp only [call]
    cases hx : r.PeekNext with
    | error e => rw [hx] at this; exact this
    | ok p => rw [hx] at this; exact this
  | TryReadBeginElement =>
    have := TryReadBeginElement_bounded data r hB
    simp only [call]
    cases hx : r.TryReadBeginElement with
    | error e => rw [hx] at this; exact this
    | ok p => rw [hx] at this; exact this
  | TryReadAttribute =>
    have := TryReadAttribute_bounded data r hB
    simp only [call]
    cases hx : r.TryReadAttribute with
    | error e => rw [hx] at this; exact this
    | ok p => rw [hx] at this; exact this
  | TryReadEndElement =>
    have := TryReadEndElement_bounded data r hB
    simp only [call]
    cases hx : r.TryReadEndElement with
    | error e => rw [hx] at this; exact this
    | ok p => rw [hx] at this; exact this

theorem run_bounded (data : List CharType) (ops : List ReaderOp) :
    ∀ r : InputStreamFormatter, Bounded data r → Bounded data (r.run ops).1 := by
  induction ops with
  | nil => intro r h; exact h
  | cons op ops ih =>
    intro r h
    exact ih _ (call_bounded data r op h)

theorem Bounded_fresh (capacity : Nat) (data : List CharType) :
    Bounded data (fresh capacity data) :=
  ⟨rfl, Nat.zero_le _⟩

/-- Whatever the calls before, a reader call on an input whose comment markers all
have two code units behind them never fails the bound assertion of the cursor. -/
theorem run_no_assertion (capacity : Nat) (data : List CharType) (ops : List ReaderOp)
    (op : ReaderOp) (hF : CommentsFit data) :
    ((fresh capacity data).run ops).1.raised op ≠ some .assertion := by
  have hB := run_bounded data ops _ (Bounded_fresh capacity data)
  generalize ((fresh capacity data).run ops).1 = r at hB
  cases op with
  | PeekNext =>
    have := PeekNext_safe data hF r hB
    simp only [raised]
    cases hx : r.PeekNext with
    | error e =>
      rw [hx] at this
      intro hc
      exact this (Option.some.inj hc)
    | ok p => simp
  | TryReadBeginElement =>
    have := TryReadBeginElement_safe data hF r hB
    simp only [raised]
    cases hx : r.TryReadBeginElement with
    | error e =>
      rw [hx] at this
      intro hc
      exact this (Option.some.inj hc)
    | ok p => simp
  | TryReadAttribute =>
    have := TryReadAttribute_safe data hF r hB
    simp only [raised]
    cases hx : r.TryReadAttribute with
    | error e =>
      rw [hx] at this
      intro hc
      exact this (Option.some.inj hc)
    | ok p => simp
  | TryReadEndElement =>
    have := TryReadEndElement_safe data hF r hB
    simp only [raised]
    cases hx : r.TryReadEndElement with
    | error e =>
      rw [hx] at this
      intro hc
      exact this (Option.some.inj hc)
    | ok p => simp

/-- C33: the comment branch of `PeekNext` breaks the bound assertion.  On the input
`~~` the call `TryEat` has moved the cursor over the marker to the end of the input,
and the `MovePointer(2)` that follows asks for a position two code units behind the
end: the assertion of `MovePointer` fails, and so it does with one code unit behind
the marker, also in the middle of a sequence of calls.  With two code units behind
the marker the call returns. -/
theorem comment_marker_overruns_end :
    (fresh 4 (text "~~")).raised .PeekNext = some .assertion ∧
    TryEat (MemoryMappedInputStream.mk0 (text "~~")) CommentPrefix =
      .ok (true, { data := text "~~", _ptr := 2 }) ∧
    MemoryMappedInputStream.MovePointer { data := text "~~", _ptr := 2 } 2 =
      .error .assertion ∧
    (fresh 4 (text "~~x")).raised .PeekNext = some .assertion ∧
    ((fresh 4 (text "~A\n~~")).run [.TryReadBeginElement]).1.raised .PeekNext
      = some .assertion ∧
    (fresh 4 (text "~~xy")).raised .PeekNext = none := by
  exact ⟨by decide, rfl, rfl, by decide, by decide, by decide⟩

end InputStreamFormatter
end Utility
